import Mathlib

/-!
# dixe: seed-derived rolling, explosion chains and analytic odds

A shallow embedding of the packages `mathx`, `roll` and `dist` of dixe.

Conventions of the embedding:

* Go `int` is `ℤ` and `float64` is `ℚ`: arithmetic is exact.  The two float
  primitives that are not arithmetic, `math.Nextafter` and the stream draw
  `(*rand.Rand).Float64`, are fields of the environment `Env`.
* Where rounding decides a statement, the functions are given a second time in
  the namespace `F64`, with every float64 operation, the conversion from `int`
  and `math.Nextafter` as IEEE 754 binary64 defines them on finite values
  (round to nearest, ties to even).
* A `*rand.Rand` is a stream state of an arbitrary type `σ`; a call that draws
  from it takes the state and returns the advanced state.
* A Go call that can panic returns `Except Err`; a loop whose exit depends on an
  arbitrary predicate takes fuel and reports `Err.outOfFuel` when it is used up.
* A Go map that is ranged over is the list of its entries in the order the
  `range` statement happens to visit them.
* The samplers of package `dist` are translated over `MathEnv`, which holds the
  three draws of the stream and the functions of package `math`; package `roll`
  reaches them through the fields of `Env`.
* Where it matters that two structs point to the same stream, map or slice
  (Fork, the setters), the structs hold addresses into a memory `Mem`; everywhere
  else a struct holds the value itself.
-/

set_option linter.dupNamespace false

namespace Dixe

/-! ## Failures, bytes, the environment -/

/-- The two ways a modelled call does not return a value. -/
inductive Err where
  | panic
  | outOfFuel
  deriving DecidableEq, Repr

/-- A Go `string` or `[]byte`: a sequence of bytes. -/
abbrev Bytes := List (Fin 256)

/-- Parameters of `dist.Beta` (the `Rng` field is passed separately). -/
structure Beta where
  Alpha : ℚ
  Beta : ℚ

/-- Parameters of `dist.TruncatedNormal` (the `Rng` field is passed separately). -/
structure TruncatedNormal where
  Mu : ℚ
  Sigma : ℚ
  Lower : ℚ
  Upper : ℚ

/-- What package `roll` calls outside itself and `mathx`: the random stream, the key
derivation, `math.Nextafter`, and the samplers and distribution functions of package
`dist` (entered through their interface: a sampler draws from the stream and returns
a value with the advanced stream, or panics). -/
structure Env (σ : Type) where
  /-- The method `(*rand.Rand).Float64`: a uniform draw and the advanced stream. -/
  Float64 : σ → ℚ × σ
  /-- The function `math.Nextafter`. -/
  Nextafter : ℚ → ℚ → ℚ
  /-- The call `blake3.DeriveKey(out, ctx, material)`, returning what it writes to `out`. -/
  DeriveKey : Bytes → Bytes → Bytes
  /-- The stream `rand.New(rand.NewChaCha8(key))`. -/
  NewChaCha8 : Bytes → σ
  /-- The sampler `dist.Beta.Rand`. -/
  BetaRand : Beta → σ → Except Err (ℚ × σ)
  /-- The distribution function `dist.Beta.CDF`. -/
  BetaCDF : Beta → ℚ → ℚ
  /-- The sampler `dist.TruncatedNormal.Rand`. -/
  TruncatedNormalRand : TruncatedNormal → σ → Except Err (ℚ × σ)
  /-- The distribution function `dist.TruncatedNormal.CDF`. -/
  TruncatedNormalCDF : TruncatedNormal → ℚ → ℚ

/-! ## mathx/common.go -/

/-- Clamp returns the value clamped to the range [min, max]. -/
def Clamp (value min max : ℚ) : ℚ :=
  if value ≤ min then min
  else if value ≥ max then max
  else value

/-- Normalize converts x from [lower, upper] to [0, 1]. -/
def Normalize (x lower upper : ℚ) : ℚ :=
  (x - lower) / (upper - lower)

/-- Scale scales a normalized value in [0,1] to [lower, upper]. -/
def Scale (normalized lower upper : ℚ) : ℚ :=
  lower + normalized * (upper - lower)

/-! ## roll/range.go, roll/result.go, roll/dist.go -/

/-- The conversion `int(x)` that Go allows on both types of
`constraint interface { int | float64 }`. -/
class constraint (T : Type) where
  toInt : T → ℤ

instance : constraint ℤ := ⟨fun x => x⟩

/-- For a float64 the conversion truncates toward zero. -/
instance : constraint ℚ := ⟨fun x => if 0 ≤ x then ⌊x⌋ else ⌈x⌉⟩

/-- Range represents a range of values. -/
structure Range (T : Type) where
  Lower : T
  Upper : T
  deriving Repr

abbrev FloatRange := Range ℚ

abbrev IntRange := Range ℤ

/-- D6 returns a range of 1-6. -/
def D6 : IntRange := { Lower := 1, Upper := 6 }

/-- Dice returns a range of 1-x. -/
def Dice (x : ℤ) : IntRange := { Lower := 1, Upper := x }

/-- Result contains the outcome of a roll and metadata. -/
structure Result (T : Type) where
  First : T
  Last : T
  Sum : T
  LowerExplosions : ℤ
  UpperExplosions : ℤ
  Rolls : List T
  deriving Repr

/-- DistParams[float64] without its `Rng` pointer, which is threaded as a stream state:
`One` passes the caster's stream, `Odds` passes nil. -/
structure FloatParams extends Range ℚ where
  Weight : ℚ

/-- Distribution is a probability distribution with both sampling and CDF capabilities.
`Rand` receives the stream behind `p.Rng`; `CDF` receives none. -/
structure Distribution (σ : Type) where
  Rand : FloatParams → σ → Except Err (ℚ × σ)
  CDF : ℚ → FloatParams → ℚ

/-- Modelled from the spec: the declaration of type `Odds` is not among the sources;
its fields are those `DistCaster.Odds` assigns: a map from integer bucket to a
percentage and the two explosion chances, whose zero value is 0. -/
structure Odds where
  Probabilities : ℤ → Option ℚ
  LowerExplosionChance : ℚ
  UpperExplosionChance : ℚ

/-- Assignment `m[k] = v` on a `map[int]float64`. -/
def mapSet (m : ℤ → Option ℚ) (k : ℤ) (v : ℚ) : ℤ → Option ℚ :=
  fun j => if j = k then some v else m j

/-! ## roll/dist_uniform.go, dist_normal.go, dist_beta.go, dist_weighted_low.go,
dist_weighted_high.go -/

/-- uniform.Rand -/
def uniform.Rand {σ : Type} (env : Env σ) (p : FloatParams) (rng : σ) : Except Err (ℚ × σ) :=
  let d := env.Float64 rng
  .ok (p.Lower + d.1 * (p.Upper - p.Lower), d.2)

/-- uniform.CDF -/
def uniform.CDF (x : ℚ) (p : FloatParams) : ℚ :=
  if x ≤ p.Lower then 0
  else if x ≥ p.Upper then 1
  else Normalize x p.Lower p.Upper

/-- uniformDist is a uniform distribution. -/
def uniformDist {σ : Type} (env : Env σ) : Distribution σ :=
  { Rand := uniform.Rand env, CDF := uniform.CDF }

/-- normal.dist returns a new truncated normal distribution based on weight. -/
def normal.dist (p : FloatParams) : TruncatedNormal :=
  { Mu := 1 / 2, Sigma := (1 / 4) * (1 - p.Weight * (4 / 5)), Lower := 0, Upper := 1 }

/-- normal.Rand -/
def normal.Rand {σ : Type} (env : Env σ) (p : FloatParams) (rng : σ) : Except Err (ℚ × σ) :=
  match env.TruncatedNormalRand (normal.dist p) rng with
  | .error e => .error e
  | .ok (v, rng1) => .ok (Scale v p.Lower p.Upper, rng1)

/-- normal.CDF -/
def normal.CDF {σ : Type} (env : Env σ) (x : ℚ) (p : FloatParams) : ℚ :=
  if x ≤ p.Lower then 0
  else if x ≥ p.Upper then 1
  else env.TruncatedNormalCDF (normal.dist p) (Normalize x p.Lower p.Upper)

/-- normalDist is a truncated normal distribution centered in the range. -/
def normalDist {σ : Type} (env : Env σ) : Distribution σ :=
  { Rand := normal.Rand env, CDF := normal.CDF env }

/-- BetaParams computes alpha and beta from weight. -/
abbrev BetaParams := ℚ → ℚ × ℚ

/-- BetaDist.Beta returns the underlying beta distribution. -/
def BetaDist.Beta (params : BetaParams) (p : FloatParams) : Beta :=
  { Alpha := (params p.Weight).1, Beta := (params p.Weight).2 }

/-- BetaDist.Rand -/
def BetaDist.Rand {σ : Type} (env : Env σ) (params : BetaParams) (p : FloatParams) (rng : σ) :
    Except Err (ℚ × σ) :=
  match env.BetaRand (BetaDist.Beta params p) rng with
  | .error e => .error e
  | .ok (v, rng1) => .ok (Scale v p.Lower p.Upper, rng1)

/-- BetaDist.CDF -/
def BetaDist.CDF {σ : Type} (env : Env σ) (params : BetaParams) (x : ℚ) (p : FloatParams) : ℚ :=
  if x ≤ p.Lower then 0
  else if x ≥ p.Upper then 1
  else env.BetaCDF (BetaDist.Beta params p) (Normalize x p.Lower p.Upper)

/-- NewBetaDist creates a new beta distribution with the given params function. -/
def NewBetaDist {σ : Type} (env : Env σ) (params : BetaParams) : Distribution σ :=
  { Rand := BetaDist.Rand env params, CDF := BetaDist.CDF env params }

/-- weightedLowDist biases toward the lower half: Beta(1, 1+4w). -/
def weightedLowDist {σ : Type} (env : Env σ) : Distribution σ :=
  NewBetaDist env (fun w => (1, 1 + w * 4))

/-- weightedHighDist biases toward the upper half: Beta(1+4w, 1). -/
def weightedHighDist {σ : Type} (env : Env σ) : Distribution σ :=
  NewBetaDist env (fun w => (1 + w * 4, 1))

/-- weightedMin.Rand -/
def weightedMin.Rand {σ : Type} (env : Env σ) (p : FloatParams) (rng : σ) : Except Err (ℚ × σ) :=
  let d := env.Float64 rng
  if d.1 < p.Weight then .ok (p.Lower, d.2)
  else BetaDist.Rand env (fun _ => (1, 2)) p d.2

/-- weightedMin.CDF -/
def weightedMin.CDF {σ : Type} (env : Env σ) (x : ℚ) (p : FloatParams) : ℚ :=
  if x ≤ p.Lower then 0
  else if x ≥ p.Upper then 1
  else p.Weight + (1 - p.Weight) *
    env.BetaCDF (BetaDist.Beta (fun _ => (1, 2)) p) (Normalize x p.Lower p.Upper)

/-- weightedMinDist has strong bias toward minimum with direct probability check. -/
def weightedMinDist {σ : Type} (env : Env σ) : Distribution σ :=
  { Rand := weightedMin.Rand env, CDF := weightedMin.CDF env }

/-- weightedMax.Rand -/
def weightedMax.Rand {σ : Type} (env : Env σ) (p : FloatParams) (rng : σ) : Except Err (ℚ × σ) :=
  let d := env.Float64 rng
  if d.1 < p.Weight then .ok (p.Upper, d.2)
  else BetaDist.Rand env (fun _ => (2, 1)) p d.2

/-- weightedMax.CDF -/
def weightedMax.CDF {σ : Type} (env : Env σ) (x : ℚ) (p : FloatParams) : ℚ :=
  if x ≤ p.Lower then 0
  else if x ≥ p.Upper then 1
  else (1 - p.Weight) *
    env.BetaCDF (BetaDist.Beta (fun _ => (2, 1)) p) (Normalize x p.Lower p.Upper)

/-- weightedMaxDist has strong bias toward maximum with direct probability check. -/
def weightedMaxDist {σ : Type} (env : Env σ) : Distribution σ :=
  { Rand := weightedMax.Rand env, CDF := weightedMax.CDF env }

/-- The built-in distributions whose definitions are among the sources, by name. -/
inductive Builtin where
  | Uniform
  | Normal
  | WeightedLow
  | WeightedHigh
  | WeightedMin
  | WeightedMax
  deriving DecidableEq, Repr

/-- The constructor functions `Uniform()`, `Normal()`, `WeightedLow()`, `WeightedHigh()`,
`WeightedMin()` and `WeightedMax()` of roll/dist.go. -/
def Builtin.dist {σ : Type} (env : Env σ) : Builtin → Distribution σ
  | .Uniform => uniformDist env
  | .Normal => normalDist env
  | .WeightedLow => weightedLowDist env
  | .WeightedHigh => weightedHighDist env
  | .WeightedMin => weightedMinDist env
  | .WeightedMax => weightedMaxDist env

/-! ## roll/internal.go -/

/-- intFloatRange converts an IntRange to FloatRange with upper+1 for discrete rolling. -/
def intFloatRange (r : IntRange) : FloatRange :=
  { Lower := (r.Lower : ℚ), Upper := (r.Upper : ℚ) + 1 }

/-- floatFloatRange converts a FloatRange to FloatRange with nextafter upper. -/
def floatFloatRange {σ : Type} (env : Env σ) (r : FloatRange) : FloatRange :=
  { Lower := r.Lower, Upper := env.Nextafter r.Upper (r.Upper + 1) }

/-- intConvert converts a float to int via floor. -/
def intConvert (value : ℚ) : ℤ := ⌊value⌋

/-- floatConvert returns the float as-is. -/
def floatConvert (value : ℚ) : ℚ := value

/-- rollFloat generates a random float in the range using the distribution; a draw at or
above the upper bound is replaced by the value just below it.  The distribution is an
interface value: calling `Rand` on nil panics. -/
def rollFloat {σ : Type} (env : Env σ) (distribution : Option (Distribution σ))
    (p : FloatParams) (rng : σ) : Except Err (ℚ × σ) :=
  match distribution with
  | none => .error .panic
  | some d =>
    match d.Rand p rng with
    | .error e => .error e
    | .ok (value, rng1) =>
      if value ≥ p.Upper then .ok (env.Nextafter p.Upper p.Lower, rng1)
      else .ok (value, rng1)

/-! ## roll/options.go -/

/-- Weights is a Go map from value to weight, as the entries a `range` visits, in the
order it visits them.  Two lists stand for the same map when one is a permutation of
the other; the keys of a map are distinct. -/
abbrev Weights (T : Type) := List (T × ℚ)

/-- Options configures the behavior of the roll function.  `Dist` is an interface value
and `Custom` a map: both can be nil. -/
structure Options (σ T : Type) where
  Dist : Option (Distribution σ)
  Weight : ℚ
  Custom : Option (Weights T)
  RerollBelow : T
  MaxLowerExplosions : ℤ
  RerollAbove : T
  MaxUpperExplosions : ℤ

/-- Length `len(m)` of a possibly nil map. -/
def mapLen {T : Type} (m : Option (Weights T)) : ℤ :=
  match m with
  | none => 0
  | some w => w.length

/-- DefaultOptions returns sensible defaults. -/
def DefaultOptions {σ T : Type} [Zero T] (env : Env σ) : Options σ T :=
  { Dist := some (uniformDist env)
    Weight := 1 / 2
    Custom := none
    RerollBelow := 0
    MaxLowerExplosions := 0
    RerollAbove := 0
    MaxUpperExplosions := 0 }

/-! ## roll/config.go -/

/-- config holds the base configuration shared by all casters (explosion settings). -/
structure config (T : Type) where
  RerollBelow : T
  MaxLowerExplosions : ℤ
  RerollAbove : T
  MaxUpperExplosions : ℤ

/-- shouldExplodeLower returns true if the roll should trigger a lower explosion. -/
def config.shouldExplodeLower {T : Type} [LinearOrder T] (c : config T)
    (rollValue : T) (rollCount : ℤ) : Bool :=
  decide (rollCount < c.MaxLowerExplosions) && decide (rollValue < c.RerollBelow)

/-- shouldExplodeUpper returns true if the roll should trigger an upper explosion. -/
def config.shouldExplodeUpper {T : Type} [LinearOrder T] (c : config T)
    (rollValue : T) (rollCount : ℤ) : Bool :=
  decide (rollCount < c.MaxUpperExplosions) && decide (rollValue > c.RerollAbove)

/-- distConfig holds configuration for distribution-based rolling. -/
structure distConfig (σ T : Type) extends config T where
  Dist : Option (Distribution σ)
  Weight : ℚ

/-- distConfigFromOptions extracts a distConfig from Options. -/
def distConfigFromOptions {σ T : Type} (opts : Options σ T) : distConfig σ T :=
  { RerollBelow := opts.RerollBelow
    MaxLowerExplosions := opts.MaxLowerExplosions
    RerollAbove := opts.RerollAbove
    MaxUpperExplosions := opts.MaxUpperExplosions
    Dist := opts.Dist
    Weight := opts.Weight }

/-- A ticket holds a value and its probability weight. -/
structure ticket (T : Type) where
  value : T
  weight : ℚ

/-- The order `cmp.Compare(a.value, b.value) <= 0` that ticketsFromWeights sorts by. -/
def ticket.le {T : Type} [LinearOrder T] (a b : ticket T) : Prop := a.value ≤ b.value

instance {T : Type} [LinearOrder T] : DecidableRel (ticket.le (T := T)) :=
  fun a b => inferInstanceAs (Decidable (a.value ≤ b.value))

instance ticket.instIsTotalLe {T : Type} [LinearOrder T] : IsTotal (ticket T) ticket.le :=
  ⟨fun a b => @le_total T _ a.value b.value⟩

instance ticket.instIsTransLe {T : Type} [LinearOrder T] : IsTrans (ticket T) ticket.le :=
  ⟨fun _ _ _ hab hbc => @le_trans T _ _ _ _ hab hbc⟩

/-- ticketsFromWeights converts a weight map to a sorted slice of tickets.  Ranging over
a nil map visits nothing.  `slices.SortFunc` is not stable; on tickets with distinct
values, as the keys of a map are, every sort returns the same slice. -/
def ticketsFromWeights {T : Type} [LinearOrder T] (weights : Option (Weights T)) :
    List (ticket T) :=
  let tickets := (weights.getD []).map (fun e => ({ value := e.1, weight := e.2 } : ticket T))
  tickets.insertionSort ticket.le

/-- weightedConfig holds configuration for custom weight-based rolling. -/
structure weightedConfig (T : Type) extends config T where
  tickets : List (ticket T)

/-- weightedConfigFromOptions extracts a weightedConfig from Options. -/
def weightedConfigFromOptions {σ T : Type} [LinearOrder T] (opts : Options σ T) :
    weightedConfig T :=
  { RerollBelow := opts.RerollBelow
    MaxLowerExplosions := opts.MaxLowerExplosions
    RerollAbove := opts.RerollAbove
    MaxUpperExplosions := opts.MaxUpperExplosions
    tickets := ticketsFromWeights opts.Custom }

/-! ## roll/caster.go, roll/caster_dist.go -/

/-- defaultRange returns the first range if provided, or a default range otherwise. -/
def defaultRange {T : Type} [AddCommMonoidWithOne T] (r : List (Range T)) : Range T :=
  match r with
  | r0 :: _ => r0
  | [] => { Lower := 1, Upper := 100 }

/-- DistCaster holds a derived RNG and config for distribution-based rolling. -/
structure DistCaster (σ T : Type) where
  rng : σ
  cfg : distConfig σ T
  floatRange : Range T → FloatRange
  convert : ℚ → T

/-- The loop of processExplosion: while `shouldExplode(currentRoll, len(rolls))`, draw,
convert, append.  One unit of fuel is one iteration. -/
def explosionLoop {σ T : Type} (env : Env σ) (dist : Option (Distribution σ))
    (convert : ℚ → T) (p : FloatParams) (shouldExplode : T → ℤ → Bool) :
    Nat → T → List T → σ → Except Err (List T × σ)
  | 0, currentRoll, rolls, rng =>
    if shouldExplode currentRoll rolls.length then .error .outOfFuel
    else .ok (rolls, rng)
  | fuel + 1, currentRoll, rolls, rng =>
    if shouldExplode currentRoll rolls.length then
      match rollFloat env dist p rng with
      | .error e => .error e
      | .ok (value, rng1) =>
        explosionLoop env dist convert p shouldExplode fuel (convert value)
          (rolls ++ [convert value]) rng1
    else .ok (rolls, rng)

/-- processExplosion generates additional rolls while the condition is met. -/
def DistCaster.processExplosion {σ T : Type} (env : Env σ) (fuel : Nat) (c : DistCaster σ T)
    (currentRoll : T) (p : FloatParams) (shouldExplode : T → ℤ → Bool) :
    Except Err (List T × σ) :=
  explosionLoop env c.cfg.Dist c.convert p shouldExplode fuel currentRoll [] c.rng

/-- The builtin `copy(dst, src)`: overwrites the first `min(len(dst), len(src))`
elements of dst. -/
def goCopy {T : Type} : List T → List T → List T
  | d :: ds, [] => d :: ds
  | [], _ => []
  | _ :: ds, s :: ss => s :: goCopy ds ss

/-- The statement `copy(dst[i:], src)` on a slice dst with `i <= len(dst)`. -/
def copyFrom {T : Type} (dst : List T) (i : Nat) (src : List T) : List T :=
  dst.take i ++ goCopy (dst.drop i) src

/-- The index expression `xs[i]`, which panics out of range. -/
def index {T : Type} (xs : List T) (i : ℤ) : Except Err T :=
  if i < 0 then .error .panic
  else
    match xs[i.toNat]? with
    | some v => .ok v
    | none => .error .panic

/-- One rolls a single value and returns the result, with the caster whose stream has
advanced. -/
def DistCaster.One {σ T : Type} [LinearOrder T] [AddCommMonoidWithOne T] (env : Env σ)
    (fuel : Nat) (c : DistCaster σ T) (r : List (Range T)) :
    Except Err (Result T × DistCaster σ T) :=
  let distRange := defaultRange r
  let p : FloatParams := { toRange := c.floatRange distRange, Weight := c.cfg.Weight }
  match rollFloat env c.cfg.Dist p c.rng with
  | .error e => .error e
  | .ok (v, rng1) =>
    let firstRoll := c.convert v
    match ({ c with rng := rng1 } : DistCaster σ T).processExplosion env fuel firstRoll p
        c.cfg.shouldExplodeLower with
    | .error e => .error e
    | .ok (lowerRolls, rng2) =>
      match ({ c with rng := rng2 } : DistCaster σ T).processExplosion env fuel firstRoll p
          c.cfg.shouldExplodeUpper with
      | .error e => .error e
      | .ok (upperRolls, rng3) =>
        let total : ℤ := (lowerRolls.length : ℤ) + (upperRolls.length : ℤ) + 1
        let allRolls0 : List T := List.replicate total.toNat 0
        let allRolls1 := allRolls0.set 0 firstRoll
        let allRolls2 := copyFrom allRolls1 1 lowerRolls
        let allRolls := copyFrom allRolls2 (1 + lowerRolls.length) upperRolls
        let sum := allRolls.foldl (fun acc v => acc + v) 0
        match index allRolls 0, index allRolls (total - 1) with
        | .ok first, .ok last =>
          .ok ({ First := first
                 Last := last
                 Sum := sum
                 LowerExplosions := lowerRolls.length
                 UpperExplosions := upperRolls.length
                 Rolls := allRolls }, { c with rng := rng3 })
        | _, _ => .error .panic

/-- The zero value of `Result[T]`, with which `make` fills a new slice. -/
def Result.zero {T : Type} [Zero T] : Result T :=
  { First := 0, Last := 0, Sum := 0, LowerExplosions := 0, UpperExplosions := 0, Rolls := [] }

/-- The loop `for i := 0; i < count; i++ { results[i] = c.One(distRange) }` of
DistCaster.Multiple, with `n` iterations left. -/
def DistCaster.multipleLoop {σ T : Type} [LinearOrder T] [AddCommMonoidWithOne T]
    (env : Env σ) (fuel : Nat) (distRange : Range T) :
    Nat → Nat → List (Result T) → DistCaster σ T → Except Err (List (Result T) × DistCaster σ T)
  | 0, _, results, c => .ok (results, c)
  | n + 1, i, results, c =>
    match c.One env fuel [distRange] with
    | .error e => .error e
    | .ok (res, c1) => DistCaster.multipleLoop env fuel distRange n (i + 1) (results.set i res) c1

/-- Multiple rolls multiple values and returns individual results.  `make` panics on a
negative length. -/
def DistCaster.Multiple {σ T : Type} [LinearOrder T] [AddCommMonoidWithOne T] (env : Env σ)
    (fuel : Nat) (c : DistCaster σ T) (count : ℤ) (r : List (Range T)) :
    Except Err (List (Result T) × DistCaster σ T) :=
  let distRange := defaultRange r
  if count < 0 then .error .panic
  else
    DistCaster.multipleLoop env fuel distRange count.toNat 0
      (List.replicate count.toNat Result.zero) c

/-- A call `c.cfg.Dist.CDF(x, p)` on the interface value `Dist`: it panics on nil. -/
def callCDF {σ : Type} (dist : Option (Distribution σ)) (x : ℚ) (p : FloatParams) :
    Except Err ℚ :=
  match dist with
  | none => .error .panic
  | some d => .ok (d.CDF x p)

/-- The loop `for v := int(lower); v <= int(upper); v++` of DistCaster.Odds with `n`
iterations left: bucket v gets `(CDF(v+1) - CDF(v)) * 100`. -/
def oddsLoop {σ : Type} (dist : Option (Distribution σ)) (p : FloatParams) :
    Nat → ℤ → (ℤ → Option ℚ) → Except Err (ℤ → Option ℚ)
  | 0, _, m => .ok m
  | n + 1, v, m =>
    match callCDF dist (((v + 1 : ℤ) : ℚ)) p, callCDF dist ((v : ℤ) : ℚ) p with
    | .ok hi, .ok lo => oddsLoop dist p n (v + 1) (mapSet m v ((hi - lo) * 100))
    | _, _ => .error .panic

/-- Odds calculates the probability distribution for a roll.  No stream is passed:
the parameters carry `Rng: nil`. -/
def DistCaster.Odds {σ T : Type} [constraint T] [AddCommMonoidWithOne T]
    (c : DistCaster σ T) (r : List (Range T)) : Except Err Odds :=
  let distRange := defaultRange r
  let p : FloatParams := { toRange := c.floatRange distRange, Weight := c.cfg.Weight }
  let lo := constraint.toInt distRange.Lower
  let hi := constraint.toInt distRange.Upper
  match oddsLoop c.cfg.Dist p (hi + 1 - lo).toNat lo (fun _ => none) with
  | .error e => .error e
  | .ok probabilities =>
    let explosionRange :=
      c.floatRange { Lower := c.cfg.RerollBelow, Upper := c.cfg.RerollAbove }
    let lower : Except Err ℚ :=
      if c.cfg.MaxLowerExplosions > 0 then
        match callCDF c.cfg.Dist explosionRange.Lower p with
        | .error e => .error e
        | .ok v => .ok (v * 100)
      else .ok 0
    let upper : Except Err ℚ :=
      if c.cfg.MaxUpperExplosions > 0 then
        match callCDF c.cfg.Dist explosionRange.Upper p with
        | .error e => .error e
        | .ok v => .ok ((1 - v) * 100)
      else .ok 0
    match lower, upper with
    | .ok l, .ok u =>
      .ok { Probabilities := probabilities, LowerExplosionChance := l, UpperExplosionChance := u }
    | _, _ => .error .panic

/-! ## roll/caster_weighted.go -/

/-- WeightedCaster holds a derived RNG and config for custom weight-based rolling. -/
structure WeightedCaster (σ T : Type) where
  rng : σ
  cfg : weightedConfig T

/-- The selection loop of rollWeighted: accumulate the weights in slice order and return
the first value whose cumulative weight exceeds rv; none when the loop falls through. -/
def scanTickets {T : Type} (rv : ℚ) : ℚ → List (ticket T) → Option T
  | _, [] => none
  | cumulative, t :: ts =>
    if rv < cumulative + t.weight then some t.value
    else scanTickets rv (cumulative + t.weight) ts

/-- rollWeighted selects a value based on custom probability weights. -/
def WeightedCaster.rollWeighted {σ T : Type} [Zero T] (env : Env σ) (c : WeightedCaster σ T) :
    T × σ :=
  let totalWeight := c.cfg.tickets.foldl (fun acc t => acc + t.weight) (0 : ℚ)
  let d := env.Float64 c.rng
  let rv := d.1 * totalWeight
  match scanTickets rv 0 c.cfg.tickets with
  | some v => (v, d.2)
  | none =>
    match c.cfg.tickets.getLast? with
    | some t => (t.value, d.2)
    | none => (0, d.2)

/-- One rolls a single value based on custom weights; the range arguments are ignored. -/
def WeightedCaster.One {σ T : Type} [Zero T] (env : Env σ) (c : WeightedCaster σ T)
    (_r : List (Range T)) : Result T × WeightedCaster σ T :=
  let d := c.rollWeighted env
  ({ First := d.1, Last := d.1, Sum := d.1, LowerExplosions := 0, UpperExplosions := 0,
     Rolls := [d.1] }, { c with rng := d.2 })

/-- The loop `for i := 0; i < count; i++ { results[i] = c.One() }` of
WeightedCaster.Multiple, with `n` iterations left. -/
def WeightedCaster.multipleLoop {σ T : Type} [Zero T] (env : Env σ) :
    Nat → Nat → List (Result T) → WeightedCaster σ T → List (Result T) × WeightedCaster σ T
  | 0, _, results, c => (results, c)
  | n + 1, i, results, c =>
    let d := c.One env []
    WeightedCaster.multipleLoop env n (i + 1) (results.set i d.1) d.2

/-- Multiple rolls multiple values and returns individual results.  `make` panics on a
negative length. -/
def WeightedCaster.Multiple {σ T : Type} [Zero T] (env : Env σ) (c : WeightedCaster σ T)
    (count : ℤ) (_r : List (Range T)) : Except Err (List (Result T) × WeightedCaster σ T) :=
  if count < 0 then .error .panic
  else
    .ok (WeightedCaster.multipleLoop env count.toNat 0
      (List.replicate count.toNat Result.zero) c)

/-- Odds calculates the probability distribution from custom weights; the range
arguments are ignored.  The explosion chances keep their zero value. -/
def WeightedCaster.Odds {σ T : Type} [constraint T] (c : WeightedCaster σ T)
    (_r : List (Range T)) : Odds :=
  let totalWeight := c.cfg.tickets.foldl (fun acc t => acc + t.weight) (0 : ℚ)
  if totalWeight = 0 then
    { Probabilities := fun _ => none, LowerExplosionChance := 0, UpperExplosionChance := 0 }
  else
    { Probabilities := c.cfg.tickets.foldl
        (fun m t => mapSet m (constraint.toInt t.value) (t.weight / totalWeight * 100))
        (fun _ => none)
      LowerExplosionChance := 0
      UpperExplosionChance := 0 }

/-! ## roll/source.go -/

/-- Source holds the seed and default options, acts as a template for casters. -/
structure Source (σ T : Type) where
  seed : Bytes
  opts : Options σ T
  floatRange : Range T → FloatRange
  convert : ℚ → T

/-- The context string "random-seed". -/
def randomSeedContext : Bytes := [114, 97, 110, 100, 111, 109, 45, 115, 101, 101, 100]

/-- initSeed returns the seed or generates a random one if not provided; `entropy` is
what `crypto/rand.Read` puts in the buffer. -/
def initSeed {σ : Type} (env : Env σ) (seed : List Bytes) (entropy : Bytes) : Bytes :=
  match seed with
  | s0 :: _ => if s0 ≠ [] then s0 else env.DeriveKey randomSeedContext entropy
  | [] => env.DeriveKey randomSeedContext entropy

/-- NewFloatSource creates a new float source. -/
def NewFloatSource {σ : Type} (env : Env σ) (seed : List Bytes) (entropy : Bytes) :
    Source σ ℚ :=
  { seed := initSeed env seed entropy
    opts := DefaultOptions env
    floatRange := floatFloatRange env
    convert := floatConvert }

/-- NewIntSource creates a new int source. -/
def NewIntSource {σ : Type} (env : Env σ) (seed : List Bytes) (entropy : Bytes) :
    Source σ ℤ :=
  { seed := initSeed env seed entropy
    opts := DefaultOptions env
    floatRange := intFloatRange
    convert := intConvert }

/-- SaltDist creates a DistCaster with a derived RNG from seed+salt. -/
def Source.SaltDist {σ T : Type} (env : Env σ) (s : Source σ T) (salt : Bytes) :
    DistCaster σ T :=
  { rng := env.NewChaCha8 (env.DeriveKey s.seed salt)
    cfg := distConfigFromOptions s.opts
    floatRange := s.floatRange
    convert := s.convert }

/-- SaltWeighted creates a WeightedCaster with a derived RNG from seed+salt. -/
def Source.SaltWeighted {σ T : Type} [LinearOrder T] (env : Env σ) (s : Source σ T)
    (salt : Bytes) : WeightedCaster σ T :=
  { rng := env.NewChaCha8 (env.DeriveKey s.seed salt)
    cfg := weightedConfigFromOptions s.opts }

/-- SaltCustomWeighted creates a WeightedCaster with provided Weights and a derived RNG
from seed+salt. -/
def Source.SaltCustomWeighted {σ T : Type} [LinearOrder T] (env : Env σ) (s : Source σ T)
    (salt : Bytes) (weights : Option (Weights T)) : WeightedCaster σ T :=
  let cfg := weightedConfigFromOptions s.opts
  { rng := env.NewChaCha8 (env.DeriveKey s.seed salt)
    cfg := if mapLen weights > 0 then { cfg with tickets := ticketsFromWeights weights } else cfg }

/-- Dist sets the distribution. -/
def Source.Dist {σ T : Type} (s : Source σ T) (d : Option (Distribution σ)) : Source σ T :=
  { s with opts := { s.opts with Dist := d } }

/-- Weight sets the weight option. -/
def Source.Weight {σ T : Type} (s : Source σ T) (w : ℚ) : Source σ T :=
  { s with opts := { s.opts with Weight := w } }

/-- Custom sets the custom weights (used by SaltWeighted). -/
def Source.Custom {σ T : Type} (s : Source σ T) (w : Option (Weights T)) : Source σ T :=
  { s with opts := { s.opts with Custom := w } }

/-- RerollBelow sets the lower reroll threshold. -/
def Source.RerollBelow {σ T : Type} (s : Source σ T) (v : T) : Source σ T :=
  { s with opts := { s.opts with RerollBelow := v } }

/-- LowerExplosions sets the max lower explosions. -/
def Source.LowerExplosions {σ T : Type} (s : Source σ T) (n : ℤ) : Source σ T :=
  { s with opts := { s.opts with MaxLowerExplosions := n } }

/-- RerollAbove sets the upper reroll threshold. -/
def Source.RerollAbove {σ T : Type} (s : Source σ T) (v : T) : Source σ T :=
  { s with opts := { s.opts with RerollAbove := v } }

/-- UpperExplosions sets the max upper explosions. -/
def Source.UpperExplosions {σ T : Type} (s : Source σ T) (n : ℤ) : Source σ T :=
  { s with opts := { s.opts with MaxUpperExplosions := n } }

/-! ## Call sequences -/

/-- A call made on a caster. -/
inductive Call (T : Type) where
  | One (r : List (Range T))
  | Multiple (count : ℤ) (r : List (Range T))

/-- The results a DistCaster returns to a sequence of calls, call for call; a call that
panics ends the sequence. -/
def DistCaster.run {σ T : Type} [LinearOrder T] [AddCommMonoidWithOne T] (env : Env σ)
    (fuel : Nat) : DistCaster σ T → List (Call T) → List (Except Err (List (Result T)))
  | _, [] => []
  | c, Call.One r :: rest =>
    match c.One env fuel r with
    | .error e => [.error e]
    | .ok (res, c1) => .ok [res] :: DistCaster.run env fuel c1 rest
  | c, Call.Multiple count r :: rest =>
    match c.Multiple env fuel count r with
    | .error e => [.error e]
    | .ok (res, c1) => .ok res :: DistCaster.run env fuel c1 rest

/-- The results a WeightedCaster returns to a sequence of calls, call for call; a call
that panics ends the sequence. -/
def WeightedCaster.run {σ T : Type} [Zero T] (env : Env σ) :
    WeightedCaster σ T → List (Call T) → List (Except Err (List (Result T)))
  | _, [] => []
  | c, Call.One r :: rest =>
    .ok [(c.One env r).1] :: WeightedCaster.run env (c.One env r).2 rest
  | c, Call.Multiple count r :: rest =>
    match c.Multiple env count r with
    | .error e => [.error e]
    | .ok (res, c1) => .ok res :: WeightedCaster.run env c1 rest

/-- The keys of a map are distinct. -/
def mapKeysDistinct {T : Type} (m : Option (Weights T)) : Prop :=
  match m with
  | none => True
  | some w => (w.map Prod.fst).Nodup

/-- Two map values are the same map: both nil, or the same entries, whatever order a
`range` visits them in. -/
def sameMap {T : Type} (a b : Option (Weights T)) : Prop :=
  match a, b with
  | none, none => True
  | some x, some y => x.Perm y
  | _, _ => False

/-- Two option configurations are the same when their fields are equal and their custom
weight maps are the same map. -/
def Options.same {σ T : Type} (a b : Options σ T) : Prop :=
  a.Dist = b.Dist ∧ a.Weight = b.Weight ∧ sameMap a.Custom b.Custom ∧
  a.RerollBelow = b.RerollBelow ∧ a.MaxLowerExplosions = b.MaxLowerExplosions ∧
  a.RerollAbove = b.RerollAbove ∧ a.MaxUpperExplosions = b.MaxUpperExplosions

/-- An execution of the loop of processExplosion that starts at roll `cur` with `k`
rolls already made and appends `new`: the condition holds before every appended roll
and fails after the last one. -/
def explosionChain {T : Type} (shouldExplode : T → ℤ → Bool) : T → ℤ → List T → Prop
  | cur, k, [] => shouldExplode cur k = false
  | cur, k, x :: xs => shouldExplode cur k = true ∧ explosionChain shouldExplode x (k + 1) xs

/-! ## A concrete environment -/

/-- A counter-based stream on `ℕ`: the draws cycle through 0, 1/4, 1/2, 3/4; keys are
concatenated; `Nextafter` steps by 1/1024; the samplers of package `dist` return the
middle of the unit interval, the truncated normal one panicking on the parameters on
which `dist.TruncatedNormal.Rand` panics. -/
def demoEnv : Env ℕ :=
  { Float64 := fun n => (((n % 4 : ℕ) : ℚ) / 4, n + 1)
    Nextafter := fun x y => if x < y then x + 1 / 1024 else if y < x then x - 1 / 1024 else x
    DeriveKey := fun ctx material => ctx ++ material
    NewChaCha8 := fun key => key.length
    BetaRand := fun _ n => .ok (1 / 2, n + 1)
    BetaCDF := fun _ x => x
    TruncatedNormalRand := fun t n =>
      if t.Sigma ≤ 0 ∨ t.Lower ≥ t.Upper then .error .panic else .ok (1 / 2, n + 1)
    TruncatedNormalCDF := fun _ x => x }

/-- An int source with seed "ab", configured by the setters. -/
def demoSourceA : Source ℕ ℤ :=
  (((NewIntSource demoEnv [[97, 98]] [1, 2, 3]).Custom (some [(1, 10), (2, 0), (3, 30)])).RerollBelow
    3).LowerExplosions 2

/-- A second int source with seed "ab", built with other entropy; its custom map is
visited in another order. -/
def demoSourceB : Source ℕ ℤ :=
  (((NewIntSource demoEnv [[97, 98], [99]] [4, 5]).Custom (some [(3, 30), (1, 10), (2, 0)])).RerollBelow
    3).LowerExplosions 2

/-- The int caster derived from `demoSourceA` with salt "xyz": a uniform caster with
RerollBelow 3 and at most 2 lower explosions, whose stream starts at draw 1/4. -/
def demoCaster : DistCaster ℕ ℤ := demoSourceA.SaltDist demoEnv [120, 121, 122]

/-- The specification of Multiple, in the words of the spec: `count` successive
invocations of One on the same caster, with the same range, in call order. -/
def DistCaster.successive {σ T : Type} [LinearOrder T] [AddCommMonoidWithOne T] (env : Env σ)
    (fuel : Nat) (r : List (Range T)) :
    Nat → DistCaster σ T → Except Err (List (Result T) × DistCaster σ T)
  | 0, c => .ok ([], c)
  | n + 1, c =>
    match c.One env fuel r with
    | .error e => .error e
    | .ok (res, c1) =>
      match DistCaster.successive env fuel r n c1 with
      | .error e => .error e
      | .ok (rest, c2) => .ok (res :: rest, c2)

/-- The specification of Multiple for a weighted caster: `count` successive invocations
of One on the same caster, in call order. -/
def WeightedCaster.successive {σ T : Type} [Zero T] (env : Env σ) (r : List (Range T)) :
    Nat → WeightedCaster σ T → List (Result T) × WeightedCaster σ T
  | 0, c => ([], c)
  | n + 1, c =>
    ((c.One env r).1 :: (WeightedCaster.successive env r n (c.One env r).2).1,
      (WeightedCaster.successive env r n (c.One env r).2).2)

/-- An int caster on which a first roll can start both chains: RerollBelow 5 with one
lower explosion, RerollAbove 1 with two upper explosions; its stream starts at draw
1/4. -/
def demoCasterB : DistCaster ℕ ℤ :=
  ((((NewIntSource demoEnv [[97, 98]] []).RerollBelow 5).LowerExplosions 1).RerollAbove
    1).UpperExplosions 2 |>.SaltDist demoEnv [120, 121, 122]

/-- The weighted caster derived from `demoSourceA` with salt "x": tickets
1:10, 2:0, 3:30. -/
def demoWeighted : WeightedCaster ℕ ℤ := demoSourceA.SaltWeighted demoEnv [120]

/-- A sequence of calls: One on a D6, Multiple(2) on the default range, One. -/
def demoCalls : List (Call ℤ) :=
  [Call.One [D6], Call.Multiple 2 [], Call.One []]

/-- A call made on a caster, Odds included. -/
inductive Step (T : Type) where
  | One (r : List (Range T))
  | Multiple (count : ℤ) (r : List (Range T))
  | Odds (r : List (Range T))

/-- The One and Multiple calls of a sequence of calls, in order: the sequence with its
Odds calls taken out. -/
def stepCalls {T : Type} : List (Step T) → List (Call T)
  | [] => []
  | Step.One r :: rest => Call.One r :: stepCalls rest
  | Step.Multiple count r :: rest => Call.Multiple count r :: stepCalls rest
  | Step.Odds _ :: rest => stepCalls rest

/-- The results a DistCaster returns to the One and Multiple calls of a sequence in
which Odds calls are made as well.  Odds has no statement that assigns to the caster or
draws from its stream, so the caster goes on as it is; a call that panics, an Odds call
too, ends the sequence. -/
def DistCaster.runSteps {σ T : Type} [LinearOrder T] [AddCommMonoidWithOne T] [constraint T]
    (env : Env σ) (fuel : Nat) :
    DistCaster σ T → List (Step T) → List (Except Err (List (Result T)))
  | _, [] => []
  | c, Step.One r :: rest =>
    match c.One env fuel r with
    | .error e => [.error e]
    | .ok (res, c1) => .ok [res] :: DistCaster.runSteps env fuel c1 rest
  | c, Step.Multiple count r :: rest =>
    match c.Multiple env fuel count r with
    | .error e => [.error e]
    | .ok (res, c1) => .ok res :: DistCaster.runSteps env fuel c1 rest
  | c, Step.Odds r :: rest =>
    match c.Odds r with
    | .error e => [.error e]
    | .ok _ => DistCaster.runSteps env fuel c rest

/-- The results a WeightedCaster returns to the One and Multiple calls of a sequence in
which Odds calls are made as well; its Odds cannot panic and leaves the caster as it
is. -/
def WeightedCaster.runSteps {σ T : Type} [Zero T] (env : Env σ) :
    WeightedCaster σ T → List (Step T) → List (Except Err (List (Result T)))
  | _, [] => []
  | c, Step.One r :: rest =>
    .ok [(c.One env r).1] :: WeightedCaster.runSteps env (c.One env r).2 rest
  | c, Step.Multiple count r :: rest =>
    match c.Multiple env count r with
    | .error e => [.error e]
    | .ok (res, c1) => .ok res :: WeightedCaster.runSteps env c1 rest
  | c, Step.Odds _ :: rest => WeightedCaster.runSteps env c rest

/-- The cumulative weight of the first `i` tickets of a slice. -/
def cumWeight {T : Type} (tickets : List (ticket T)) (i : Nat) : ℚ :=
  ((tickets.take i).map ticket.weight).sum

/-- The total weight that rollWeighted and Odds accumulate over the tickets. -/
def totalWeight {T : Type} (tickets : List (ticket T)) : ℚ :=
  tickets.foldl (fun acc t => acc + t.weight) (0 : ℚ)

/-- A weighted int caster derived from a source without custom weights: its ticket
table is empty. -/
def demoEmptyWeighted : WeightedCaster ℕ ℤ :=
  (NewIntSource demoEnv [[97]] []).SaltWeighted demoEnv []

/-- A weighted int caster whose table is the map with the single entry 7:0: total
weight zero on a non-empty table. -/
def demoZeroWeighted : WeightedCaster ℕ ℤ :=
  (NewIntSource demoEnv [[97]] []).SaltCustomWeighted demoEnv [] (some [(7, 0)])

/-- A sequence of calls with Odds calls among them. -/
def demoSteps : List (Step ℤ) :=
  [Step.Odds [D6], Step.One [D6], Step.Odds [], Step.Multiple 2 [], Step.Odds [D6], Step.One []]

/-- The working interval [1, 7) with weight 1/2. -/
def demoParams : FloatParams := { Lower := 1, Upper := 7, Weight := 1 / 2 }

/-! ## roll/options.go: MergeWith, MergeOptions -/

/-- MergeWith merges the given options into the current options: each field of
`override` that is not the zero value (nil for `Dist` and `Custom`) is assigned to the
field of `o`, one `if` after the other. -/
def Options.MergeWith {σ T : Type} [Zero T] [DecidableEq T] (o override : Options σ T) :
    Options σ T :=
  let o := if override.Dist.isSome then { o with Dist := override.Dist } else o
  let o := if override.Weight ≠ 0 then { o with Weight := override.Weight } else o
  let o := if override.Custom.isSome then { o with Custom := override.Custom } else o
  let o := if override.RerollBelow ≠ 0 then { o with RerollBelow := override.RerollBelow } else o
  let o := if override.MaxLowerExplosions ≠ 0 then
    { o with MaxLowerExplosions := override.MaxLowerExplosions } else o
  let o := if override.RerollAbove ≠ 0 then { o with RerollAbove := override.RerollAbove } else o
  if override.MaxUpperExplosions ≠ 0 then
    { o with MaxUpperExplosions := override.MaxUpperExplosions } else o

/-- The loop `for index := range opts[1:] { mergedOpts.MergeWith(opts[index]) }` of
MergeOptions, over the indices still to visit: the element merged is `opts[index]`,
read from the whole argument slice. -/
def mergeLoop {σ T : Type} [Zero T] [DecidableEq T] (opts : List (Options σ T)) :
    List ℕ → Options σ T → Except Err (Options σ T)
  | [], mergedOpts => .ok mergedOpts
  | i :: rest, mergedOpts =>
    match index opts i with
    | .error e => .error e
    | .ok o => mergeLoop opts rest (mergedOpts.MergeWith o)

/-- MergeOptions merges multiple Options structs into a single one: the defaults for no
argument, else `opts[0]` with the loop over `range opts[1:]` run on it, whose index
runs from 0 to `len(opts) - 2`. -/
def MergeOptions {σ T : Type} [Zero T] [DecidableEq T] (env : Env σ)
    (opts : List (Options σ T)) : Except Err (Options σ T) :=
  match opts with
  | [] => .ok (DefaultOptions env)
  | o0 :: tail => mergeLoop opts (List.range tail.length) o0

/-- With merges the provided options into the options of the Source. -/
def Source.With {σ T : Type} [Zero T] [DecidableEq T] (s : Source σ T)
    (opts : Options σ T) : Source σ T :=
  { s with opts := s.opts.MergeWith opts }

/-! ## roll/caster_dist.go, roll/caster_weighted.go: the setters -/

/-- Dist sets the distribution: the assignment is made when the distribution the caster
holds is not nil. -/
def DistCaster.Dist {σ T : Type} (c : DistCaster σ T) (d : Option (Distribution σ)) :
    DistCaster σ T :=
  if c.cfg.Dist.isSome then { c with cfg := { c.cfg with Dist := d } } else c

/-- Weight sets the weight option. -/
def DistCaster.Weight {σ T : Type} (c : DistCaster σ T) (w : ℚ) : DistCaster σ T :=
  { c with cfg := { c.cfg with Weight := w } }

/-- RerollBelow sets the lower reroll threshold. -/
def DistCaster.RerollBelow {σ T : Type} (c : DistCaster σ T) (v : T) : DistCaster σ T :=
  { c with cfg := { c.cfg with RerollBelow := v } }

/-- LowerExplosions sets the max lower explosions. -/
def DistCaster.LowerExplosions {σ T : Type} (c : DistCaster σ T) (n : ℤ) : DistCaster σ T :=
  { c with cfg := { c.cfg with MaxLowerExplosions := n } }

/-- RerollAbove sets the upper reroll threshold. -/
def DistCaster.RerollAbove {σ T : Type} (c : DistCaster σ T) (v : T) : DistCaster σ T :=
  { c with cfg := { c.cfg with RerollAbove := v } }

/-- UpperExplosions sets the max upper explosions. -/
def DistCaster.UpperExplosions {σ T : Type} (c : DistCaster σ T) (n : ℤ) : DistCaster σ T :=
  { c with cfg := { c.cfg with MaxUpperExplosions := n } }

/-- With applies options to the caster config; it preserves the existing Dist if
`opts.Dist` is nil. -/
def DistCaster.With {σ T : Type} (c : DistCaster σ T) (opts : Options σ T) :
    DistCaster σ T :=
  let existingDist := c.cfg.Dist
  let c := { c with cfg := distConfigFromOptions opts }
  if opts.Dist.isNone then { c with cfg := { c.cfg with Dist := existingDist } } else c

/-- Custom sets the custom weights; it does nothing if `len(w)` is 0. -/
def WeightedCaster.Custom {σ T : Type} [LinearOrder T] (c : WeightedCaster σ T)
    (w : Option (Weights T)) : WeightedCaster σ T :=
  if mapLen w > 0 then { c with cfg := { c.cfg with tickets := ticketsFromWeights w } } else c

/-- RerollBelow sets the lower reroll threshold. -/
def WeightedCaster.RerollBelow {σ T : Type} (c : WeightedCaster σ T) (v : T) :
    WeightedCaster σ T :=
  { c with cfg := { c.cfg with RerollBelow := v } }

/-- LowerExplosions sets the max lower explosions. -/
def WeightedCaster.LowerExplosions {σ T : Type} (c : WeightedCaster σ T) (n : ℤ) :
    WeightedCaster σ T :=
  { c with cfg := { c.cfg with MaxLowerExplosions := n } }

/-- RerollAbove sets the upper reroll threshold. -/
def WeightedCaster.RerollAbove {σ T : Type} (c : WeightedCaster σ T) (v : T) :
    WeightedCaster σ T :=
  { c with cfg := { c.cfg with RerollAbove := v } }

/-- UpperExplosions sets the max upper explosions. -/
def WeightedCaster.UpperExplosions {σ T : Type} (c : WeightedCaster σ T) (n : ℤ) :
    WeightedCaster σ T :=
  { c with cfg := { c.cfg with MaxUpperExplosions := n } }

/-- With applies options to the caster config; it preserves the existing tickets if
`len(opts.Custom)` is 0. -/
def WeightedCaster.With {σ T : Type} [LinearOrder T] (c : WeightedCaster σ T)
    (opts : Options σ T) : WeightedCaster σ T :=
  let existingTickets := c.cfg.tickets
  let c := { c with cfg := weightedConfigFromOptions opts }
  if mapLen opts.Custom = 0 then { c with cfg := { c.cfg with tickets := existingTickets } }
  else c

/-! ## dist/truncated_normal.go, dist/gamma.go, dist/beta.go -/

/-- The draws of `*rand.Rand` and the functions and constants of package `math` that
package `dist` calls.  `Inf sign` is the value of `math.Inf(sign)`, which exact
arithmetic does not have. -/
structure MathEnv (σ : Type) where
  Float64 : σ → ℚ × σ
  ExpFloat64 : σ → ℚ × σ
  NormFloat64 : σ → ℚ × σ
  Erf : ℚ → ℚ
  Erfinv : ℚ → ℚ
  Exp : ℚ → ℚ
  Log : ℚ → ℚ
  Log1p : ℚ → ℚ
  Pow : ℚ → ℚ → ℚ
  Sqrt : ℚ → ℚ
  Sqrt2 : ℚ
  E : ℚ
  Inf : ℤ → ℚ

/-- normCDF computes the standard normal cumulative distribution function. -/
def normCDF {σ : Type} (m : MathEnv σ) (x : ℚ) : ℚ :=
  (1 / 2) * (1 + m.Erf (x / m.Sqrt2))

/-- normQuantile computes the inverse standard normal CDF (quantile function). -/
def normQuantile {σ : Type} (m : MathEnv σ) (p : ℚ) : ℚ :=
  if p ≤ 0 then m.Inf (-1)
  else if p ≥ 1 then m.Inf 1
  else m.Sqrt2 * m.Erfinv (2 * p - 1)

/-- CDF computes the value of the cumulative distribution function at x. -/
def TruncatedNormal.CDF {σ : Type} (m : MathEnv σ) (t : TruncatedNormal) (x : ℚ) : ℚ :=
  if x ≤ t.Lower then 0
  else if x ≥ t.Upper then 1
  else
    let alphaLower := (t.Lower - t.Mu) / t.Sigma
    let alphaUpper := (t.Upper - t.Mu) / t.Sigma
    let alphaX := (x - t.Mu) / t.Sigma
    let cdfLower := normCDF m alphaLower
    let cdfUpper := normCDF m alphaUpper
    let cdfX := normCDF m alphaX
    (cdfX - cdfLower) / (cdfUpper - cdfLower)

/-- Rand returns a random sample from the truncated normal distribution, by the inverse
CDF method; it panics on `Sigma <= 0` and on `Lower >= Upper`. -/
def TruncatedNormal.Rand {σ : Type} (m : MathEnv σ) (t : TruncatedNormal) (rng : σ) :
    Except Err (ℚ × σ) :=
  if t.Sigma ≤ 0 then .error .panic
  else if t.Lower ≥ t.Upper then .error .panic
  else
    let alphaLower := (t.Lower - t.Mu) / t.Sigma
    let alphaUpper := (t.Upper - t.Mu) / t.Sigma
    let cdfLower := normCDF m alphaLower
    let cdfUpper := normCDF m alphaUpper
    let d := m.Float64 rng
    let uniform := cdfLower + d.1 * (cdfUpper - cdfLower)
    .ok (t.Mu + t.Sigma * normQuantile m uniform, d.2)

/-- Gamma represents a Gamma distribution: shape Alpha, rate Beta. -/
structure Gamma where
  Alpha : ℚ
  Beta : ℚ

/-- The threshold 0.2 below which the small-shape sampler is used. -/
def smallAlphaThresh : ℚ := 1 / 5

/-- computeZ computes the z value for the Liu-Martin-Syring algorithm; it draws from
`exprnd` when `e < -lr`. -/
def computeZ {σ : Type} (m : MathEnv σ) (e lr lambda : ℚ) (rng : σ) : ℚ × σ :=
  if e ≥ -lr then (e + lr, rng)
  else
    let d := m.ExpFloat64 rng
    (-d.1 / lambda, d.2)

/-- computeLEta computes the lEta value for the Liu-Martin-Syring algorithm. -/
def computeLEta (z lambda : ℚ) : ℚ :=
  if z ≥ 0 then -z else -1 + lambda * z

/-- The loop of gammaSmallAlpha; one unit of fuel is one iteration. -/
def gammaSmallAlphaLoop {σ : Type} (m : MathEnv σ) (a b lr lambda : ℚ) :
    ℕ → σ → Except Err (ℚ × σ)
  | 0, _ => .error .outOfFuel
  | fuel + 1, rng =>
    let e := m.ExpFloat64 rng
    let z := computeZ m e.1 lr lambda e.2
    let eza := m.Exp (-z.1 / a)
    let lh := -z.1 - eza
    let lEta := computeLEta z.1 lambda
    let e2 := m.ExpFloat64 z.2
    if lh - lEta > -e2.1 then .ok (eza / b, e2.2)
    else gammaSmallAlphaLoop m a b lr lambda fuel e2.2

/-- gammaSmallAlpha generates a gamma variate for small alpha (< 0.2), after Liu, Martin
and Syring. -/
def gammaSmallAlpha {σ : Type} (m : MathEnv σ) (a b : ℚ) (fuel : ℕ) (rng : σ) :
    Except Err (ℚ × σ) :=
  let lambda := 1 / a - 1
  let lr := -m.Log1p (1 / lambda / m.E)
  gammaSmallAlphaLoop m a b lr lambda fuel rng

/-- computeDM computes the d and m values for the Marsaglia-Tsang algorithm; it draws
from `unifrnd` when `a < 1`. -/
def computeDM {σ : Type} (m : MathEnv σ) (a : ℚ) (rng : σ) : (ℚ × ℚ) × σ :=
  let d := a - 1 / 3
  if a < 1 then
    let u := m.Float64 rng
    ((d + 1, m.Pow u.1 (1 / a)), u.2)
  else ((d, 1), rng)

/-- acceptMarsagliaTsang checks if the sample should be accepted. -/
def acceptMarsagliaTsang {σ : Type} (m : MathEnv σ) (u x d v : ℚ) : Bool :=
  let xPow2 := x * x
  decide (u < 1 - (331 / 10000) * xPow2 * xPow2) ||
    decide (m.Log u < (1 / 2) * xPow2 + d * (1 - v + m.Log v))

/-- The loop of gammaMarsagliaTsang; one unit of fuel is one iteration, the `continue`
on `v <= 0` included. -/
def gammaMarsagliaTsangLoop {σ : Type} (m : MathEnv σ) (b d mm c : ℚ) :
    ℕ → σ → Except Err (ℚ × σ)
  | 0, _ => .error .outOfFuel
  | fuel + 1, rng =>
    let x := m.NormFloat64 rng
    let v := 1 + x.1 * c
    if v ≤ 0 then gammaMarsagliaTsangLoop m b d mm c fuel x.2
    else
      let v3 := v * v * v
      let u := m.Float64 x.2
      if acceptMarsagliaTsang m u.1 x.1 d v3 then .ok (mm * d * v3 / b, u.2)
      else gammaMarsagliaTsangLoop m b d mm c fuel u.2

/-- gammaMarsagliaTsang generates a gamma variate after Marsaglia and Tsang. -/
def gammaMarsagliaTsang {σ : Type} (m : MathEnv σ) (a b : ℚ) (fuel : ℕ) (rng : σ) :
    Except Err (ℚ × σ) :=
  let dm := computeDM m a rng
  let c := 1 / (3 * m.Sqrt dm.1.1)
  gammaMarsagliaTsangLoop m b dm.1.1 dm.1.2 c fuel dm.2

/-- Rand returns a random sample drawn from the Gamma distribution; it panics on
`Beta <= 0` and on `Alpha <= 0`.  The fuel bounds the iterations of the rejection loop
of the sampler chosen. -/
def Gamma.Rand {σ : Type} (m : MathEnv σ) (fuel : ℕ) (g : Gamma) (rng : σ) :
    Except Err (ℚ × σ) :=
  if g.Beta ≤ 0 then .error .panic
  else
    let a := g.Alpha
    let b := g.Beta
    if a ≤ 0 then .error .panic
    else if a = 1 then
      let e := m.ExpFloat64 rng
      .ok (e.1 / b, e.2)
    else if a < smallAlphaThresh then gammaSmallAlpha m a b fuel rng
    else if a ≥ smallAlphaThresh then gammaMarsagliaTsang m a b fuel rng
    else .error .panic

/-- Rand returns a random sample drawn from the Beta distribution, as the ratio of two
Gamma variates drawn one after the other from the same stream. -/
def Beta.Rand {σ : Type} (m : MathEnv σ) (fuel : ℕ) (b : Dixe.Beta) (rng : σ) :
    Except Err (ℚ × σ) :=
  match Gamma.Rand m fuel { Alpha := b.Alpha, Beta := 1 } rng with
  | .error e => .error e
  | .ok (ga, rng1) =>
    match Gamma.Rand m fuel { Alpha := b.Beta, Beta := 1 } rng1 with
    | .error e => .error e
    | .ok (gb, rng2) => .ok (ga / (ga + gb), rng2)

/-- A concrete MathEnv on the counter stream: uniform draws cycle through 0, 1/4, 1/2,
3/4, exponential draws through 1, 2, 3, normal draws through -1, 0, 1; the functions of
package `math` are stood for by rational functions. -/
def demoMathEnv : MathEnv ℕ :=
  { Float64 := fun n => (((n % 4 : ℕ) : ℚ) / 4, n + 1)
    ExpFloat64 := fun n => (((n % 3 : ℕ) : ℚ) + 1, n + 1)
    NormFloat64 := fun n => (((n % 3 : ℕ) : ℚ) - 1, n + 1)
    Erf := fun x => x / (1 + |x|)
    Erfinv := fun y => y / (1 - |y|)
    Exp := fun x => if x ≤ 0 then 1 / (1 - x) else 1 + x
    Log := fun x => x - 1
    Log1p := fun x => x
    Pow := fun x _ => x
    Sqrt := fun x => x
    Sqrt2 := 7 / 5
    E := 11 / 4
    Inf := fun sign => if sign ≥ 0 then 1000000 else -1000000 }

/-! ## References: stream pointers, weight maps, ticket slices

A Source and a caster are structs; `Source.Fork` and `DistCaster.Fork` copy the struct,
and the derivations build a new one.  Three kinds of field hold a reference: the
`*rand.Rand` of a caster, the `Weights` map of the options, the ticket slice of a
weighted config.  Here the struct holds the address and `Mem` what is stored there, so
that two structs can point to the same stream, map or slice. -/

/-- The memory behind the references: the streams, the maps and the backing arrays of
the ticket slices, each addressed by its position.  Allocation appends. -/
structure Mem (σ T : Type) where
  rngs : List σ
  maps : List (Weights T)
  slices : List (List (ticket T))

/-- The map behind a `Weights` value; nil is `none`. -/
def Mem.mapAt {σ T : Type} (mem : Mem σ T) (a : Option ℕ) : Option (Weights T) :=
  match a with
  | none => none
  | some i => mem.maps[i]?

/-- The elements of the ticket slice at an address. -/
def Mem.sliceAt {σ T : Type} (mem : Mem σ T) (a : ℕ) : List (ticket T) :=
  (mem.slices[a]?).getD []

/-- A newly allocated slice with the given elements. -/
def Mem.newSlice {σ T : Type} (mem : Mem σ T) (ts : List (ticket T)) : ℕ × Mem σ T :=
  (mem.slices.length, { mem with slices := mem.slices ++ [ts] })

/-- A newly allocated stream, `rand.New(...)`. -/
def Mem.newRng {σ T : Type} (mem : Mem σ T) (s : σ) : ℕ × Mem σ T :=
  (mem.rngs.length, { mem with rngs := mem.rngs ++ [s] })

/-- Options, with the map `Custom` as the reference it is. -/
structure OptionsRef (σ T : Type) where
  Dist : Option (Distribution σ)
  Weight : ℚ
  Custom : Option ℕ
  RerollBelow : T
  MaxLowerExplosions : ℤ
  RerollAbove : T
  MaxUpperExplosions : ℤ

/-- The Options that an OptionsRef stands for in a memory. -/
def OptionsRef.load {σ T : Type} (o : OptionsRef σ T) (mem : Mem σ T) : Options σ T :=
  { Dist := o.Dist
    Weight := o.Weight
    Custom := mem.mapAt o.Custom
    RerollBelow := o.RerollBelow
    MaxLowerExplosions := o.MaxLowerExplosions
    RerollAbove := o.RerollAbove
    MaxUpperExplosions := o.MaxUpperExplosions }

/-- MergeWith on options that hold the reference: `o.Custom = override.Custom` copies
the reference. -/
def OptionsRef.MergeWith {σ T : Type} [Zero T] [DecidableEq T] (o override : OptionsRef σ T) :
    OptionsRef σ T :=
  let o := if override.Dist.isSome then { o with Dist := override.Dist } else o
  let o := if override.Weight ≠ 0 then { o with Weight := override.Weight } else o
  let o := if override.Custom.isSome then { o with Custom := override.Custom } else o
  let o := if override.RerollBelow ≠ 0 then { o with RerollBelow := override.RerollBelow } else o
  let o := if override.MaxLowerExplosions ≠ 0 then
    { o with MaxLowerExplosions := override.MaxLowerExplosions } else o
  let o := if override.RerollAbove ≠ 0 then { o with RerollAbove := override.RerollAbove } else o
  if override.MaxUpperExplosions ≠ 0 then
    { o with MaxUpperExplosions := override.MaxUpperExplosions } else o

/-- Source, with its options holding the reference. -/
structure SourceRef (σ T : Type) where
  seed : Bytes
  opts : OptionsRef σ T
  floatRange : Range T → FloatRange
  convert : ℚ → T

/-- DistCaster, with the pointer `rng`; its config has no reference-typed field. -/
structure DistCasterRef (σ T : Type) where
  rng : ℕ
  cfg : distConfig σ T
  floatRange : Range T → FloatRange
  convert : ℚ → T

/-- The weightedConfig, with the slice `tickets` as the reference it is. -/
structure weightedConfigRef (T : Type) extends config T where
  tickets : ℕ

/-- WeightedCaster, with the pointer `rng` and the config that holds the slice. -/
structure WeightedCasterRef (T : Type) where
  rng : ℕ
  cfg : weightedConfigRef T

/-- The weightedConfig that a weightedConfigRef stands for in a memory. -/
def weightedConfigRef.load {σ T : Type} (c : weightedConfigRef T) (mem : Mem σ T) :
    weightedConfig T :=
  { toconfig := c.toconfig, tickets := mem.sliceAt c.tickets }

/-- distConfigFromOptions reads no reference. -/
def distConfigFromOptionsRef {σ T : Type} (opts : OptionsRef σ T) : distConfig σ T :=
  { RerollBelow := opts.RerollBelow
    MaxLowerExplosions := opts.MaxLowerExplosions
    RerollAbove := opts.RerollAbove
    MaxUpperExplosions := opts.MaxUpperExplosions
    Dist := opts.Dist
    Weight := opts.Weight }

/-- ticketsFromWeights makes a new slice, fills it from the map and sorts it. -/
def ticketsFromWeightsRef {σ T : Type} [LinearOrder T] (weights : Option ℕ) (mem : Mem σ T) :
    ℕ × Mem σ T :=
  mem.newSlice (ticketsFromWeights (mem.mapAt weights))

/-- weightedConfigFromOptions copies the four fields and builds the tickets. -/
def weightedConfigFromOptionsRef {σ T : Type} [LinearOrder T] (opts : OptionsRef σ T)
    (mem : Mem σ T) : weightedConfigRef T × Mem σ T :=
  let t := ticketsFromWeightsRef opts.Custom mem
  ({ RerollBelow := opts.RerollBelow
     MaxLowerExplosions := opts.MaxLowerExplosions
     RerollAbove := opts.RerollAbove
     MaxUpperExplosions := opts.MaxUpperExplosions
     tickets := t.1 }, t.2)

/-- SaltDist: a new stream, the config extracted from the options. -/
def SourceRef.SaltDist {σ T : Type} (env : Env σ) (s : SourceRef σ T) (salt : Bytes)
    (mem : Mem σ T) : DistCasterRef σ T × Mem σ T :=
  let r := mem.newRng (env.NewChaCha8 (env.DeriveKey s.seed salt))
  ({ rng := r.1, cfg := distConfigFromOptionsRef s.opts, floatRange := s.floatRange,
     convert := s.convert }, r.2)

/-- SaltWeighted: a new stream, the config extracted from the options. -/
def SourceRef.SaltWeighted {σ T : Type} [LinearOrder T] (env : Env σ) (s : SourceRef σ T)
    (salt : Bytes) (mem : Mem σ T) : WeightedCasterRef T × Mem σ T :=
  let r := mem.newRng (env.NewChaCha8 (env.DeriveKey s.seed salt))
  let c := weightedConfigFromOptionsRef s.opts r.2
  ({ rng := r.1, cfg := c.1 }, c.2)

/-- SaltCustomWeighted: the config extracted from the options, its tickets replaced by
those of `weights` when `len(weights) > 0`, and a new stream. -/
def SourceRef.SaltCustomWeighted {σ T : Type} [LinearOrder T] (env : Env σ)
    (s : SourceRef σ T) (salt : Bytes) (weights : Option ℕ) (mem : Mem σ T) :
    WeightedCasterRef T × Mem σ T :=
  let c := weightedConfigFromOptionsRef s.opts mem
  let c2 : weightedConfigRef T × Mem σ T :=
    if mapLen (c.2.mapAt weights) > 0 then
      let t := ticketsFromWeightsRef weights c.2
      ({ c.1 with tickets := t.1 }, t.2)
    else c
  let r := c2.2.newRng (env.NewChaCha8 (env.DeriveKey s.seed salt))
  ({ rng := r.1, cfg := c2.1 }, r.2)

/-- A call of one of the setters, with its argument; the `Weights` argument of Custom
and the Options argument of With hold references. -/
inductive Setter (σ T : Type) where
  | Dist (d : Option (Distribution σ))
  | Weight (w : ℚ)
  | Custom (w : Option ℕ)
  | RerollBelow (v : T)
  | LowerExplosions (n : ℤ)
  | RerollAbove (v : T)
  | UpperExplosions (n : ℤ)
  | With (opts : OptionsRef σ T)

/-- The setters of Source: each assigns one field of `s.opts`, With merges. -/
def SourceRef.call {σ T : Type} [Zero T] [DecidableEq T] (st : Setter σ T)
    (s : SourceRef σ T) : SourceRef σ T :=
  match st with
  | .Dist d => { s with opts := { s.opts with Dist := d } }
  | .Weight w => { s with opts := { s.opts with Weight := w } }
  | .Custom w => { s with opts := { s.opts with Custom := w } }
  | .RerollBelow v => { s with opts := { s.opts with RerollBelow := v } }
  | .LowerExplosions n => { s with opts := { s.opts with MaxLowerExplosions := n } }
  | .RerollAbove v => { s with opts := { s.opts with RerollAbove := v } }
  | .UpperExplosions n => { s with opts := { s.opts with MaxUpperExplosions := n } }
  | .With opts => { s with opts := s.opts.MergeWith opts }

/-- The setters of DistCaster; it has no Custom. -/
def DistCasterRef.call {σ T : Type} (st : Setter σ T) (c : DistCasterRef σ T) :
    Option (DistCasterRef σ T) :=
  match st with
  | .Dist d => some (if c.cfg.Dist.isSome then { c with cfg := { c.cfg with Dist := d } } else c)
  | .Weight w => some { c with cfg := { c.cfg with Weight := w } }
  | .Custom _ => none
  | .RerollBelow v => some { c with cfg := { c.cfg with RerollBelow := v } }
  | .LowerExplosions n => some { c with cfg := { c.cfg with MaxLowerExplosions := n } }
  | .RerollAbove v => some { c with cfg := { c.cfg with RerollAbove := v } }
  | .UpperExplosions n => some { c with cfg := { c.cfg with MaxUpperExplosions := n } }
  | .With opts =>
    let existingDist := c.cfg.Dist
    let c := { c with cfg := distConfigFromOptionsRef opts }
    some (if opts.Dist.isNone then { c with cfg := { c.cfg with Dist := existingDist } } else c)

/-- Custom of WeightedCaster: new tickets when `len(w) > 0`. -/
def WeightedCasterRef.Custom {σ T : Type} [LinearOrder T] (c : WeightedCasterRef T)
    (w : Option ℕ) (mem : Mem σ T) : WeightedCasterRef T × Mem σ T :=
  if mapLen (mem.mapAt w) > 0 then
    let t := ticketsFromWeightsRef w mem
    ({ c with cfg := { c.cfg with tickets := t.1 } }, t.2)
  else (c, mem)

/-- With of WeightedCaster: the config is built from the options, and the slice the
caster held is put back when `len(opts.Custom) == 0`. -/
def WeightedCasterRef.With {σ T : Type} [LinearOrder T] (c : WeightedCasterRef T)
    (opts : OptionsRef σ T) (mem : Mem σ T) : WeightedCasterRef T × Mem σ T :=
  let existingTickets := c.cfg.tickets
  let r := weightedConfigFromOptionsRef opts mem
  let c := { c with cfg := r.1 }
  (if mapLen (mem.mapAt opts.Custom) = 0 then
    { c with cfg := { c.cfg with tickets := existingTickets } } else c, r.2)

/-- The setters of WeightedCaster; it has no Dist and no Weight. -/
def WeightedCasterRef.call {σ T : Type} [LinearOrder T] (st : Setter σ T)
    (c : WeightedCasterRef T) (mem : Mem σ T) : Option (WeightedCasterRef T × Mem σ T) :=
  match st with
  | .Dist _ => none
  | .Weight _ => none
  | .Custom w => some (c.Custom w mem)
  | .RerollBelow v => some ({ c with cfg := { c.cfg with RerollBelow := v } }, mem)
  | .LowerExplosions n => some ({ c with cfg := { c.cfg with MaxLowerExplosions := n } }, mem)
  | .RerollAbove v => some ({ c with cfg := { c.cfg with RerollAbove := v } }, mem)
  | .UpperExplosions n => some ({ c with cfg := { c.cfg with MaxUpperExplosions := n } }, mem)
  | .With opts => some (c.With opts mem)

/-- Fork creates a copy of the Source: `return *s`. -/
def SourceRef.Fork {σ T : Type} (s : SourceRef σ T) : SourceRef σ T := s

/-- Fork creates a copy of the DistCaster: `return *c`, the pointer `rng` included. -/
def DistCasterRef.Fork {σ T : Type} (c : DistCasterRef σ T) : DistCasterRef σ T := c

/-- The fork of a weightedConfig: the config copied, the tickets cloned into a new
slice. -/
def weightedConfigRef.fork {σ T : Type} (c : weightedConfigRef T) (mem : Mem σ T) :
    weightedConfigRef T × Mem σ T :=
  let t := mem.newSlice (mem.sliceAt c.tickets)
  ({ toconfig := c.toconfig, tickets := t.1 }, t.2)

/-- Fork of the WeightedCaster: `rng: c.rng, cfg: c.cfg.fork()`. -/
def WeightedCasterRef.Fork {σ T : Type} (c : WeightedCasterRef T) (mem : Mem σ T) :
    WeightedCasterRef T × Mem σ T :=
  let r := c.cfg.fork mem
  ({ rng := c.rng, cfg := r.1 }, r.2)

/-- One on a caster that holds the pointer: the roll reads the stream at `c.rng` and
leaves it advanced there. -/
def WeightedCasterRef.One {σ T : Type} [Zero T] (env : Env σ) (c : WeightedCasterRef T)
    (r : List (Range T)) (mem : Mem σ T) : Except Err (Result T × Mem σ T) :=
  match mem.rngs[c.rng]? with
  | none => .error .panic
  | some s =>
    let d := WeightedCaster.One env { rng := s, cfg := c.cfg.load mem } r
    .ok (d.1, { mem with rngs := mem.rngs.set c.rng d.2.rng })

/-- Multiple on a caster that holds the pointer. -/
def WeightedCasterRef.Multiple {σ T : Type} [Zero T] (env : Env σ) (c : WeightedCasterRef T)
    (count : ℤ) (r : List (Range T)) (mem : Mem σ T) :
    Except Err (List (Result T) × Mem σ T) :=
  match mem.rngs[c.rng]? with
  | none => .error .panic
  | some s =>
    match WeightedCaster.Multiple env { rng := s, cfg := c.cfg.load mem } count r with
    | .error e => .error e
    | .ok d => .ok (d.1, { mem with rngs := mem.rngs.set c.rng d.2.rng })

/-- A Source or a caster. -/
inductive Obj (σ T : Type) where
  | source (s : SourceRef σ T)
  | dist (c : DistCasterRef σ T)
  | weighted (c : WeightedCasterRef T)

/-- The options of a Source and the configuration of a caster, references followed. -/
inductive Snapshot (σ T : Type) where
  | options (o : Options σ T)
  | dist (c : distConfig σ T)
  | weighted (c : weightedConfig T)

/-- The map and the slice that the object refers to are in the memory. -/
def Obj.valid {σ T : Type} (b : Obj σ T) (mem : Mem σ T) : Prop :=
  match b with
  | .source s =>
    match s.opts.Custom with
    | none => True
    | some a => a < mem.maps.length
  | .dist _ => True
  | .weighted c => c.cfg.tickets < mem.slices.length

/-- The options or configuration of an object in a memory. -/
def Obj.snapshot {σ T : Type} (b : Obj σ T) (mem : Mem σ T) : Snapshot σ T :=
  match b with
  | .source s => .options (s.opts.load mem)
  | .dist c => .dist c.cfg
  | .weighted c => .weighted (c.cfg.load mem)

/-- A setter called on an object; none when the object has no such setter. -/
def Obj.call {σ T : Type} [LinearOrder T] [Zero T] (st : Setter σ T) (a : Obj σ T)
    (mem : Mem σ T) : Option (Obj σ T × Mem σ T) :=
  match a with
  | .source s => some (.source (s.call st), mem)
  | .dist c => (c.call st).map (fun c1 => (.dist c1, mem))
  | .weighted c => (c.call st mem).map (fun r => (.weighted r.1, r.2))

/-- Fork called on an object. -/
def Obj.Fork {σ T : Type} (a : Obj σ T) (mem : Mem σ T) : Obj σ T × Mem σ T :=
  match a with
  | .source s => (.source s.Fork, mem)
  | .dist c => (.dist c.Fork, mem)
  | .weighted c => let r := c.Fork mem; (.weighted r.1, r.2)

/-- A memory that holds the map 1:10, 2:0, 3:30 at address 0 and the map 7:1 at
address 1, and nothing else. -/
def demoMem : Mem ℕ ℤ :=
  { rngs := [], maps := [[(1, 10), (2, 0), (3, 30)], [(7, 1)]], slices := [] }

/-- An int source with seed "ab" whose custom weights are the map at address 0. -/
def demoSourceRef : SourceRef ℕ ℤ :=
  { seed := [97, 98]
    opts := { Dist := some (uniformDist demoEnv), Weight := 1 / 2, Custom := some 0,
              RerollBelow := 3, MaxLowerExplosions := 2, RerollAbove := 0,
              MaxUpperExplosions := 0 }
    floatRange := intFloatRange
    convert := intConvert }

/-- The weighted caster derived from `demoSourceRef` with salt "x" in `demoMem`, and the
memory after the derivation: tickets 1:10, 2:0, 3:30 in a new slice, a new stream whose
first draws are 3/4 and 0. -/
def demoWeightedRef : WeightedCasterRef ℤ × Mem ℕ ℤ :=
  demoSourceRef.SaltWeighted demoEnv [120] demoMem

/-- The fork of `demoWeightedRef`, and the memory after the fork. -/
def demoForkRef : WeightedCasterRef ℤ × Mem ℕ ℤ :=
  demoWeightedRef.1.Fork demoWeightedRef.2

/-! ## Package roll on the samplers of package dist -/

/-- CDF computes the value of the cumulative distribution function of the Beta
distribution at x.  The function `regIncBeta` it calls, the regularized incomplete beta
function, is not among the sources and is a parameter. -/
def Beta.CDF (regIncBeta : ℚ → ℚ → ℚ → ℚ) (b : Dixe.Beta) (x : ℚ) : ℚ :=
  if x ≤ 0 then 0
  else if x ≥ 1 then 1
  else regIncBeta b.Alpha b.Beta x

/-- The environment of package `roll` in which the draws of the stream, the samplers and
the CDFs of package `dist` are those of `MathEnv` and of the translation of dist/beta.go,
dist/gamma.go and dist/truncated_normal.go; `fuel` bounds the iterations of each
rejection loop. -/
def Env.withDist {σ : Type} (env : Env σ) (m : MathEnv σ) (regIncBeta : ℚ → ℚ → ℚ → ℚ)
    (fuel : ℕ) : Env σ :=
  { Float64 := m.Float64
    Nextafter := env.Nextafter
    DeriveKey := env.DeriveKey
    NewChaCha8 := env.NewChaCha8
    BetaRand := Beta.Rand m fuel
    BetaCDF := Beta.CDF regIncBeta
    TruncatedNormalRand := TruncatedNormal.Rand m
    TruncatedNormalCDF := TruncatedNormal.CDF m }

/-! ## Float64 arithmetic

The definitions above compute in exact arithmetic.  Here the same functions are given
with every float64 operation rounded, for the statements in which rounding decides.  A
finite float64 is a rational `n * 2^(e-52)` with `|n| < 2^53` and `-1022 ≤ e ≤ 1023`;
the basic operations and the conversion from `int` return the float64 nearest to the
exact result, ties to the even significand (IEEE 754, which Go follows); each
operation is rounded on its own (no fused multiply-add).  Infinities and NaN are not
modelled: the rounding has no largest exponent, so the model is that of the code as
long as no operation overflows, and a statement that depends on it bounds its inputs. -/

/-- The exponent of the binade of x: `floor(log2 |x|)`, and -1022, the exponent of the
subnormal numbers, below `2^-1022` and at 0. -/
def F64.expo (x : ℚ) : ℤ :=
  if x = 0 then -1022 else max (Int.log 2 |x|) (-1022)

/-- The distance between neighbouring float64 values in the binade of x. -/
def F64.ulp (x : ℚ) : ℚ := (2 : ℚ) ^ (F64.expo x - 52)

/-- The integer nearest to q, ties to the even one. -/
def F64.roundEven (q : ℚ) : ℤ :=
  let f := ⌊q⌋
  let r := q - f
  if r < 1 / 2 then f
  else if 1 / 2 < r then f + 1
  else if f % 2 = 0 then f else f + 1

/-- The float64 nearest to x, ties to even. -/
def F64.round (x : ℚ) : ℚ :=
  (F64.roundEven (x / F64.ulp x) : ℚ) * F64.ulp x

/-- The float64 sum `x + y`. -/
def F64.add (x y : ℚ) : ℚ := F64.round (x + y)

/-- The float64 difference `x - y`. -/
def F64.sub (x y : ℚ) : ℚ := F64.round (x - y)

/-- The float64 product `x * y`. -/
def F64.mul (x y : ℚ) : ℚ := F64.round (x * y)

/-- The float64 quotient `x / y`. -/
def F64.div (x y : ℚ) : ℚ := F64.round (x / y)

/-- The conversion `float64(n)` of an int. -/
def F64.ofInt (n : ℤ) : ℚ := F64.round n

/-- The float64 next above the float64 x. -/
def F64.succ (x : ℚ) : ℚ :=
  if 0 ≤ x then x + F64.ulp x
  else if -x = (2 : ℚ) ^ F64.expo x ∧ -1022 < F64.expo x then x + F64.ulp x / 2
  else x + F64.ulp x

/-- The float64 next below the float64 x. -/
def F64.pred (x : ℚ) : ℚ := -F64.succ (-x)

/-- The function `math.Nextafter` on finite float64 values: the next representable value
after x towards y, and x when `x == y`. -/
def F64.Nextafter (x y : ℚ) : ℚ :=
  if x = y then x else if x < y then F64.succ x else F64.pred x

/-- intFloatRange in float64: `float64(r.Lower)` and `float64(r.Upper) + 1`. -/
def F64.intFloatRange (r : IntRange) : FloatRange :=
  { Lower := F64.ofInt r.Lower, Upper := F64.add (F64.ofInt r.Upper) 1 }

/-- Normalize in float64: `(x - lower) / (upper - lower)`. -/
def F64.Normalize (x lower upper : ℚ) : ℚ :=
  F64.div (F64.sub x lower) (F64.sub upper lower)

/-- The method uniform.Rand in float64: `p.Lower + p.Rng.Float64()*(p.Upper-p.Lower)`. -/
def F64.uniform.Rand {σ : Type} (env : Env σ) (p : FloatParams) (rng : σ) :
    Except Err (ℚ × σ) :=
  let d := env.Float64 rng
  .ok (F64.add p.Lower (F64.mul d.1 (F64.sub p.Upper p.Lower)), d.2)

/-- The method uniform.CDF in float64. -/
def F64.uniform.CDF (x : ℚ) (p : FloatParams) : ℚ :=
  if x ≤ p.Lower then 0
  else if x ≥ p.Upper then 1
  else F64.Normalize x p.Lower p.Upper

/-- The uniform distribution in float64. -/
def F64.uniformDist {σ : Type} (env : Env σ) : Distribution σ :=
  { Rand := F64.uniform.Rand env, CDF := F64.uniform.CDF }

/-- The loop of DistCaster.Odds in float64: bucket v gets
`(CDF(float64(v+1)) - CDF(float64(v))) * 100`. -/
def F64.oddsLoop {σ : Type} (dist : Option (Distribution σ)) (p : FloatParams) :
    Nat → ℤ → (ℤ → Option ℚ) → Except Err (ℤ → Option ℚ)
  | 0, _, m => .ok m
  | n + 1, v, m =>
    match callCDF dist (F64.ofInt (v + 1)) p, callCDF dist (F64.ofInt v) p with
    | .ok hi, .ok lo => F64.oddsLoop dist p n (v + 1) (mapSet m v (F64.mul (F64.sub hi lo) 100))
    | _, _ => .error .panic

/-- The method DistCaster.Odds in float64. -/
def F64.DistCaster.Odds {σ T : Type} [constraint T] [AddCommMonoidWithOne T]
    (c : DistCaster σ T) (r : List (Range T)) : Except Err Odds :=
  let distRange := defaultRange r
  let p : FloatParams := { toRange := c.floatRange distRange, Weight := c.cfg.Weight }
  let lo := constraint.toInt distRange.Lower
  let hi := constraint.toInt distRange.Upper
  match F64.oddsLoop c.cfg.Dist p (hi + 1 - lo).toNat lo (fun _ => none) with
  | .error e => .error e
  | .ok probabilities =>
    let explosionRange :=
      c.floatRange { Lower := c.cfg.RerollBelow, Upper := c.cfg.RerollAbove }
    let lower : Except Err ℚ :=
      if c.cfg.MaxLowerExplosions > 0 then
        match callCDF c.cfg.Dist explosionRange.Lower p with
        | .error e => .error e
        | .ok v => .ok (F64.mul v 100)
      else .ok 0
    let upper : Except Err ℚ :=
      if c.cfg.MaxUpperExplosions > 0 then
        match callCDF c.cfg.Dist explosionRange.Upper p with
        | .error e => .error e
        | .ok v => .ok (F64.mul (F64.sub 1 v) 100)
      else .ok 0
    match lower, upper with
    | .ok l, .ok u =>
      .ok { Probabilities := probabilities, LowerExplosionChance := l, UpperExplosionChance := u }
    | _, _ => .error .panic

/-- The selection loop of rollWeighted in float64: `cumulative += t.weight` is a
float64 sum. -/
def F64.scanTickets {T : Type} (rv : ℚ) : ℚ → List (ticket T) → Option T
  | _, [] => none
  | cumulative, t :: ts =>
    if rv < F64.add cumulative t.weight then some t.value
    else F64.scanTickets rv (F64.add cumulative t.weight) ts

/-- The method rollWeighted in float64: the total is a float64 sum and
`rv := c.rng.Float64() * totalWeight` a float64 product. -/
def F64.WeightedCaster.rollWeighted {σ T : Type} [Zero T] (env : Env σ)
    (c : WeightedCaster σ T) : T × σ :=
  let totalWeight := c.cfg.tickets.foldl (fun acc t => F64.add acc t.weight) (0 : ℚ)
  let d := env.Float64 c.rng
  let rv := F64.mul d.1 totalWeight
  match F64.scanTickets rv 0 c.cfg.tickets with
  | some v => (v, d.2)
  | none =>
    match c.cfg.tickets.getLast? with
    | some t => (t.value, d.2)
    | none => (0, d.2)

/-- The method WeightedCaster.One on rollWeighted in float64. -/
def F64.WeightedCaster.One {σ T : Type} [Zero T] (env : Env σ) (c : WeightedCaster σ T)
    (_r : List (Range T)) : Result T × WeightedCaster σ T :=
  let d := F64.WeightedCaster.rollWeighted env c
  ({ First := d.1, Last := d.1, Sum := d.1, LowerExplosions := 0, UpperExplosions := 0,
     Rolls := [d.1] }, { c with rng := d.2 })

/-- The method WeightedCaster.Odds in float64: `(t.weight / totalWeight) * 100`. -/
def F64.WeightedCaster.Odds {σ T : Type} [constraint T] (c : WeightedCaster σ T)
    (_r : List (Range T)) : Odds :=
  let totalWeight := c.cfg.tickets.foldl (fun acc t => F64.add acc t.weight) (0 : ℚ)
  if totalWeight = 0 then
    { Probabilities := fun _ => none, LowerExplosionChance := 0, UpperExplosionChance := 0 }
  else
    { Probabilities := c.cfg.tickets.foldl
        (fun m t => mapSet m (constraint.toInt t.value)
          (F64.mul (F64.div t.weight totalWeight) 100))
        (fun _ => none)
      LowerExplosionChance := 0
      UpperExplosionChance := 0 }

/-- Scale in float64: `lower + normalized*(upper-lower)`. -/
def F64.Scale (normalized lower upper : ℚ) : ℚ :=
  F64.add lower (F64.mul normalized (F64.sub upper lower))

/-- The method normal.dist in float64: `0.25 * (1 - p.Weight*0.8)`, where the constant
0.8 is the float64 nearest to 4/5. -/
def F64.normal.dist (p : FloatParams) : TruncatedNormal :=
  { Mu := 1 / 2
    Sigma := F64.mul (1 / 4) (F64.sub 1 (F64.mul p.Weight (F64.round (4 / 5))))
    Lower := 0
    Upper := 1 }

/-- The method normal.Rand in float64. -/
def F64.normal.Rand {σ : Type} (env : Env σ) (p : FloatParams) (rng : σ) :
    Except Err (ℚ × σ) :=
  match env.TruncatedNormalRand (F64.normal.dist p) rng with
  | .error e => .error e
  | .ok (v, rng1) => .ok (F64.Scale v p.Lower p.Upper, rng1)

/-- The method normal.CDF in float64. -/
def F64.normal.CDF {σ : Type} (env : Env σ) (x : ℚ) (p : FloatParams) : ℚ :=
  if x ≤ p.Lower then 0
  else if x ≥ p.Upper then 1
  else env.TruncatedNormalCDF (F64.normal.dist p) (F64.Normalize x p.Lower p.Upper)

/-- The normal distribution in float64. -/
def F64.normalDist {σ : Type} (env : Env σ) : Distribution σ :=
  { Rand := F64.normal.Rand env, CDF := F64.normal.CDF env }

/-- The method BetaDist.Rand in float64. -/
def F64.BetaDist.Rand {σ : Type} (env : Env σ) (params : BetaParams) (p : FloatParams)
    (rng : σ) : Except Err (ℚ × σ) :=
  match env.BetaRand (BetaDist.Beta params p) rng with
  | .error e => .error e
  | .ok (v, rng1) => .ok (F64.Scale v p.Lower p.Upper, rng1)

/-- The method BetaDist.CDF in float64. -/
def F64.BetaDist.CDF {σ : Type} (env : Env σ) (params : BetaParams) (x : ℚ)
    (p : FloatParams) : ℚ :=
  if x ≤ p.Lower then 0
  else if x ≥ p.Upper then 1
  else env.BetaCDF (BetaDist.Beta params p) (F64.Normalize x p.Lower p.Upper)

/-- The function NewBetaDist in float64. -/
def F64.NewBetaDist {σ : Type} (env : Env σ) (params : BetaParams) : Distribution σ :=
  { Rand := F64.BetaDist.Rand env params, CDF := F64.BetaDist.CDF env params }

/-- The distribution weightedLowDist in float64: Beta(1, `1.0 + w*4`). -/
def F64.weightedLowDist {σ : Type} (env : Env σ) : Distribution σ :=
  F64.NewBetaDist env (fun w => (1, F64.add 1 (F64.mul w 4)))

/-- The distribution weightedHighDist in float64: Beta(`1.0 + w*4`, 1). -/
def F64.weightedHighDist {σ : Type} (env : Env σ) : Distribution σ :=
  F64.NewBetaDist env (fun w => (F64.add 1 (F64.mul w 4), 1))

/-- The method weightedMin.Rand in float64. -/
def F64.weightedMin.Rand {σ : Type} (env : Env σ) (p : FloatParams) (rng : σ) :
    Except Err (ℚ × σ) :=
  let d := env.Float64 rng
  if d.1 < p.Weight then .ok (p.Lower, d.2)
  else F64.BetaDist.Rand env (fun _ => (1, 2)) p d.2

/-- The method weightedMin.CDF in float64: `p.Weight + (1-p.Weight)*betaCDF`. -/
def F64.weightedMin.CDF {σ : Type} (env : Env σ) (x : ℚ) (p : FloatParams) : ℚ :=
  if x ≤ p.Lower then 0
  else if x ≥ p.Upper then 1
  else F64.add p.Weight (F64.mul (F64.sub 1 p.Weight)
    (env.BetaCDF (BetaDist.Beta (fun _ => (1, 2)) p) (F64.Normalize x p.Lower p.Upper)))

/-- The distribution weightedMinDist in float64. -/
def F64.weightedMinDist {σ : Type} (env : Env σ) : Distribution σ :=
  { Rand := F64.weightedMin.Rand env, CDF := F64.weightedMin.CDF env }

/-- The method weightedMax.Rand in float64. -/
def F64.weightedMax.Rand {σ : Type} (env : Env σ) (p : FloatParams) (rng : σ) :
    Except Err (ℚ × σ) :=
  let d := env.Float64 rng
  if d.1 < p.Weight then .ok (p.Upper, d.2)
  else F64.BetaDist.Rand env (fun _ => (2, 1)) p d.2

/-- The method weightedMax.CDF in float64: `(1 - p.Weight) * betaCDF`. -/
def F64.weightedMax.CDF {σ : Type} (env : Env σ) (x : ℚ) (p : FloatParams) : ℚ :=
  if x ≤ p.Lower then 0
  else if x ≥ p.Upper then 1
  else F64.mul (F64.sub 1 p.Weight)
    (env.BetaCDF (BetaDist.Beta (fun _ => (2, 1)) p) (F64.Normalize x p.Lower p.Upper))

/-- The distribution weightedMaxDist in float64. -/
def F64.weightedMaxDist {σ : Type} (env : Env σ) : Distribution σ :=
  { Rand := F64.weightedMax.Rand env, CDF := F64.weightedMax.CDF env }

/-- The built-in distributions in float64. -/
def F64.Builtin.dist {σ : Type} (env : Env σ) : Builtin → Distribution σ
  | .Uniform => F64.uniformDist env
  | .Normal => F64.normalDist env
  | .WeightedLow => F64.weightedLowDist env
  | .WeightedHigh => F64.weightedHighDist env
  | .WeightedMin => F64.weightedMinDist env
  | .WeightedMax => F64.weightedMaxDist env

/-- floatFloatRange in float64: `math.Nextafter(r.Upper, r.Upper+1)`, the sum being a
float64 sum. -/
def F64.floatFloatRange (r : FloatRange) : FloatRange :=
  { Lower := r.Lower, Upper := F64.Nextafter r.Upper (F64.add r.Upper 1) }

/-- A float caster as SaltDist builds it from the default options (no explosions), with
the conversions in float64, the given distribution and the given weight. -/
def f64FloatCaster (d : Distribution ℕ) (w : ℚ) : DistCaster ℕ ℚ :=
  { rng := 0
    cfg := { RerollBelow := 0, MaxLowerExplosions := 0, RerollAbove := 0,
             MaxUpperExplosions := 0, Dist := some d, Weight := w }
    floatRange := F64.floatFloatRange
    convert := floatConvert }

/-- The environment `demoEnv` with the float64 `Nextafter` and a stream whose every draw
is u. -/
def f64Env (u : ℚ) : Env ℕ :=
  { demoEnv with Float64 := fun n => (u, n + 1), Nextafter := F64.Nextafter }

/-- An int caster as SaltDist builds it from the default options (no explosions), with
the conversions in float64, the given distribution and the given weight. -/
def f64Caster (d : Distribution ℕ) (w : ℚ) : DistCaster ℕ ℤ :=
  { rng := 0
    cfg := { RerollBelow := 0, MaxLowerExplosions := 0, RerollAbove := 0,
             MaxUpperExplosions := 0, Dist := some d, Weight := w }
    floatRange := F64.intFloatRange
    convert := intConvert }

/-- An int weighted caster with the tickets of the given weight map. -/
def f64Weighted (w : Weights ℤ) : WeightedCaster ℕ ℤ :=
  { rng := 0
    cfg := { RerollBelow := 0, MaxLowerExplosions := 0, RerollAbove := 0,
             MaxUpperExplosions := 0, tickets := ticketsFromWeights (some w) } }

/-! ## Determinism of derived casters -/

/-- A slice of tickets sorted by value, with distinct values, is strictly ascending. -/
theorem sorted_lt_of_sorted_le {T : Type} [LinearOrder T] {l : List (ticket T)}
    (hs : l.Sorted ticket.le) (hn : (l.map ticket.value).Nodup) :
    l.Pairwise (fun a b => a.value < b.value) := by
  have hne : l.Pairwise (fun a b => a.value ≠ b.value) := by
    simpa [List.Nodup, List.pairwise_map] using hn
  exact (List.Pairwise.and hs hne).imp (fun h => lt_of_le_of_ne h.1 h.2)

/-- Two strictly ascending slices with the same tickets are equal. -/
theorem eq_of_perm_of_ascending {T : Type} [LinearOrder T] {l₁ l₂ : List (ticket T)}
    (hp : l₁.Perm l₂) (h₁ : l₁.Pairwise (fun a b => a.value < b.value))
    (h₂ : l₂.Pairwise (fun a b => a.value < b.value)) : l₁ = l₂ := by
  haveI : IsAntisymm (ticket T) (fun a b => a.value < b.value) :=
    ⟨fun _ _ hab hba => absurd hab (not_lt_of_gt hba)⟩
  exact List.eq_of_perm_of_sorted hp h₁ h₂

/-- The values of the tickets made from a map are the keys of the map. -/
theorem ticket_values_of_entries {T : Type} (w : Weights T) :
    (w.map (fun e => ({ value := e.1, weight := e.2 } : ticket T))).map ticket.value
      = w.map Prod.fst := by
  simp [List.map_map, Function.comp_def]

/-- The tickets of a map are strictly ascending in value. -/
theorem ticketsFromWeights_ascending {T : Type} [LinearOrder T] (m : Option (Weights T))
    (hd : mapKeysDistinct m) :
    (ticketsFromWeights m).Pairwise (fun a b => a.value < b.value) := by
  unfold ticketsFromWeights
  apply sorted_lt_of_sorted_le (List.sorted_insertionSort _ _)
  have hp := (List.perm_insertionSort ticket.le
    ((m.getD []).map (fun e => ({ value := e.1, weight := e.2 } : ticket T)))).map ticket.value
  rw [hp.nodup_iff, ticket_values_of_entries]
  cases m with
  | none => simp
  | some w => simpa [mapKeysDistinct] using hd

/-- The tickets of a map do not depend on the order its entries are visited in. -/
theorem ticketsFromWeights_sameMap {T : Type} [LinearOrder T] (a b : Option (Weights T))
    (hab : sameMap a b) (hd : mapKeysDistinct a) :
    ticketsFromWeights a = ticketsFromWeights b := by
  have hdb : mapKeysDistinct b := by
    cases a <;> cases b <;> simp_all [sameMap, mapKeysDistinct]
    rename_i x y
    exact ((hab.map Prod.fst).nodup_iff).1 hd
  apply eq_of_perm_of_ascending _ (ticketsFromWeights_ascending a hd)
    (ticketsFromWeights_ascending b hdb)
  unfold ticketsFromWeights
  refine (List.perm_insertionSort _ _).trans (List.Perm.trans ?_ (List.perm_insertionSort _ _).symm)
  cases a <;> cases b <;> simp_all [sameMap]
  rename_i x y
  exact hab.map _

/-- The same map has the same length. -/
theorem mapLen_sameMap {T : Type} (a b : Option (Weights T)) (hab : sameMap a b) :
    mapLen a = mapLen b := by
  cases a <;> cases b <;> simp_all [sameMap, mapLen]
  rename_i x y
  exact hab.length_eq

/-- A non-empty seed is kept as it is, whatever the entropy source yields. -/
theorem initSeed_of_nonempty {σ : Type} (env : Env σ) (s : Bytes) (rest : List Bytes)
    (entropy : Bytes) (hs : s ≠ []) : initSeed env (s :: rest) entropy = s := by
  simp [initSeed, hs]

/-- The dist configuration extracted from two same option configurations is the same. -/
theorem distConfigFromOptions_same {σ T : Type} (a b : Options σ T) (h : Options.same a b) :
    distConfigFromOptions a = distConfigFromOptions b := by
  obtain ⟨h1, h2, _, h4, h5, h6, h7⟩ := h
  simp [distConfigFromOptions, h1, h2, h4, h5, h6, h7]

/-- The weighted configuration extracted from two same option configurations is the
same: the ticket slice does not depend on the order the map is visited in. -/
theorem weightedConfigFromOptions_same {σ T : Type} [LinearOrder T] (a b : Options σ T)
    (h : Options.same a b) (hd : mapKeysDistinct a.Custom) :
    weightedConfigFromOptions a = weightedConfigFromOptions b := by
  obtain ⟨_, _, h3, h4, h5, h6, h7⟩ := h
  simp [weightedConfigFromOptions, h4, h5, h6, h7, ticketsFromWeights_sameMap _ _ h3 hd]

/-- C1. Determinism: two sources built from the same non-empty seed `s` (whatever the
other seed arguments and whatever the entropy source yields), holding the same options,
the same range conversion and the same value conversion, derive with the same salt
casters that answer every sequence of One and Multiple calls with equal results, call
for call, for each of SaltDist, SaltWeighted and SaltCustomWeighted; and the stream of
every derived caster is the one keyed by `DeriveKey(s, salt)`, in which neither the
caster kind nor the options occur. -/
theorem derived_casters_deterministic {σ T : Type} [LinearOrder T] [AddCommMonoidWithOne T]
    (env : Env σ) (s : Bytes) (rest₁ rest₂ : List Bytes) (entropy₁ entropy₂ : Bytes)
    (a b : Source σ T) (w₁ w₂ : Option (Weights T)) (salt : Bytes) (fuel : Nat)
    (calls : List (Call T))
    (hs : s ≠ [])
    (ha : a.seed = initSeed env (s :: rest₁) entropy₁)
    (hb : b.seed = initSeed env (s :: rest₂) entropy₂)
    (hfr : a.floatRange = b.floatRange) (hcv : a.convert = b.convert)
    (hopts : Options.same a.opts b.opts) (hd : mapKeysDistinct a.opts.Custom)
    (hw : sameMap w₁ w₂) (hwd : mapKeysDistinct w₁) :
    (a.SaltDist env salt).run env fuel calls = (b.SaltDist env salt).run env fuel calls ∧
    (a.SaltWeighted env salt).run env calls = (b.SaltWeighted env salt).run env calls ∧
    (a.SaltCustomWeighted env salt w₁).run env calls
      = (b.SaltCustomWeighted env salt w₂).run env calls ∧
    (a.SaltDist env salt).rng = env.NewChaCha8 (env.DeriveKey s salt) ∧
    (a.SaltWeighted env salt).rng = env.NewChaCha8 (env.DeriveKey s salt) ∧
    (a.SaltCustomWeighted env salt w₁).rng = env.NewChaCha8 (env.DeriveKey s salt) ∧
    (b.SaltDist env salt).rng = env.NewChaCha8 (env.DeriveKey s salt) ∧
    (b.SaltWeighted env salt).rng = env.NewChaCha8 (env.DeriveKey s salt) ∧
    (b.SaltCustomWeighted env salt w₂).rng = env.NewChaCha8 (env.DeriveKey s salt) := by
  have hsa : a.seed = s := ha.trans (initSeed_of_nonempty env s rest₁ entropy₁ hs)
  have hsb : b.seed = s := hb.trans (initSeed_of_nonempty env s rest₂ entropy₂ hs)
  have hdist : a.SaltDist env salt = b.SaltDist env salt := by
    simp [Source.SaltDist, hsa, hsb, hfr, hcv, distConfigFromOptions_same _ _ hopts]
  have hwt : a.SaltWeighted env salt = b.SaltWeighted env salt := by
    simp [Source.SaltWeighted, hsa, hsb, weightedConfigFromOptions_same _ _ hopts hd]
  have hcw : a.SaltCustomWeighted env salt w₁ = b.SaltCustomWeighted env salt w₂ := by
    simp [Source.SaltCustomWeighted, hsa, hsb, weightedConfigFromOptions_same _ _ hopts hd,
      ticketsFromWeights_sameMap _ _ hw hwd, mapLen_sameMap _ _ hw]
  refine ⟨by rw [hdist], by rw [hwt], by rw [hcw], ?_, ?_, ?_, ?_, ?_, ?_⟩ <;>
    simp [Source.SaltDist, Source.SaltWeighted, Source.SaltCustomWeighted, hsa, hsb]

/-- C1 at two sources seeded "ab" with different entropy and a custom map visited in two
orders, salt "x", fuel 3 and the call sequence `demoCalls`. -/
theorem derived_casters_deterministic_witness :
    (([97, 98] : Bytes) ≠ []) ∧
    Options.same demoSourceA.opts demoSourceB.opts ∧
    sameMap (some [((5 : ℤ), (1 : ℚ)), (7, 2)]) (some [(7, 2), (5, 1)]) ∧
    (demoSourceA.SaltDist demoEnv [120]).run demoEnv 3 demoCalls
      = (demoSourceB.SaltDist demoEnv [120]).run demoEnv 3 demoCalls ∧
    (demoSourceA.SaltWeighted demoEnv [120]).run demoEnv demoCalls
      = (demoSourceB.SaltWeighted demoEnv [120]).run demoEnv demoCalls ∧
    (demoSourceA.SaltCustomWeighted demoEnv [120] (some [(5, 1), (7, 2)])).run demoEnv demoCalls
      = (demoSourceB.SaltCustomWeighted demoEnv [120] (some [(7, 2), (5, 1)])).run demoEnv
          demoCalls ∧
    (demoSourceA.SaltDist demoEnv [120]).rng = demoEnv.NewChaCha8 (demoEnv.DeriveKey [97, 98] [120]) :=
  have hs : (([97, 98] : Bytes) ≠ []) := by decide
  have hopts : Options.same demoSourceA.opts demoSourceB.opts :=
    ⟨rfl, rfl, ((List.Perm.swap _ _ _).trans (List.Perm.cons _ (List.Perm.swap _ _ _))).symm,
      rfl, rfl, rfl, rfl⟩
  have hw : sameMap (some [((5 : ℤ), (1 : ℚ)), (7, 2)]) (some [(7, 2), (5, 1)]) :=
    List.Perm.swap _ _ _
  have h := derived_casters_deterministic demoEnv [97, 98] [] [[99]] [1, 2, 3] [4, 5]
    demoSourceA demoSourceB (some [(5, 1), (7, 2)]) (some [(7, 2), (5, 1)]) [120] 3 demoCalls
    hs rfl rfl rfl rfl hopts (by simp [mapKeysDistinct, demoSourceA, Source.Custom,
      Source.RerollBelow, Source.LowerExplosions]) hw (by simp [mapKeysDistinct])
  ⟨hs, hopts, hw, h.1, h.2.1, h.2.2.1, h.2.2.2.1⟩

/-! ## The shape of a roll -/

/-- On a destination at least as long as the source, `copy` writes the whole source. -/
theorem goCopy_eq {T : Type} (dst src : List T) (h : src.length ≤ dst.length) :
    goCopy dst src = src ++ dst.drop src.length := by
  induction src generalizing dst with
  | nil => cases dst <;> simp [goCopy]
  | cons x xs ih =>
    cases dst with
    | nil => simp at h
    | cons d ds =>
      simp only [List.length_cons, Nat.add_le_add_iff_right] at h
      simp [goCopy, ih ds h]

/-- The slice `allRolls` built by `make`, the assignment of index 0 and the two `copy`
statements is the first roll, then the lower rolls, then the upper rolls. -/
theorem allRolls_eq {T : Type} [Zero T] (firstRoll : T) (lowerRolls upperRolls : List T) :
    copyFrom (copyFrom ((List.replicate
        (((lowerRolls.length : ℤ) + (upperRolls.length : ℤ) + 1).toNat) (0 : T)).set 0 firstRoll)
      1 lowerRolls) (1 + lowerRolls.length) upperRolls
      = firstRoll :: (lowerRolls ++ upperRolls) := by
  have ht : ((lowerRolls.length : ℤ) + (upperRolls.length : ℤ) + 1).toNat
      = (lowerRolls.length + upperRolls.length) + 1 := by omega
  rw [ht, List.replicate_succ, List.set_cons_zero]
  have h1 : copyFrom (firstRoll :: List.replicate (lowerRolls.length + upperRolls.length) (0 : T))
      1 lowerRolls = firstRoll :: (lowerRolls ++ List.replicate upperRolls.length (0 : T)) := by
    simp [copyFrom, goCopy_eq]
  rw [h1]
  have h2 : (firstRoll :: (lowerRolls ++ List.replicate upperRolls.length (0 : T))).take
      (1 + lowerRolls.length) = firstRoll :: lowerRolls := by
    rw [Nat.add_comm, List.take_succ_cons, List.take_left]
  have h3 : (firstRoll :: (lowerRolls ++ List.replicate upperRolls.length (0 : T))).drop
      (1 + lowerRolls.length) = List.replicate upperRolls.length (0 : T) := by
    rw [Nat.add_comm, List.drop_succ_cons, List.drop_left]
  simp [copyFrom, h2, h3, goCopy_eq]

/-- The summation loop of One computes the sum of the slice. -/
theorem foldl_add_eq_sum {T : Type} [AddCommMonoid T] (xs : List T) (a : T) :
    xs.foldl (fun acc v => acc + v) a = a + xs.sum := by
  induction xs generalizing a with
  | nil => simp
  | cons x xs ih => simp [ih, add_assoc]

/-- Indexing a non-empty slice at 0 and at its last position succeeds. -/
theorem index_first_last {T : Type} (x : T) (xs : List T) (total : ℤ)
    (ht : total = xs.length + 1) :
    index (x :: xs) 0 = .ok x ∧
    index (x :: xs) (total - 1) = .ok ((x :: xs).getLast (List.cons_ne_nil _ _)) := by
  constructor
  · simp [index]
  · have h0 : ¬ (total - 1 < 0) := by omega
    have h1 : (total - 1).toNat = xs.length := by omega
    simp only [index, h0, if_false, h1]
    rw [List.getLast_eq_getElem]
    simp

/-- One, in one equation: the first roll, the lower chain started from it, the upper
chain started from it again, and the result assembled from the three. -/
theorem One_eq {σ T : Type} [LinearOrder T] [AddCommMonoidWithOne T] (env : Env σ)
    (fuel : Nat) (c : DistCaster σ T) (r : List (Range T)) :
    c.One env fuel r =
      match rollFloat env c.cfg.Dist
        { toRange := c.floatRange (defaultRange r), Weight := c.cfg.Weight } c.rng with
      | .error e => .error e
      | .ok (v, rng1) =>
        match explosionLoop env c.cfg.Dist c.convert
          { toRange := c.floatRange (defaultRange r), Weight := c.cfg.Weight }
          c.cfg.shouldExplodeLower fuel (c.convert v) [] rng1 with
        | .error e => .error e
        | .ok (lowerRolls, rng2) =>
          match explosionLoop env c.cfg.Dist c.convert
            { toRange := c.floatRange (defaultRange r), Weight := c.cfg.Weight }
            c.cfg.shouldExplodeUpper fuel (c.convert v) [] rng2 with
          | .error e => .error e
          | .ok (upperRolls, rng3) =>
            .ok ({ First := c.convert v
                   Last := (c.convert v :: (lowerRolls ++ upperRolls)).getLast
                     (List.cons_ne_nil _ _)
                   Sum := (c.convert v :: (lowerRolls ++ upperRolls)).sum
                   LowerExplosions := lowerRolls.length
                   UpperExplosions := upperRolls.length
                   Rolls := c.convert v :: (lowerRolls ++ upperRolls) }, { c with rng := rng3 }) := by
  unfold DistCaster.One DistCaster.processExplosion
  simp only []
  cases h1 : rollFloat env c.cfg.Dist
      { toRange := c.floatRange (defaultRange r), Weight := c.cfg.Weight } c.rng with
  | error e => rfl
  | ok d1 =>
    obtain ⟨v, rng1⟩ := d1
    simp only []
    cases h2 : explosionLoop env c.cfg.Dist c.convert
        { toRange := c.floatRange (defaultRange r), Weight := c.cfg.Weight }
        c.cfg.shouldExplodeLower fuel (c.convert v) [] rng1 with
    | error e => rfl
    | ok d2 =>
      obtain ⟨lowerRolls, rng2⟩ := d2
      simp only []
      cases h3 : explosionLoop env c.cfg.Dist c.convert
          { toRange := c.floatRange (defaultRange r), Weight := c.cfg.Weight }
          c.cfg.shouldExplodeUpper fuel (c.convert v) [] rng2 with
      | error e => rfl
      | ok d3 =>
        obtain ⟨upperRolls, rng3⟩ := d3
        simp only [allRolls_eq]
        obtain ⟨hi0, hi1⟩ := index_first_last (c.convert v) (lowerRolls ++ upperRolls)
          ((lowerRolls.length : ℤ) + (upperRolls.length : ℤ) + 1) (by simp)
        rw [hi0, hi1]
        simp [foldl_add_eq_sum, add_assoc]

/-! ## The loop of processExplosion -/

/-- What the loop returns when it returns: the rolls it started with, followed by an
explosion chain of converted draws. -/
theorem explosionLoop_ok {σ T : Type} (env : Env σ) (dist : Option (Distribution σ))
    (convert : ℚ → T) (p : FloatParams) (se : T → ℤ → Bool) (P : T → Prop)
    (hP : ∀ rng v rng1, rollFloat env dist p rng = .ok (v, rng1) → P (convert v)) :
    ∀ (fuel : Nat) (cur : T) (rolls : List T) (rng : σ) (out : List T) (rng2 : σ),
      explosionLoop env dist convert p se fuel cur rolls rng = .ok (out, rng2) →
      ∃ new, out = rolls ++ new ∧ explosionChain se cur rolls.length new ∧ ∀ x ∈ new, P x := by
  intro fuel
  induction fuel with
  | zero =>
    intro cur rolls rng out rng2 h
    unfold explosionLoop at h
    split at h
    · cases h
    · rename_i hse
      injection h with h
      injection h with h1 h2
      exact ⟨[], by simp [h1], by simpa [explosionChain] using hse, by simp⟩
  | succ fuel ih =>
    intro cur rolls rng out rng2 h
    unfold explosionLoop at h
    split at h
    · rename_i hse
      split at h
      · cases h
      · rename_i value rng1 hroll
        obtain ⟨new, hout, hchain, hall⟩ := ih _ _ _ _ _ h
        refine ⟨convert value :: new, by simp [hout], ⟨hse, ?_⟩, ?_⟩
        · simpa using hchain
        · intro x hx
          rcases List.mem_cons.1 hx with hx | hx
          · exact hx ▸ hP _ _ _ hroll
          · exact hall x hx
    · rename_i hse
      injection h with h
      injection h with h1 h2
      exact ⟨[], by simp [h1], by simpa [explosionChain] using hse, by simp⟩

/-- The loop never uses up its fuel when the condition bounds the number of rolls by `M`
and the fuel covers what is left of `M`: a failure of the loop is a failure of a draw. -/
theorem explosionLoop_error {σ T : Type} (env : Env σ) (dist : Option (Distribution σ))
    (convert : ℚ → T) (p : FloatParams) (se : T → ℤ → Bool) (M : ℤ)
    (hbound : ∀ x k, se x k = true → k < M) :
    ∀ (fuel : Nat) (cur : T) (rolls : List T) (rng : σ) (e : Err),
      (M - rolls.length).toNat ≤ fuel →
      explosionLoop env dist convert p se fuel cur rolls rng = .error e →
      ∃ rng1, rollFloat env dist p rng1 = .error e := by
  intro fuel
  induction fuel with
  | zero =>
    intro cur rolls rng e hfuel h
    unfold explosionLoop at h
    split at h
    · rename_i hse
      have := hbound _ _ hse
      omega
    · cases h
  | succ fuel ih =>
    intro cur rolls rng e hfuel h
    unfold explosionLoop at h
    split at h
    · rename_i hse
      have hlt := hbound _ _ hse
      split at h
      · rename_i e1 hroll
        injection h with h
        exact ⟨rng, h ▸ hroll⟩
      · rename_i value rng1 hroll
        refine ih _ _ _ _ ?_ h
        simp only [List.length_append, List.length_singleton, Nat.cast_add, Nat.cast_one]
        omega
    · cases h

/-- A chain under a condition that bounds the number of rolls by `M` is empty or ends
within `M` rolls. -/
theorem explosionChain_length {T : Type} (se : T → ℤ → Bool) (M : ℤ)
    (hbound : ∀ x k, se x k = true → k < M) :
    ∀ (new : List T) (cur : T) (k : ℤ), explosionChain se cur k new →
      new = [] ∨ k + new.length ≤ M := by
  intro new
  induction new with
  | nil => intro cur k _; exact Or.inl rfl
  | cons x xs ih =>
    intro cur k h
    obtain ⟨hse, hrest⟩ := h
    have hlt := hbound _ _ hse
    right
    rcases ih x (k + 1) hrest with hnil | hle
    · subst hnil
      simp only [List.length_singleton, Nat.cast_one]
      omega
    · simp only [List.length_cons, Nat.cast_add, Nat.cast_one]
      omega

/-- Every roll of a chain is preceded by a roll on which the condition holds, and the
condition fails on the last roll of the chain, at the final count. -/
theorem explosionChain_steps {T : Type} (se : T → ℤ → Bool) :
    ∀ (new : List T) (cur : T) (k : ℤ), explosionChain se cur k new →
      (∀ i (hi : i < new.length), se ((cur :: new).get ⟨i, by simp; omega⟩) (k + i) = true) ∧
      se ((cur :: new).getLast (List.cons_ne_nil _ _)) (k + new.length) = false := by
  intro new
  induction new with
  | nil =>
    intro cur k h
    exact ⟨fun i hi => absurd hi (by simp), by simpa [explosionChain] using h⟩
  | cons x xs ih =>
    intro cur k h
    obtain ⟨hse, hrest⟩ := h
    obtain ⟨h1, h2⟩ := ih x (k + 1) hrest
    constructor
    · intro i hi
      cases i with
      | zero => simpa using hse
      | succ j =>
        have := h1 j (by simpa using hi)
        simp only [List.get_eq_getElem, List.getElem_cons_succ, Nat.cast_add, Nat.cast_one] at this ⊢
        rw [show k + ((j : ℤ) + 1) = k + 1 + j by ring]
        exact this
    · rw [List.getLast_cons (List.cons_ne_nil _ _)]
      simp only [List.length_cons, Nat.cast_add, Nat.cast_one]
      rw [show k + ((xs.length : ℤ) + 1) = k + 1 + xs.length by ring]
      exact h2

/-- The lower condition bounds the number of rolls by MaxLowerExplosions. -/
theorem shouldExplodeLower_bound {T : Type} [LinearOrder T] (c : config T) (x : T) (k : ℤ)
    (h : c.shouldExplodeLower x k = true) : k < c.MaxLowerExplosions := by
  simp [config.shouldExplodeLower] at h
  exact h.1

/-- The upper condition bounds the number of rolls by MaxUpperExplosions. -/
theorem shouldExplodeUpper_bound {T : Type} [LinearOrder T] (c : config T) (x : T) (k : ℤ)
    (h : c.shouldExplodeUpper x k = true) : k < c.MaxUpperExplosions := by
  simp [config.shouldExplodeUpper] at h
  exact h.1

/-- What One returns when it returns: a first draw, a lower chain and an upper chain,
both started from the converted first draw, and the result assembled from them. -/
theorem One_inv {σ T : Type} [LinearOrder T] [AddCommMonoidWithOne T] (env : Env σ)
    (fuel : Nat) (c : DistCaster σ T) (r : List (Range T)) (res : Result T)
    (c1 : DistCaster σ T) (P : T → Prop)
    (hP : ∀ rng v rng1, rollFloat env c.cfg.Dist
      { toRange := c.floatRange (defaultRange r), Weight := c.cfg.Weight } rng = .ok (v, rng1) →
      P (c.convert v))
    (h : c.One env fuel r = .ok (res, c1)) :
    ∃ (lowerRolls upperRolls : List T),
      res.Rolls = res.First :: (lowerRolls ++ upperRolls) ∧
      res.Last = (res.First :: (lowerRolls ++ upperRolls)).getLast (List.cons_ne_nil _ _) ∧
      res.Sum = (res.First :: (lowerRolls ++ upperRolls)).sum ∧
      res.LowerExplosions = lowerRolls.length ∧
      res.UpperExplosions = upperRolls.length ∧
      explosionChain c.cfg.shouldExplodeLower res.First 0 lowerRolls ∧
      explosionChain c.cfg.shouldExplodeUpper res.First 0 upperRolls ∧
      (∀ x ∈ res.Rolls, P x) ∧
      c1.cfg = c.cfg ∧ c1.floatRange = c.floatRange ∧ c1.convert = c.convert := by
  rw [One_eq] at h
  split at h
  · cases h
  · rename_i v rng1 h1
    split at h
    · cases h
    · rename_i lowerRolls rng2 h2
      split at h
      · cases h
      · rename_i upperRolls rng3 h3
        injection h with h
        injection h with hres hc
        subst hres hc
        obtain ⟨l, hl, hlc, hlP⟩ := explosionLoop_ok env _ _ _ _ P hP _ _ _ _ _ _ h2
        obtain ⟨u, hu, huc, huP⟩ := explosionLoop_ok env _ _ _ _ P hP _ _ _ _ _ _ h3
        simp only [List.nil_append] at hl hu
        subst hl hu
        refine ⟨lowerRolls, upperRolls, rfl, rfl, rfl, rfl, rfl, by simpa using hlc,
          by simpa using huc, ?_, rfl, rfl, rfl⟩
        intro x hx
        simp only [List.mem_cons, List.mem_append] at hx
        rcases hx with hx | hx | hx
        · exact hx ▸ hP _ _ _ h1
        · exact hlP x hx
        · exact huP x hx

/-! ## What rollFloat returns, and the draws of the concrete stream -/

/-- What rollFloat returns on a distribution: the raw draw when it is below the upper
bound, else the value next below the upper bound. -/
theorem rollFloat_ok {σ : Type} (env : Env σ) (d : Distribution σ) (p : FloatParams)
    (rng : σ) (v : ℚ) (rng1 : σ) (h : rollFloat env (some d) p rng = .ok (v, rng1)) :
    ∃ raw, d.Rand p rng = .ok (raw, rng1) ∧
      ((raw < p.Upper ∧ v = raw) ∨ (p.Upper ≤ raw ∧ v = env.Nextafter p.Upper p.Lower)) := by
  unfold rollFloat at h
  simp only [] at h
  split at h
  · cases h
  · rename_i raw rng2 hraw
    split at h
    · rename_i hge
      injection h with h
      injection h with h1 h2
      exact ⟨raw, by rw [hraw, h2], Or.inr ⟨hge, h1.symm⟩⟩
    · rename_i hlt
      injection h with h
      injection h with h1 h2
      exact ⟨raw, by rw [hraw, h2], Or.inl ⟨lt_of_not_ge hlt, h1.symm⟩⟩

/-- The draws of the concrete stream lie in [0,1). -/
theorem demoEnv_Float64_unit (s : ℕ) :
    0 ≤ (demoEnv.Float64 s).1 ∧ (demoEnv.Float64 s).1 < 1 := by
  have h : s % 4 < 4 := Nat.mod_lt _ (by norm_num)
  have h2 : ((s % 4 : ℕ) : ℚ) < 4 := by exact_mod_cast h
  simp only [demoEnv]
  constructor
  · positivity
  · rw [div_lt_one (by norm_num)]
    exact h2

/-- The Beta draws of the concrete environment lie in [0,1]. -/
theorem demoEnv_BetaRand_unit (b : Beta) (s : ℕ) (v : ℚ) (s1 : ℕ)
    (h : demoEnv.BetaRand b s = .ok (v, s1)) : 0 ≤ v ∧ v ≤ 1 := by
  simp only [demoEnv] at h
  injection h with h
  injection h with h1 h2
  subst h1
  norm_num

/-- The TruncatedNormal draws of the concrete environment lie in [0,1]. -/
theorem demoEnv_TruncatedNormalRand_unit (t : TruncatedNormal) (s : ℕ) (v : ℚ) (s1 : ℕ)
    (h : demoEnv.TruncatedNormalRand t s = .ok (v, s1)) : 0 ≤ v ∧ v ≤ 1 := by
  simp only [demoEnv] at h
  split at h
  · cases h
  · injection h with h
    injection h with h1 h2
    subst h1
    norm_num

/-! ## Termination of One, and its first roll -/

/-- With fuel for the two maxima, One fails only when a draw fails. -/
theorem One_error {σ T : Type} [LinearOrder T] [AddCommMonoidWithOne T] (env : Env σ)
    (fuel : Nat) (c : DistCaster σ T) (r : List (Range T)) (e : Err)
    (hl : (max 0 c.cfg.MaxLowerExplosions).toNat ≤ fuel)
    (hu : (max 0 c.cfg.MaxUpperExplosions).toNat ≤ fuel)
    (h : c.One env fuel r = .error e) :
    ∃ rng, rollFloat env c.cfg.Dist
      { toRange := c.floatRange (defaultRange r), Weight := c.cfg.Weight } rng = .error e := by
  rw [One_eq] at h
  split at h
  · rename_i e1 h1
    injection h with h
    exact ⟨_, h ▸ h1⟩
  · rename_i v rng1 h1
    split at h
    · rename_i e2 h2
      injection h with h
      subst h
      exact explosionLoop_error env _ _ _ _ c.cfg.MaxLowerExplosions
        (shouldExplodeLower_bound c.cfg.toconfig) fuel _ _ _ _
        (by simp only [List.length_nil, Nat.cast_zero]; omega) h2
    · rename_i lowerRolls rng2 h2
      split at h
      · rename_i e3 h3
        injection h with h
        subst h
        exact explosionLoop_error env _ _ _ _ c.cfg.MaxUpperExplosions
          (shouldExplodeUpper_bound c.cfg.toconfig) fuel _ _ _ _
          (by simp only [List.length_nil, Nat.cast_zero]; omega) h3
      · cases h

/-- With fuel for the two maxima, One returns a result when no draw fails. -/
theorem One_ok {σ T : Type} [LinearOrder T] [AddCommMonoidWithOne T] (env : Env σ)
    (fuel : Nat) (c : DistCaster σ T) (r : List (Range T))
    (hl : (max 0 c.cfg.MaxLowerExplosions).toNat ≤ fuel)
    (hu : (max 0 c.cfg.MaxUpperExplosions).toNat ≤ fuel)
    (hroll : ∀ rng e, rollFloat env c.cfg.Dist
      { toRange := c.floatRange (defaultRange r), Weight := c.cfg.Weight } rng ≠ .error e) :
    ∃ res c1, c.One env fuel r = .ok (res, c1) := by
  cases h : c.One env fuel r with
  | error e =>
    obtain ⟨rng, hr⟩ := One_error env fuel c r e hl hu h
    exact absurd hr (hroll rng e)
  | ok d => exact ⟨d.1, d.2, rfl⟩

/-- The first roll of a result is the converted first draw from the caster's stream. -/
theorem One_first {σ T : Type} [LinearOrder T] [AddCommMonoidWithOne T] (env : Env σ)
    (fuel : Nat) (c : DistCaster σ T) (r : List (Range T)) (res : Result T)
    (c1 : DistCaster σ T) (h : c.One env fuel r = .ok (res, c1)) :
    ∃ v rng1, rollFloat env c.cfg.Dist
      { toRange := c.floatRange (defaultRange r), Weight := c.cfg.Weight } c.rng = .ok (v, rng1) ∧
      res.First = c.convert v := by
  rw [One_eq] at h
  split at h
  · cases h
  · rename_i v rng1 h1
    split at h
    · cases h
    · split at h
      · cases h
      · injection h with h
        injection h with hres hc
        subst hres
        exact ⟨v, rng1, h1, rfl⟩

/-- rollFloat on the uniform distribution never fails. -/
theorem rollFloat_uniform_ne_error {σ : Type} (env : Env σ) (p : FloatParams) (rng : σ)
    (e : Err) : rollFloat env (some (uniformDist env)) p rng ≠ .error e := by
  simp only [rollFloat, uniformDist, uniform.Rand]
  split <;> simp

/-- rollFloat on the uniform distribution with a draw below 1, on a non-empty working
interval: the affine image of the draw. -/
theorem rollFloat_uniform {σ : Type} (env : Env σ) (p : FloatParams) (rng : σ)
    (hp : p.Lower < p.Upper) (hu : (env.Float64 rng).1 < 1) :
    rollFloat env (some (uniformDist env)) p rng
      = .ok (p.Lower + (env.Float64 rng).1 * (p.Upper - p.Lower), (env.Float64 rng).2) := by
  have hlt : p.Lower + (env.Float64 rng).1 * (p.Upper - p.Lower) < p.Upper := by
    have hw : 0 < p.Upper - p.Lower := by linarith
    nlinarith
  simp only [rollFloat, uniformDist, uniform.Rand, ge_iff_le, not_le.2 hlt, if_false]

/-! ## Analytic odds -/

/-- The loop of Odds on a non-nil distribution: the buckets `v .. v+n-1` get their CDF
differences, the others keep what they had. -/
theorem oddsLoop_eq {σ : Type} (d : Distribution σ) (p : FloatParams) :
    ∀ (n : Nat) (v : ℤ) (m : ℤ → Option ℚ),
      oddsLoop (some d) p n v m = .ok (fun j =>
        if v ≤ j ∧ j < v + n then some ((d.CDF ((j + 1 : ℤ) : ℚ) p - d.CDF ((j : ℤ) : ℚ) p) * 100)
        else m j) := by
  intro n
  induction n with
  | zero =>
    intro v m
    simp only [oddsLoop, Nat.cast_zero, add_zero]
    congr 1
    funext j
    have : ¬ (v ≤ j ∧ j < v) := by omega
    simp [this]
  | succ n ih =>
    intro v m
    simp only [oddsLoop, callCDF, ih]
    congr 1
    funext j
    simp only [mapSet, Nat.cast_add, Nat.cast_one]
    by_cases h1 : v + 1 ≤ j ∧ j < v + 1 + n
    · have h2 : v ≤ j ∧ j < v + (n + 1) := by omega
      simp [h1, h2]
    · by_cases h3 : j = v
      · subst h3
        have h2 : j ≤ j ∧ j < j + ((n : ℤ) + 1) := by omega
        simp [h1, h2]
      · have h2 : ¬ (v ≤ j ∧ j < v + ((n : ℤ) + 1)) := by omega
        simp [h1, h2, h3]

/-- Odds of a caster with a non-nil distribution, in one equation. -/
theorem Odds_eq {σ T : Type} [constraint T] [AddCommMonoidWithOne T] (c : DistCaster σ T)
    (r : List (Range T)) (d : Distribution σ) (hd : c.cfg.Dist = some d) :
    c.Odds r = .ok
      { Probabilities := fun j =>
          if constraint.toInt (defaultRange r).Lower ≤ j ∧ j ≤ constraint.toInt (defaultRange r).Upper
          then some ((d.CDF ((j + 1 : ℤ) : ℚ)
              { toRange := c.floatRange (defaultRange r), Weight := c.cfg.Weight }
            - d.CDF ((j : ℤ) : ℚ)
              { toRange := c.floatRange (defaultRange r), Weight := c.cfg.Weight }) * 100)
          else none
        LowerExplosionChance :=
          if c.cfg.MaxLowerExplosions > 0 then
            d.CDF (c.floatRange { Lower := c.cfg.RerollBelow, Upper := c.cfg.RerollAbove }).Lower
              { toRange := c.floatRange (defaultRange r), Weight := c.cfg.Weight } * 100
          else 0
        UpperExplosionChance :=
          if c.cfg.MaxUpperExplosions > 0 then
            (1 - d.CDF (c.floatRange { Lower := c.cfg.RerollBelow, Upper := c.cfg.RerollAbove }).Upper
              { toRange := c.floatRange (defaultRange r), Weight := c.cfg.Weight }) * 100
          else 0 } := by
  unfold DistCaster.Odds
  simp only [hd, oddsLoop_eq, callCDF]
  have hP : (fun j : ℤ =>
      if constraint.toInt (defaultRange r).Lower ≤ j ∧
          j < constraint.toInt (defaultRange r).Lower +
            ((constraint.toInt (defaultRange r).Upper + 1
              - constraint.toInt (defaultRange r).Lower).toNat : ℤ)
      then some ((d.CDF ((j + 1 : ℤ) : ℚ)
          { toRange := c.floatRange (defaultRange r), Weight := c.cfg.Weight }
        - d.CDF ((j : ℤ) : ℚ)
          { toRange := c.floatRange (defaultRange r), Weight := c.cfg.Weight }) * 100)
      else none) = (fun j : ℤ =>
      if constraint.toInt (defaultRange r).Lower ≤ j ∧ j ≤ constraint.toInt (defaultRange r).Upper
      then some ((d.CDF ((j + 1 : ℤ) : ℚ)
          { toRange := c.floatRange (defaultRange r), Weight := c.cfg.Weight }
        - d.CDF ((j : ℤ) : ℚ)
          { toRange := c.floatRange (defaultRange r), Weight := c.cfg.Weight }) * 100)
      else none) := by
    funext j
    have hiff : (constraint.toInt (defaultRange r).Lower ≤ j ∧
          j < constraint.toInt (defaultRange r).Lower +
            ((constraint.toInt (defaultRange r).Upper + 1
              - constraint.toInt (defaultRange r).Lower).toNat : ℤ)) ↔
        (constraint.toInt (defaultRange r).Lower ≤ j ∧
          j ≤ constraint.toInt (defaultRange r).Upper) := by
      constructor <;> intro h <;> omega
    simp only [hiff]
  rw [hP]
  by_cases h1 : c.cfg.MaxLowerExplosions > 0 <;> by_cases h2 : c.cfg.MaxUpperExplosions > 0 <;>
    simp [h1, h2]

/-- On its working interval, bounds included, the uniform CDF is the normalized
position. -/
theorem uniform_CDF_inside (x : ℚ) (p : FloatParams) (hp : p.Lower < p.Upper)
    (h1 : p.Lower ≤ x) (h2 : x ≤ p.Upper) :
    uniform.CDF x p = (x - p.Lower) / (p.Upper - p.Lower) := by
  have hw : p.Upper - p.Lower ≠ 0 := by linarith
  unfold uniform.CDF Normalize
  split
  · have : x = p.Lower := le_antisymm (by assumption) h1
    simp [this]
  · split
    · have : x = p.Upper := le_antisymm h2 (by assumption)
      rw [this, div_self hw]
    · rfl

/-- The uniform odds of one bucket of an int range. -/
theorem uniform_bucket (p : FloatParams) (lower upper v : ℤ) (hlo : p.Lower = lower)
    (hup : p.Upper = (upper : ℚ) + 1) (h1 : lower ≤ v) (h2 : v ≤ upper) :
    (uniform.CDF ((v + 1 : ℤ) : ℚ) p - uniform.CDF ((v : ℤ) : ℚ) p) * 100
      = 100 / ((upper : ℚ) - lower + 1) := by
  have h1q : (lower : ℚ) ≤ v := by exact_mod_cast h1
  have h2q : (v : ℚ) ≤ upper := by exact_mod_cast h2
  have hp : p.Lower < p.Upper := by rw [hlo, hup]; linarith
  rw [uniform_CDF_inside _ p hp (by rw [hlo]; push_cast; linarith) (by rw [hup]; push_cast; linarith),
    uniform_CDF_inside _ p hp (by rw [hlo]; exact h1q) (by rw [hup]; linarith), hlo, hup]
  have hn : (upper : ℚ) + 1 - lower ≠ 0 := by linarith
  have hn2 : (upper : ℚ) - lower + 1 ≠ 0 := by linarith
  push_cast
  field_simp
  ring

/-- C3, amended: in exact arithmetic, sampling agrees with the analytic odds for the
Uniform distribution.  With every float64 operation taken exactly: on an int
caster with the uniform distribution and an int range with lower <= upper, with
n = upper-lower+1 and u the uniform draw (below 1) that the stream yields, One returns
a result whose first roll equals a bucket v exactly when (v-lower)/n <= u < (v-lower+1)/n,
and the length of that interval is Odds(r).Probabilities[v]/100. -/
theorem uniform_first_roll_interval {σ : Type} (env : Env σ) (c : DistCaster σ ℤ)
    (r : IntRange) (fuel : Nat) (v : ℤ)
    (hd : c.cfg.Dist = some (uniformDist env)) (hfr : c.floatRange = intFloatRange)
    (hcv : c.convert = intConvert) (hr : r.Lower ≤ r.Upper)
    (hu1 : (env.Float64 c.rng).1 < 1) (hv1 : r.Lower ≤ v) (hv2 : v ≤ r.Upper)
    (hl : (max 0 c.cfg.MaxLowerExplosions).toNat ≤ fuel)
    (hu : (max 0 c.cfg.MaxUpperExplosions).toNat ≤ fuel) :
    ∃ res c1 o pr, c.One env fuel [r] = .ok (res, c1) ∧ c.Odds [r] = .ok o ∧
      o.Probabilities v = some pr ∧
      (res.First = v ↔
        ((v : ℚ) - r.Lower) / ((r.Upper : ℚ) - r.Lower + 1) ≤ (env.Float64 c.rng).1 ∧
        (env.Float64 c.rng).1 < ((v : ℚ) - r.Lower + 1) / ((r.Upper : ℚ) - r.Lower + 1)) ∧
      ((v : ℚ) - r.Lower + 1) / ((r.Upper : ℚ) - r.Lower + 1)
        - ((v : ℚ) - r.Lower) / ((r.Upper : ℚ) - r.Lower + 1) = pr / 100 := by
  have hrq : (r.Lower : ℚ) ≤ r.Upper := by exact_mod_cast hr
  have hn : (0 : ℚ) < (r.Upper : ℚ) - r.Lower + 1 := by linarith
  obtain ⟨res, c1, hone⟩ := One_ok env fuel c [r] hl hu (by
    intro rng e
    rw [hd]
    exact rollFloat_uniform_ne_error env _ rng e)
  obtain ⟨x, rng1, hroll, hfirst⟩ := One_first env fuel c [r] res c1 hone
  rw [hd, rollFloat_uniform env _ c.rng (by
    simp only [hfr, defaultRange, intFloatRange]; linarith) hu1] at hroll
  injection hroll with hroll
  injection hroll with hx hrng
  simp only [hfr, defaultRange, intFloatRange] at hx
  refine ⟨res, c1, _, 100 / ((r.Upper : ℚ) - r.Lower + 1), hone, Odds_eq c [r] _ hd, ?_, ?_, ?_⟩
  · simp only [defaultRange, constraint.toInt, hv1, hv2, and_self, if_true]
    exact congrArg some (uniform_bucket _ r.Lower r.Upper v (by simp [hfr, intFloatRange])
      (by simp [hfr, intFloatRange]) hv1 hv2)
  · rw [hfirst, hcv, ← hx]
    unfold intConvert
    rw [Int.floor_eq_iff, div_le_iff₀ hn, lt_div_iff₀ hn]
    constructor
    · rintro ⟨h1, h2⟩
      constructor <;> linarith
    · rintro ⟨h1, h2⟩
      constructor <;> linarith
  · field_simp

/-- C3 at the caster `demoCaster`, whose stream yields the draw 1/4, on D6 and the bucket
2: the draw lies in [1/6, 2/6) and the first roll is 2. -/
theorem uniform_first_roll_interval_witness :
    demoCaster.cfg.Dist = some (uniformDist demoEnv) ∧ D6.Lower ≤ D6.Upper ∧
    (demoEnv.Float64 demoCaster.rng).1 = 1 / 4 ∧
    ∃ res c1 o pr, demoCaster.One demoEnv 3 [D6] = .ok (res, c1) ∧
      demoCaster.Odds [D6] = .ok o ∧ o.Probabilities 2 = some pr ∧
      (res.First = 2 ↔
        (((2 : ℤ) : ℚ) - D6.Lower) / ((D6.Upper : ℚ) - D6.Lower + 1)
            ≤ (demoEnv.Float64 demoCaster.rng).1 ∧
        (demoEnv.Float64 demoCaster.rng).1
            < (((2 : ℤ) : ℚ) - D6.Lower + 1) / ((D6.Upper : ℚ) - D6.Lower + 1)) ∧
      (((2 : ℤ) : ℚ) - D6.Lower + 1) / ((D6.Upper : ℚ) - D6.Lower + 1)
        - (((2 : ℤ) : ℚ) - D6.Lower) / ((D6.Upper : ℚ) - D6.Lower + 1) = pr / 100 :=
  ⟨rfl, by decide, by with_unfolding_all rfl,
    uniform_first_roll_interval demoEnv demoCaster D6 3 2 rfl rfl rfl (by decide)
      (demoEnv_Float64_unit _).2 (by decide) (by decide) (by with_unfolding_all decide)
      (by with_unfolding_all decide)⟩

/-- The parts of a result of One: the first draw and the two calls of processExplosion,
the lower one on the stream left by the first draw, the upper one on the stream left
by the lower one, both started from the first roll. -/
theorem One_parts {σ T : Type} [LinearOrder T] [AddCommMonoidWithOne T] (env : Env σ)
    (fuel : Nat) (c : DistCaster σ T) (r : List (Range T)) (res : Result T)
    (c1 : DistCaster σ T) (h : c.One env fuel r = .ok (res, c1)) :
    ∃ (lowerRolls upperRolls : List T) (rng1 rng2 : σ),
      ({ c with rng := rng1 } : DistCaster σ T).processExplosion env fuel res.First
        { toRange := c.floatRange (defaultRange r), Weight := c.cfg.Weight }
        c.cfg.shouldExplodeLower = .ok (lowerRolls, rng2) ∧
      ({ c with rng := rng2 } : DistCaster σ T).processExplosion env fuel res.First
        { toRange := c.floatRange (defaultRange r), Weight := c.cfg.Weight }
        c.cfg.shouldExplodeUpper = .ok (upperRolls, c1.rng) ∧
      res.Rolls = res.First :: (lowerRolls ++ upperRolls) ∧
      res.Last = (res.First :: (lowerRolls ++ upperRolls)).getLast (List.cons_ne_nil _ _) ∧
      res.Sum = (res.First :: (lowerRolls ++ upperRolls)).sum ∧
      res.LowerExplosions = lowerRolls.length ∧
      res.UpperExplosions = upperRolls.length := by
  rw [One_eq] at h
  split at h
  · cases h
  · rename_i v rng1 h1
    split at h
    · cases h
    · rename_i lowerRolls rng2 h2
      split at h
      · cases h
      · rename_i upperRolls rng3 h3
        injection h with h
        injection h with hres hc
        subst hres hc
        exact ⟨lowerRolls, upperRolls, rng1, rng2, h2, h3, rfl, rfl, rfl, rfl, rfl⟩

/-- C5. The shape of every result of DistCaster.One: Rolls is the first roll, followed
by the rolls of the lower call of processExplosion, followed by the rolls of the upper
call; len(Rolls) = 1 + LowerExplosions + UpperExplosions, the two counts being the
numbers of lower and of upper rolls; First is Rolls[0]; Last is the final element of
Rolls; Sum is the sum of the elements of Rolls. -/
theorem one_result_shape {σ T : Type} [LinearOrder T] [AddCommMonoidWithOne T] (env : Env σ)
    (fuel : Nat) (c : DistCaster σ T) (r : List (Range T)) (res : Result T)
    (c1 : DistCaster σ T) (h : c.One env fuel r = .ok (res, c1)) :
    ∃ (lowerRolls upperRolls : List T) (rng1 rng2 : σ),
      ({ c with rng := rng1 } : DistCaster σ T).processExplosion env fuel res.First
        { toRange := c.floatRange (defaultRange r), Weight := c.cfg.Weight }
        c.cfg.shouldExplodeLower = .ok (lowerRolls, rng2) ∧
      ({ c with rng := rng2 } : DistCaster σ T).processExplosion env fuel res.First
        { toRange := c.floatRange (defaultRange r), Weight := c.cfg.Weight }
        c.cfg.shouldExplodeUpper = .ok (upperRolls, c1.rng) ∧
      res.Rolls = res.First :: (lowerRolls ++ upperRolls) ∧
      res.LowerExplosions = lowerRolls.length ∧
      res.UpperExplosions = upperRolls.length ∧
      (res.Rolls.length : ℤ) = 1 + res.LowerExplosions + res.UpperExplosions ∧
      res.Rolls[0]? = some res.First ∧
      res.Rolls.getLast? = some res.Last ∧
      res.Sum = res.Rolls.sum := by
  obtain ⟨l, u, rng1, rng2, h1, h2, hrolls, hlast, hsum, hlo, hup⟩ :=
    One_parts env fuel c r res c1 h
  refine ⟨l, u, rng1, rng2, h1, h2, hrolls, hlo, hup, ?_, ?_, ?_, ?_⟩
  · rw [hrolls, hlo, hup]
    simp only [List.length_cons, List.length_append, Nat.cast_add, Nat.cast_one]
    ring
  · rw [hrolls]
    simp
  · rw [hrolls, hlast]
    exact List.getLast?_eq_getLast _ _
  · rw [hrolls, hsum]

/-- C5 at the caster `demoCaster` on D6: the first roll 2 explodes once below, and the
result is Rolls = [2, 4], First 2, Last 4, Sum 6 with one lower explosion. -/
theorem one_result_shape_witness :
    ∃ res c1, demoCaster.One demoEnv 3 [D6] = .ok (res, c1) ∧
      res.Rolls = [2, 4] ∧ res.First = 2 ∧ res.Last = 4 ∧ res.Sum = 6 ∧
      res.LowerExplosions = 1 ∧ res.UpperExplosions = 0 ∧
      (res.Rolls.length : ℤ) = 1 + res.LowerExplosions + res.UpperExplosions ∧
      res.Rolls[0]? = some res.First ∧
      res.Rolls.getLast? = some res.Last ∧
      res.Sum = res.Rolls.sum := by
  refine ⟨_, _, by with_unfolding_all rfl, by with_unfolding_all rfl, by with_unfolding_all rfl,
    by with_unfolding_all rfl, by with_unfolding_all rfl, by with_unfolding_all rfl,
    by with_unfolding_all rfl, ?_⟩
  obtain ⟨l, u, rng1, rng2, -, -, -, -, -, h6, h7, h8, h9⟩ :=
    one_result_shape demoEnv 3 demoCaster [D6] _ _ (by with_unfolding_all rfl)
  exact ⟨h6, h7, h8, h9⟩

/-- C6. Explosion chains are bounded.  With fuel for the two maxima, processExplosion
under either condition of the configuration, from any roll and stream, and One itself,
fail only when a draw fails: the loop does not run on.  Every result of One has
0 <= LowerExplosions <= max(0, MaxLowerExplosions) and
0 <= UpperExplosions <= max(0, MaxUpperExplosions), and when both maxima are 0, as they
are in the configuration extracted from DefaultOptions, Rolls has exactly one element. -/
theorem explosions_bounded {σ T : Type} [LinearOrder T] [AddCommMonoidWithOne T] (env : Env σ)
    (fuel : Nat) (c : DistCaster σ T) (r : List (Range T))
    (hl : (max 0 c.cfg.MaxLowerExplosions).toNat ≤ fuel)
    (hu : (max 0 c.cfg.MaxUpperExplosions).toNat ≤ fuel) :
    (∀ (cur : T) (p : FloatParams) (e : Err),
      c.processExplosion env fuel cur p c.cfg.shouldExplodeLower = .error e →
      ∃ rng, rollFloat env c.cfg.Dist p rng = .error e) ∧
    (∀ (cur : T) (p : FloatParams) (e : Err),
      c.processExplosion env fuel cur p c.cfg.shouldExplodeUpper = .error e →
      ∃ rng, rollFloat env c.cfg.Dist p rng = .error e) ∧
    (∀ e : Err, c.One env fuel r = .error e →
      ∃ rng, rollFloat env c.cfg.Dist
        { toRange := c.floatRange (defaultRange r), Weight := c.cfg.Weight } rng = .error e) ∧
    (∀ (res : Result T) (c1 : DistCaster σ T), c.One env fuel r = .ok (res, c1) →
      0 ≤ res.LowerExplosions ∧ res.LowerExplosions ≤ max 0 c.cfg.MaxLowerExplosions ∧
      0 ≤ res.UpperExplosions ∧ res.UpperExplosions ≤ max 0 c.cfg.MaxUpperExplosions ∧
      (c.cfg.MaxLowerExplosions = 0 → c.cfg.MaxUpperExplosions = 0 → res.Rolls.length = 1)) ∧
    (distConfigFromOptions (DefaultOptions env : Options σ T)).MaxLowerExplosions = 0 ∧
    (distConfigFromOptions (DefaultOptions env : Options σ T)).MaxUpperExplosions = 0 := by
  refine ⟨?_, ?_, fun e h => One_error env fuel c r e hl hu h, ?_, rfl, rfl⟩
  · intro cur p e h
    exact explosionLoop_error env _ _ _ _ c.cfg.MaxLowerExplosions
      (shouldExplodeLower_bound c.cfg.toconfig) fuel _ _ _ _
      (by simp only [List.length_nil, Nat.cast_zero]; omega) h
  · intro cur p e h
    exact explosionLoop_error env _ _ _ _ c.cfg.MaxUpperExplosions
      (shouldExplodeUpper_bound c.cfg.toconfig) fuel _ _ _ _
      (by simp only [List.length_nil, Nat.cast_zero]; omega) h
  · intro res c1 h
    obtain ⟨l, u, hrolls, -, -, hlo, hup, hlc, huc, -, -⟩ :=
      One_inv env fuel c r res c1 (fun _ => True) (fun _ _ _ _ => trivial) h
    have h1 := explosionChain_length _ c.cfg.MaxLowerExplosions
      (shouldExplodeLower_bound c.cfg.toconfig) l _ _ hlc
    have h2 := explosionChain_length _ c.cfg.MaxUpperExplosions
      (shouldExplodeUpper_bound c.cfg.toconfig) u _ _ huc
    have hl0 : (0 : ℤ) ≤ l.length := Int.natCast_nonneg _
    have hu0 : (0 : ℤ) ≤ u.length := Int.natCast_nonneg _
    have hlb : (l.length : ℤ) ≤ max 0 c.cfg.MaxLowerExplosions := by
      rcases h1 with h1 | h1
      · simp [h1]
      · exact le_max_of_le_right (by omega)
    have hub : (u.length : ℤ) ≤ max 0 c.cfg.MaxUpperExplosions := by
      rcases h2 with h2 | h2
      · simp [h2]
      · exact le_max_of_le_right (by omega)
    refine ⟨hlo ▸ hl0, hlo ▸ hlb, hup ▸ hu0, hup ▸ hub, ?_⟩
    intro hm1 hm2
    rw [hm1] at hlb
    rw [hm2] at hub
    have hl1 : l.length = 0 := by
      have : (l.length : ℤ) ≤ 0 := by simpa using hlb
      omega
    have hu1 : u.length = 0 := by
      have : (u.length : ℤ) ≤ 0 := by simpa using hub
      omega
    rw [hrolls]
    simp [hl1, hu1]

/-- C6 at the caster `demoCaster` (maxima 2 and 0) on D6 with fuel 2: One returns, with
one lower explosion and no upper one. -/
theorem explosions_bounded_witness :
    (max 0 demoCaster.cfg.MaxLowerExplosions).toNat ≤ 2 ∧
    (max 0 demoCaster.cfg.MaxUpperExplosions).toNat ≤ 2 ∧
    ∃ res c1, demoCaster.One demoEnv 2 [D6] = .ok (res, c1) ∧
      0 ≤ res.LowerExplosions ∧ res.LowerExplosions ≤ max 0 demoCaster.cfg.MaxLowerExplosions ∧
      0 ≤ res.UpperExplosions ∧ res.UpperExplosions ≤ max 0 demoCaster.cfg.MaxUpperExplosions ∧
      res.LowerExplosions = 1 := by
  have hl : (max 0 demoCaster.cfg.MaxLowerExplosions).toNat ≤ 2 := by
    with_unfolding_all decide
  have hu : (max 0 demoCaster.cfg.MaxUpperExplosions).toNat ≤ 2 := by
    with_unfolding_all decide
  have h := (explosions_bounded demoEnv 2 demoCaster [D6] hl hu).2.2.2.1 _ _
    (by with_unfolding_all rfl)
  exact ⟨hl, hu, _, _, by with_unfolding_all rfl, h.1, h.2.1, h.2.2.1, h.2.2.2.1,
    by with_unfolding_all rfl⟩

/-- C7. Lower-explosion chain semantics.  In a result of One with lower rolls L (the
LowerExplosions rolls that follow the first roll in Rolls): LowerExplosions = 0 exactly
when MaxLowerExplosions <= 0 or the first roll is >= RerollBelow; the value preceding
each L[i] (the first roll for i = 0, else L[i-1]) is strictly below RerollBelow; when
len(L) < MaxLowerExplosions the last value of the chain is >= RerollBelow; and the
condition is false on a value equal to RerollBelow, at every count. -/
theorem lower_chain_semantics {σ T : Type} [LinearOrder T] [AddCommMonoidWithOne T]
    (env : Env σ) (fuel : Nat) (c : DistCaster σ T) (r : List (Range T)) (res : Result T)
    (c1 : DistCaster σ T) (h : c.One env fuel r = .ok (res, c1)) :
    ∃ (L U : List T),
      res.Rolls = res.First :: (L ++ U) ∧
      res.LowerExplosions = L.length ∧ res.UpperExplosions = U.length ∧
      (res.LowerExplosions = 0 ↔
        (c.cfg.MaxLowerExplosions ≤ 0 ∨ c.cfg.RerollBelow ≤ res.First)) ∧
      (∀ i (hi : i < L.length),
        (res.First :: L).get ⟨i, by simp; omega⟩ < c.cfg.RerollBelow) ∧
      ((L.length : ℤ) < c.cfg.MaxLowerExplosions →
        c.cfg.RerollBelow ≤ (res.First :: L).getLast (List.cons_ne_nil _ _)) ∧
      (∀ k : ℤ, c.cfg.shouldExplodeLower c.cfg.RerollBelow k = false) := by
  obtain ⟨L, U, hrolls, -, -, hlo, hup, hlc, -, -, -⟩ :=
    One_inv env fuel c r res c1 (fun _ => True) (fun _ _ _ _ => trivial) h
  obtain ⟨hsteps, hlast⟩ := explosionChain_steps _ L _ _ hlc
  refine ⟨L, U, hrolls, hlo, hup, ?_, ?_, ?_, ?_⟩
  · rw [hlo]
    cases L with
    | nil =>
      simp only [explosionChain, config.shouldExplodeLower, Bool.and_eq_false_imp,
        decide_eq_true_eq, decide_eq_false_iff_not, not_lt] at hlc
      simp only [List.length_nil, Nat.cast_zero, true_iff]
      by_cases hm : c.cfg.MaxLowerExplosions ≤ 0
      · exact Or.inl hm
      · exact Or.inr (hlc (by omega))
    | cons x xs =>
      obtain ⟨hse, -⟩ := hlc
      simp only [config.shouldExplodeLower, Bool.and_eq_true, decide_eq_true_eq] at hse
      simp only [List.length_cons, Nat.cast_add, Nat.cast_one]
      constructor
      · intro h0
        omega
      · rintro (hm | hf)
        · omega
        · exact absurd hse.2 (not_lt.2 hf)
  · intro i hi
    have := hsteps i hi
    simp only [config.shouldExplodeLower, Bool.and_eq_true, decide_eq_true_eq] at this
    exact this.2
  · intro hlt
    simp only [config.shouldExplodeLower, Bool.and_eq_false_imp, decide_eq_true_eq,
      decide_eq_false_iff_not, not_lt, zero_add] at hlast
    exact hlast hlt
  · intro k
    simp [config.shouldExplodeLower]

/-- C7 at the caster `demoCaster` (RerollBelow 3, two lower explosions allowed) on D6:
the first roll 2 is below 3 and explodes, the lower roll 4 is not and ends the chain
before the maximum. -/
theorem lower_chain_semantics_witness :
    ∃ res c1, demoCaster.One demoEnv 3 [D6] = .ok (res, c1) ∧ res.Rolls = [2, 4] ∧
      ∃ (L U : List ℤ),
        res.Rolls = res.First :: (L ++ U) ∧
        res.LowerExplosions = L.length ∧ res.UpperExplosions = U.length ∧
        (res.LowerExplosions = 0 ↔
          (demoCaster.cfg.MaxLowerExplosions ≤ 0 ∨ demoCaster.cfg.RerollBelow ≤ res.First)) ∧
        (∀ i (hi : i < L.length),
          (res.First :: L).get ⟨i, by simp; omega⟩ < demoCaster.cfg.RerollBelow) ∧
        ((L.length : ℤ) < demoCaster.cfg.MaxLowerExplosions →
          demoCaster.cfg.RerollBelow ≤ (res.First :: L).getLast (List.cons_ne_nil _ _)) ∧
        (∀ k : ℤ, demoCaster.cfg.shouldExplodeLower demoCaster.cfg.RerollBelow k = false) :=
  ⟨_, _, by with_unfolding_all rfl, by with_unfolding_all rfl,
    lower_chain_semantics demoEnv 3 demoCaster [D6] _ _ (by with_unfolding_all rfl)⟩

/-- C8. The upper-explosion loop starts from the original first roll.  In a result of
One with lower rolls L and upper rolls U: UpperExplosions > 0 exactly when
MaxUpperExplosions > 0 and the first roll is strictly above RerollAbove, a condition in
which L does not occur; the value preceding each U[i] (the first roll for i = 0, not the
last lower roll, else U[i-1]) is strictly above RerollAbove; and when
len(U) < MaxUpperExplosions the newest value of the upper chain is not above
RerollAbove. -/
theorem upper_chain_from_first_roll {σ T : Type} [LinearOrder T] [AddCommMonoidWithOne T]
    (env : Env σ) (fuel : Nat) (c : DistCaster σ T) (r : List (Range T)) (res : Result T)
    (c1 : DistCaster σ T) (h : c.One env fuel r = .ok (res, c1)) :
    ∃ (L U : List T),
      res.Rolls = res.First :: (L ++ U) ∧
      res.LowerExplosions = L.length ∧ res.UpperExplosions = U.length ∧
      (res.UpperExplosions > 0 ↔
        (c.cfg.MaxUpperExplosions > 0 ∧ res.First > c.cfg.RerollAbove)) ∧
      (∀ i (hi : i < U.length),
        (res.First :: U).get ⟨i, by simp; omega⟩ > c.cfg.RerollAbove) ∧
      ((U.length : ℤ) < c.cfg.MaxUpperExplosions →
        (res.First :: U).getLast (List.cons_ne_nil _ _) ≤ c.cfg.RerollAbove) := by
  obtain ⟨L, U, hrolls, -, -, hlo, hup, -, huc, -, -⟩ :=
    One_inv env fuel c r res c1 (fun _ => True) (fun _ _ _ _ => trivial) h
  obtain ⟨hsteps, hlast⟩ := explosionChain_steps _ U _ _ huc
  refine ⟨L, U, hrolls, hlo, hup, ?_, ?_, ?_⟩
  · rw [hup]
    cases U with
    | nil =>
      simp only [explosionChain, config.shouldExplodeUpper, Bool.and_eq_false_imp,
        decide_eq_true_eq, decide_eq_false_iff_not, not_lt, gt_iff_lt] at huc
      simp only [List.length_nil, Nat.cast_zero, gt_iff_lt, lt_self_iff_false, false_iff,
        not_and, not_lt]
      exact huc
    | cons x xs =>
      obtain ⟨hse, -⟩ := huc
      simp only [config.shouldExplodeUpper, Bool.and_eq_true, decide_eq_true_eq] at hse
      simp only [List.length_cons, Nat.cast_add, Nat.cast_one, gt_iff_lt]
      constructor
      · intro _
        exact ⟨by omega, hse.2⟩
      · intro _
        omega
  · intro i hi
    have := hsteps i hi
    simp only [config.shouldExplodeUpper, Bool.and_eq_true, decide_eq_true_eq] at this
    exact this.2
  · intro hlt
    simp only [config.shouldExplodeUpper, Bool.and_eq_false_imp, decide_eq_true_eq,
      decide_eq_false_iff_not, not_lt, zero_add, gt_iff_lt] at hlast
    exact hlast hlt

/-- C8 at the caster `demoCasterB` on D6: the first roll 2 gives the lower roll 4, and
the upper chain starts again from 2 (above RerollAbove = 1), giving the upper rolls 5
and 1. -/
theorem upper_chain_from_first_roll_witness :
    ∃ res c1, demoCasterB.One demoEnv 3 [D6] = .ok (res, c1) ∧ res.Rolls = [2, 4, 5, 1] ∧
      res.LowerExplosions = 1 ∧ res.UpperExplosions = 2 ∧
      ∃ (L U : List ℤ),
        res.Rolls = res.First :: (L ++ U) ∧
        res.LowerExplosions = L.length ∧ res.UpperExplosions = U.length ∧
        (res.UpperExplosions > 0 ↔
          (demoCasterB.cfg.MaxUpperExplosions > 0 ∧ res.First > demoCasterB.cfg.RerollAbove)) ∧
        (∀ i (hi : i < U.length),
          (res.First :: U).get ⟨i, by simp; omega⟩ > demoCasterB.cfg.RerollAbove) ∧
        ((U.length : ℤ) < demoCasterB.cfg.MaxUpperExplosions →
          (res.First :: U).getLast (List.cons_ne_nil _ _) ≤ demoCasterB.cfg.RerollAbove) :=
  ⟨_, _, by with_unfolding_all rfl, by with_unfolding_all rfl, by with_unfolding_all rfl,
    by with_unfolding_all rfl,
    upper_chain_from_first_roll demoEnv 3 demoCasterB [D6] _ _ (by with_unfolding_all rfl)⟩

/-! ## Multiple is repeated One -/

/-- One reads its range arguments through defaultRange only. -/
theorem One_defaultRange {σ T : Type} [LinearOrder T] [AddCommMonoidWithOne T] (env : Env σ)
    (fuel : Nat) (c : DistCaster σ T) (r : List (Range T)) :
    c.One env fuel [defaultRange r] = c.One env fuel r := by
  rw [One_eq, One_eq]
  rfl

/-- The loop of DistCaster.Multiple fills the slots left of the slice with the results
of the successive calls of One. -/
theorem distMultipleLoop_eq {σ T : Type} [LinearOrder T] [AddCommMonoidWithOne T]
    (env : Env σ) (fuel : Nat) (r : List (Range T)) :
    ∀ (n : Nat) (pre : List (Result T)) (c : DistCaster σ T),
      DistCaster.multipleLoop env fuel (defaultRange r) n pre.length
          (pre ++ List.replicate n Result.zero) c
        = match DistCaster.successive env fuel r n c with
          | .error e => .error e
          | .ok (rs, c1) => .ok (pre ++ rs, c1) := by
  intro n
  induction n with
  | zero =>
    intro pre c
    simp [DistCaster.multipleLoop, DistCaster.successive]
  | succ n ih =>
    intro pre c
    simp only [DistCaster.multipleLoop, DistCaster.successive, One_defaultRange]
    cases h : c.One env fuel r with
    | error e => rfl
    | ok d =>
      obtain ⟨res, c1⟩ := d
      simp only []
      have hset : (pre ++ List.replicate (n + 1) Result.zero).set pre.length res
          = (pre ++ [res]) ++ List.replicate n Result.zero := by
        rw [List.set_append_right _ _ (le_refl _)]
        simp [List.replicate_succ]
      have hlen : pre.length + 1 = (pre ++ [res]).length := by simp
      rw [hset, hlen, ih (pre ++ [res]) c1]
      cases DistCaster.successive env fuel r n c1 with
      | error e => rfl
      | ok d2 => simp

/-- The loop of WeightedCaster.Multiple fills the slots left of the slice with the
results of the successive calls of One. -/
theorem weightedMultipleLoop_eq {σ T : Type} [Zero T] (env : Env σ)
    (r : List (Range T)) :
    ∀ (n : Nat) (pre : List (Result T)) (c : WeightedCaster σ T),
      WeightedCaster.multipleLoop env n pre.length (pre ++ List.replicate n Result.zero) c
        = (pre ++ (WeightedCaster.successive env r n c).1,
            (WeightedCaster.successive env r n c).2) := by
  intro n
  induction n with
  | zero =>
    intro pre c
    simp [WeightedCaster.multipleLoop, WeightedCaster.successive]
  | succ n ih =>
    intro pre c
    simp only [WeightedCaster.multipleLoop, WeightedCaster.successive]
    have hone : c.One env [] = c.One env r := rfl
    have hset : (pre ++ List.replicate (n + 1) Result.zero).set pre.length (c.One env r).1
        = (pre ++ [(c.One env r).1]) ++ List.replicate n Result.zero := by
      rw [List.set_append_right _ _ (le_refl _)]
      simp [List.replicate_succ]
    have hlen : pre.length + 1 = (pre ++ [(c.One env r).1]).length := by simp
    rw [hone, hset, hlen, ih (pre ++ [(c.One env r).1]) (c.One env r).2]
    simp

/-- The successive calls of One on a dist caster return one result per call. -/
theorem distSuccessive_length {σ T : Type} [LinearOrder T] [AddCommMonoidWithOne T]
    (env : Env σ) (fuel : Nat) (r : List (Range T)) :
    ∀ (n : Nat) (c : DistCaster σ T) (rs : List (Result T)) (c1 : DistCaster σ T),
      DistCaster.successive env fuel r n c = .ok (rs, c1) → rs.length = n := by
  intro n
  induction n with
  | zero =>
    intro c rs c1 h
    simp only [DistCaster.successive] at h
    injection h with h
    injection h with h1 h2
    simp [← h1]
  | succ n ih =>
    intro c rs c1 h
    simp only [DistCaster.successive] at h
    split at h
    · cases h
    · rename_i res c2 hone
      split at h
      · cases h
      · rename_i rest c3 hrest
        injection h with h
        injection h with h1 h2
        rw [← h1, List.length_cons, ih _ _ _ hrest]

/-- The successive calls of One on a weighted caster return one result per call. -/
theorem weightedSuccessive_length {σ T : Type} [Zero T] (env : Env σ)
    (r : List (Range T)) :
    ∀ (n : Nat) (c : WeightedCaster σ T), (WeightedCaster.successive env r n c).1.length = n := by
  intro n
  induction n with
  | zero => intro c; rfl
  | succ n ih =>
    intro c
    simp only [WeightedCaster.successive, List.length_cons, ih]

/-- C9. Multiple is count successive calls of One.  For count >= 0, on a DistCaster and
on a WeightedCaster, Multiple(count, r) returns what `count` successive calls of One(r)
on the same caster return, in call order, with the stream where those calls leave it
(and fails where one of them fails); it returns exactly count results; and
Multiple(0) returns the empty list and leaves the caster, its stream included, as it
was. -/
theorem multiple_eq_successive {σ T : Type} [LinearOrder T] [AddCommMonoidWithOne T]
    (env : Env σ) (fuel : Nat) (c : DistCaster σ T) (w : WeightedCaster σ T) (count : ℤ)
    (r : List (Range T)) (hc : 0 ≤ count) :
    c.Multiple env fuel count r = DistCaster.successive env fuel r count.toNat c ∧
    (∀ rs c1, c.Multiple env fuel count r = .ok (rs, c1) → (rs.length : ℤ) = count) ∧
    c.Multiple env fuel 0 r = .ok ([], c) ∧
    w.Multiple env count r = .ok (WeightedCaster.successive env r count.toNat w) ∧
    (((WeightedCaster.successive env r count.toNat w).1.length : ℤ) = count) ∧
    w.Multiple env 0 r = .ok ([], w) := by
  have hd : c.Multiple env fuel count r = DistCaster.successive env fuel r count.toNat c := by
    have h := distMultipleLoop_eq env fuel r count.toNat [] c
    simp only [List.length_nil, List.nil_append] at h
    simp only [DistCaster.Multiple, not_lt.2 hc, if_false, h]
    cases DistCaster.successive env fuel r count.toNat c with
    | error e => rfl
    | ok d => rfl
  refine ⟨hd, ?_, ?_, ?_, ?_, ?_⟩
  · intro rs c1 h
    rw [hd] at h
    rw [distSuccessive_length env fuel r _ _ _ _ h]
    omega
  · simp [DistCaster.Multiple, DistCaster.multipleLoop]
  · have h := weightedMultipleLoop_eq env r count.toNat [] w
    simp only [List.length_nil, List.nil_append] at h
    simp only [WeightedCaster.Multiple, not_lt.2 hc, if_false, h]
  · rw [weightedSuccessive_length]
    omega
  · simp [WeightedCaster.Multiple, WeightedCaster.multipleLoop]

/-- C9 at `demoCaster` and `demoWeighted` with count 3 on D6: three results each, those
of three successive calls of One. -/
theorem multiple_eq_successive_witness :
    (0 : ℤ) ≤ 3 ∧
    (∃ a b d c1 c2 c3, demoCaster.One demoEnv 3 [D6] = .ok (a, c1) ∧
      c1.One demoEnv 3 [D6] = .ok (b, c2) ∧ c2.One demoEnv 3 [D6] = .ok (d, c3) ∧
      demoCaster.Multiple demoEnv 3 3 [D6] = .ok ([a, b, d], c3)) ∧
    demoCaster.Multiple demoEnv 3 3 [D6] = DistCaster.successive demoEnv 3 [D6] 3 demoCaster ∧
    demoCaster.Multiple demoEnv 3 0 [D6] = .ok ([], demoCaster) ∧
    demoWeighted.Multiple demoEnv 3 [D6]
      = .ok (WeightedCaster.successive demoEnv [D6] 3 demoWeighted) ∧
    (WeightedCaster.successive demoEnv [D6] 3 demoWeighted).1.map Result.First = [3, 1, 3] := by
  have h := multiple_eq_successive demoEnv 3 demoCaster demoWeighted 3 [D6] (by decide)
  refine ⟨by decide, ⟨_, _, _, _, _, _, by with_unfolding_all rfl, by with_unfolding_all rfl,
    by with_unfolding_all rfl, by with_unfolding_all rfl⟩, h.1, h.2.2.1, h.2.2.2.1,
    by with_unfolding_all rfl⟩

/-! ## Odds consumes no randomness -/

/-- The successive calls of One leave the configuration and the conversions of a dist
caster as they were. -/
theorem distSuccessive_cfg {σ T : Type} [LinearOrder T] [AddCommMonoidWithOne T]
    (env : Env σ) (fuel : Nat) (r : List (Range T)) :
    ∀ (n : Nat) (c : DistCaster σ T) (rs : List (Result T)) (c1 : DistCaster σ T),
      DistCaster.successive env fuel r n c = .ok (rs, c1) →
      c1.cfg = c.cfg ∧ c1.floatRange = c.floatRange ∧ c1.convert = c.convert := by
  intro n
  induction n with
  | zero =>
    intro c rs c1 h
    simp only [DistCaster.successive] at h
    injection h with h
    injection h with h1 h2
    subst h2
    exact ⟨rfl, rfl, rfl⟩
  | succ n ih =>
    intro c rs c1 h
    simp only [DistCaster.successive] at h
    split at h
    · cases h
    · rename_i res c2 hone
      split at h
      · cases h
      · rename_i rest c3 hrest
        injection h with h
        injection h with h1 h2
        subst h2
        obtain ⟨-, -, -, -, -, -, -, -, -, -, hc, hf, hv⟩ :=
          One_inv env fuel c r res c2 (fun _ => True) (fun _ _ _ _ => trivial) hone
        obtain ⟨hc3, hf3, hv3⟩ := ih _ _ _ hrest
        exact ⟨hc3.trans hc, hf3.trans hf, hv3.trans hv⟩

/-- Multiple leaves the configuration of a dist caster as it was. -/
theorem distMultiple_cfg {σ T : Type} [LinearOrder T] [AddCommMonoidWithOne T]
    (env : Env σ) (fuel : Nat) (c : DistCaster σ T) (count : ℤ) (r : List (Range T))
    (rs : List (Result T)) (c1 : DistCaster σ T)
    (h : c.Multiple env fuel count r = .ok (rs, c1)) :
    c1.cfg = c.cfg ∧ c1.floatRange = c.floatRange ∧ c1.convert = c.convert := by
  unfold DistCaster.Multiple at h
  simp only [] at h
  split at h
  · cases h
  · have hl := distMultipleLoop_eq env fuel r count.toNat [] c
    simp only [List.length_nil, List.nil_append] at hl
    rw [hl] at h
    split at h
    · cases h
    · rename_i rs2 c2 hs
      injection h with h
      injection h with h1 h2
      subst h2
      exact distSuccessive_cfg env fuel r _ _ _ _ hs

/-- Odds of a dist caster reads the configuration and the range conversion only. -/
theorem distOdds_congr {σ T : Type} [constraint T] [AddCommMonoidWithOne T]
    (c c1 : DistCaster σ T) (r : List (Range T)) (hc : c1.cfg = c.cfg)
    (hf : c1.floatRange = c.floatRange) : c1.Odds r = c.Odds r := by
  unfold DistCaster.Odds
  rw [hc, hf]

/-- On a dist caster with a distribution, a sequence of calls with Odds calls among
them returns what the sequence without them returns. -/
theorem distRunSteps_eq {σ T : Type} [LinearOrder T] [AddCommMonoidWithOne T] [constraint T]
    (env : Env σ) (fuel : Nat) (d : Distribution σ) :
    ∀ (steps : List (Step T)) (c : DistCaster σ T), c.cfg.Dist = some d →
      c.runSteps env fuel steps = c.run env fuel (stepCalls steps) := by
  intro steps
  induction steps with
  | nil => intro c _; rfl
  | cons st rest ih =>
    intro c hd
    cases st with
    | One r =>
      simp only [DistCaster.runSteps, stepCalls, DistCaster.run]
      cases h : c.One env fuel r with
      | error e => rfl
      | ok p =>
        obtain ⟨res, c1⟩ := p
        obtain ⟨-, -, -, -, -, -, -, -, -, -, hc, -, -⟩ :=
          One_inv env fuel c r res c1 (fun _ => True) (fun _ _ _ _ => trivial) h
        simp only []
        rw [ih c1 (by rw [hc]; exact hd)]
    | Multiple count r =>
      simp only [DistCaster.runSteps, stepCalls, DistCaster.run]
      cases h : c.Multiple env fuel count r with
      | error e => rfl
      | ok p =>
        obtain ⟨res, c1⟩ := p
        obtain ⟨hc, -, -⟩ := distMultiple_cfg env fuel c count r res c1 h
        simp only []
        rw [ih c1 (by rw [hc]; exact hd)]
    | Odds r =>
      simp only [DistCaster.runSteps, stepCalls, Odds_eq c r d hd]
      exact ih c hd

/-- A sequence of calls on a weighted caster with Odds calls among them returns what
the sequence without them returns. -/
theorem weightedRunSteps_eq {σ T : Type} [Zero T] (env : Env σ) :
    ∀ (steps : List (Step T)) (c : WeightedCaster σ T),
      c.runSteps env steps = c.run env (stepCalls steps) := by
  intro steps
  induction steps with
  | nil => intro c; rfl
  | cons st rest ih =>
    intro c
    cases st with
    | One r =>
      simp only [WeightedCaster.runSteps, stepCalls, WeightedCaster.run, ih]
    | Multiple count r =>
      simp only [WeightedCaster.runSteps, stepCalls, WeightedCaster.run]
      cases h : c.Multiple env count r with
      | error e => rfl
      | ok p =>
        obtain ⟨res, c1⟩ := p
        simp only [ih]
    | Odds r =>
      simp only [WeightedCaster.runSteps, stepCalls]
      exact ih c

/-- C11. Odds is analytic and consumes no randomness.  The table Odds returns is the
same at every position of the stream, and the same for two casters with the same
configuration (and range conversion), for a DistCaster and for a WeightedCaster; and a
sequence of One and Multiple calls in which Odds calls are inserted returns, call for
call, the results of the sequence without them, on a WeightedCaster and on a
DistCaster with a distribution (on which Odds does not panic). -/
theorem odds_consumes_no_randomness {σ T : Type} [LinearOrder T] [AddCommMonoidWithOne T]
    [constraint T] (env : Env σ) (fuel : Nat) (c : DistCaster σ T) (w : WeightedCaster σ T)
    (d : Distribution σ) (hd : c.cfg.Dist = some d) :
    (∀ (s : σ) (r : List (Range T)), ({ c with rng := s } : DistCaster σ T).Odds r = c.Odds r) ∧
    (∀ (c1 : DistCaster σ T) (r : List (Range T)), c1.cfg = c.cfg →
      c1.floatRange = c.floatRange → c1.Odds r = c.Odds r) ∧
    (∀ (s : σ) (r : List (Range T)),
      ({ w with rng := s } : WeightedCaster σ T).Odds r = w.Odds r) ∧
    (∀ (w1 : WeightedCaster σ T) (r r1 : List (Range T)), w1.cfg = w.cfg →
      w1.Odds r1 = w.Odds r) ∧
    (∀ steps : List (Step T),
      c.runSteps env fuel steps = c.run env fuel (stepCalls steps)) ∧
    (∀ steps : List (Step T), w.runSteps env steps = w.run env (stepCalls steps)) := by
  refine ⟨fun s r => rfl, fun c1 r hc hf => distOdds_congr c c1 r hc hf, fun s r => rfl, ?_,
    fun steps => distRunSteps_eq env fuel d steps c hd,
    fun steps => weightedRunSteps_eq env steps w⟩
  intro w1 r r1 hc
  unfold WeightedCaster.Odds
  rw [hc]

/-- C11 at `demoCaster` and `demoWeighted`: the call sequence `demoSteps`, with three
Odds calls in it, returns the results of `demoCalls`. -/
theorem odds_consumes_no_randomness_witness :
    demoCaster.cfg.Dist = some (uniformDist demoEnv) ∧
    stepCalls demoSteps = demoCalls ∧
    demoCaster.runSteps demoEnv 3 demoSteps = demoCaster.run demoEnv 3 demoCalls ∧
    demoWeighted.runSteps demoEnv demoSteps = demoWeighted.run demoEnv demoCalls ∧
    (({ demoCaster with rng := 17 } : DistCaster ℕ ℤ).Odds [D6] = demoCaster.Odds [D6]) :=
  have h := odds_consumes_no_randomness demoEnv 3 demoCaster demoWeighted
    (uniformDist demoEnv) rfl
  ⟨rfl, rfl, h.2.2.2.2.1 demoSteps, h.2.2.2.2.2 demoSteps, h.1 17 [D6]⟩

/-! ## The weighted caster: odds and selection -/

/-- The accumulation loop over the tickets computes the sum of their weights. -/
theorem foldl_weight_eq_sum {T : Type} (ts : List (ticket T)) (a : ℚ) :
    ts.foldl (fun acc t => acc + t.weight) a = a + (ts.map ticket.weight).sum := by
  induction ts generalizing a with
  | nil => simp
  | cons t ts ih => simp [ih, add_assoc]

/-- The total weight is the sum of the weights. -/
theorem totalWeight_eq_sum {T : Type} (ts : List (ticket T)) :
    totalWeight ts = (ts.map ticket.weight).sum := by
  simp [totalWeight, foldl_weight_eq_sum]

/-- The cumulative weight of all tickets is the total weight. -/
theorem cumWeight_length {T : Type} (ts : List (ticket T)) :
    cumWeight ts ts.length = totalWeight ts := by
  simp [cumWeight, totalWeight_eq_sum]

/-- The cumulative weight of no ticket is 0. -/
theorem cumWeight_zero {T : Type} (ts : List (ticket T)) : cumWeight ts 0 = 0 := by
  simp [cumWeight]

/-- The cumulative weight after the head of a slice. -/
theorem cumWeight_cons {T : Type} (t : ticket T) (ts : List (ticket T)) (i : Nat) :
    cumWeight (t :: ts) (i + 1) = t.weight + cumWeight ts i := by
  simp [cumWeight]

/-- One more ticket adds its weight to the cumulative weight. -/
theorem cumWeight_succ {T : Type} (ts : List (ticket T)) (k : Nat) (hk : k < ts.length) :
    cumWeight ts (k + 1) = cumWeight ts k + (ts.get ⟨k, hk⟩).weight := by
  induction ts generalizing k with
  | nil => simp at hk
  | cons t ts ih =>
    cases k with
    | zero => simp [cumWeight]
    | succ k =>
      have hk2 : k < ts.length := by simpa using hk
      rw [cumWeight_cons, cumWeight_cons, ih k hk2]
      simp [add_assoc]

/-- Past the end of the slice the cumulative weight stays the total weight. -/
theorem cumWeight_of_length_le {T : Type} (ts : List (ticket T)) (k : Nat)
    (hk : ts.length ≤ k) : cumWeight ts k = totalWeight ts := by
  simp [cumWeight, totalWeight_eq_sum, List.take_of_length_le hk]

/-- With non-negative weights the cumulative weight does not decrease. -/
theorem cumWeight_mono {T : Type} (ts : List (ticket T)) (hnn : ∀ t ∈ ts, 0 ≤ t.weight)
    (a b : Nat) (hab : a ≤ b) : cumWeight ts a ≤ cumWeight ts b := by
  have hstep : ∀ k, cumWeight ts k ≤ cumWeight ts (k + 1) := by
    intro k
    by_cases hk : k < ts.length
    · rw [cumWeight_succ ts k hk]
      have := hnn _ (List.get_mem ts k hk)
      linarith
    · rw [cumWeight_of_length_le ts k (by omega), cumWeight_of_length_le ts (k + 1) (by omega)]
  exact monotone_nat_of_le_succ hstep hab

/-- When the selection loop returns a value, it is the value of the first ticket whose
cumulative weight exceeds rv. -/
theorem scanTickets_some {T : Type} (rv : ℚ) :
    ∀ (ts : List (ticket T)) (c : ℚ) (v : T), scanTickets rv c ts = some v →
      ∃ i, ∃ hi : i < ts.length, v = (ts.get ⟨i, hi⟩).value ∧
        rv < c + cumWeight ts (i + 1) ∧ ∀ j, j < i → c + cumWeight ts (j + 1) ≤ rv := by
  intro ts
  induction ts with
  | nil => intro c v h; simp [scanTickets] at h
  | cons t ts ih =>
    intro c v h
    unfold scanTickets at h
    split at h
    · rename_i hlt
      injection h with h
      refine ⟨0, by simp, by simp [h], ?_, ?_⟩
      · rw [cumWeight_cons, cumWeight_zero]
        simpa using hlt
      · intro j hj
        omega
    · rename_i hge
      obtain ⟨i, hi, hv, hlt, hfirst⟩ := ih _ _ h
      refine ⟨i + 1, by simpa using hi, by simpa using hv, ?_, ?_⟩
      · rw [cumWeight_cons]
        linarith
      · intro j hj
        cases j with
        | zero =>
          rw [cumWeight_cons, cumWeight_zero]
          simpa using not_lt.1 hge
        | succ j =>
          have := hfirst j (by omega)
          rw [cumWeight_cons]
          linarith

/-- When the selection loop falls through, no cumulative weight exceeds rv. -/
theorem scanTickets_none {T : Type} (rv : ℚ) :
    ∀ (ts : List (ticket T)) (c : ℚ), scanTickets rv c ts = none →
      ∀ j, j < ts.length → c + cumWeight ts (j + 1) ≤ rv := by
  intro ts
  induction ts with
  | nil => intro c _ j hj; simp at hj
  | cons t ts ih =>
    intro c h j hj
    unfold scanTickets at h
    split at h
    · cases h
    · rename_i hge
      cases j with
      | zero =>
        rw [cumWeight_cons, cumWeight_zero]
        simpa using not_lt.1 hge
      | succ j =>
        have := ih _ h j (by simpa using hj)
        rw [cumWeight_cons]
        linarith

/-- The value rollWeighted returns on a non-empty table is the value of a ticket. -/
theorem rollWeighted_mem {σ T : Type} [Zero T] (env : Env σ) (c : WeightedCaster σ T)
    (hne : c.cfg.tickets ≠ []) : (c.rollWeighted env).1 ∈ c.cfg.tickets.map ticket.value := by
  unfold WeightedCaster.rollWeighted
  simp only []
  split
  · rename_i v hv
    obtain ⟨i, hi, hval, -, -⟩ := scanTickets_some _ _ _ _ hv
    rw [hval]
    exact List.mem_map_of_mem _ (List.get_mem _ _ _)
  · split
    · rename_i t ht
      exact List.mem_map_of_mem _ (List.mem_of_getLast?_eq_some ht)
    · rename_i hnone
      exact absurd (List.getLast?_eq_none_iff.1 hnone) hne

/-- The map that the loop of WeightedCaster.Odds builds keeps the entry of a key none of
the tickets has. -/
theorem foldl_mapSet_of_not_mem {T : Type} [constraint T] (f : ticket T → ℚ) (k : ℤ) :
    ∀ (ts : List (ticket T)) (m : ℤ → Option ℚ),
      (∀ t ∈ ts, constraint.toInt t.value ≠ k) →
      ts.foldl (fun m t => mapSet m (constraint.toInt t.value) (f t)) m k = m k := by
  intro ts
  induction ts with
  | nil => intro m _; rfl
  | cons t ts ih =>
    intro m h
    simp only [List.foldl_cons]
    rw [ih _ (fun t1 ht1 => h t1 (List.mem_cons_of_mem _ ht1))]
    have := h t (List.mem_cons_self _ _)
    simp [mapSet, Ne.symm this]

/-- The map that the loop of WeightedCaster.Odds builds holds, at the key of a ticket of
a table with distinct keys, what the loop assigns for that ticket. -/
theorem foldl_mapSet_of_mem {T : Type} [constraint T] (f : ticket T → ℚ) :
    ∀ (ts : List (ticket T)) (m : ℤ → Option ℚ),
      ts.Pairwise (fun a b => constraint.toInt a.value ≠ constraint.toInt b.value) →
      ∀ t ∈ ts,
        ts.foldl (fun m t => mapSet m (constraint.toInt t.value) (f t)) m
          (constraint.toInt t.value) = some (f t) := by
  intro ts
  induction ts with
  | nil => intro m _ t ht; simp at ht
  | cons a ts ih =>
    intro m hp t ht
    obtain ⟨ha, hrest⟩ := List.pairwise_cons.1 hp
    simp only [List.foldl_cons]
    rcases List.mem_cons.1 ht with hta | hta
    · subst hta
      rw [foldl_mapSet_of_not_mem f _ ts _ (fun t1 ht1 => Ne.symm (ha t1 ht1))]
      simp [mapSet]
    · exact ih _ hrest t hta

/-- Odds of a weighted caster, in terms of the total weight. -/
theorem weightedOdds_eq {σ T : Type} [constraint T] (c : WeightedCaster σ T)
    (r : List (Range T)) :
    c.Odds r =
      if totalWeight c.cfg.tickets = 0 then
        { Probabilities := fun _ => none, LowerExplosionChance := 0, UpperExplosionChance := 0 }
      else
        { Probabilities := c.cfg.tickets.foldl
            (fun m t => mapSet m (constraint.toInt t.value)
              (t.weight / totalWeight c.cfg.tickets * 100))
            (fun _ => none)
          LowerExplosionChance := 0
          UpperExplosionChance := 0 } := rfl

/-- The first ticket whose cumulative weight exceeds rv, when weights are non-negative
and rv lies in [0, total): it exists and rollWeighted returns its value. -/
theorem rollWeighted_selected {σ T : Type} [Zero T] (env : Env σ) (c : WeightedCaster σ T)
    (hW : 0 < totalWeight c.cfg.tickets) (hu1 : (env.Float64 c.rng).1 < 1) :
    ∃ i, ∃ hi : i < c.cfg.tickets.length,
      (c.rollWeighted env).1 = (c.cfg.tickets.get ⟨i, hi⟩).value ∧
      (env.Float64 c.rng).1 * totalWeight c.cfg.tickets < cumWeight c.cfg.tickets (i + 1) ∧
      ∀ j, j < i →
        cumWeight c.cfg.tickets (j + 1) ≤ (env.Float64 c.rng).1 * totalWeight c.cfg.tickets := by
  have hrv : (env.Float64 c.rng).1 * totalWeight c.cfg.tickets < totalWeight c.cfg.tickets := by
    nlinarith
  unfold WeightedCaster.rollWeighted
  simp only []
  split
  · rename_i v hv
    obtain ⟨i, hi, hval, hlt, hfirst⟩ := scanTickets_some _ _ _ _ hv
    refine ⟨i, hi, hval, by simpa [totalWeight] using hlt, ?_⟩
    intro j hj
    simpa [totalWeight] using hfirst j hj
  · rename_i hnone
    have hall := scanTickets_none _ _ _ hnone
    exfalso
    cases hlen : c.cfg.tickets.length with
    | zero =>
      have : c.cfg.tickets = [] := List.length_eq_zero.1 hlen
      rw [this] at hW
      simp [totalWeight] at hW
    | succ n =>
      have h := hall n (by omega)
      rw [← hlen, cumWeight_length] at h
      simp only [zero_add] at h
      change totalWeight c.cfg.tickets ≤ (env.Float64 c.rng).1 * totalWeight c.cfg.tickets at h
      linarith

/-- C14. The empty ticket table.  One returns, with First = Last = Sum = 0, the zero
value of T (the model of One has no failure: it always returns), and Odds returns a
table without entries. -/
theorem weighted_empty_table {σ T : Type} [Zero T] [constraint T] (env : Env σ)
    (c : WeightedCaster σ T) (r : List (Range T)) (hempty : c.cfg.tickets = []) :
    (c.One env r).1.First = 0 ∧ (c.One env r).1.Last = 0 ∧ (c.One env r).1.Sum = 0 ∧
    (c.One env r).1.Rolls = [0] ∧
    (∀ v : ℤ, (c.Odds r).Probabilities v = none) := by
  have h : (c.rollWeighted env).1 = 0 := by
    unfold WeightedCaster.rollWeighted
    simp [hempty, scanTickets]
  refine ⟨h, h, h, ?_, ?_⟩
  · change [(c.rollWeighted env).1] = [0]
    rw [h]
  · intro v
    rw [weightedOdds_eq]
    simp [hempty, totalWeight]

/-- C14 at `demoEmptyWeighted`, derived from a source without custom weights. -/
theorem weighted_empty_table_witness :
    demoEmptyWeighted.cfg.tickets = [] ∧
    (demoEmptyWeighted.One demoEnv [D6]).1.First = 0 ∧
    (demoEmptyWeighted.One demoEnv [D6]).1.Last = 0 ∧
    (demoEmptyWeighted.One demoEnv [D6]).1.Sum = 0 ∧
    (demoEmptyWeighted.One demoEnv [D6]).1.Rolls = [0] ∧
    (∀ v : ℤ, (demoEmptyWeighted.Odds [D6]).Probabilities v = none) :=
  ⟨rfl, weighted_empty_table demoEnv demoEmptyWeighted [D6] rfl⟩

/-- On tickets that all have weight 0 the selection loop falls through at rv = 0. -/
theorem scanTickets_zero_weights {T : Type} :
    ∀ (ts : List (ticket T)), (∀ t ∈ ts, t.weight = 0) → scanTickets 0 0 ts = none := by
  intro ts
  induction ts with
  | nil => intro _; rfl
  | cons t ts ih =>
    intro h
    have ht := h t (List.mem_cons_self _ _)
    simp only [scanTickets, ht, add_zero, lt_self_iff_false, if_false]
    exact ih (fun t1 ht1 => h t1 (List.mem_cons_of_mem _ ht1))

/-- Non-negative weights that sum to zero are all zero. -/
theorem weights_zero_of_total_zero {T : Type} :
    ∀ (ts : List (ticket T)), (∀ t ∈ ts, 0 ≤ t.weight) → totalWeight ts = 0 →
      ∀ t ∈ ts, t.weight = 0 := by
  intro ts
  induction ts with
  | nil => intro _ _ t ht; simp at ht
  | cons a ts ih =>
    intro hnn htot t ht
    rw [totalWeight_eq_sum, List.map_cons, List.sum_cons] at htot
    have ha := hnn a (List.mem_cons_self _ _)
    have hrest : ∀ t ∈ ts, 0 ≤ t.weight := fun t1 ht1 => hnn t1 (List.mem_cons_of_mem _ ht1)
    have hsum : 0 ≤ (ts.map ticket.weight).sum := by
      apply List.sum_nonneg
      intro x hx
      obtain ⟨t1, ht1, rfl⟩ := List.mem_map.1 hx
      exact hrest t1 ht1
    rcases List.mem_cons.1 ht with h | h
    · rw [h]
      linarith
    · exact ih hrest (by rw [totalWeight_eq_sum]; linarith) t h

/-- C15, against the claim as stated: on the non-empty table with the single ticket
7:0, whose weights sum to zero, One returns First = 7, not the zero value. -/
theorem one_on_zero_weights_returns_ticket :
    demoZeroWeighted.cfg.tickets = [{ value := 7, weight := 0 }] ∧
    totalWeight demoZeroWeighted.cfg.tickets = 0 ∧
    (demoZeroWeighted.One demoEnv []).1.First = 7 ∧
    (demoZeroWeighted.One demoEnv []).1.First ≠ 0 :=
  ⟨by with_unfolding_all rfl, by with_unfolding_all rfl, by with_unfolding_all rfl,
    by with_unfolding_all decide⟩

/-- C15, amended.  On a non-empty ticket table whose weights sum to zero, One does not
fail and returns the value of a ticket of the table, with First = Last = Sum and that
value as its single roll; when no weight is negative (so that all weights are zero) it
is the value of the last ticket.  Odds returns a table without entries. -/
theorem zero_total_weight {σ T : Type} [Zero T] [constraint T] (env : Env σ)
    (c : WeightedCaster σ T) (r : List (Range T)) (hne : c.cfg.tickets ≠ [])
    (htot : totalWeight c.cfg.tickets = 0) :
    (c.One env r).1.First ∈ c.cfg.tickets.map ticket.value ∧
    (c.One env r).1.Last = (c.One env r).1.First ∧
    (c.One env r).1.Sum = (c.One env r).1.First ∧
    (c.One env r).1.Rolls = [(c.One env r).1.First] ∧
    ((∀ t ∈ c.cfg.tickets, 0 ≤ t.weight) →
      (c.One env r).1.First = (c.cfg.tickets.getLast hne).value) ∧
    (∀ v : ℤ, (c.Odds r).Probabilities v = none) := by
  refine ⟨rollWeighted_mem env c hne, rfl, rfl, rfl, ?_, ?_⟩
  · intro hnn
    have hz := weights_zero_of_total_zero _ hnn htot
    have hscan := scanTickets_zero_weights _ hz
    change (c.rollWeighted env).1 = _
    unfold WeightedCaster.rollWeighted
    have ht : c.cfg.tickets.foldl (fun acc t => acc + t.weight) (0 : ℚ) = 0 := htot
    simp only [ht, mul_zero, hscan, List.getLast?_eq_getLast _ hne]
  · intro v
    rw [weightedOdds_eq]
    simp [htot]

/-- C15, amended, at the table with the single ticket 7:0. -/
theorem zero_total_weight_witness :
    demoZeroWeighted.cfg.tickets ≠ [] ∧ totalWeight demoZeroWeighted.cfg.tickets = 0 ∧
    (demoZeroWeighted.One demoEnv []).1.First = 7 ∧
    (demoZeroWeighted.One demoEnv []).1.First ∈ demoZeroWeighted.cfg.tickets.map ticket.value ∧
    (∀ v : ℤ, (demoZeroWeighted.Odds []).Probabilities v = none) := by
  have hne : demoZeroWeighted.cfg.tickets ≠ [] := by
    have : demoZeroWeighted.cfg.tickets = [{ value := 7, weight := 0 }] := by
      with_unfolding_all rfl
    rw [this]
    exact List.cons_ne_nil _ _
  have htot : totalWeight demoZeroWeighted.cfg.tickets = 0 := by with_unfolding_all rfl
  have h := zero_total_weight demoEnv demoZeroWeighted [] hne htot
  exact ⟨hne, htot, by with_unfolding_all rfl, h.1, h.2.2.2.2.2⟩

/-- C16. A WeightedCaster never explodes.  Whatever the configuration and the range
arguments, One returns LowerExplosions = 0, UpperExplosions = 0, a Rolls of length 1
and First = Last = Sum = Rolls[0]; it leaves the stream where one draw of Float64
leaves it and the configuration as it was; and it returns the same with any range
arguments as with none. -/
theorem weighted_never_explodes {σ T : Type} [Zero T] (env : Env σ) (c : WeightedCaster σ T)
    (r : List (Range T)) :
    (c.One env r).1.LowerExplosions = 0 ∧ (c.One env r).1.UpperExplosions = 0 ∧
    (c.One env r).1.Rolls.length = 1 ∧
    (c.One env r).1.Rolls[0]? = some (c.One env r).1.First ∧
    (c.One env r).1.Last = (c.One env r).1.First ∧
    (c.One env r).1.Sum = (c.One env r).1.First ∧
    (c.One env r).2.rng = (env.Float64 c.rng).2 ∧
    (c.One env r).2.cfg = c.cfg ∧
    c.One env r = c.One env [] := by
  refine ⟨rfl, rfl, rfl, rfl, rfl, rfl, ?_, rfl, rfl⟩
  change (c.rollWeighted env).2 = _
  unfold WeightedCaster.rollWeighted
  simp only []
  split
  · rfl
  · split <;> rfl

/-- C17. The tickets of a weight map.  For a map with distinct keys, visited in any
order, ticketsFromWeights returns a permutation of its entries as tickets (so one
ticket per entry, each value with its own weight) that is strictly ascending in value,
and it returns the same slice for every order in which the map is visited; a nil map
has no tickets. -/
theorem ticketsFromWeights_sorted_perm {T : Type} [LinearOrder T] (m : Weights T)
    (hd : (m.map Prod.fst).Nodup) :
    (ticketsFromWeights (some m)).Perm
      (m.map (fun e => ({ value := e.1, weight := e.2 } : ticket T))) ∧
    (ticketsFromWeights (some m)).length = m.length ∧
    (∀ (v : T) (w : ℚ),
      ({ value := v, weight := w } : ticket T) ∈ ticketsFromWeights (some m) ↔ (v, w) ∈ m) ∧
    (ticketsFromWeights (some m)).Pairwise (fun a b => a.value < b.value) ∧
    (∀ m1 : Weights T, m1.Perm m → ticketsFromWeights (some m1) = ticketsFromWeights (some m)) ∧
    ticketsFromWeights (none : Option (Weights T)) = [] := by
  have hperm : (ticketsFromWeights (some m)).Perm
      (m.map (fun e => ({ value := e.1, weight := e.2 } : ticket T))) := by
    unfold ticketsFromWeights
    exact List.perm_insertionSort _ _
  refine ⟨hperm, ?_, ?_, ticketsFromWeights_ascending (some m) hd, ?_, rfl⟩
  · rw [hperm.length_eq, List.length_map]
  · intro v w
    rw [hperm.mem_iff, List.mem_map]
    constructor
    · rintro ⟨e, he, heq⟩
      injection heq with h1 h2
      have : e = (v, w) := Prod.ext h1 h2
      exact this ▸ he
    · intro h
      exact ⟨(v, w), h, rfl⟩
  · intro m1 hm
    exact ticketsFromWeights_sameMap (some m1) (some m) hm
      (by simpa [mapKeysDistinct] using ((hm.map Prod.fst).nodup_iff).2 hd)

/-- C17 at the map 3:30, 1:10, 2:0 in that order of visit. -/
theorem ticketsFromWeights_sorted_perm_witness :
    ([((3 : ℤ), (30 : ℚ)), (1, 10), (2, 0)].map Prod.fst).Nodup ∧
    ticketsFromWeights (some [((3 : ℤ), (30 : ℚ)), (1, 10), (2, 0)])
      = [{ value := 1, weight := 10 }, { value := 2, weight := 0 }, { value := 3, weight := 30 }] ∧
    (ticketsFromWeights (some [((3 : ℤ), (30 : ℚ)), (1, 10), (2, 0)])).Pairwise
      (fun a b => a.value < b.value) ∧
    ticketsFromWeights (some [((1 : ℤ), (10 : ℚ)), (2, 0), (3, 30)])
      = ticketsFromWeights (some [((3 : ℤ), (30 : ℚ)), (1, 10), (2, 0)]) := by
  have hd : ([((3 : ℤ), (30 : ℚ)), (1, 10), (2, 0)].map Prod.fst).Nodup := by decide
  have h := ticketsFromWeights_sorted_perm [((3 : ℤ), (30 : ℚ)), (1, 10), (2, 0)] hd
  exact ⟨hd, by with_unfolding_all rfl, h.2.2.2.1,
    h.2.2.2.2.1 _ ((List.Perm.swap _ _ _).trans (List.Perm.cons _ (List.Perm.swap _ _ _))).symm⟩

/-! ## The Normal adapter -/

/-- C30: Clamp returns min when value is below min, value itself when
min ≤ value ≤ max, and, on a range with min ≤ max, max when value is above max; for
every min ≤ max the result lies in [min, max] and clamping a clamped value changes
nothing. -/
theorem clamp_contract (value min max : ℚ) :
    (value < min → Clamp value min max = min) ∧
    (min ≤ value → value ≤ max → Clamp value min max = value) ∧
    (min ≤ max →
      (max < value → Clamp value min max = max) ∧
      min ≤ Clamp value min max ∧ Clamp value min max ≤ max ∧
      Clamp (Clamp value min max) min max = Clamp value min max) := by
  refine ⟨?_, ?_, ?_⟩
  · intro h
    simp [Clamp, h.le]
  · intro h1 h2
    unfold Clamp
    split_ifs with h3 h4
    · exact le_antisymm h1 h3
    · exact le_antisymm h4 h2
    · rfl
  · intro hmm
    refine ⟨?_, ?_, ?_, ?_⟩
    · intro h
      have h1 : ¬ value ≤ min := not_le.2 (lt_of_le_of_lt hmm h)
      simp [Clamp, h1, h.le]
    · unfold Clamp
      split_ifs with h3 h4
      · exact le_refl _
      · exact hmm
      · exact (not_le.1 h3).le
    · unfold Clamp
      split_ifs with h3 h4
      · exact hmm
      · exact le_refl _
      · exact (not_le.1 h4).le
    · unfold Clamp
      split_ifs <;> first | rfl | linarith

/-- Witness of C30 on the range [0, 10]: 15 clamps to 10, -5 to 0, 5 to itself. -/
theorem clamp_contract_witness :
    Clamp (-5) 0 10 = 0 ∧ Clamp 5 0 10 = 5 ∧ Clamp 15 0 10 = 10 ∧
    Clamp (Clamp 15 0 10) 0 10 = Clamp 15 0 10 :=
  ⟨(clamp_contract (-5) 0 10).1 (by norm_num),
   (clamp_contract 5 0 10).2.1 (by norm_num) (by norm_num),
   ((clamp_contract 15 0 10).2.2 (by norm_num)).1 (by norm_num),
   ((clamp_contract 15 0 10).2.2 (by norm_num)).2.2.2⟩

/-! ## MergeWith and MergeOptions -/

/-- Two Options with the same fields are equal. -/
theorem Options.ext_fields {σ T : Type} (a b : Options σ T) (h1 : a.Dist = b.Dist)
    (h2 : a.Weight = b.Weight) (h3 : a.Custom = b.Custom) (h4 : a.RerollBelow = b.RerollBelow)
    (h5 : a.MaxLowerExplosions = b.MaxLowerExplosions) (h6 : a.RerollAbove = b.RerollAbove)
    (h7 : a.MaxUpperExplosions = b.MaxUpperExplosions) : a = b := by
  cases a; cases b; simp_all

/-- MergeWith, field by field. -/
theorem MergeWith_eq {σ T : Type} [Zero T] [DecidableEq T] (o x : Options σ T) :
    o.MergeWith x =
      { Dist := if x.Dist.isSome then x.Dist else o.Dist
        Weight := if x.Weight ≠ 0 then x.Weight else o.Weight
        Custom := if x.Custom.isSome then x.Custom else o.Custom
        RerollBelow := if x.RerollBelow ≠ 0 then x.RerollBelow else o.RerollBelow
        MaxLowerExplosions :=
          if x.MaxLowerExplosions ≠ 0 then x.MaxLowerExplosions else o.MaxLowerExplosions
        RerollAbove := if x.RerollAbove ≠ 0 then x.RerollAbove else o.RerollAbove
        MaxUpperExplosions :=
          if x.MaxUpperExplosions ≠ 0 then x.MaxUpperExplosions else o.MaxUpperExplosions } := by
  apply Options.ext_fields <;>
    simp only [Options.MergeWith, apply_ite Options.Dist, apply_ite Options.Weight,
      apply_ite Options.Custom, apply_ite Options.RerollBelow,
      apply_ite Options.MaxLowerExplosions, apply_ite Options.RerollAbove,
      apply_ite Options.MaxUpperExplosions, ite_self]

/-- Merging options into themselves changes nothing. -/
theorem MergeWith_self {σ T : Type} [Zero T] [DecidableEq T] (o : Options σ T) :
    o.MergeWith o = o := by
  rw [MergeWith_eq]
  cases o
  simp

/-- Merging the same options twice is merging them once. -/
theorem MergeWith_idem {σ T : Type} [Zero T] [DecidableEq T] (o x : Options σ T) :
    (o.MergeWith x).MergeWith x = o.MergeWith x := by
  rw [MergeWith_eq (o.MergeWith x) x, MergeWith_eq o x]
  simp only [Options.mk.injEq]
  refine ⟨?_, ?_, ?_, ?_, ?_, ?_, ?_⟩ <;> split_ifs <;> rfl

/-- The loop of MergeOptions over the indices k, ..., k+n-1 merges the arguments at these
indices. -/
theorem mergeLoop_range {σ T : Type} [Zero T] [DecidableEq T] (opts : List (Options σ T)) :
    ∀ (n k : ℕ) (m : Options σ T), k + n ≤ opts.length →
      mergeLoop opts (List.range' k n) m =
        .ok (((opts.drop k).take n).foldl Options.MergeWith m) := by
  intro n
  induction n with
  | zero => intro k m _; simp [mergeLoop]
  | succ n ih =>
    intro k m h
    have hk : k < opts.length := by omega
    have hidx : index opts (k : ℤ) = .ok opts[k] := by
      simp [index, List.getElem?_eq_getElem hk]
    have hdrop : opts.drop k = opts[k] :: opts.drop (k + 1) := List.drop_eq_getElem_cons hk
    rw [List.range'_succ]
    simp only [mergeLoop, hidx]
    rw [ih (k + 1) _ (by omega), hdrop]
    rfl

/-- MergeOptions on a non-empty argument list, as a fold: the first argument, with all
arguments but the last merged into it. -/
theorem MergeOptions_eq {σ T : Type} [Zero T] [DecidableEq T] (env : Env σ)
    (o0 : Options σ T) (tail : List (Options σ T)) :
    MergeOptions env (o0 :: tail) =
      .ok ((o0 :: tail).dropLast.foldl Options.MergeWith o0) := by
  show mergeLoop (o0 :: tail) (List.range tail.length) o0 = _
  rw [List.range_eq_range', mergeLoop_range _ _ _ _ (by simp)]
  simp [List.dropLast_eq_take]

/-- C25: MergeWith is a field-wise merge in which a non-zero (non-nil) field of the
override wins and every other field keeps its value, and Source.With applies it to the
options of the Source; merging the zero Options is the identity, merging the same
options twice equals merging them once, and a merge never resets a non-zero field to
zero. -/
theorem mergeWith_nonzero_override_wins {σ T : Type} [Zero T] [DecidableEq T]
    (o x : Options σ T) (s : Source σ T) :
    o.MergeWith x =
      { Dist := if x.Dist.isSome then x.Dist else o.Dist
        Weight := if x.Weight ≠ 0 then x.Weight else o.Weight
        Custom := if x.Custom.isSome then x.Custom else o.Custom
        RerollBelow := if x.RerollBelow ≠ 0 then x.RerollBelow else o.RerollBelow
        MaxLowerExplosions :=
          if x.MaxLowerExplosions ≠ 0 then x.MaxLowerExplosions else o.MaxLowerExplosions
        RerollAbove := if x.RerollAbove ≠ 0 then x.RerollAbove else o.RerollAbove
        MaxUpperExplosions :=
          if x.MaxUpperExplosions ≠ 0 then x.MaxUpperExplosions else o.MaxUpperExplosions } ∧
    ((s.With x).opts = s.opts.MergeWith x ∧ (s.With x).seed = s.seed ∧
      (s.With x).floatRange = s.floatRange ∧ (s.With x).convert = s.convert) ∧
    o.MergeWith { Dist := none, Weight := 0, Custom := none, RerollBelow := 0,
                  MaxLowerExplosions := 0, RerollAbove := 0, MaxUpperExplosions := 0 } = o ∧
    (o.MergeWith x).MergeWith x = o.MergeWith x ∧
    (o.Dist ≠ none → (o.MergeWith x).Dist ≠ none) ∧
    (o.Weight ≠ 0 → (o.MergeWith x).Weight ≠ 0) ∧
    (o.Custom ≠ none → (o.MergeWith x).Custom ≠ none) ∧
    (o.RerollBelow ≠ 0 → (o.MergeWith x).RerollBelow ≠ 0) ∧
    (o.MaxLowerExplosions ≠ 0 → (o.MergeWith x).MaxLowerExplosions ≠ 0) ∧
    (o.RerollAbove ≠ 0 → (o.MergeWith x).RerollAbove ≠ 0) ∧
    (o.MaxUpperExplosions ≠ 0 → (o.MergeWith x).MaxUpperExplosions ≠ 0) := by
  refine ⟨MergeWith_eq o x, ⟨rfl, rfl, rfl, rfl⟩, ?_, MergeWith_idem o x, ?_, ?_, ?_, ?_, ?_,
    ?_, ?_⟩
  · rw [MergeWith_eq]; cases o; simp
  · intro h; rw [MergeWith_eq]
    show (if x.Dist.isSome then x.Dist else o.Dist) ≠ none
    split_ifs with hx
    · intro h0; rw [h0] at hx; simp at hx
    · exact h
  · intro h; rw [MergeWith_eq]
    show (if x.Weight ≠ 0 then x.Weight else o.Weight) ≠ 0
    split_ifs with hx
    · exact hx
    · exact h
  · intro h; rw [MergeWith_eq]
    show (if x.Custom.isSome then x.Custom else o.Custom) ≠ none
    split_ifs with hx
    · intro h0; rw [h0] at hx; simp at hx
    · exact h
  · intro h; rw [MergeWith_eq]
    show (if x.RerollBelow ≠ 0 then x.RerollBelow else o.RerollBelow) ≠ 0
    split_ifs with hx
    · exact hx
    · exact h
  · intro h; rw [MergeWith_eq]
    show (if x.MaxLowerExplosions ≠ 0 then x.MaxLowerExplosions else o.MaxLowerExplosions) ≠ 0
    split_ifs with hx
    · exact hx
    · exact h
  · intro h; rw [MergeWith_eq]
    show (if x.RerollAbove ≠ 0 then x.RerollAbove else o.RerollAbove) ≠ 0
    split_ifs with hx
    · exact hx
    · exact h
  · intro h; rw [MergeWith_eq]
    show (if x.MaxUpperExplosions ≠ 0 then x.MaxUpperExplosions else o.MaxUpperExplosions) ≠ 0
    split_ifs with hx
    · exact hx
    · exact h

/-- Witness of C25: merging options that set only MaxLowerExplosions to 3 into the
options of `demoSourceA` (Weight 1/2, RerollBelow 3, MaxLowerExplosions 2) keeps the
weight and the threshold and replaces the explosion cap. -/
theorem mergeWith_nonzero_override_wins_witness :
    (demoSourceA.opts.Weight ≠ 0 ∧ demoSourceA.opts.RerollBelow ≠ 0) ∧
    (demoSourceA.opts.MergeWith
      { Dist := none, Weight := 0, Custom := none, RerollBelow := 0,
        MaxLowerExplosions := 3, RerollAbove := 0, MaxUpperExplosions := 0 }).Weight ≠ 0 ∧
    (demoSourceA.opts.MergeWith
      { Dist := none, Weight := 0, Custom := none, RerollBelow := 0,
        MaxLowerExplosions := 3, RerollAbove := 0, MaxUpperExplosions := 0 }).RerollBelow ≠ 0 :=
  ⟨⟨by with_unfolding_all decide, by with_unfolding_all decide⟩,
   (mergeWith_nonzero_override_wins demoSourceA.opts
      { Dist := none, Weight := 0, Custom := none, RerollBelow := 0,
        MaxLowerExplosions := 3, RerollAbove := 0, MaxUpperExplosions := 0 }
      demoSourceA).2.2.2.2.2.1 (by with_unfolding_all decide),
   (mergeWith_nonzero_override_wins demoSourceA.opts
      { Dist := none, Weight := 0, Custom := none, RerollBelow := 0,
        MaxLowerExplosions := 3, RerollAbove := 0, MaxUpperExplosions := 0 }
      demoSourceA).2.2.2.2.2.2.2.1 (by with_unfolding_all decide)⟩

/-- C24, the code at the arguments the claim speaks of: MergeOptions returns its first
argument with all arguments but the last merged into it, so MergeOptions(a, b) is a, and
on the default options and options that set Weight to 9/10 the result has Weight 1/2
where merging the second argument gives 9/10. -/
theorem mergeOptions_skips_last_argument {σ T : Type} [Zero T] [DecidableEq T] (env : Env σ)
    (a b : Options σ T) (tail : List (Options σ T)) :
    MergeOptions env (a :: tail) = .ok ((a :: tail).dropLast.foldl Options.MergeWith a) ∧
    MergeOptions env [a, b] = .ok a ∧
    (MergeOptions demoEnv
        [(DefaultOptions demoEnv : Options ℕ ℤ),
         { Dist := none, Weight := 9 / 10, Custom := none, RerollBelow := 0,
           MaxLowerExplosions := 0, RerollAbove := 0, MaxUpperExplosions := 0 }]).map
      (fun o => o.Weight) = .ok (1 / 2) ∧
    ((DefaultOptions demoEnv : Options ℕ ℤ).MergeWith
        { Dist := none, Weight := 9 / 10, Custom := none, RerollBelow := 0,
          MaxLowerExplosions := 0, RerollAbove := 0, MaxUpperExplosions := 0 }).Weight
      = 9 / 10 := by
  refine ⟨MergeOptions_eq env a tail, ?_, ?_, ?_⟩
  · rw [MergeOptions_eq]; simp [MergeWith_self]
  · rw [MergeOptions_eq]; simp [MergeWith_self, DefaultOptions, Except.map]
  · rw [MergeWith_eq]; norm_num

/-! ## The setters of the casters -/

/-- C26, the code at a caster without a distribution: DistCaster.Dist assigns d when the
caster holds a distribution and assigns nothing when it holds none, the other fields
staying as they are; on the caster derived from a Source on which Dist(nil) was called,
Dist(Uniform) leaves the distribution nil. -/
theorem dist_setter_skips_nil_caster {σ T : Type} (c : DistCaster σ T)
    (d : Option (Distribution σ)) :
    (c.Dist d).cfg.Dist = (if c.cfg.Dist.isSome then d else none) ∧
    ((c.Dist d).cfg.toconfig = c.cfg.toconfig ∧ (c.Dist d).cfg.Weight = c.cfg.Weight ∧
      (c.Dist d).rng = c.rng ∧ (c.Dist d).floatRange = c.floatRange ∧
      (c.Dist d).convert = c.convert) ∧
    ((((NewIntSource demoEnv [[97]] []).Dist none).SaltDist demoEnv [120]).Dist
      (some (uniformDist demoEnv))).cfg.Dist = none := by
  refine ⟨?_, ?_, rfl⟩
  · unfold DistCaster.Dist
    split_ifs with h
    · rfl
    · cases hd : c.cfg.Dist with
      | none => rfl
      | some v => rw [hd] at h; simp at h
  · unfold DistCaster.Dist
    split_ifs <;> exact ⟨rfl, rfl, rfl, rfl, rfl⟩

/-- C27: With replaces the configuration of a caster by the fields of the options, zeros
included; a DistCaster keeps its distribution when `opts.Dist` is nil and takes
`opts.Dist` otherwise, a WeightedCaster keeps its tickets when `opts.Custom` has length
0 (nil or empty) and takes the sorted tickets of `opts.Custom` otherwise, and
WeightedCaster.Custom(w) changes nothing when w has length 0 and sets the sorted tickets
of w otherwise.  The stream and the conversions are never touched. -/
theorem with_replaces_configuration {σ T : Type} [LinearOrder T] (c : DistCaster σ T)
    (wc : WeightedCaster σ T) (opts : Options σ T) (w : Option (Weights T)) :
    ((c.With opts).cfg.RerollBelow = opts.RerollBelow ∧
      (c.With opts).cfg.MaxLowerExplosions = opts.MaxLowerExplosions ∧
      (c.With opts).cfg.RerollAbove = opts.RerollAbove ∧
      (c.With opts).cfg.MaxUpperExplosions = opts.MaxUpperExplosions ∧
      (c.With opts).cfg.Weight = opts.Weight ∧
      (c.With opts).cfg.Dist = (if opts.Dist.isNone then c.cfg.Dist else opts.Dist) ∧
      (c.With opts).rng = c.rng ∧ (c.With opts).floatRange = c.floatRange ∧
      (c.With opts).convert = c.convert) ∧
    ((wc.With opts).cfg.RerollBelow = opts.RerollBelow ∧
      (wc.With opts).cfg.MaxLowerExplosions = opts.MaxLowerExplosions ∧
      (wc.With opts).cfg.RerollAbove = opts.RerollAbove ∧
      (wc.With opts).cfg.MaxUpperExplosions = opts.MaxUpperExplosions ∧
      (wc.With opts).cfg.tickets =
        (if opts.Custom = none ∨ opts.Custom = some [] then wc.cfg.tickets
         else ticketsFromWeights opts.Custom) ∧
      (wc.With opts).rng = wc.rng) ∧
    (wc.Custom w =
      if w = none ∨ w = some [] then wc
      else { wc with cfg := { wc.cfg with tickets := ticketsFromWeights w } }) := by
  have hlen : ∀ m : Option (Weights T), mapLen m = 0 ↔ (m = none ∨ m = some []) := by
    intro m
    cases m with
    | none => simp [mapLen]
    | some l => cases l <;> simp [mapLen]; omega
  refine ⟨?_, ?_, ?_⟩
  · unfold DistCaster.With
    split_ifs with h
    · simp [distConfigFromOptions, h]
    · simp [distConfigFromOptions, h]
  · unfold WeightedCaster.With
    by_cases h : mapLen opts.Custom = 0
    · simp only [h, if_true, (hlen _).1 h]
      simp [weightedConfigFromOptions]
    · have h2 : ¬ (opts.Custom = none ∨ opts.Custom = some []) := fun h3 => h ((hlen _).2 h3)
      simp only [h, if_false, h2]
      simp [weightedConfigFromOptions]
  · unfold WeightedCaster.Custom
    by_cases h : mapLen w = 0
    · have h1 : ¬ mapLen w > 0 := by omega
      simp only [h1, if_false, (hlen _).1 h, if_true]
    · have h2 : ¬ (w = none ∨ w = some []) := fun h3 => h ((hlen _).2 h3)
      have h1 : mapLen w > 0 := by
        have : 0 ≤ mapLen w := by cases w <;> simp [mapLen]
        omega
      simp only [h1, if_true, h2, if_false]

/-- C21, the code against the doc comment of Options.Weight: normal.dist uses the
standard deviation 1/4 * (1 - 4/5 * Weight) on the unit interval, so on a range of
width 1 the weight 1 gives 1/20 where `range * weight / 2` is 1/2, and the lower weight
1/4 gives a larger standard deviation than the higher weight 3/4. -/
theorem normal_sigma_against_weight_doc (p : FloatParams) :
    (normal.dist p).Sigma = 1 / 4 * (1 - p.Weight * (4 / 5)) ∧
    (normal.dist { Lower := 0, Upper := 1, Weight := 1 }).Sigma = 1 / 20 ∧
    (normal.dist { Lower := 0, Upper := 1, Weight := 1 }).Sigma ≠ (1 - 0) * 1 / 2 ∧
    (normal.dist { Lower := 0, Upper := 1, Weight := 3 / 4 }).Sigma <
      (normal.dist { Lower := 0, Upper := 1, Weight := 1 / 4 }).Sigma := by
  refine ⟨rfl, ?_, ?_, ?_⟩ <;> norm_num [normal.dist]

/-! ## Package dist: when the samplers fail -/

/-- The loop of gammaSmallAlpha has no panic. -/
theorem gammaSmallAlphaLoop_ne_panic {σ : Type} (m : MathEnv σ) (a b lr lambda : ℚ) :
    ∀ (fuel : ℕ) (rng : σ), gammaSmallAlphaLoop m a b lr lambda fuel rng ≠ .error .panic := by
  intro fuel
  induction fuel with
  | zero => intro rng h; simp [gammaSmallAlphaLoop] at h
  | succ n ih =>
    intro rng
    unfold gammaSmallAlphaLoop
    simp only
    split_ifs
    · intro h; cases h
    · exact ih _

/-- The loop of gammaMarsagliaTsang has no panic. -/
theorem gammaMarsagliaTsangLoop_ne_panic {σ : Type} (m : MathEnv σ) (b d mm c : ℚ) :
    ∀ (fuel : ℕ) (rng : σ), gammaMarsagliaTsangLoop m b d mm c fuel rng ≠ .error .panic := by
  intro fuel
  induction fuel with
  | zero => intro rng h; simp [gammaMarsagliaTsangLoop] at h
  | succ n ih =>
    intro rng
    unfold gammaMarsagliaTsangLoop
    simp only
    split_ifs
    · exact ih _
    · intro h; cases h
    · exact ih _

/-- C22: TruncatedNormal.Rand fails if and only if Sigma ≤ 0 or Lower ≥ Upper; for every
other parameter choice it returns a value, the inverse CDF transform of one uniform
draw, and the stream advanced by that draw. -/
theorem truncatedNormal_rand_fails_iff {σ : Type} (m : MathEnv σ) (t : TruncatedNormal)
    (rng : σ) :
    ((∃ e, TruncatedNormal.Rand m t rng = .error e) ↔ (t.Sigma ≤ 0 ∨ t.Lower ≥ t.Upper)) ∧
    (¬ (t.Sigma ≤ 0 ∨ t.Lower ≥ t.Upper) →
      TruncatedNormal.Rand m t rng =
        .ok (t.Mu + t.Sigma * normQuantile m
              (normCDF m ((t.Lower - t.Mu) / t.Sigma) +
                (m.Float64 rng).1 *
                  (normCDF m ((t.Upper - t.Mu) / t.Sigma) -
                    normCDF m ((t.Lower - t.Mu) / t.Sigma))),
             (m.Float64 rng).2)) := by
  have hok : ¬ (t.Sigma ≤ 0 ∨ t.Lower ≥ t.Upper) →
      TruncatedNormal.Rand m t rng =
        .ok (t.Mu + t.Sigma * normQuantile m
              (normCDF m ((t.Lower - t.Mu) / t.Sigma) +
                (m.Float64 rng).1 *
                  (normCDF m ((t.Upper - t.Mu) / t.Sigma) -
                    normCDF m ((t.Lower - t.Mu) / t.Sigma))),
             (m.Float64 rng).2) := by
    intro h
    have h1 : ¬ t.Sigma ≤ 0 := fun h1 => h (Or.inl h1)
    have h2 : ¬ t.Lower ≥ t.Upper := fun h2 => h (Or.inr h2)
    simp only [TruncatedNormal.Rand, h1, h2, if_false]
  refine ⟨⟨?_, ?_⟩, hok⟩
  · rintro ⟨e, he⟩
    by_contra h
    rw [hok h] at he
    cases he
  · intro h
    refine ⟨.panic, ?_⟩
    unfold TruncatedNormal.Rand
    rcases h with h | h
    · simp only [h, if_true]
    · split_ifs <;> rfl

/-- Witness of C22 on the truncated normal of the Normal adapter at weight 1/2 (Sigma
3/20 on [0, 1]): Rand returns. -/
theorem truncatedNormal_rand_fails_iff_witness :
    ¬ ((normal.dist demoParams).Sigma ≤ 0 ∨
        (normal.dist demoParams).Lower ≥ (normal.dist demoParams).Upper) ∧
    ∃ v, TruncatedNormal.Rand demoMathEnv (normal.dist demoParams) 1 = .ok (v, 2) :=
  ⟨by norm_num [normal.dist, demoParams],
   ⟨_, (truncatedNormal_rand_fails_iff demoMathEnv (normal.dist demoParams) 1).2
      (by norm_num [normal.dist, demoParams])⟩⟩

/-- C23: Gamma.Rand fails if and only if Alpha ≤ 0 or Beta ≤ 0; for valid parameters it
dispatches on Alpha: Alpha = 1 returns one exponential draw divided by Beta, the stream
advanced by that one draw; Alpha < 0.2 runs the Liu-Martin-Syring sampler
gammaSmallAlpha; every other Alpha ≥ 0.2 runs gammaMarsagliaTsang. -/
theorem gamma_rand_dispatch {σ : Type} (m : MathEnv σ) (fuel : ℕ) (g : Gamma) (rng : σ) :
    (Gamma.Rand m fuel g rng = .error .panic ↔ (g.Alpha ≤ 0 ∨ g.Beta ≤ 0)) ∧
    (0 < g.Alpha → 0 < g.Beta →
      (g.Alpha = 1 →
        Gamma.Rand m fuel g rng = .ok ((m.ExpFloat64 rng).1 / g.Beta, (m.ExpFloat64 rng).2)) ∧
      (g.Alpha < 1 / 5 →
        Gamma.Rand m fuel g rng = gammaSmallAlpha m g.Alpha g.Beta fuel rng) ∧
      (g.Alpha ≠ 1 → 1 / 5 ≤ g.Alpha →
        Gamma.Rand m fuel g rng = gammaMarsagliaTsang m g.Alpha g.Beta fuel rng)) := by
  have hvalid : 0 < g.Alpha → 0 < g.Beta →
      (g.Alpha = 1 →
        Gamma.Rand m fuel g rng = .ok ((m.ExpFloat64 rng).1 / g.Beta, (m.ExpFloat64 rng).2)) ∧
      (g.Alpha < 1 / 5 →
        Gamma.Rand m fuel g rng = gammaSmallAlpha m g.Alpha g.Beta fuel rng) ∧
      (g.Alpha ≠ 1 → 1 / 5 ≤ g.Alpha →
        Gamma.Rand m fuel g rng = gammaMarsagliaTsang m g.Alpha g.Beta fuel rng) := by
    intro ha hb
    have h1 : ¬ g.Beta ≤ 0 := not_le.2 hb
    have h2 : ¬ g.Alpha ≤ 0 := not_le.2 ha
    refine ⟨?_, ?_, ?_⟩
    · intro h
      simp only [Gamma.Rand, h1, h2, if_false, h, if_true]
      norm_num
    · intro h
      have h3 : ¬ g.Alpha = 1 := by intro h3; rw [h3] at h; norm_num at h
      simp only [Gamma.Rand, h1, h2, if_false, h3, smallAlphaThresh, h, if_true]
    · intro h3 h
      have h4 : ¬ g.Alpha < 1 / 5 := not_lt.2 h
      have h5 : g.Alpha ≥ 1 / 5 := h
      simp only [Gamma.Rand, h1, h2, if_false, h3, smallAlphaThresh, h4, h5, if_true]
  refine ⟨⟨?_, ?_⟩, hvalid⟩
  · intro hp
    by_contra hn
    have ha : 0 < g.Alpha := not_le.1 (fun h => hn (Or.inl h))
    have hb : 0 < g.Beta := not_le.1 (fun h => hn (Or.inr h))
    obtain ⟨hone, hsmall, hmt⟩ := hvalid ha hb
    by_cases h1 : g.Alpha = 1
    · rw [hone h1] at hp; cases hp
    · by_cases h2 : g.Alpha < 1 / 5
      · rw [hsmall h2] at hp
        exact gammaSmallAlphaLoop_ne_panic _ _ _ _ _ _ _ hp
      · rw [hmt h1 (not_lt.1 h2)] at hp
        exact gammaMarsagliaTsangLoop_ne_panic _ _ _ _ _ _ _ hp
  · intro h
    unfold Gamma.Rand
    by_cases hb : g.Beta ≤ 0
    · simp only [hb, if_true]
    · have ha : g.Alpha ≤ 0 := h.resolve_right hb
      simp only [hb, if_false, ha, if_true]

/-- Witness of C23 on the counter stream: shape 1 and rate 2 return the exponential draw
2 halved after one draw; shape 1/10 runs gammaSmallAlpha and shape 2 runs
gammaMarsagliaTsang, which return within 8 iterations. -/
theorem gamma_rand_dispatch_witness :
    Gamma.Rand demoMathEnv 8 { Alpha := 1, Beta := 2 } 1 = .ok (1, 2) ∧
    Gamma.Rand demoMathEnv 8 { Alpha := 1 / 10, Beta := 1 } 0 =
      gammaSmallAlpha demoMathEnv (1 / 10) 1 8 0 ∧
    Gamma.Rand demoMathEnv 8 { Alpha := 2, Beta := 1 } 0 =
      gammaMarsagliaTsang demoMathEnv 2 1 8 0 ∧
    (∃ r, gammaSmallAlpha demoMathEnv (1 / 10) 1 8 0 = .ok r) ∧
    (∃ r, gammaMarsagliaTsang demoMathEnv 2 1 8 0 = .ok r) :=
  ⟨((gamma_rand_dispatch demoMathEnv 8 { Alpha := 1, Beta := 2 } 1).2
      (by norm_num) (by norm_num)).1 rfl |>.trans (by norm_num [demoMathEnv]),
   ((gamma_rand_dispatch demoMathEnv 8 { Alpha := 1 / 10, Beta := 1 } 0).2
      (by norm_num) (by norm_num)).2.1 (by norm_num),
   ((gamma_rand_dispatch demoMathEnv 8 { Alpha := 2, Beta := 1 } 0).2
      (by norm_num) (by norm_num)).2.2 (by norm_num) (by norm_num),
   ⟨_, by with_unfolding_all rfl⟩, ⟨_, by with_unfolding_all rfl⟩⟩

/-! ## Fork -/

/-- C28, the code on a caster and its fork: WeightedCaster.Fork copies the pointer `rng`,
so the fork reads and advances the stream of the original.  On the caster derived from
`demoSourceRef`, whose stream draws 3/4 and then 0, One on the original returns 3 right
after the fork, but returns 1 when One was called on the fork before; and the same with
the two casters exchanged. -/
theorem fork_shares_stream {σ T : Type} (c : WeightedCasterRef T) (mem : Mem σ T) :
    (c.Fork mem).1.rng = c.rng ∧
    (demoWeightedRef.1.One demoEnv [] demoForkRef.2).map (fun r => r.1.Rolls) = .ok [3] ∧
    ((demoForkRef.1.One demoEnv [] demoForkRef.2).bind
        (fun r => demoWeightedRef.1.One demoEnv [] r.2)).map (fun r => r.1.Rolls) = .ok [1] ∧
    (demoForkRef.1.One demoEnv [] demoForkRef.2).map (fun r => r.1.Rolls) = .ok [3] ∧
    ((demoWeightedRef.1.One demoEnv [] demoForkRef.2).bind
        (fun r => demoForkRef.1.One demoEnv [] r.2)).map (fun r => r.1.Rolls) = .ok [1] := by
  refine ⟨rfl, ?_, ?_, ?_, ?_⟩ <;> with_unfolding_all rfl

/-! ## Configuration isolation -/

/-- An object that is valid in a memory has the same snapshot, and is valid, in every
memory that keeps the maps and extends the slices. -/
theorem snapshot_of_grown {σ T : Type} (b : Obj σ T) (mem mem1 : Mem σ T)
    (hb : b.valid mem) (hm : mem1.maps = mem.maps) (hs : mem.slices <+: mem1.slices) :
    b.snapshot mem1 = b.snapshot mem ∧ b.valid mem1 := by
  cases b with
  | source s =>
    simp only [Obj.snapshot, Obj.valid, OptionsRef.load, Mem.mapAt, hm] at hb ⊢
    exact ⟨trivial, hb⟩
  | dist c => exact ⟨rfl, trivial⟩
  | weighted c =>
    obtain ⟨t, ht⟩ := hs
    simp only [Obj.valid] at hb
    refine ⟨?_, ?_⟩
    · simp only [Obj.snapshot, weightedConfigRef.load, Mem.sliceAt, ← ht,
        List.getElem?_append_left hb]
    · simp only [Obj.valid, ← ht, List.length_append]
      omega

/-- A new slice keeps the streams and the maps and extends the slices by one. -/
theorem newSlice_grows {σ T : Type} (mem : Mem σ T) (ts : List (ticket T)) :
    (mem.newSlice ts).2.rngs = mem.rngs ∧ (mem.newSlice ts).2.maps = mem.maps ∧
    (mem.newSlice ts).2.slices = mem.slices ++ [ts] ∧ (mem.newSlice ts).1 = mem.slices.length :=
  ⟨rfl, rfl, rfl, rfl⟩

/-- The slice just allocated holds the elements given. -/
theorem sliceAt_newSlice {σ T : Type} (mem : Mem σ T) (ts : List (ticket T)) :
    (mem.newSlice ts).2.sliceAt (mem.newSlice ts).1 = ts := by
  simp [Mem.newSlice, Mem.sliceAt]

/-- A setter of a weighted caster keeps the streams and the maps and extends the
slices. -/
theorem weightedCall_grows {σ T : Type} [LinearOrder T] (st : Setter σ T)
    (c c1 : WeightedCasterRef T) (mem mem1 : Mem σ T)
    (h : c.call st mem = some (c1, mem1)) :
    mem1.rngs = mem.rngs ∧ mem1.maps = mem.maps ∧ mem.slices <+: mem1.slices := by
  cases st with
  | Dist d => simp [WeightedCasterRef.call] at h
  | Weight w => simp [WeightedCasterRef.call] at h
  | Custom w =>
    simp only [WeightedCasterRef.call, WeightedCasterRef.Custom, Option.some.injEq] at h
    split_ifs at h with hw
    · simp only [ticketsFromWeightsRef, Prod.mk.injEq] at h
      rw [← h.2]
      exact ⟨rfl, rfl, List.prefix_append _ _⟩
    · simp only [Prod.mk.injEq] at h
      rw [← h.2]
      exact ⟨rfl, rfl, List.prefix_refl _⟩
  | With opts =>
    simp only [WeightedCasterRef.call, WeightedCasterRef.With, Option.some.injEq,
      Prod.mk.injEq, weightedConfigFromOptionsRef, ticketsFromWeightsRef] at h
    rw [← h.2]
    exact ⟨rfl, rfl, List.prefix_append _ _⟩
  | RerollBelow v =>
    simp only [WeightedCasterRef.call, Option.some.injEq, Prod.mk.injEq] at h
    rw [← h.2]; exact ⟨rfl, rfl, List.prefix_refl _⟩
  | LowerExplosions n =>
    simp only [WeightedCasterRef.call, Option.some.injEq, Prod.mk.injEq] at h
    rw [← h.2]; exact ⟨rfl, rfl, List.prefix_refl _⟩
  | RerollAbove v =>
    simp only [WeightedCasterRef.call, Option.some.injEq, Prod.mk.injEq] at h
    rw [← h.2]; exact ⟨rfl, rfl, List.prefix_refl _⟩
  | UpperExplosions n =>
    simp only [WeightedCasterRef.call, Option.some.injEq, Prod.mk.injEq] at h
    rw [← h.2]; exact ⟨rfl, rfl, List.prefix_refl _⟩

/-- A setter of any object keeps the streams and the maps and extends the slices. -/
theorem call_grows {σ T : Type} [LinearOrder T] [Zero T] (st : Setter σ T)
    (a a1 : Obj σ T) (mem mem1 : Mem σ T) (h : a.call st mem = some (a1, mem1)) :
    mem1.rngs = mem.rngs ∧ mem1.maps = mem.maps ∧ mem.slices <+: mem1.slices := by
  cases a with
  | source s =>
    simp only [Obj.call, Option.some.injEq, Prod.mk.injEq] at h
    rw [← h.2]; exact ⟨rfl, rfl, List.prefix_refl _⟩
  | dist c =>
    simp only [Obj.call, Option.map_eq_some', Prod.mk.injEq] at h
    obtain ⟨_, _, _, h2⟩ := h
    rw [← h2]; exact ⟨rfl, rfl, List.prefix_refl _⟩
  | weighted c =>
    simp only [Obj.call, Option.map_eq_some', Prod.mk.injEq] at h
    obtain ⟨r, hr, _, h2⟩ := h
    rw [← h2]
    exact weightedCall_grows st c r.1 mem r.2 hr

/-- SaltCustomWeighted with weights of positive length: two new slices, the second
with the tickets of the weights, and a new stream. -/
theorem SaltCustomWeighted_pos {σ T : Type} [LinearOrder T] (env : Env σ)
    (s : SourceRef σ T) (salt : Bytes) (w : Option ℕ) (mem : Mem σ T)
    (hw : mapLen (mem.mapAt w) > 0) :
    s.SaltCustomWeighted env salt w mem =
      ({ rng := mem.rngs.length,
         cfg := { RerollBelow := s.opts.RerollBelow
                  MaxLowerExplosions := s.opts.MaxLowerExplosions
                  RerollAbove := s.opts.RerollAbove
                  MaxUpperExplosions := s.opts.MaxUpperExplosions
                  tickets := mem.slices.length + 1 } },
       { rngs := mem.rngs ++ [env.NewChaCha8 (env.DeriveKey s.seed salt)]
         maps := mem.maps
         slices := (mem.slices ++ [ticketsFromWeights (mem.mapAt s.opts.Custom)]) ++
           [ticketsFromWeights (mem.mapAt w)] }) := by
  have hmap : ∀ x, (weightedConfigFromOptionsRef s.opts mem).2.mapAt x = mem.mapAt x :=
    fun _ => rfl
  unfold SourceRef.SaltCustomWeighted
  simp only [hmap, if_pos hw]
  simp [weightedConfigFromOptionsRef, ticketsFromWeightsRef, Mem.newSlice, Mem.newRng,
    Mem.mapAt]

/-- SaltCustomWeighted with weights of length 0: one new slice, with the tickets of the
options, and a new stream. -/
theorem SaltCustomWeighted_zero {σ T : Type} [LinearOrder T] (env : Env σ)
    (s : SourceRef σ T) (salt : Bytes) (w : Option ℕ) (mem : Mem σ T)
    (hw : ¬ mapLen (mem.mapAt w) > 0) :
    s.SaltCustomWeighted env salt w mem =
      ({ rng := mem.rngs.length,
         cfg := { RerollBelow := s.opts.RerollBelow
                  MaxLowerExplosions := s.opts.MaxLowerExplosions
                  RerollAbove := s.opts.RerollAbove
                  MaxUpperExplosions := s.opts.MaxUpperExplosions
                  tickets := mem.slices.length } },
       { rngs := mem.rngs ++ [env.NewChaCha8 (env.DeriveKey s.seed salt)]
         maps := mem.maps
         slices := mem.slices ++ [ticketsFromWeights (mem.mapAt s.opts.Custom)] }) := by
  have hmap : ∀ x, (weightedConfigFromOptionsRef s.opts mem).2.mapAt x = mem.mapAt x :=
    fun _ => rfl
  unfold SourceRef.SaltCustomWeighted
  simp only [hmap, if_neg hw]
  simp [weightedConfigFromOptionsRef, ticketsFromWeightsRef, Mem.newSlice, Mem.newRng]

/-- C29: in a memory in which the object b (a Source or a caster) is valid, the options
or configuration of b, references followed, stay as they are when any setter is called on
any object, when any object is forked and when a caster is derived from any Source; the
fork of b has the configuration of b, a forked weighted caster holds a slice of its own,
and a derived caster has the configuration extracted from the options of the Source at
the time of the derivation. -/
theorem configuration_isolation {σ T : Type} [LinearOrder T] [Zero T] (env : Env σ)
    (mem : Mem σ T) (b : Obj σ T) (hb : b.valid mem) :
    (∀ (st : Setter σ T) (a a1 : Obj σ T) (mem1 : Mem σ T),
      a.call st mem = some (a1, mem1) → b.snapshot mem1 = b.snapshot mem ∧ b.valid mem1) ∧
    (∀ a : Obj σ T, b.snapshot (a.Fork mem).2 = b.snapshot mem ∧ b.valid (a.Fork mem).2) ∧
    ((b.Fork mem).1.snapshot (b.Fork mem).2 = b.snapshot mem ∧
      (b.Fork mem).1.valid (b.Fork mem).2) ∧
    (∀ c : WeightedCasterRef T, (c.Fork mem).1.cfg.tickets = mem.slices.length) ∧
    (∀ (s : SourceRef σ T) (salt : Bytes),
      b.snapshot (s.SaltDist env salt mem).2 = b.snapshot mem ∧
      b.valid (s.SaltDist env salt mem).2 ∧
      (Obj.dist (s.SaltDist env salt mem).1).snapshot (s.SaltDist env salt mem).2 =
        .dist (distConfigFromOptions (s.opts.load mem))) ∧
    (∀ (s : SourceRef σ T) (salt : Bytes),
      b.snapshot (s.SaltWeighted env salt mem).2 = b.snapshot mem ∧
      b.valid (s.SaltWeighted env salt mem).2 ∧
      (Obj.weighted (s.SaltWeighted env salt mem).1).valid (s.SaltWeighted env salt mem).2 ∧
      (Obj.weighted (s.SaltWeighted env salt mem).1).snapshot (s.SaltWeighted env salt mem).2 =
        .weighted (weightedConfigFromOptions (s.opts.load mem))) ∧
    (∀ (s : SourceRef σ T) (salt : Bytes) (w : Option ℕ),
      b.snapshot (s.SaltCustomWeighted env salt w mem).2 = b.snapshot mem ∧
      b.valid (s.SaltCustomWeighted env salt w mem).2 ∧
      (Obj.weighted (s.SaltCustomWeighted env salt w mem).1).valid
        (s.SaltCustomWeighted env salt w mem).2 ∧
      (Obj.weighted (s.SaltCustomWeighted env salt w mem).1).snapshot
          (s.SaltCustomWeighted env salt w mem).2 =
        .weighted
          (if mapLen (mem.mapAt w) > 0 then
            { weightedConfigFromOptions (s.opts.load mem) with
              tickets := ticketsFromWeights (mem.mapAt w) }
           else weightedConfigFromOptions (s.opts.load mem))) := by
  refine ⟨?_, ?_, ?_, ?_, ?_, ?_, ?_⟩
  · intro st a a1 mem1 h
    obtain ⟨_, hm, hs⟩ := call_grows st a a1 mem mem1 h
    exact snapshot_of_grown b mem mem1 hb hm hs
  · intro a
    cases a with
    | source s => exact ⟨rfl, hb⟩
    | dist c => exact ⟨rfl, hb⟩
    | weighted c => exact snapshot_of_grown b mem _ hb rfl (List.prefix_append _ _)
  · cases b with
    | source s => exact ⟨rfl, hb⟩
    | dist c => exact ⟨rfl, trivial⟩
    | weighted c =>
      simp only [Obj.valid] at hb
      refine ⟨?_, ?_⟩
      · simp [Obj.Fork, Obj.snapshot, WeightedCasterRef.Fork, weightedConfigRef.fork,
          weightedConfigRef.load, Mem.newSlice, Mem.sliceAt]
      · simp [Obj.Fork, Obj.valid, WeightedCasterRef.Fork, weightedConfigRef.fork,
          Mem.newSlice]
  · intro c; rfl
  · intro s salt
    refine ⟨(snapshot_of_grown b mem _ hb rfl (List.prefix_refl _)).1,
      (snapshot_of_grown b mem _ hb rfl (List.prefix_refl _)).2, rfl⟩
  · intro s salt
    have hg := snapshot_of_grown b mem (s.SaltWeighted env salt mem).2 hb rfl
      (List.prefix_append _ _)
    refine ⟨hg.1, hg.2, ?_, ?_⟩
    · simp [Obj.valid, SourceRef.SaltWeighted, weightedConfigFromOptionsRef,
        ticketsFromWeightsRef, Mem.newSlice, Mem.newRng]
    · simp [Obj.snapshot, SourceRef.SaltWeighted, weightedConfigFromOptionsRef,
        ticketsFromWeightsRef, Mem.newSlice, Mem.newRng, weightedConfigRef.load, Mem.sliceAt,
        weightedConfigFromOptions, OptionsRef.load, Mem.mapAt]
  · intro s salt w
    by_cases hw : mapLen (mem.mapAt w) > 0
    · rw [SaltCustomWeighted_pos env s salt w mem hw]
      have hg := snapshot_of_grown b mem
        { rngs := mem.rngs ++ [env.NewChaCha8 (env.DeriveKey s.seed salt)]
          maps := mem.maps
          slices := (mem.slices ++ [ticketsFromWeights (mem.mapAt s.opts.Custom)]) ++
            [ticketsFromWeights (mem.mapAt w)] } hb rfl
        (by rw [List.append_assoc]; exact List.prefix_append _ _)
      refine ⟨hg.1, hg.2, ?_, ?_⟩
      · simp [Obj.valid]
      · have key : ∀ (x y : List (ticket T))
            (h : mem.slices.length + 1 < (mem.slices ++ [x, y]).length),
            (mem.slices ++ [x, y])[mem.slices.length + 1] = y := by
          intro x y h
          rw [List.getElem_append_right (by omega)]
          simp
        simp only [hw, if_true]
        simp [Obj.snapshot, weightedConfigRef.load, Mem.sliceAt, weightedConfigFromOptions,
          OptionsRef.load, key]
    · rw [SaltCustomWeighted_zero env s salt w mem hw]
      have hg := snapshot_of_grown b mem
        { rngs := mem.rngs ++ [env.NewChaCha8 (env.DeriveKey s.seed salt)]
          maps := mem.maps
          slices := mem.slices ++ [ticketsFromWeights (mem.mapAt s.opts.Custom)] } hb rfl
        (List.prefix_append _ _)
      refine ⟨hg.1, hg.2, ?_, ?_⟩
      · simp [Obj.valid]
      · simp only [hw, if_false]
        simp [Obj.snapshot, weightedConfigRef.load, Mem.sliceAt, weightedConfigFromOptions,
          OptionsRef.load]

/-- Witness of C29: after the derivation of a weighted caster from `demoSourceRef` and
its fork, Custom with the map 7:1 on the fork gives the fork the ticket 7:1 and leaves
the tickets 1:10, 2:0, 3:30 of the original and the options of the Source as they
were. -/
theorem configuration_isolation_witness :
    (Obj.weighted demoWeightedRef.1).valid demoForkRef.2 ∧
    (Obj.source demoSourceRef).valid demoForkRef.2 ∧
    (Obj.weighted demoForkRef.1).call (Setter.Custom (some 1)) demoForkRef.2 =
      some (Obj.weighted (demoForkRef.1.Custom (some 1) demoForkRef.2).1,
        (demoForkRef.1.Custom (some 1) demoForkRef.2).2) ∧
    (Obj.weighted demoWeightedRef.1).snapshot (demoForkRef.1.Custom (some 1) demoForkRef.2).2 =
      (Obj.weighted demoWeightedRef.1).snapshot demoForkRef.2 ∧
    (Obj.source demoSourceRef).snapshot (demoForkRef.1.Custom (some 1) demoForkRef.2).2 =
      (Obj.source demoSourceRef).snapshot demoForkRef.2 ∧
    ((demoForkRef.1.Custom (some 1) demoForkRef.2).1.cfg.load
        (demoForkRef.1.Custom (some 1) demoForkRef.2).2).tickets =
      [{ value := 7, weight := 1 }] ∧
    (demoWeightedRef.1.cfg.load (demoForkRef.1.Custom (some 1) demoForkRef.2).2).tickets =
      [{ value := 1, weight := 10 }, { value := 2, weight := 0 }, { value := 3, weight := 30 }] :=
  ⟨show (0 : ℕ) < 2 from by decide, show (0 : ℕ) < 2 from by decide, rfl,
   ((configuration_isolation demoEnv demoForkRef.2 (Obj.weighted demoWeightedRef.1)
      (show (0 : ℕ) < 2 from by decide)).1 (Setter.Custom (some 1)) (Obj.weighted demoForkRef.1)
      _ _ rfl).1,
   ((configuration_isolation demoEnv demoForkRef.2 (Obj.source demoSourceRef)
      (show (0 : ℕ) < 2 from by decide)).1 (Setter.Custom (some 1)) (Obj.weighted demoForkRef.1)
      _ _ rfl).1,
   by with_unfolding_all rfl, by with_unfolding_all rfl⟩

/-! ## The setters on references act as the setters on values -/

/-- The setters of a DistCaster that holds its stream pointer set the config that the
setters of `DistCaster` set, whatever the state of the stream. -/
theorem distCall_agrees {σ T : Type} (c : DistCasterRef σ T) (s : σ) (mem : Mem σ T)
    (d : Option (Distribution σ)) (w : ℚ) (v : T) (n : ℤ) (opts : OptionsRef σ T) :
    (c.call (.Dist d)).map (fun c1 => c1.cfg) =
      some ((DistCaster.Dist ⟨s, c.cfg, c.floatRange, c.convert⟩ d).cfg) ∧
    (c.call (.Weight w)).map (fun c1 => c1.cfg) =
      some ((DistCaster.Weight ⟨s, c.cfg, c.floatRange, c.convert⟩ w).cfg) ∧
    (c.call (.RerollBelow v)).map (fun c1 => c1.cfg) =
      some ((DistCaster.RerollBelow ⟨s, c.cfg, c.floatRange, c.convert⟩ v).cfg) ∧
    (c.call (.LowerExplosions n)).map (fun c1 => c1.cfg) =
      some ((DistCaster.LowerExplosions ⟨s, c.cfg, c.floatRange, c.convert⟩ n).cfg) ∧
    (c.call (.RerollAbove v)).map (fun c1 => c1.cfg) =
      some ((DistCaster.RerollAbove ⟨s, c.cfg, c.floatRange, c.convert⟩ v).cfg) ∧
    (c.call (.UpperExplosions n)).map (fun c1 => c1.cfg) =
      some ((DistCaster.UpperExplosions ⟨s, c.cfg, c.floatRange, c.convert⟩ n).cfg) ∧
    (c.call (.With opts)).map (fun c1 => c1.cfg) =
      some ((DistCaster.With ⟨s, c.cfg, c.floatRange, c.convert⟩ (opts.load mem)).cfg) := by
  refine ⟨?_, rfl, rfl, rfl, rfl, rfl, ?_⟩
  · simp only [DistCasterRef.call, DistCaster.Dist, Option.map_some']
    split_ifs <;> rfl
  · simp only [DistCasterRef.call, DistCaster.With, Option.map_some', OptionsRef.load]
    split_ifs <;> rfl

/-- Custom and With of a WeightedCaster that holds its references leave it with the
config that Custom and With of `WeightedCaster` set on the config it had. -/
theorem weightedCall_agrees {σ T : Type} [LinearOrder T] (c : WeightedCasterRef T) (s : σ)
    (mem : Mem σ T) (hc : c.cfg.tickets < mem.slices.length) (w : Option ℕ)
    (opts : OptionsRef σ T) :
    (c.Custom w mem).1.cfg.load (c.Custom w mem).2 =
      (WeightedCaster.Custom ⟨s, c.cfg.load mem⟩ (mem.mapAt w)).cfg ∧
    (c.With opts mem).1.cfg.load (c.With opts mem).2 =
      (WeightedCaster.With ⟨s, c.cfg.load mem⟩ (opts.load mem)).cfg := by
  have hold : ∀ ts : List (ticket T), (mem.slices ++ [ts])[c.cfg.tickets]? =
      mem.slices[c.cfg.tickets]? := fun ts => List.getElem?_append_left hc
  constructor
  · unfold WeightedCasterRef.Custom WeightedCaster.Custom
    by_cases hw : mapLen (mem.mapAt w) > 0
    · simp only [hw, if_true]
      simp [weightedConfigRef.load, ticketsFromWeightsRef, Mem.newSlice, Mem.sliceAt]
    · simp only [hw, if_false]
  · unfold WeightedCasterRef.With WeightedCaster.With
    have hl : (opts.load mem).Custom = mem.mapAt opts.Custom := rfl
    by_cases hw : mapLen (mem.mapAt opts.Custom) = 0
    · simp only [hl, hw, if_true]
      simp [weightedConfigRef.load, weightedConfigFromOptionsRef, ticketsFromWeightsRef,
        Mem.newSlice, Mem.sliceAt, weightedConfigFromOptions, OptionsRef.load, hold]
    · simp only [hl, hw, if_false]
      simp [weightedConfigRef.load, weightedConfigFromOptionsRef, ticketsFromWeightsRef,
        Mem.newSlice, Mem.sliceAt, weightedConfigFromOptions, OptionsRef.load]

/-- MergeWith on options that hold a reference to a map in memory is MergeWith on the
options they stand for. -/
theorem mergeWithRef_agrees {σ T : Type} [Zero T] [DecidableEq T] (o x : OptionsRef σ T)
    (mem : Mem σ T) (hx : ∀ a, x.Custom = some a → a < mem.maps.length) :
    (o.MergeWith x).load mem = (o.load mem).MergeWith (x.load mem) := by
  have hsome : (mem.mapAt x.Custom).isSome = x.Custom.isSome := by
    cases hxc : x.Custom with
    | none => rfl
    | some a =>
      have := hx a hxc
      simp [Mem.mapAt, List.getElem?_eq_getElem this]
  rw [MergeWith_eq]
  apply Options.ext_fields <;>
    simp only [OptionsRef.MergeWith, OptionsRef.load, hsome, apply_ite OptionsRef.Dist,
      apply_ite OptionsRef.Weight, apply_ite OptionsRef.Custom,
      apply_ite OptionsRef.RerollBelow, apply_ite OptionsRef.MaxLowerExplosions,
      apply_ite OptionsRef.RerollAbove, apply_ite OptionsRef.MaxUpperExplosions, ite_self,
      apply_ite (Mem.mapAt mem)]

/-! ## The exclusive upper bound -/

/-- C36: rollFloat returns the raw draw unchanged when it is below Upper and the value
`Nextafter(Upper, Lower)` when it is at or above Upper, with the stream the draw left;
where Lower < Upper and that value, the representable value just below Upper, lies in
[Lower, Upper), the result is strictly below Upper, and it is at least Lower whenever
the raw draw is. -/
theorem rollFloat_exclusive_upper {σ : Type} (env : Env σ) (d : Distribution σ)
    (p : FloatParams) (rng : σ) (raw : ℚ) (rng1 : σ)
    (hlu : p.Lower < p.Upper)
    (hgrid : p.Lower < p.Upper →
      p.Lower ≤ env.Nextafter p.Upper p.Lower ∧ env.Nextafter p.Upper p.Lower < p.Upper)
    (hraw : d.Rand p rng = .ok (raw, rng1)) :
    (raw < p.Upper → rollFloat env (some d) p rng = .ok (raw, rng1)) ∧
    (p.Upper ≤ raw →
      rollFloat env (some d) p rng = .ok (env.Nextafter p.Upper p.Lower, rng1)) ∧
    (∃ v, rollFloat env (some d) p rng = .ok (v, rng1) ∧ v < p.Upper ∧
      (p.Lower ≤ raw → p.Lower ≤ v)) := by
  have h1 : raw < p.Upper → rollFloat env (some d) p rng = .ok (raw, rng1) := by
    intro h
    have : ¬ raw ≥ p.Upper := not_le.2 h
    simp [rollFloat, hraw, this]
  have h2 : p.Upper ≤ raw →
      rollFloat env (some d) p rng = .ok (env.Nextafter p.Upper p.Lower, rng1) := by
    intro h
    have : raw ≥ p.Upper := h
    simp [rollFloat, hraw, this]
  refine ⟨h1, h2, ?_⟩
  by_cases h : raw < p.Upper
  · exact ⟨raw, h1 h, h, fun hl => hl⟩
  · exact ⟨_, h2 (not_lt.1 h), (hgrid hlu).2, fun _ => (hgrid hlu).1⟩

/-- Witness of C36 on [1, 7) with the grid of step 1/1024: the uniform draw 5/2 is
returned unchanged, and the draw 7 of WeightedMax at weight 1 is replaced by
7 - 1/1024. -/
theorem rollFloat_exclusive_upper_witness :
    rollFloat demoEnv (some (uniformDist demoEnv)) demoParams 1 = .ok (5 / 2, 2) ∧
    rollFloat demoEnv (some (weightedMaxDist demoEnv))
        { Lower := 1, Upper := 7, Weight := 1 } 1 = .ok (7 - 1 / 1024, 2) :=
  ⟨(rollFloat_exclusive_upper demoEnv (uniformDist demoEnv) demoParams 1 (5 / 2) 2
      (by norm_num [demoParams]) (fun _ => by norm_num [demoParams, demoEnv])
      (by with_unfolding_all rfl)).1 (by norm_num [demoParams]),
   ((rollFloat_exclusive_upper demoEnv (weightedMaxDist demoEnv)
      { Lower := 1, Upper := 7, Weight := 1 } 1 7 2
      (by norm_num) (fun _ => by norm_num [demoEnv])
      (by with_unfolding_all rfl)).2.1 (by norm_num)).trans (by norm_num [demoEnv])⟩

/-! ## The odds total 100 -/

/-- Every built-in CDF is 0 at and below Lower and 1 at and above Upper. -/
theorem builtin_CDF_ends {σ : Type} (env : Env σ) (b : Builtin) (p : FloatParams) (x : ℚ) :
    (x ≤ p.Lower → (b.dist env).CDF x p = 0) ∧
    (p.Lower < x → p.Upper ≤ x → (b.dist env).CDF x p = 1) := by
  constructor
  · intro h
    cases b <;>
      simp [Builtin.dist, uniformDist, uniform.CDF, normalDist, normal.CDF, weightedLowDist,
        weightedHighDist, NewBetaDist, BetaDist.CDF, weightedMinDist, weightedMin.CDF,
        weightedMaxDist, weightedMax.CDF, h]
  · intro h1 h2
    have h3 : ¬ x ≤ p.Lower := not_le.2 h1
    cases b <;>
      simp [Builtin.dist, uniformDist, uniform.CDF, normalDist, normal.CDF, weightedLowDist,
        weightedHighDist, NewBetaDist, BetaDist.CDF, weightedMinDist, weightedMin.CDF,
        weightedMaxDist, weightedMax.CDF, h3, h2]

/-- The differences of a function over consecutive integers telescope. -/
theorem sum_Icc_telescope (F : ℤ → ℚ) (lo : ℤ) :
    ∀ (n : ℕ), ∑ v in Finset.Icc lo (lo + n - 1), (F (v + 1) - F v) = F (lo + n) - F lo := by
  intro n
  induction n with
  | zero =>
    have : Finset.Icc lo (lo + ((0 : ℕ) : ℤ) - 1) = ∅ := by
      apply Finset.Icc_eq_empty
      omega
    simp [this]
  | succ n ih =>
    have hset : Finset.Icc lo (lo + ((n + 1 : ℕ) : ℤ) - 1)
        = insert (lo + (n : ℤ)) (Finset.Icc lo (lo + (n : ℤ) - 1)) := by
      ext v
      simp only [Finset.mem_Icc, Finset.mem_insert]
      push_cast
      omega
    have hnot : lo + (n : ℤ) ∉ Finset.Icc lo (lo + (n : ℤ) - 1) := by
      simp only [Finset.mem_Icc]
      omega
    rw [hset, Finset.sum_insert hnot, ih]
    push_cast
    ring_nf

/-- The telescoping sum between two integers. -/
theorem sum_Icc_sub (F : ℤ → ℚ) (lo hi : ℤ) (h : lo ≤ hi + 1) :
    ∑ v in Finset.Icc lo hi, (F (v + 1) - F v) = F (hi + 1) - F lo := by
  have := sum_Icc_telescope F lo (hi + 1 - lo).toNat
  have hn : ((hi + 1 - lo).toNat : ℤ) = hi + 1 - lo := Int.toNat_of_nonneg (by omega)
  rw [hn] at this
  have h1 : lo + (hi + 1 - lo) - 1 = hi := by ring
  have h2 : lo + (hi + 1 - lo) = hi + 1 := by ring
  rw [h1, h2] at this
  exact this

/-- Odds of an int caster with a built-in distribution: the table and the two chances in
terms of the CDF at integer points. -/
theorem intOdds_eq {σ : Type} (env : Env σ) (b : Builtin) (c : DistCaster σ ℤ)
    (r : List (Range ℤ)) (hd : c.cfg.Dist = some (b.dist env))
    (hfr : c.floatRange = intFloatRange) :
    c.Odds r = .ok
      { Probabilities := fun j =>
          if (defaultRange r).Lower ≤ j ∧ j ≤ (defaultRange r).Upper
          then some (((b.dist env).CDF ((j + 1 : ℤ) : ℚ)
              { toRange := intFloatRange (defaultRange r), Weight := c.cfg.Weight }
            - (b.dist env).CDF ((j : ℤ) : ℚ)
              { toRange := intFloatRange (defaultRange r), Weight := c.cfg.Weight }) * 100)
          else none
        LowerExplosionChance :=
          if c.cfg.MaxLowerExplosions > 0 then
            (b.dist env).CDF ((c.cfg.RerollBelow : ℤ) : ℚ)
              { toRange := intFloatRange (defaultRange r), Weight := c.cfg.Weight } * 100
          else 0
        UpperExplosionChance :=
          if c.cfg.MaxUpperExplosions > 0 then
            (1 - (b.dist env).CDF (((c.cfg.RerollAbove + 1 : ℤ)) : ℚ)
              { toRange := intFloatRange (defaultRange r), Weight := c.cfg.Weight }) * 100
          else 0 } := by
  rw [Odds_eq c r (b.dist env) hd, hfr]
  simp only [constraint.toInt, intFloatRange]
  push_cast
  rfl

/-- C38: the analytic odds of an int DistCaster total 100.  For every built-in
distribution, every weight and every int range with lower ≤ upper, Odds returns a table
whose keys are the integers of the range and whose entries sum to 100 in exact
arithmetic. -/
theorem int_odds_total {σ : Type} (env : Env σ) (b : Builtin) (c : DistCaster σ ℤ)
    (r : List (Range ℤ)) (hd : c.cfg.Dist = some (b.dist env))
    (hfr : c.floatRange = intFloatRange)
    (hr : (defaultRange r).Lower ≤ (defaultRange r).Upper) :
    ∃ o, c.Odds r = .ok o ∧
      (∀ v, o.Probabilities v ≠ none ↔ ((defaultRange r).Lower ≤ v ∧ v ≤ (defaultRange r).Upper)) ∧
      ∑ v in Finset.Icc (defaultRange r).Lower (defaultRange r).Upper,
        (o.Probabilities v).getD 0 = 100 := by
  refine ⟨_, intOdds_eq env b c r hd hfr, ?_, ?_⟩
  · intro v
    simp only
    split_ifs with h
    · simp [h]
    · simp [h]
  · simp only
    have hlu : ((defaultRange r).Lower : ℚ) < ((defaultRange r).Upper : ℚ) + 1 := by
      have : ((defaultRange r).Lower : ℚ) ≤ ((defaultRange r).Upper : ℚ) := by exact_mod_cast hr
      linarith
    have hsum := sum_Icc_sub (fun v : ℤ => (b.dist env).CDF (v : ℚ)
        { toRange := intFloatRange (defaultRange r), Weight := c.cfg.Weight })
      (defaultRange r).Lower (defaultRange r).Upper (by omega)
    have hlo := (builtin_CDF_ends env b
      { toRange := intFloatRange (defaultRange r), Weight := c.cfg.Weight }
      ((defaultRange r).Lower : ℚ)).1 (le_refl _)
    have hhi := (builtin_CDF_ends env b
      { toRange := intFloatRange (defaultRange r), Weight := c.cfg.Weight }
      (((defaultRange r).Upper + 1 : ℤ) : ℚ)).2 (by simpa [intFloatRange] using hlu)
      (by simp [intFloatRange])
    simp only at hsum
    rw [hlo, hhi] at hsum
    calc ∑ v in Finset.Icc (defaultRange r).Lower (defaultRange r).Upper,
          (if (defaultRange r).Lower ≤ v ∧ v ≤ (defaultRange r).Upper
            then some (((b.dist env).CDF ((v + 1 : ℤ) : ℚ)
                { toRange := intFloatRange (defaultRange r), Weight := c.cfg.Weight }
              - (b.dist env).CDF ((v : ℤ) : ℚ)
                { toRange := intFloatRange (defaultRange r), Weight := c.cfg.Weight }) * 100)
            else none).getD 0
        = ∑ v in Finset.Icc (defaultRange r).Lower (defaultRange r).Upper,
            (((b.dist env).CDF ((v + 1 : ℤ) : ℚ)
                { toRange := intFloatRange (defaultRange r), Weight := c.cfg.Weight }
              - (b.dist env).CDF ((v : ℤ) : ℚ)
                { toRange := intFloatRange (defaultRange r), Weight := c.cfg.Weight }) * 100) := by
          apply Finset.sum_congr rfl
          intro v hv
          rw [Finset.mem_Icc] at hv
          simp [hv]
      _ = 100 := by
          rw [← Finset.sum_mul, hsum]
          norm_num

/-! ## The explosion chances and the bucket table -/

/-- The buckets below a threshold: their differences sum to the value at the threshold,
for a function that is 0 up to lo and 1 from hi+1 on. -/
theorem bucket_sum_below (F : ℤ → ℚ) (lo hi below : ℤ) (hr : lo ≤ hi)
    (h0 : ∀ x, x ≤ lo → F x = 0) (h1 : ∀ x, hi + 1 ≤ x → F x = 1) :
    ∑ v in (Finset.Icc lo hi).filter (fun v => v < below), (F (v + 1) - F v) = F below := by
  by_cases hb : below ≤ lo
  · have : (Finset.Icc lo hi).filter (fun v => v < below) = ∅ := by
      ext v
      simp only [Finset.mem_filter, Finset.mem_Icc, Finset.not_mem_empty, iff_false]
      omega
    rw [this, Finset.sum_empty, h0 below hb]
  · by_cases hb2 : below ≤ hi + 1
    · have : (Finset.Icc lo hi).filter (fun v => v < below) = Finset.Icc lo (below - 1) := by
        ext v
        simp only [Finset.mem_filter, Finset.mem_Icc]
        omega
      rw [this, sum_Icc_sub F lo (below - 1) (by omega), h0 lo (le_refl _)]
      simp
    · have : (Finset.Icc lo hi).filter (fun v => v < below) = Finset.Icc lo hi := by
        ext v
        simp only [Finset.mem_filter, Finset.mem_Icc]
        omega
      rw [this, sum_Icc_sub F lo hi (by omega), h0 lo (le_refl _), h1 (hi + 1) (le_refl _),
        h1 below (by omega)]
      simp

/-- The buckets above a threshold: their differences sum to 1 minus the value next above
the threshold. -/
theorem bucket_sum_above (F : ℤ → ℚ) (lo hi above : ℤ) (hr : lo ≤ hi)
    (h0 : ∀ x, x ≤ lo → F x = 0) (h1 : ∀ x, hi + 1 ≤ x → F x = 1) :
    ∑ v in (Finset.Icc lo hi).filter (fun v => v > above), (F (v + 1) - F v)
      = 1 - F (above + 1) := by
  by_cases hb : hi + 1 ≤ above + 1
  · have : (Finset.Icc lo hi).filter (fun v => v > above) = ∅ := by
      ext v
      simp only [Finset.mem_filter, Finset.mem_Icc, Finset.not_mem_empty, iff_false]
      omega
    rw [this, Finset.sum_empty, h1 (above + 1) hb]
    simp
  · by_cases hb2 : lo ≤ above + 1
    · have : (Finset.Icc lo hi).filter (fun v => v > above) = Finset.Icc (above + 1) hi := by
        ext v
        simp only [Finset.mem_filter, Finset.mem_Icc]
        omega
      rw [this, sum_Icc_sub F (above + 1) hi (by omega), h1 (hi + 1) (le_refl _)]
    · have : (Finset.Icc lo hi).filter (fun v => v > above) = Finset.Icc lo hi := by
        ext v
        simp only [Finset.mem_filter, Finset.mem_Icc]
        omega
      rw [this, sum_Icc_sub F lo hi (by omega), h0 lo (le_refl _), h1 (hi + 1) (le_refl _),
        h0 (above + 1) (by omega)]

/-- C39: the explosion chances of the Odds of an int DistCaster are consistent with its
bucket table.  For every built-in distribution, every weight and every int range with
lower ≤ upper: when MaxLowerExplosions > 0 the LowerExplosionChance is the sum of the
entries of the buckets v < RerollBelow, and when MaxUpperExplosions > 0 the
UpperExplosionChance is the sum of the entries of the buckets v > RerollAbove; these are
the buckets on which shouldExplodeLower and shouldExplodeUpper hold for the first roll
(roll count 0). -/
theorem explosion_chances_match_buckets {σ : Type} (env : Env σ) (b : Builtin)
    (c : DistCaster σ ℤ) (r : List (Range ℤ)) (hd : c.cfg.Dist = some (b.dist env))
    (hfr : c.floatRange = intFloatRange)
    (hr : (defaultRange r).Lower ≤ (defaultRange r).Upper) :
    ∃ o, c.Odds r = .ok o ∧
      (c.cfg.MaxLowerExplosions > 0 →
        o.LowerExplosionChance =
          ∑ v in (Finset.Icc (defaultRange r).Lower (defaultRange r).Upper).filter
              (fun v => v < c.cfg.RerollBelow), (o.Probabilities v).getD 0) ∧
      (c.cfg.MaxUpperExplosions > 0 →
        o.UpperExplosionChance =
          ∑ v in (Finset.Icc (defaultRange r).Lower (defaultRange r).Upper).filter
              (fun v => v > c.cfg.RerollAbove), (o.Probabilities v).getD 0) ∧
      (∀ v : ℤ, (c.cfg.shouldExplodeLower v 0 = true ↔
          (c.cfg.MaxLowerExplosions > 0 ∧ v < c.cfg.RerollBelow)) ∧
        (c.cfg.shouldExplodeUpper v 0 = true ↔
          (c.cfg.MaxUpperExplosions > 0 ∧ v > c.cfg.RerollAbove))) := by
  have hlu : ((defaultRange r).Lower : ℚ) ≤ ((defaultRange r).Upper : ℚ) := by exact_mod_cast hr
  have h0 : ∀ x : ℤ, x ≤ (defaultRange r).Lower → (b.dist env).CDF (x : ℚ)
      { toRange := intFloatRange (defaultRange r), Weight := c.cfg.Weight } = 0 := by
    intro x hx
    exact (builtin_CDF_ends env b _ _).1 (by simpa [intFloatRange] using hx)
  have h1 : ∀ x : ℤ, (defaultRange r).Upper + 1 ≤ x → (b.dist env).CDF (x : ℚ)
      { toRange := intFloatRange (defaultRange r), Weight := c.cfg.Weight } = 1 := by
    intro x hx
    have hx2 : ((defaultRange r).Upper : ℚ) + 1 ≤ (x : ℚ) := by exact_mod_cast hx
    exact (builtin_CDF_ends env b _ _).2
      (by simp only [intFloatRange]; linarith) (by simpa [intFloatRange] using hx2)
  have hentry : ∀ (P : ℤ → Prop) [DecidablePred P],
      ∑ v in (Finset.Icc (defaultRange r).Lower (defaultRange r).Upper).filter P,
        (if (defaultRange r).Lower ≤ v ∧ v ≤ (defaultRange r).Upper
          then some (((b.dist env).CDF ((v + 1 : ℤ) : ℚ)
              { toRange := intFloatRange (defaultRange r), Weight := c.cfg.Weight }
            - (b.dist env).CDF ((v : ℤ) : ℚ)
              { toRange := intFloatRange (defaultRange r), Weight := c.cfg.Weight }) * 100)
          else none).getD 0
      = (∑ v in (Finset.Icc (defaultRange r).Lower (defaultRange r).Upper).filter P,
          ((b.dist env).CDF ((v + 1 : ℤ) : ℚ)
              { toRange := intFloatRange (defaultRange r), Weight := c.cfg.Weight }
            - (b.dist env).CDF ((v : ℤ) : ℚ)
              { toRange := intFloatRange (defaultRange r), Weight := c.cfg.Weight })) * 100 := by
    intro P _
    rw [Finset.sum_mul]
    apply Finset.sum_congr rfl
    intro v hv
    rw [Finset.mem_filter, Finset.mem_Icc] at hv
    simp [hv.1]
  refine ⟨_, intOdds_eq env b c r hd hfr, ?_, ?_, ?_⟩
  · intro hm
    simp only [hm, if_true]
    rw [hentry, bucket_sum_below (fun v : ℤ => (b.dist env).CDF (v : ℚ)
        { toRange := intFloatRange (defaultRange r), Weight := c.cfg.Weight }) _ _ _ hr h0 h1]
  · intro hm
    simp only [hm, if_true]
    rw [hentry, bucket_sum_above (fun v : ℤ => (b.dist env).CDF (v : ℚ)
        { toRange := intFloatRange (defaultRange r), Weight := c.cfg.Weight }) _ _ _ hr h0 h1]
  · intro v
    simp [config.shouldExplodeLower, config.shouldExplodeUpper]

/-- Witness of C38: the odds of the uniform int caster `demoCaster` on a six-sided die
total 100. -/
theorem int_odds_total_witness :
    (defaultRange [D6]).Lower ≤ (defaultRange [D6]).Upper ∧
    ∃ o, demoCaster.Odds [D6] = .ok o ∧
      ∑ v in Finset.Icc (defaultRange [D6]).Lower (defaultRange [D6]).Upper,
        (o.Probabilities v).getD 0 = 100 := by
  have hr : (defaultRange [D6]).Lower ≤ (defaultRange [D6]).Upper := by
    norm_num [defaultRange, D6]
  obtain ⟨o, ho, -, hsum⟩ := int_odds_total demoEnv Builtin.Uniform demoCaster [D6] rfl rfl hr
  exact ⟨hr, o, ho, hsum⟩

/-- Witness of C39 on `demoCaster` (uniform, RerollBelow 3, at most 2 lower explosions)
and a six-sided die: the lower explosion chance is 100/3, the sum of the entries of the
buckets 1 and 2. -/
theorem explosion_chances_match_buckets_witness :
    demoCaster.cfg.MaxLowerExplosions > 0 ∧
    ∃ o, demoCaster.Odds [D6] = .ok o ∧ o.LowerExplosionChance = 100 / 3 ∧
      ∑ v in (Finset.Icc (defaultRange [D6]).Lower (defaultRange [D6]).Upper).filter
          (fun v => v < demoCaster.cfg.RerollBelow), (o.Probabilities v).getD 0 = 100 / 3 := by
  have hm : demoCaster.cfg.MaxLowerExplosions > 0 := by with_unfolding_all decide
  obtain ⟨o, ho, hl, -, -⟩ := explosion_chances_match_buckets demoEnv Builtin.Uniform demoCaster
    [D6] rfl rfl (by norm_num [defaultRange, D6])
  have hval : o.LowerExplosionChance = 100 / 3 := by
    have h2 := intOdds_eq demoEnv Builtin.Uniform demoCaster [D6] rfl rfl
    rw [ho] at h2
    injection h2 with h2
    rw [h2]
    simp only [hm, if_true]
    have hb : demoCaster.cfg.RerollBelow = 3 := rfl
    rw [hb]
    norm_num [Builtin.dist, uniformDist, uniform.CDF, intFloatRange, defaultRange, D6, Normalize]
  exact ⟨hm, o, ho, hval, by rw [← hl hm, hval]⟩

/-- The sum of the weights over the total weight. -/
theorem sum_weight_share {T : Type} (ts : List (ticket T)) (W : ℚ) (hW : W ≠ 0)
    (h : totalWeight ts = W) :
    (ts.map (fun t => 100 * t.weight / W)).sum = 100 := by
  have hsum : ∀ l : List (ticket T),
      (l.map (fun t => 100 * t.weight / W)).sum = 100 * (l.map (fun t => t.weight)).sum / W := by
    intro l
    induction l with
    | nil => simp
    | cons a l ih =>
      simp only [List.map_cons, List.sum_cons, ih]
      ring
  rw [hsum, ← totalWeight_eq_sum, h]
  field_simp

/-- C40: the odds of an int weighted caster total 100.  On a ticket table with distinct
values, as the keys of a weight map are, and non-zero total weight, the keys of
Odds().Probabilities are the values of the table, each with its own entry, and the
entries sum to 100 in exact arithmetic. -/
theorem weighted_odds_total {σ : Type} (c : WeightedCaster σ ℤ) (r : List (Range ℤ))
    (hp : c.cfg.tickets.Pairwise (fun a b => a.value ≠ b.value))
    (hW : totalWeight c.cfg.tickets ≠ 0) :
    (∀ v : ℤ, (c.Odds r).Probabilities v ≠ none ↔ v ∈ (c.cfg.tickets.map (fun t => t.value))) ∧
    (c.cfg.tickets.map (fun t => t.value)).Nodup ∧
    ∑ v in (c.cfg.tickets.map (fun t => t.value)).toFinset,
      ((c.Odds r).Probabilities v).getD 0 = 100 := by
  have hentry : ∀ t ∈ c.cfg.tickets, (c.Odds r).Probabilities t.value
      = some (100 * t.weight / totalWeight c.cfg.tickets) := by
    intro t ht
    rw [weightedOdds_eq]
    simp only [hW, if_false]
    have := foldl_mapSet_of_mem (fun t : ticket ℤ => t.weight / totalWeight c.cfg.tickets * 100)
      c.cfg.tickets (fun _ => none) hp t ht
    simp only [constraint.toInt] at this ⊢
    rw [this]
    congr 1
    ring
  have hnone : ∀ v : ℤ, (∀ t ∈ c.cfg.tickets, t.value ≠ v) →
      (c.Odds r).Probabilities v = none := by
    intro v hv
    rw [weightedOdds_eq]
    simp only [hW, if_false]
    exact foldl_mapSet_of_not_mem _ v c.cfg.tickets _ hv
  have hnodup : (c.cfg.tickets.map (fun t => t.value)).Nodup := by
    show List.Pairwise (fun a b => a ≠ b) _
    rw [List.pairwise_map]
    exact hp
  refine ⟨?_, hnodup, ?_⟩
  · intro v
    constructor
    · intro hne
      by_contra hmem
      apply hne
      apply hnone
      intro t ht heq
      exact hmem (List.mem_map.2 ⟨t, ht, heq⟩)
    · intro hmem
      obtain ⟨t, ht, heq⟩ := List.mem_map.1 hmem
      rw [← heq, hentry t ht]
      simp
  · rw [List.sum_toFinset _ hnodup, List.map_map]
    have : (c.cfg.tickets.map ((fun v => ((c.Odds r).Probabilities v).getD 0) ∘ fun t => t.value))
        = c.cfg.tickets.map (fun t => 100 * t.weight / totalWeight c.cfg.tickets) := by
      apply List.map_congr_left
      intro t ht
      simp [hentry t ht]
    rw [this]
    exact sum_weight_share _ _ hW rfl

/-- Witness of C40 on `demoWeighted`, whose table is 1:10, 2:0, 3:30: the entries 25, 0
and 75 sum to 100. -/
theorem weighted_odds_total_witness :
    demoWeighted.cfg.tickets.Pairwise (fun a b => a.value ≠ b.value) ∧
    totalWeight demoWeighted.cfg.tickets ≠ 0 ∧
    ∑ v in (demoWeighted.cfg.tickets.map (fun t => t.value)).toFinset,
      ((demoWeighted.Odds []).Probabilities v).getD 0 = 100 := by
  have htk : demoWeighted.cfg.tickets
      = [{ value := 1, weight := 10 }, { value := 2, weight := 0 }, { value := 3, weight := 30 }] := by
    with_unfolding_all rfl
  have hp : demoWeighted.cfg.tickets.Pairwise (fun a b => a.value ≠ b.value) := by
    rw [htk]; simp
  have hW : totalWeight demoWeighted.cfg.tickets ≠ 0 := by
    rw [htk]; norm_num [totalWeight]
  exact ⟨hp, hW, (weighted_odds_total demoWeighted [] hp hW).2.2⟩

/-! ## TruncatedNormal: sampling inverts the CDF -/

/-- C34: TruncatedNormal.Rand is the exact inverse of TruncatedNormal.CDF.  Taking the
standard normal CDF as a strictly increasing map onto (0,1) with normQuantile as its
inverse there: for Sigma > 0, Lower < Upper and a uniform draw u in [0,1), Rand returns a
value s with Lower ≤ s < Upper and CDF(s) = u, the stream advanced by that one draw. -/
theorem truncatedNormal_rand_inverts_CDF {σ : Type} (m : MathEnv σ) (t : TruncatedNormal)
    (rng : σ) (hs : 0 < t.Sigma) (hlu : t.Lower < t.Upper)
    (hu : 0 ≤ (m.Float64 rng).1 ∧ (m.Float64 rng).1 < 1)
    (hmono : StrictMono (normCDF m))
    (hrange : ∀ x, 0 < normCDF m x ∧ normCDF m x < 1)
    (hinv : ∀ p, 0 < p → p < 1 → normCDF m (normQuantile m p) = p) :
    ∃ s, TruncatedNormal.Rand m t rng = .ok (s, (m.Float64 rng).2) ∧
      t.Lower ≤ s ∧ s < t.Upper ∧ TruncatedNormal.CDF m t s = (m.Float64 rng).1 := by
  set u := (m.Float64 rng).1 with hudef
  set aL := (t.Lower - t.Mu) / t.Sigma with haL
  set aU := (t.Upper - t.Mu) / t.Sigma with haU
  set cL := normCDF m aL with hcL
  set cU := normCDF m aU with hcU
  set un := cL + u * (cU - cL) with hun
  set q := normQuantile m un with hq
  have haLU : aL < aU := by
    rw [haL, haU]
    exact div_lt_div_of_pos_right (by linarith) hs
  have hcLU : cL < cU := hmono haLU
  have hD : 0 < cU - cL := by linarith
  have hun1 : cL ≤ un := by
    have : 0 ≤ u * (cU - cL) := mul_nonneg hu.1 hD.le
    linarith
  have hun2 : un < cU := by
    have : u * (cU - cL) < 1 * (cU - cL) := mul_lt_mul_of_pos_right hu.2 hD
    linarith
  have hun0 : 0 < un := lt_of_lt_of_le (hrange aL).1 hun1
  have hun01 : un < 1 := lt_trans hun2 (hrange aU).2
  have hPq : normCDF m q = un := hinv un hun0 hun01
  have hqL : aL ≤ q := by
    rw [← hmono.le_iff_le, hPq]
    exact hun1
  have hqU : q < aU := by
    rw [← hmono.lt_iff_lt, hPq]
    exact hun2
  have hne : t.Sigma ≠ 0 := ne_of_gt hs
  have hsq : (t.Mu + t.Sigma * q - t.Mu) / t.Sigma = q := by
    field_simp
  have hrand : TruncatedNormal.Rand m t rng = .ok (t.Mu + t.Sigma * q, (m.Float64 rng).2) := by
    have h1 : ¬ t.Sigma ≤ 0 := not_le.2 hs
    have h2 : ¬ t.Lower ≥ t.Upper := not_le.2 hlu
    simp only [TruncatedNormal.Rand, h1, h2, if_false]
  have hsL : t.Lower ≤ t.Mu + t.Sigma * q := by
    have h1 : t.Sigma * aL ≤ t.Sigma * q := mul_le_mul_of_nonneg_left hqL hs.le
    have h2 : t.Sigma * aL = t.Lower - t.Mu := by rw [haL]; field_simp
    linarith
  have hsU : t.Mu + t.Sigma * q < t.Upper := by
    have h1 : t.Sigma * q < t.Sigma * aU := mul_lt_mul_of_pos_left hqU hs
    have h2 : t.Sigma * aU = t.Upper - t.Mu := by rw [haU]; field_simp
    linarith
  refine ⟨_, hrand, hsL, hsU, ?_⟩
  unfold TruncatedNormal.CDF
  by_cases hle : t.Mu + t.Sigma * q ≤ t.Lower
  · simp only [hle, if_true]
    have heq : t.Mu + t.Sigma * q = t.Lower := le_antisymm hle hsL
    have hqa : q = aL := by
      rw [haL, ← heq]
      exact hsq.symm
    have hun3 : un = cL := by rw [← hPq, hqa]
    have : u * (cU - cL) = 0 := by linarith
    rcases mul_eq_zero.1 this with h | h
    · exact h.symm
    · exact absurd h (ne_of_gt hD)
  · have hge : ¬ t.Mu + t.Sigma * q ≥ t.Upper := not_le.2 hsU
    simp only [hle, hge, if_false, hsq]
    rw [hPq]
    show (un - cL) / (cU - cL) = u
    rw [hun]
    field_simp

/-- The function x / (1 + |x|), which stands for erf in `demoMathEnv`, is strictly
increasing. -/
theorem demoErf_strictMono : StrictMono (fun x : ℚ => x / (1 + |x|)) := by
  intro x y hxy
  have hx : 0 < 1 + |x| := by positivity
  have hy : 0 < 1 + |y| := by positivity
  show x / (1 + |x|) < y / (1 + |y|)
  rw [div_lt_div_iff₀ hx hy]
  rcases abs_cases x with ⟨h1, h2⟩ | ⟨h1, h2⟩ <;>
    rcases abs_cases y with ⟨h3, h4⟩ | ⟨h3, h4⟩ <;> rw [h1, h3] <;> nlinarith

/-- The function x / (1 + |x|) takes its values strictly between -1 and 1. -/
theorem demoErf_range (x : ℚ) : -1 < x / (1 + |x|) ∧ x / (1 + |x|) < 1 := by
  have hx : 0 < 1 + |x| := by positivity
  constructor
  · rw [lt_div_iff₀ hx]
    have := neg_abs_le x
    linarith
  · rw [div_lt_iff₀ hx]
    have := le_abs_self x
    linarith

/-- The function y / (1 - |y|) inverts x / (1 + |x|) on (-1, 1). -/
theorem demoErf_inv (y : ℚ) (hy : |y| < 1) :
    (y / (1 - |y|)) / (1 + |y / (1 - |y|)|) = y := by
  have h1 : 0 < 1 - |y| := by linarith
  rw [abs_div, abs_of_pos h1]
  have h2 : 1 + |y| / (1 - |y|) = 1 / (1 - |y|) := by
    field_simp
  rw [h2]
  field_simp

/-- The standard normal CDF of `demoMathEnv`. -/
theorem demo_normCDF (x : ℚ) :
    normCDF demoMathEnv x = 1 / 2 * (1 + (x / (7 / 5)) / (1 + |x / (7 / 5)|)) := rfl

/-- The standard normal CDF of `demoMathEnv` is strictly increasing. -/
theorem demo_normCDF_strictMono : StrictMono (normCDF demoMathEnv) := by
  intro x y hxy
  rw [demo_normCDF, demo_normCDF]
  have h1 : x / (7 / 5) < y / (7 / 5) := div_lt_div_of_pos_right hxy (by norm_num)
  have h2 := demoErf_strictMono h1
  simp only at h2
  linarith

/-- The standard normal CDF of `demoMathEnv` takes its values in (0, 1). -/
theorem demo_normCDF_range (x : ℚ) : 0 < normCDF demoMathEnv x ∧ normCDF demoMathEnv x < 1 := by
  rw [demo_normCDF]
  have := demoErf_range (x / (7 / 5))
  constructor <;> linarith [this.1, this.2]

/-- The quantile function of `demoMathEnv` inverts its standard normal CDF on (0, 1). -/
theorem demo_normQuantile_inv (p : ℚ) (h0 : 0 < p) (h1 : p < 1) :
    normCDF demoMathEnv (normQuantile demoMathEnv p) = p := by
  have hq : normQuantile demoMathEnv p = 7 / 5 * ((2 * p - 1) / (1 - |2 * p - 1|)) := by
    have h2 : ¬ p ≤ 0 := not_le.2 h0
    have h3 : ¬ p ≥ 1 := not_le.2 h1
    simp only [normQuantile, h2, h3, if_false]
    rfl
  rw [hq, demo_normCDF]
  have habs : |2 * p - 1| < 1 := by
    rw [abs_lt]
    constructor <;> linarith
  have h4 : 7 / 5 * ((2 * p - 1) / (1 - |2 * p - 1|)) / (7 / 5)
      = (2 * p - 1) / (1 - |2 * p - 1|) :=
    mul_div_cancel_left₀ _ (by norm_num)
  rw [h4, demoErf_inv _ habs]
  ring

/-- Witness of C34 on the truncated normal of the Normal adapter at weight 1/2 (Mu 1/2,
Sigma 3/20 on [0, 1]) and the draw 1/4: Rand returns a value of [0, 1) at which the CDF
is 1/4. -/
theorem truncatedNormal_rand_inverts_CDF_witness :
    (0 < (normal.dist demoParams).Sigma ∧
      (normal.dist demoParams).Lower < (normal.dist demoParams).Upper ∧
      (demoMathEnv.Float64 1).1 = 1 / 4) ∧
    ∃ s, TruncatedNormal.Rand demoMathEnv (normal.dist demoParams) 1 = .ok (s, 2) ∧
      (normal.dist demoParams).Lower ≤ s ∧ s < (normal.dist demoParams).Upper ∧
      TruncatedNormal.CDF demoMathEnv (normal.dist demoParams) s = 1 / 4 := by
  have hu : (demoMathEnv.Float64 1).1 = 1 / 4 := by norm_num [demoMathEnv]
  have hs : 0 < (normal.dist demoParams).Sigma := by norm_num [normal.dist, demoParams]
  have hlu : (normal.dist demoParams).Lower < (normal.dist demoParams).Upper := by
    norm_num [normal.dist]
  obtain ⟨s, h1, h2, h3, h4⟩ := truncatedNormal_rand_inverts_CDF demoMathEnv
    (normal.dist demoParams) 1 hs hlu (by rw [hu]; norm_num) demo_normCDF_strictMono
    demo_normCDF_range demo_normQuantile_inv
  exact ⟨⟨hs, hlu, hu⟩, s, h1, h2, h3, by rw [h4, hu]⟩

/-! ## The built-in CDFs are distribution functions -/

/-- A function that is 0 up to L, 1 from U on and, in between, a non-decreasing function
with values in [0, 1], is 0 up to L, 1 from U on, has its values in [0, 1] and is
non-decreasing. -/
theorem frame_valid (L U : ℚ) (hLU : L < U) (H : ℚ → ℚ)
    (h01 : ∀ x, L < x → x < U → 0 ≤ H x ∧ H x ≤ 1)
    (hm : ∀ x y, L < x → x ≤ y → y < U → H x ≤ H y) :
    (∀ x, x ≤ L → (if x ≤ L then 0 else if x ≥ U then 1 else H x) = 0) ∧
    (∀ x, U ≤ x → (if x ≤ L then 0 else if x ≥ U then 1 else H x) = 1) ∧
    (∀ x, 0 ≤ (if x ≤ L then 0 else if x ≥ U then 1 else H x) ∧
      (if x ≤ L then 0 else if x ≥ U then 1 else H x) ≤ 1) ∧
    (∀ x y, x ≤ y → (if x ≤ L then 0 else if x ≥ U then 1 else H x) ≤
      (if y ≤ L then 0 else if y ≥ U then 1 else H y)) := by
  have hval : ∀ x, 0 ≤ (if x ≤ L then 0 else if x ≥ U then 1 else H x) ∧
      (if x ≤ L then 0 else if x ≥ U then 1 else H x) ≤ 1 := by
    intro x
    split_ifs with h1 h2
    · norm_num
    · norm_num
    · exact h01 x (not_le.1 h1) (not_le.1 h2)
  refine ⟨?_, ?_, hval, ?_⟩
  · intro x hx
    simp [hx]
  · intro x hx
    have h1 : ¬ x ≤ L := not_le.2 (lt_of_lt_of_le hLU hx)
    have h2 : x ≥ U := hx
    simp [h1, h2]
  · intro x y hxy
    by_cases hx : x ≤ L
    · simp only [hx, if_true]
      exact (hval y).1
    · have hy : ¬ y ≤ L := fun h => hx (le_trans hxy h)
      by_cases hy2 : y ≥ U
      · simp only [hy, hy2, if_true, if_false]
        exact (hval x).2
      · have hx2 : ¬ x ≥ U := fun h => hy2 (le_trans h hxy)
        simp only [hx, hx2, hy, hy2, if_false]
        exact hm x y (not_le.1 hx) hxy (not_le.1 hy2)

/-- Beta.CDF has its values in [0, 1] and is non-decreasing, when the regularized
incomplete beta function is so on (0, 1). -/
theorem betaCDF_valid (regIncBeta : ℚ → ℚ → ℚ → ℚ) (b : Dixe.Beta)
    (hB01 : ∀ x, 0 < x → x < 1 → 0 ≤ regIncBeta b.Alpha b.Beta x ∧ regIncBeta b.Alpha b.Beta x ≤ 1)
    (hB : ∀ x y, 0 < x → x ≤ y → y < 1 → regIncBeta b.Alpha b.Beta x ≤ regIncBeta b.Alpha b.Beta y) :
    (∀ x, 0 ≤ Beta.CDF regIncBeta b x ∧ Beta.CDF regIncBeta b x ≤ 1) ∧
    (∀ x y, x ≤ y → Beta.CDF regIncBeta b x ≤ Beta.CDF regIncBeta b y) := by
  obtain ⟨-, -, h3, h4⟩ := frame_valid 0 1 (by norm_num) (regIncBeta b.Alpha b.Beta) hB01 hB
  exact ⟨h3, h4⟩

/-- TruncatedNormal.CDF has its values in [0, 1] and is non-decreasing, when Sigma > 0,
Lower < Upper and the standard normal CDF is non-decreasing. -/
theorem truncatedNormalCDF_valid {σ : Type} (m : MathEnv σ) (t : TruncatedNormal)
    (hs : 0 < t.Sigma) (hlu : t.Lower < t.Upper) (hP : Monotone (normCDF m)) :
    (∀ x, 0 ≤ TruncatedNormal.CDF m t x ∧ TruncatedNormal.CDF m t x ≤ 1) ∧
    (∀ x y, x ≤ y → TruncatedNormal.CDF m t x ≤ TruncatedNormal.CDF m t y) := by
  have hdiv : ∀ x y, x ≤ y → (x - t.Mu) / t.Sigma ≤ (y - t.Mu) / t.Sigma := by
    intro x y hxy
    exact div_le_div_of_nonneg_right (by linarith) hs.le
  have hD : 0 ≤ normCDF m ((t.Upper - t.Mu) / t.Sigma) - normCDF m ((t.Lower - t.Mu) / t.Sigma) := by
    have := hP (hdiv t.Lower t.Upper hlu.le)
    linarith
  obtain ⟨-, -, h3, h4⟩ := frame_valid t.Lower t.Upper hlu
    (fun x => (normCDF m ((x - t.Mu) / t.Sigma) - normCDF m ((t.Lower - t.Mu) / t.Sigma)) /
      (normCDF m ((t.Upper - t.Mu) / t.Sigma) - normCDF m ((t.Lower - t.Mu) / t.Sigma)))
    (by
      intro x hx1 hx2
      have h1 := hP (hdiv t.Lower x hx1.le)
      have h2 := hP (hdiv x t.Upper hx2.le)
      constructor
      · exact div_nonneg (by linarith) hD
      · exact div_le_one_of_le₀ (by linarith) hD)
    (by
      intro x y hx hxy hy
      have h1 := hP (hdiv x y hxy)
      exact div_le_div_of_nonneg_right (by linarith) hD)
  exact ⟨h3, h4⟩

/-- A built-in CDF frame: 0 up to Lower, 1 from Upper on, and in between a function of
the normalized argument that is non-decreasing with values in [0, 1]. -/
theorem scaled_frame_valid (p : FloatParams) (hlu : p.Lower < p.Upper) (G : ℚ → ℚ)
    (hG01 : ∀ y, 0 < y → y < 1 → 0 ≤ G y ∧ G y ≤ 1)
    (hGm : ∀ y z, 0 < y → y ≤ z → z < 1 → G y ≤ G z) (F : ℚ → ℚ)
    (hF : ∀ x, F x = if x ≤ p.Lower then 0 else if x ≥ p.Upper then 1
      else G (Normalize x p.Lower p.Upper)) :
    (∀ x, x ≤ p.Lower → F x = 0) ∧ (∀ x, p.Upper ≤ x → F x = 1) ∧
    (∀ x, 0 ≤ F x ∧ F x ≤ 1) ∧ (∀ x y, x ≤ y → F x ≤ F y) := by
  have hd : 0 < p.Upper - p.Lower := by linarith
  have hn0 : ∀ x, p.Lower < x → 0 < Normalize x p.Lower p.Upper := by
    intro x hx
    exact div_pos (by linarith) hd
  have hn1 : ∀ x, x < p.Upper → Normalize x p.Lower p.Upper < 1 := by
    intro x hx
    unfold Normalize
    rw [div_lt_one hd]
    linarith
  have hnm : ∀ x y, x ≤ y → Normalize x p.Lower p.Upper ≤ Normalize y p.Lower p.Upper := by
    intro x y hxy
    exact div_le_div_of_nonneg_right (by linarith) hd.le
  obtain ⟨h1, h2, h3, h4⟩ := frame_valid p.Lower p.Upper hlu
    (fun x => G (Normalize x p.Lower p.Upper))
    (fun x hx1 hx2 => hG01 _ (hn0 x hx1) (hn1 x hx2))
    (fun x y hx hxy hy => hGm _ _ (hn0 x hx) (hnm x y hxy) (hn1 y hy))
  refine ⟨?_, ?_, ?_, ?_⟩
  · intro x hx; rw [hF]; exact h1 x hx
  · intro x hx; rw [hF]; exact h2 x hx
  · intro x; rw [hF]; exact h3 x
  · intro x y hxy; rw [hF, hF]; exact h4 x y hxy

/-- C32: every built-in CDF is a distribution function on the working interval.  On the
CDFs of package dist, taking the regularized incomplete beta function on positive
shapes as a non-decreasing map of (0, 1) into [0, 1] and the standard normal CDF as a
non-decreasing map: for
Uniform, Normal, WeightedLow, WeightedHigh, WeightedMin and WeightedMax, every weight in
[0, 1] and lower < upper, the CDF is 0 at and below lower, 1 at and above upper, has its
values in [0, 1] and is non-decreasing. -/
theorem builtin_CDF_valid {σ : Type} (env : Env σ) (m : MathEnv σ)
    (regIncBeta : ℚ → ℚ → ℚ → ℚ) (fuel : ℕ) (b : Builtin) (p : FloatParams)
    (hw : 0 ≤ p.Weight ∧ p.Weight ≤ 1) (hlu : p.Lower < p.Upper)
    (hP : Monotone (normCDF m))
    (hB01 : ∀ a c x, 0 < a → 0 < c → 0 < x → x < 1 →
      0 ≤ regIncBeta a c x ∧ regIncBeta a c x ≤ 1)
    (hB : ∀ a c x y, 0 < a → 0 < c → 0 < x → x ≤ y → y < 1 →
      regIncBeta a c x ≤ regIncBeta a c y) :
    (∀ x, x ≤ p.Lower → (b.dist (env.withDist m regIncBeta fuel)).CDF x p = 0) ∧
    (∀ x, p.Upper ≤ x → (b.dist (env.withDist m regIncBeta fuel)).CDF x p = 1) ∧
    (∀ x, 0 ≤ (b.dist (env.withDist m regIncBeta fuel)).CDF x p ∧
      (b.dist (env.withDist m regIncBeta fuel)).CDF x p ≤ 1) ∧
    (∀ x y, x ≤ y → (b.dist (env.withDist m regIncBeta fuel)).CDF x p ≤
      (b.dist (env.withDist m regIncBeta fuel)).CDF y p) := by
  have hbeta : ∀ (a c : ℚ), 0 < a → 0 < c →
      (∀ x, 0 ≤ Beta.CDF regIncBeta { Alpha := a, Beta := c } x ∧
        Beta.CDF regIncBeta { Alpha := a, Beta := c } x ≤ 1) ∧
      (∀ x y, x ≤ y → Beta.CDF regIncBeta { Alpha := a, Beta := c } x ≤
        Beta.CDF regIncBeta { Alpha := a, Beta := c } y) := by
    intro a c ha hc
    exact betaCDF_valid regIncBeta _ (fun x h0 h1 => hB01 a c x ha hc h0 h1)
      (fun x y h0 hxy h1 => hB a c x y ha hc h0 hxy h1)
  have hw4 : 0 < 1 + p.Weight * 4 := by linarith [hw.1]
  cases b with
  | Uniform =>
    exact scaled_frame_valid p hlu (fun y => y) (fun y h0 h1 => ⟨h0.le, h1.le⟩)
      (fun y z _ hyz _ => hyz) _ (fun x => rfl)
  | Normal =>
    have hs : 0 < (normal.dist p).Sigma := by
      simp only [normal.dist]
      nlinarith [hw.1, hw.2]
    obtain ⟨h1, h2⟩ := truncatedNormalCDF_valid m (normal.dist p) hs
      (by simp only [normal.dist]; norm_num) hP
    exact scaled_frame_valid p hlu (TruncatedNormal.CDF m (normal.dist p))
      (fun y _ _ => h1 y) (fun y z _ hyz _ => h2 y z hyz) _ (fun x => rfl)
  | WeightedLow =>
    obtain ⟨h1, h2⟩ := hbeta 1 (1 + p.Weight * 4) (by norm_num) hw4
    exact scaled_frame_valid p hlu _ (fun y _ _ => h1 y) (fun y z _ hyz _ => h2 y z hyz) _
      (fun x => rfl)
  | WeightedHigh =>
    obtain ⟨h1, h2⟩ := hbeta (1 + p.Weight * 4) 1 hw4 (by norm_num)
    exact scaled_frame_valid p hlu _ (fun y _ _ => h1 y) (fun y z _ hyz _ => h2 y z hyz) _
      (fun x => rfl)
  | WeightedMin =>
    obtain ⟨h1, h2⟩ := hbeta 1 2 (by norm_num) (by norm_num)
    have hw1 : 0 ≤ 1 - p.Weight := by linarith [hw.2]
    exact scaled_frame_valid p hlu
      (fun y => p.Weight + (1 - p.Weight) * Beta.CDF regIncBeta { Alpha := 1, Beta := 2 } y)
      (fun y _ _ => by
        have h3 := mul_nonneg hw1 (h1 y).1
        have h4 := mul_le_mul_of_nonneg_left (h1 y).2 hw1
        simp only
        constructor
        · linarith [hw.1]
        · linarith)
      (fun y z _ hyz _ => by
        have h3 := mul_le_mul_of_nonneg_left (h2 y z hyz) hw1
        simp only
        linarith)
      _ (fun x => rfl)
  | WeightedMax =>
    obtain ⟨h1, h2⟩ := hbeta 2 1 (by norm_num) (by norm_num)
    have hw1 : 0 ≤ 1 - p.Weight := by linarith [hw.2]
    exact scaled_frame_valid p hlu
      (fun y => (1 - p.Weight) * Beta.CDF regIncBeta { Alpha := 2, Beta := 1 } y)
      (fun y _ _ => by
        have h3 := mul_nonneg hw1 (h1 y).1
        have h4 := mul_le_mul_of_nonneg_left (h1 y).2 hw1
        simp only
        constructor
        · linarith
        · linarith [hw.1])
      (fun y z _ hyz _ => by
        have h3 := mul_le_mul_of_nonneg_left (h2 y z hyz) hw1
        simp only
        linarith)
      _ (fun x => rfl)

/-! ## No built-in distribution reaches a panic of package dist -/

/-- An accepted value of the Marsaglia-Tsang loop is `m * d * v / b` for the cube v of a
positive number. -/
theorem gammaMarsagliaTsangLoop_accepts {σ : Type} (m : MathEnv σ) (b d mm c : ℚ) :
    ∀ (fuel : ℕ) (rng : σ) (x : ℚ) (s : σ),
      gammaMarsagliaTsangLoop m b d mm c fuel rng = .ok (x, s) →
      ∃ v, 0 < v ∧ x = mm * d * (v * v * v) / b := by
  intro fuel
  induction fuel with
  | zero =>
    intro rng x s h
    simp [gammaMarsagliaTsangLoop] at h
  | succ n ih =>
    intro rng x s h
    unfold gammaMarsagliaTsangLoop at h
    simp only [] at h
    split_ifs at h with h1 h2
    · exact ih _ _ _ h
    · injection h with h
      injection h with h3 h4
      exact ⟨1 + (m.NormFloat64 rng).1 * c, not_le.1 h1, h3.symm⟩
    · exact ih _ _ _ h

/-- C37: the set-up of Marsaglia-Tsang on its regime alpha ≥ 0.2.  computeDM returns
d = alpha - 1/3 and m = 1 without a draw when alpha ≥ 1, and d = alpha + 2/3 and
m = u^(1/alpha) for the uniform draw u when alpha < 1; in both cases d ≥ 2/3 > 0, so
that the divisor 3*sqrt(d) of c is not zero where sqrt is positive on positive numbers;
and with beta > 0, draws u ≥ 0 and powers of non-negative numbers non-negative, every
value the sampler returns is m*d*v/beta for the cube v of a positive number, and
is ≥ 0. -/
theorem marsagliaTsang_setup {σ : Type} (m : MathEnv σ) (a b : ℚ) (fuel : ℕ) (rng : σ)
    (ha : 1 / 5 ≤ a) :
    (1 ≤ a → computeDM m a rng = ((a - 1 / 3, 1), rng)) ∧
    (a < 1 → computeDM m a rng =
      ((a + 2 / 3, m.Pow (m.Float64 rng).1 (1 / a)), (m.Float64 rng).2)) ∧
    (2 / 3 ≤ (computeDM m a rng).1.1) ∧
    ((∀ x, 0 < x → 0 < m.Sqrt x) → 3 * m.Sqrt (computeDM m a rng).1.1 ≠ 0) ∧
    (0 < b → (∀ s, 0 ≤ (m.Float64 s).1) → (∀ x y, 0 ≤ x → 0 ≤ m.Pow x y) →
      ∀ x s, gammaMarsagliaTsang m a b fuel rng = .ok (x, s) →
        (∃ v, 0 < v ∧ x = (computeDM m a rng).1.2 * (computeDM m a rng).1.1 * (v * v * v) / b) ∧
        0 ≤ x) := by
  have h1 : 1 ≤ a → computeDM m a rng = ((a - 1 / 3, 1), rng) := by
    intro h
    have : ¬ a < 1 := not_lt.2 h
    simp [computeDM, this]
  have h2 : a < 1 → computeDM m a rng =
      ((a + 2 / 3, m.Pow (m.Float64 rng).1 (1 / a)), (m.Float64 rng).2) := by
    intro h
    simp only [computeDM, h, if_true]
    congr 2
    ring
  have h3 : 2 / 3 ≤ (computeDM m a rng).1.1 := by
    by_cases h : a < 1
    · rw [h2 h]
      simp only
      linarith
    · rw [h1 (not_lt.1 h)]
      simp only
      linarith [not_lt.1 h]
  refine ⟨h1, h2, h3, ?_, ?_⟩
  · intro hsq
    have := hsq _ (by linarith : (0 : ℚ) < (computeDM m a rng).1.1)
    exact ne_of_gt (by linarith)
  · intro hb hu hpow x s h
    have hmm : 0 ≤ (computeDM m a rng).1.2 := by
      by_cases h4 : a < 1
      · rw [h2 h4]
        exact hpow _ _ (hu rng)
      · rw [h1 (not_lt.1 h4)]
        norm_num
    obtain ⟨v, hv, hx⟩ := gammaMarsagliaTsangLoop_accepts m b _ _ _ fuel _ x s h
    refine ⟨⟨v, hv, hx⟩, ?_⟩
    rw [hx]
    have hv3 : 0 < v * v * v := by positivity
    have hd : 0 ≤ (computeDM m a rng).1.1 := by linarith
    exact div_nonneg (mul_nonneg (mul_nonneg hmm hd) hv3.le) hb.le

/-! ## Witnesses on the samplers of package dist -/

/-- Witness of C32 on the Normal distribution over [1, 7) at weight 1/2, with the
standard normal CDF of `demoMathEnv` and the identity for the regularized incomplete
beta function: the CDF is 0 at 1, 1 at 7, and 21/113 at 3 is below 92/113 at 5. -/
theorem builtin_CDF_valid_witness :
    ((0 ≤ demoParams.Weight ∧ demoParams.Weight ≤ 1) ∧ demoParams.Lower < demoParams.Upper) ∧
    (Builtin.Normal.dist (demoEnv.withDist demoMathEnv (fun _ _ x => x) 8)).CDF 1 demoParams = 0 ∧
    (Builtin.Normal.dist (demoEnv.withDist demoMathEnv (fun _ _ x => x) 8)).CDF 7 demoParams = 1 ∧
    (Builtin.Normal.dist (demoEnv.withDist demoMathEnv (fun _ _ x => x) 8)).CDF 3 demoParams ≤
      (Builtin.Normal.dist (demoEnv.withDist demoMathEnv (fun _ _ x => x) 8)).CDF 5 demoParams ∧
    (Builtin.Normal.dist (demoEnv.withDist demoMathEnv (fun _ _ x => x) 8)).CDF 3 demoParams
      = 21 / 113 := by
  have hw : 0 ≤ demoParams.Weight ∧ demoParams.Weight ≤ 1 := by norm_num [demoParams]
  have hlu : demoParams.Lower < demoParams.Upper := by norm_num [demoParams]
  obtain ⟨h1, h2, -, h4⟩ := builtin_CDF_valid demoEnv demoMathEnv (fun _ _ x => x) 8
    Builtin.Normal demoParams hw hlu demo_normCDF_strictMono.monotone
    (fun _ _ x _ _ h0 h1 => ⟨h0.le, h1.le⟩) (fun _ _ _ _ _ _ _ hxy _ => hxy)
  exact ⟨⟨hw, hlu⟩, h1 1 (by norm_num [demoParams]), h2 7 (by norm_num [demoParams]),
    h4 3 5 (by norm_num), by with_unfolding_all rfl⟩

/-- Witness of C37 on `demoMathEnv`: at alpha 2 the set-up is d = 5/3, m = 1 and the
sampler returns 64/75; at alpha 1/2 it is d = 7/6, m the draw 1/4, and the sampler
returns 243/392. -/
theorem marsagliaTsang_setup_witness :
    computeDM demoMathEnv 2 0 = ((5 / 3, 1), 0) ∧
    computeDM demoMathEnv (1 / 2) 1 = ((7 / 6, 1 / 4), 2) ∧
    gammaMarsagliaTsang demoMathEnv 2 1 8 0 = .ok (64 / 75, 2) ∧
    gammaMarsagliaTsang demoMathEnv (1 / 2) 1 8 1 = .ok (243 / 392, 4) ∧
    (0 : ℚ) ≤ 64 / 75 ∧ (0 : ℚ) ≤ 243 / 392 := by
  have hu : ∀ s, 0 ≤ (demoMathEnv.Float64 s).1 := by
    intro s
    simp only [demoMathEnv]
    positivity
  have g1 : gammaMarsagliaTsang demoMathEnv 2 1 8 0 = .ok (64 / 75, 2) := by
    with_unfolding_all rfl
  have g2 : gammaMarsagliaTsang demoMathEnv (1 / 2) 1 8 1 = .ok (243 / 392, 4) := by
    with_unfolding_all rfl
  refine ⟨((marsagliaTsang_setup demoMathEnv 2 1 8 0 (by norm_num)).1 (by norm_num)).trans
      (by norm_num),
    ((marsagliaTsang_setup demoMathEnv (1 / 2) 1 8 1 (by norm_num)).2.1 (by norm_num)).trans
      (by norm_num [demoMathEnv]), g1, g2,
    ((marsagliaTsang_setup demoMathEnv 2 1 8 0 (by norm_num)).2.2.2.2 (by norm_num) hu
      (fun x _ hx => hx) _ _ g1).2,
    ((marsagliaTsang_setup demoMathEnv (1 / 2) 1 8 1 (by norm_num)).2.2.2.2 (by norm_num) hu
      (fun x _ hx => hx) _ _ g2).2⟩

/-! ## Float64 rounding: the binade, the nearest integer -/

/-- The exponent of a value in the binade `[2^e, 2^(e+1))`, for a normal exponent. -/
theorem expo_eq (x : ℚ) (e : ℤ) (he : -1022 ≤ e) (h1 : (2 : ℚ) ^ e ≤ |x|)
    (h2 : |x| < (2 : ℚ) ^ (e + 1)) : F64.expo x = e := by
  have hpos : (0 : ℚ) < |x| := lt_of_lt_of_le (by positivity) h1
  have hx : x ≠ 0 := abs_pos.1 hpos
  have hlog : Int.log 2 |x| = e := by
    apply le_antisymm
    · have := (Int.lt_zpow_iff_log_lt (b := 2) (by norm_num) hpos (x := e + 1)).1
        (by exact_mod_cast h2)
      omega
    · exact (Int.zpow_le_iff_le_log (b := 2) (by norm_num) hpos).1 (by exact_mod_cast h1)
  unfold F64.expo
  rw [if_neg hx, hlog]
  exact max_eq_left he

/-- The exponent of a value below the normal range. -/
theorem expo_subnormal (x : ℚ) (h : |x| < (2 : ℚ) ^ (-1021 : ℤ)) : F64.expo x = -1022 := by
  unfold F64.expo
  split_ifs with hx
  · rfl
  · have hpos : (0 : ℚ) < |x| := abs_pos.2 hx
    have := (Int.lt_zpow_iff_log_lt (b := 2) (by norm_num) hpos (x := -1021)).1
      (by exact_mod_cast h)
    exact max_eq_right (by omega)

/-- The nearest integer is at distance below 1/2, or at distance 1/2 and even. -/
theorem roundEven_spec (q : ℚ) :
    |q - F64.roundEven q| < 1 / 2 ∨ (|q - F64.roundEven q| = 1 / 2 ∧ F64.roundEven q % 2 = 0) := by
  have h1 : (⌊q⌋ : ℚ) ≤ q := Int.floor_le q
  have h2 : q < ⌊q⌋ + 1 := Int.lt_floor_add_one q
  unfold F64.roundEven
  simp only []
  split_ifs with ha hb hc
  · left
    rw [abs_lt]
    constructor <;> linarith
  · left
    rw [abs_lt]
    push_cast
    constructor <;> linarith
  · right
    have : q - ⌊q⌋ = 1 / 2 := le_antisymm (not_lt.1 hb) (not_lt.1 ha)
    exact ⟨by rw [this]; norm_num, hc⟩
  · right
    have : q - ⌊q⌋ = 1 / 2 := le_antisymm (not_lt.1 hb) (not_lt.1 ha)
    refine ⟨?_, by omega⟩
    push_cast
    rw [show q - (⌊q⌋ + 1) = -(1 / 2) by linarith]
    norm_num

/-- The nearest integer, ties to even, is the only integer at distance below 1/2, or at
distance 1/2 and even. -/
theorem roundEven_eq (q : ℚ) (n : ℤ)
    (h : |q - n| < 1 / 2 ∨ (|q - n| = 1 / 2 ∧ n % 2 = 0)) : F64.roundEven q = n := by
  have hs := roundEven_spec q
  generalize F64.roundEven q = m at hs
  have hle : |q - m| ≤ 1 / 2 := by rcases hs with h | h; exact le_of_lt h; exact le_of_eq h.1
  have hle2 : |q - n| ≤ 1 / 2 := by rcases h with h | h; exact le_of_lt h; exact le_of_eq h.1
  rw [abs_le] at hle hle2
  by_contra hne
  rcases lt_or_gt_of_ne hne with hlt | hgt
  · have hq : (m : ℚ) + 1 ≤ n := by exact_mod_cast hlt
    have hm : q - m = 1 / 2 := by linarith
    have hn : q - n = -(1 / 2) := by linarith
    have e1 : (n : ℚ) = m + 1 := by linarith
    have e2 : n = m + 1 := by exact_mod_cast e1
    rcases hs with hs | hs
    · rw [abs_lt] at hs; linarith [hs.1, hs.2]
    · rcases h with h | h
      · rw [abs_lt] at h; linarith [h.1, h.2]
      · omega
  · have hq : (n : ℚ) + 1 ≤ m := by exact_mod_cast hgt
    have hm : q - m = -(1 / 2) := by linarith
    have hn : q - n = 1 / 2 := by linarith
    have e1 : (m : ℚ) = n + 1 := by linarith
    have e2 : m = n + 1 := by exact_mod_cast e1
    rcases hs with hs | hs
    · rw [abs_lt] at hs; linarith [hs.1, hs.2]
    · rcases h with h | h
      · rw [abs_lt] at h; linarith [h.1, h.2]
      · omega

/-- An integer is its own nearest integer. -/
theorem roundEven_intCast (n : ℤ) : F64.roundEven (n : ℚ) = n :=
  roundEven_eq _ n (Or.inl (by simp))

/-- The nearest integer is monotone. -/
theorem roundEven_mono (q r : ℚ) (h : q ≤ r) : F64.roundEven q ≤ F64.roundEven r := by
  by_contra hlt
  have hlt : F64.roundEven r + 1 ≤ F64.roundEven q := by omega
  have hq : (F64.roundEven r : ℚ) + 1 ≤ F64.roundEven q := by exact_mod_cast hlt
  have h1 := roundEven_spec q
  have h2 := roundEven_spec r
  have hle1 : |q - F64.roundEven q| ≤ 1 / 2 := by
    rcases h1 with h | h; exact le_of_lt h; exact le_of_eq h.1
  have hle2 : |r - F64.roundEven r| ≤ 1 / 2 := by
    rcases h2 with h | h; exact le_of_lt h; exact le_of_eq h.1
  rw [abs_le] at hle1 hle2
  have hqr : q = r := by linarith
  rw [hqr] at hlt
  omega

/-- The nearest integer commutes with negation. -/
theorem roundEven_neg (q : ℚ) : F64.roundEven (-q) = -F64.roundEven q := by
  apply roundEven_eq
  have h := roundEven_spec q
  have e : -q - ((-F64.roundEven q : ℤ) : ℚ) = -(q - F64.roundEven q) := by push_cast; ring
  rw [e, abs_neg]
  rcases h with h | h
  · exact Or.inl h
  · exact Or.inr ⟨h.1, by omega⟩

/-- The float64 nearest to a value of the binade `[2^e, 2^(e+1))`. -/
theorem round_eq (x : ℚ) (e n : ℤ) (he : -1022 ≤ e) (h1 : (2 : ℚ) ^ e ≤ |x|)
    (h2 : |x| < (2 : ℚ) ^ (e + 1)) (hn : F64.roundEven (x / (2 : ℚ) ^ (e - 52)) = n) :
    F64.round x = n * (2 : ℚ) ^ (e - 52) := by
  unfold F64.round F64.ulp
  rw [expo_eq x e he h1 h2, hn]

/-- Zero is a float64. -/
theorem round_zero : F64.round 0 = 0 := by
  have h : F64.roundEven 0 = 0 := by simpa using roundEven_intCast 0
  unfold F64.round
  rw [zero_div, h]
  simp

/-! ## Float64 rounding: the grid -/

/-- A spacing is positive. -/
theorem ulp_pos (x : ℚ) : 0 < F64.ulp x := by
  unfold F64.ulp
  positivity

/-- No exponent is below that of the subnormal numbers. -/
theorem expo_ge (x : ℚ) : -1022 ≤ F64.expo x := by
  unfold F64.expo
  split_ifs
  · exact le_refl _
  · exact le_max_right _ _

/-- The exponent ignores the sign. -/
theorem expo_neg (x : ℚ) : F64.expo (-x) = F64.expo x := by
  unfold F64.expo
  simp only [abs_neg, neg_eq_zero]

/-- The spacing ignores the sign. -/
theorem ulp_neg (x : ℚ) : F64.ulp (-x) = F64.ulp x := by
  unfold F64.ulp
  rw [expo_neg]

/-- A value is below the top of its binade. -/
theorem abs_lt_top (x : ℚ) : |x| < (2 : ℚ) ^ (F64.expo x + 1) := by
  unfold F64.expo
  split_ifs with hx
  · rw [hx, abs_zero]
    positivity
  · have h := Int.lt_zpow_succ_log_self (b := 2) (by norm_num) |x|
    have h2 : ((2 : ℕ) : ℚ) ^ (Int.log 2 |x| + 1) ≤ (2 : ℚ) ^ (max (Int.log 2 |x|) (-1022) + 1) := by
      rw [Nat.cast_ofNat]
      exact zpow_le_zpow_right₀ (by norm_num) (by have := le_max_left (Int.log 2 |x|) (-1022); omega)
    exact lt_of_lt_of_le h h2

/-- A value of a normal binade is at least the bottom of the binade. -/
theorem bot_le_abs (x : ℚ) (h : -1022 < F64.expo x) : (2 : ℚ) ^ F64.expo x ≤ |x| := by
  unfold F64.expo at h ⊢
  split_ifs at h ⊢ with hx
  · omega
  · have hpos : (0 : ℚ) < |x| := abs_pos.2 hx
    have hm : max (Int.log 2 |x|) (-1022) = Int.log 2 |x| := by
      rcases le_total (Int.log 2 |x|) (-1022) with h1 | h1
      · rw [max_eq_right h1] at h
        omega
      · exact max_eq_left h1
    rw [hm]
    have := Int.zpow_log_le_self (b := 2) (by norm_num) hpos
    rwa [Nat.cast_ofNat] at this

/-- The exponent grows with the magnitude. -/
theorem expo_mono (x y : ℚ) (h : |x| ≤ |y|) : F64.expo x ≤ F64.expo y := by
  by_cases hx : x = 0
  · have : F64.expo x = -1022 := by unfold F64.expo; rw [if_pos hx]
    rw [this]
    exact expo_ge y
  · have hpos : (0 : ℚ) < |x| := abs_pos.2 hx
    have hy : y ≠ 0 := abs_pos.1 (lt_of_lt_of_le hpos h)
    unfold F64.expo
    rw [if_neg hx, if_neg hy]
    exact max_le_max (Int.log_mono_right hpos h) (le_refl _)

/-- The top of the binade of x is `2^53` spacings. -/
theorem top_eq (x : ℚ) : (2 : ℚ) ^ (F64.expo x + 1) = 2 ^ 53 * F64.ulp x := by
  unfold F64.ulp
  rw [show F64.expo x + 1 = 53 + (F64.expo x - 52) by ring, zpow_add₀ (by norm_num)]
  norm_num

/-- The bottom of the binade of x is `2^52` spacings. -/
theorem bot_eq (x : ℚ) : (2 : ℚ) ^ F64.expo x = 2 ^ 52 * F64.ulp x := by
  unfold F64.ulp
  rw [show (2 : ℚ) ^ F64.expo x = (2 : ℚ) ^ (52 + (F64.expo x - 52)) by ring_nf,
    zpow_add₀ (by norm_num)]
  norm_num

/-- A power of two with a non-negative exponent is a positive integer. -/
theorem two_zpow_int (d : ℤ) (h : 0 ≤ d) : ∃ N : ℤ, 0 < N ∧ (2 : ℚ) ^ d = N := by
  refine ⟨2 ^ d.toNat, by positivity, ?_⟩
  rw [← Int.toNat_of_nonneg h]
  push_cast
  rw [zpow_natCast, Int.toNat_ofNat]

/-- The significand that rounding picks is at most `2^53` in magnitude. -/
theorem abs_roundEven_le (x : ℚ) : |F64.roundEven (x / F64.ulp x)| ≤ 2 ^ 53 := by
  have hu := ulp_pos x
  have h := abs_lt_top x
  rw [top_eq] at h
  have hq : |x / F64.ulp x| < 2 ^ 53 := by
    rw [abs_div, abs_of_pos hu, div_lt_iff₀ hu]
    exact h
  rw [abs_lt] at hq
  rw [abs_le]
  constructor
  · have := roundEven_mono (((-2 ^ 53 : ℤ)) : ℚ) (x / F64.ulp x) (by push_cast; linarith)
    rw [roundEven_intCast] at this
    exact this
  · have := roundEven_mono (x / F64.ulp x) (((2 ^ 53 : ℤ)) : ℚ) (by push_cast; linarith)
    rw [roundEven_intCast] at this
    exact this

/-- Rounding commutes with negation. -/
theorem round_neg (x : ℚ) : F64.round (-x) = -F64.round x := by
  unfold F64.round
  rw [ulp_neg, neg_div, roundEven_neg]
  push_cast
  ring

/-- A multiple of a power of two, with at most 53 significant bits and above the
smallest exponent, is a float64: rounding returns it. -/
theorem round_grid (m k : ℤ) (hm : |m| ≤ 2 ^ 53) (hk : -1074 ≤ k) :
    F64.round ((m : ℚ) * (2 : ℚ) ^ k) = (m : ℚ) * (2 : ℚ) ^ k := by
  have hu := ulp_pos ((m : ℚ) * (2 : ℚ) ^ k)
  have hint : ∃ N : ℤ, (m : ℚ) * (2 : ℚ) ^ k / F64.ulp ((m : ℚ) * (2 : ℚ) ^ k) = N := by
    rcases le_or_lt (F64.expo ((m : ℚ) * (2 : ℚ) ^ k) - 52) k with hle | hlt
    · obtain ⟨N, -, hN⟩ := two_zpow_int (k - (F64.expo ((m : ℚ) * (2 : ℚ) ^ k) - 52)) (by omega)
      refine ⟨m * N, ?_⟩
      unfold F64.ulp
      rw [mul_div_assoc, ← zpow_sub₀ (by norm_num), hN]
      push_cast
      ring
    · have hnorm : -1022 < F64.expo ((m : ℚ) * (2 : ℚ) ^ k) := by omega
      have hb := bot_le_abs _ hnorm
      have hk0 : (0 : ℚ) < (2 : ℚ) ^ k := by positivity
      rw [abs_mul, abs_of_pos hk0] at hb
      have hmq : |(m : ℚ)| ≤ 2 ^ 53 := by
        have : ((|m| : ℤ) : ℚ) ≤ ((2 ^ 53 : ℤ) : ℚ) := by exact_mod_cast hm
        simpa using this
      have h53 : (2 : ℚ) ^ (k + 53) ≤ (2 : ℚ) ^ F64.expo ((m : ℚ) * (2 : ℚ) ^ k) :=
        zpow_le_zpow_right₀ (by norm_num) (by omega)
      have h53e : (2 : ℚ) ^ (k + 53) = 2 ^ 53 * (2 : ℚ) ^ k := by
        rw [add_comm, zpow_add₀ (by norm_num)]
        norm_num
      have habs : |(m : ℚ)| * (2 : ℚ) ^ k = 2 ^ 53 * (2 : ℚ) ^ k := by
        apply le_antisymm
        · exact mul_le_mul_of_nonneg_right hmq (le_of_lt hk0)
        · rw [← h53e]
          exact le_trans h53 hb
      have hexp : F64.expo ((m : ℚ) * (2 : ℚ) ^ k) = k + 53 := by
        apply expo_eq _ _ (by omega)
        · rw [abs_mul, abs_of_pos hk0, habs, h53e]
        · rw [abs_mul, abs_of_pos hk0, habs, ← h53e]
          exact zpow_lt_zpow_right₀ (by norm_num) (by omega)
      have hmabs : |(m : ℚ)| = 2 ^ 53 := by
        have := mul_right_cancel₀ (ne_of_gt hk0) habs
        exact this
      unfold F64.ulp
      rw [hexp, show k + 53 - 52 = k + 1 by ring, zpow_add₀ (by norm_num), zpow_one]
      rcases abs_choice (m : ℚ) with h | h
      · refine ⟨2 ^ 52, ?_⟩
        rw [← h, hmabs]
        field_simp
        ring
      · refine ⟨-2 ^ 52, ?_⟩
        have : (m : ℚ) = -2 ^ 53 := by rw [← hmabs, h, neg_neg]
        rw [this]
        field_simp
        ring
  obtain ⟨N, hN⟩ := hint
  unfold F64.round
  rw [hN, roundEven_intCast, ← hN]
  field_simp

/-- An integer of magnitude at most `2^53` is a float64. -/
theorem round_intCast (n : ℤ) (h : |n| ≤ 2 ^ 53) : F64.round (n : ℚ) = n := by
  have := round_grid n 0 h (by norm_num)
  simpa using this

/-- Rounding returns a float64: rounding it again changes nothing. -/
theorem round_idem (x : ℚ) : F64.round (F64.round x) = F64.round x := by
  have h := round_grid (F64.roundEven (x / F64.ulp x)) (F64.expo x - 52) (abs_roundEven_le x)
    (by have := expo_ge x; omega)
  unfold F64.round F64.ulp at h ⊢
  exact h

/-! ## Float64 rounding: order -/

/-- Rounding keeps the sign of a non-negative value. -/
theorem round_nonneg (x : ℚ) (h : 0 ≤ x) : 0 ≤ F64.round x := by
  unfold F64.round
  have hu := ulp_pos x
  have := roundEven_mono (((0 : ℤ)) : ℚ) (x / F64.ulp x) (by
    push_cast
    exact div_nonneg h (le_of_lt hu))
  rw [roundEven_intCast] at this
  have h2 : (0 : ℚ) ≤ (F64.roundEven (x / F64.ulp x) : ℚ) := by exact_mod_cast this
  exact mul_nonneg h2 (le_of_lt hu)

/-- A non-negative value rounds to at most the top of its binade. -/
theorem round_le_top (x : ℚ) (h : 0 ≤ x) : F64.round x ≤ (2 : ℚ) ^ (F64.expo x + 1) := by
  have hu := ulp_pos x
  have ht := abs_lt_top x
  rw [top_eq, abs_of_nonneg h] at ht
  rw [top_eq]
  unfold F64.round
  have := roundEven_mono (x / F64.ulp x) (((2 ^ 53 : ℤ)) : ℚ) (by
    push_cast
    rw [div_le_iff₀ hu]
    exact le_of_lt ht)
  rw [roundEven_intCast] at this
  have h2 : (F64.roundEven (x / F64.ulp x) : ℚ) ≤ 2 ^ 53 := by exact_mod_cast this
  exact mul_le_mul_of_nonneg_right h2 (le_of_lt hu)

/-- A positive value of a normal binade rounds to at least the bottom of the binade. -/
theorem bot_le_round (x : ℚ) (h : 0 ≤ x) (hn : -1022 < F64.expo x) :
    (2 : ℚ) ^ F64.expo x ≤ F64.round x := by
  have hu := ulp_pos x
  have hb := bot_le_abs x hn
  rw [bot_eq, abs_of_nonneg h] at hb
  rw [bot_eq]
  unfold F64.round
  have := roundEven_mono (((2 ^ 52 : ℤ)) : ℚ) (x / F64.ulp x) (by
    push_cast
    rw [le_div_iff₀ hu]
    exact hb)
  rw [roundEven_intCast] at this
  have h2 : (2 ^ 52 : ℚ) ≤ (F64.roundEven (x / F64.ulp x) : ℚ) := by exact_mod_cast this
  exact mul_le_mul_of_nonneg_right h2 (le_of_lt hu)

/-- Rounding is monotone on the non-negative values. -/
theorem round_mono_nonneg (x y : ℚ) (hx : 0 ≤ x) (h : x ≤ y) : F64.round x ≤ F64.round y := by
  have hy : 0 ≤ y := le_trans hx h
  have he := expo_mono x y (by rw [abs_of_nonneg hx, abs_of_nonneg hy]; exact h)
  rcases eq_or_lt_of_le he with heq | hlt
  · have hu := ulp_pos y
    have hue : F64.ulp x = F64.ulp y := by unfold F64.ulp; rw [heq]
    unfold F64.round
    rw [hue]
    have := roundEven_mono (x / F64.ulp y) (y / F64.ulp y) (div_le_div_of_nonneg_right h (le_of_lt hu))
    have h2 : (F64.roundEven (x / F64.ulp y) : ℚ) ≤ F64.roundEven (y / F64.ulp y) := by
      exact_mod_cast this
    exact mul_le_mul_of_nonneg_right h2 (le_of_lt hu)
  · have h1 := round_le_top x hx
    have h2 := bot_le_round y hy (by have := expo_ge x; omega)
    have h3 : (2 : ℚ) ^ (F64.expo x + 1) ≤ (2 : ℚ) ^ F64.expo y :=
      zpow_le_zpow_right₀ (by norm_num) (by omega)
    linarith

/-- Rounding is monotone. -/
theorem round_mono (x y : ℚ) (h : x ≤ y) : F64.round x ≤ F64.round y := by
  rcases le_total 0 x with hx | hx
  · exact round_mono_nonneg x y hx h
  · rcases le_total 0 y with hy | hy
    · have h1 := round_nonneg (-x) (by linarith)
      rw [round_neg] at h1
      have h2 := round_nonneg y hy
      linarith
    · have := round_mono_nonneg (-y) (-x) (by linarith) (by linarith)
      rw [round_neg, round_neg] at this
      linarith

/-- A float64 is a whole number of spacings, fewer than `2^53` in magnitude. -/
theorem float_repr (x : ℚ) (h : F64.round x = x) :
    ∃ M : ℤ, x = M * F64.ulp x ∧ |M| < 2 ^ 53 := by
  have hu := ulp_pos x
  refine ⟨F64.roundEven (x / F64.ulp x), ?_, ?_⟩
  · unfold F64.round at h
    exact h.symm
  · have hx : x = (F64.roundEven (x / F64.ulp x) : ℚ) * F64.ulp x := by
      unfold F64.round at h
      exact h.symm
    have ht := abs_lt_top x
    rw [top_eq] at ht
    nth_rewrite 1 [hx] at ht
    rw [abs_mul, abs_of_pos hu] at ht
    have := lt_of_mul_lt_mul_right ht (le_of_lt hu)
    have h2 : ((|F64.roundEven (x / F64.ulp x)| : ℤ) : ℚ) < ((2 ^ 53 : ℤ) : ℚ) := by
      push_cast
      exact this
    exact_mod_cast h2

/-- The next float64 above is above. -/
theorem lt_succ (x : ℚ) : x < F64.succ x := by
  have hu := ulp_pos x
  unfold F64.succ
  split_ifs <;> linarith

/-- The next float64 above is at most one spacing above. -/
theorem succ_le (x : ℚ) : F64.succ x ≤ x + F64.ulp x := by
  have hu := ulp_pos x
  unfold F64.succ
  split_ifs <;> linarith

/-- The next float64 below is below. -/
theorem pred_lt (x : ℚ) : F64.pred x < x := by
  unfold F64.pred
  have := lt_succ (-x)
  linarith

/-- The next float64 below is at most one spacing below. -/
theorem le_pred (x : ℚ) : x - F64.ulp x ≤ F64.pred x := by
  unfold F64.pred
  have := succ_le (-x)
  rw [ulp_neg] at this
  linarith

/-- The next float64 above a float64 is a float64. -/
theorem round_succ (x : ℚ) (h : F64.round x = x) : F64.round (F64.succ x) = F64.succ x := by
  obtain ⟨M, hM, hlt⟩ := float_repr x h
  have hu := ulp_pos x
  have he := expo_ge x
  have hcase : ∀ hx : ¬ (-x = (2 : ℚ) ^ F64.expo x ∧ -1022 < F64.expo x) ∨ 0 ≤ x,
      F64.round (x + F64.ulp x) = x + F64.ulp x := by
    intro hx
    have e : x + F64.ulp x = ((M + 1 : ℤ) : ℚ) * (2 : ℚ) ^ (F64.expo x - 52) := by
      push_cast
      nth_rewrite 1 [hM]
      unfold F64.ulp
      ring
    rw [e]
    apply round_grid _ _ _ (by omega)
    rw [abs_le]
    rw [abs_lt] at hlt
    constructor <;> omega
  unfold F64.succ
  split_ifs with h0 hb
  · exact hcase (Or.inr h0)
  · have hM2 : (M : ℚ) = -2 ^ 52 := by
      have h1 := hb.1
      rw [bot_eq] at h1
      nth_rewrite 1 [hM] at h1
      have h2 : (-(M : ℚ)) * F64.ulp x = 2 ^ 52 * F64.ulp x := by linarith
      have := mul_right_cancel₀ (ne_of_gt hu) h2
      linarith
    have e : x + F64.ulp x / 2 = ((-2 ^ 53 + 1 : ℤ) : ℚ) * (2 : ℚ) ^ (F64.expo x - 53) := by
      push_cast
      nth_rewrite 1 [hM]
      rw [hM2]
      unfold F64.ulp
      rw [show F64.expo x - 52 = (F64.expo x - 53) + 1 by ring, zpow_add₀ (by norm_num), zpow_one]
      ring
    rw [e]
    exact round_grid _ _ (by norm_num) (by omega)
  · exact hcase (Or.inl hb)

/-- The next float64 below a float64 is a float64. -/
theorem round_pred (x : ℚ) (h : F64.round x = x) : F64.round (F64.pred x) = F64.pred x := by
  unfold F64.pred
  rw [round_neg, round_succ (-x) (by rw [round_neg, h])]

/-- No float64 lies strictly between a float64 and the next float64 above it. -/
theorem succ_le_of_lt (b a : ℚ) (hb : F64.round b = b) (ha : F64.round a = a) (h : b < a) :
    F64.succ b ≤ a := by
  obtain ⟨Mb, hMb, hltb⟩ := float_repr b hb
  obtain ⟨Ma, hMa, hlta⟩ := float_repr a ha
  have hub := ulp_pos b
  have hua := ulp_pos a
  -- the case of a common multiple of the spacing of b
  have key : F64.expo b ≤ F64.expo a → b + F64.ulp b ≤ a := by
    intro hle
    obtain ⟨N, -, hN⟩ := two_zpow_int (F64.expo a - F64.expo b) (by omega)
    have hua2 : F64.ulp a = N * F64.ulp b := by
      unfold F64.ulp
      rw [← hN, ← zpow_add₀ (by norm_num)]
      congr 1
      ring
    have e : a = ((Ma * N : ℤ) : ℚ) * F64.ulp b := by
      push_cast
      nth_rewrite 1 [hMa]
      rw [hua2]
      ring
    have hlt : (Mb : ℚ) * F64.ulp b < ((Ma * N : ℤ) : ℚ) * F64.ulp b := by
      rw [← hMb, ← e]
      exact h
    have hlt2 := lt_of_mul_lt_mul_right hlt (le_of_lt hub)
    have hlt3 : Mb < Ma * N := by exact_mod_cast hlt2
    have hle3 : ((Mb + 1 : ℤ) : ℚ) ≤ ((Ma * N : ℤ) : ℚ) := by exact_mod_cast hlt3
    have := mul_le_mul_of_nonneg_right hle3 (le_of_lt hub)
    rw [← e] at this
    push_cast at this
    nth_rewrite 1 [hMb]
    linarith
  rcases le_or_lt 0 b with h0 | h0
  · have : F64.succ b = b + F64.ulp b := by unfold F64.succ; rw [if_pos h0]
    rw [this]
    exact key (expo_mono b a (by
      rw [abs_of_nonneg h0, abs_of_nonneg (le_trans h0 (le_of_lt h))]
      exact le_of_lt h))
  · have hMb0 : Mb ≤ -1 := by
      have : (Mb : ℚ) * F64.ulp b < 0 := by rw [← hMb]; exact h0
      have h2 : (Mb : ℚ) < 0 := by
        by_contra hc
        have := mul_nonneg (not_lt.1 hc) (le_of_lt hub)
        linarith
      have h3 : Mb < 0 := by exact_mod_cast h2
      omega
    have hbu : b + F64.ulp b ≤ 0 := by
      have h2 : (Mb : ℚ) ≤ -1 := by exact_mod_cast hMb0
      have := mul_le_mul_of_nonneg_right h2 (le_of_lt hub)
      rw [← hMb] at this
      linarith
    rcases le_or_lt 0 a with ha0 | ha0
    · exact le_trans (succ_le b) (le_trans hbu ha0)
    · have hab : |a| ≤ |b| := by
        rw [abs_of_neg ha0, abs_of_neg h0]
        linarith
      have hea := expo_mono a b hab
      rcases eq_or_lt_of_le hea with heq | hlt
      · exact le_trans (succ_le b) (key (le_of_eq heq.symm))
      · have hnb : -1022 < F64.expo b := by have := expo_ge a; omega
        have hta := abs_lt_top a
        rw [abs_of_neg ha0] at hta
        have hbb := bot_le_abs b hnb
        rw [abs_of_neg h0] at hbb
        have hstep : (2 : ℚ) ^ (F64.expo a + 1) ≤ (2 : ℚ) ^ F64.expo b :=
          zpow_le_zpow_right₀ (by norm_num) (by omega)
        by_cases hbd : -b = (2 : ℚ) ^ F64.expo b ∧ -1022 < F64.expo b
        · have hs : F64.succ b = b + F64.ulp b / 2 := by
            unfold F64.succ
            rw [if_neg (not_le.2 h0), if_pos hbd]
          rw [hs]
          -- the largest float64 below the binade of b
          have hMa1 : |Ma| ≤ 2 ^ 53 - 1 := by omega
          have hMaq : -(Ma : ℚ) ≤ 2 ^ 53 - 1 := by
            have h1 : -Ma ≤ 2 ^ 53 - 1 := le_trans (neg_le_abs Ma) hMa1
            have : ((-Ma : ℤ) : ℚ) ≤ ((2 ^ 53 - 1 : ℤ) : ℚ) := by exact_mod_cast h1
            push_cast at this
            linarith
          have hua3 : F64.ulp a ≤ F64.ulp b / 2 := by
            unfold F64.ulp
            rw [show F64.expo b - 52 = (F64.expo b - 53) + 1 by ring, zpow_add₀ (by norm_num),
              zpow_one]
            have : (2 : ℚ) ^ (F64.expo a - 52) ≤ (2 : ℚ) ^ (F64.expo b - 53) :=
              zpow_le_zpow_right₀ (by norm_num) (by omega)
            linarith
          have hna : -a ≤ (2 ^ 53 - 1) * (F64.ulp b / 2) := by
            have e1 : -a = (-(Ma : ℚ)) * F64.ulp a := by
              nth_rewrite 1 [hMa]
              ring
            rw [e1]
            exact mul_le_mul hMaq hua3 (le_of_lt hua) (by norm_num)
          have hbe : -b = 2 ^ 52 * F64.ulp b := by rw [← bot_eq]; exact hbd.1
          linarith
        · have hs : F64.succ b = b + F64.ulp b := by
            unfold F64.succ
            rw [if_neg (not_le.2 h0), if_neg hbd]
          rw [hs]
          have hne : -b ≠ (2 : ℚ) ^ F64.expo b := fun hc => hbd ⟨hc, hnb⟩
          have hgt : (2 : ℚ) ^ F64.expo b < -b := lt_of_le_of_ne hbb (Ne.symm hne)
          rw [bot_eq] at hgt
          have e1 : -b = ((-Mb : ℤ) : ℚ) * F64.ulp b := by
            push_cast
            nth_rewrite 1 [hMb]
            ring
          rw [e1] at hgt
          have h4 := lt_of_mul_lt_mul_right hgt (le_of_lt hub)
          have h5 : (2 ^ 52 : ℤ) < -Mb := by exact_mod_cast h4
          have h6 : ((2 ^ 52 + 1 : ℤ) : ℚ) ≤ ((-Mb : ℤ) : ℚ) := by exact_mod_cast h5
          have h7 := mul_le_mul_of_nonneg_right h6 (le_of_lt hub)
          rw [← e1] at h7
          push_cast at h7
          rw [bot_eq] at hstep
          linarith

/-- No float64 lies strictly between a float64 and the next float64 below it. -/
theorem le_pred_of_lt (a b : ℚ) (ha : F64.round a = a) (hb : F64.round b = b) (h : a < b) :
    a ≤ F64.pred b := by
  have := succ_le_of_lt (-b) (-a) (by rw [round_neg, hb]) (by rw [round_neg, ha]) (by linarith)
  unfold F64.pred
  linarith

/-! ## Float64 on the integers up to 2^53 -/

/-- An integer of magnitude below `2^53` has a spacing of at most 1. -/
theorem ulp_int_le_one (x : ℤ) (h : |x| < 2 ^ 53) : F64.ulp (x : ℚ) ≤ 1 := by
  have hq : |(x : ℚ)| ≤ |((2 ^ 53 - 1 : ℤ) : ℚ)| := by
    have h1 : |x| ≤ 2 ^ 53 - 1 := by omega
    have h2 : ((|x| : ℤ) : ℚ) ≤ ((2 ^ 53 - 1 : ℤ) : ℚ) := by exact_mod_cast h1
    rw [abs_of_nonneg (show (0 : ℚ) ≤ ((2 ^ 53 - 1 : ℤ) : ℚ) by norm_num)]
    simpa using h2
  have he := expo_mono _ _ hq
  have h52 : F64.expo (((2 ^ 53 - 1 : ℤ)) : ℚ) = 52 :=
    expo_eq _ 52 (by norm_num) (by norm_num [abs_of_nonneg]) (by norm_num [abs_of_nonneg])
  rw [h52] at he
  unfold F64.ulp
  have : (2 : ℚ) ^ (F64.expo (x : ℚ) - 52) ≤ (2 : ℚ) ^ (0 : ℤ) :=
    zpow_le_zpow_right₀ (by norm_num) (by omega)
  simpa using this

/-- The float64 next below `2^53` is `2^53 - 1`. -/
theorem pred_two_pow_53 : F64.pred (2 ^ 53) = 2 ^ 53 - 1 := by
  have he : F64.expo (-(2 ^ 53 : ℚ)) = 53 := by
    rw [expo_neg]
    exact expo_eq _ 53 (by norm_num) (by norm_num [abs_of_nonneg]) (by norm_num [abs_of_nonneg])
  unfold F64.pred F64.succ F64.ulp
  rw [he]
  norm_num

/-- The float64 next below an integer x with `-2^53 < x <= 2^53` lies in `[x-1, x)`. -/
theorem pred_int (x : ℤ) (h1 : -2 ^ 53 < x) (h2 : x ≤ 2 ^ 53) :
    (x : ℚ) - 1 ≤ F64.pred x ∧ F64.pred x < x := by
  refine ⟨?_, pred_lt _⟩
  rcases eq_or_lt_of_le h2 with heq | hlt
  · rw [heq, show (((2 ^ 53 : ℤ)) : ℚ) = 2 ^ 53 by norm_num, pred_two_pow_53]
  · have hu := ulp_int_le_one x (by rw [abs_lt]; constructor <;> omega)
    have := le_pred (x : ℚ)
    linarith

/-- On an int range whose bounds lie in `[-2^53, 2^53)` the float64 conversion of the
range is exact: the working interval is `[lower, upper+1)`. -/
theorem intFloatRange_exact (r : IntRange) (hl1 : -2 ^ 53 ≤ r.Lower) (hl2 : r.Lower < 2 ^ 53)
    (hu1 : -2 ^ 53 ≤ r.Upper) (hu2 : r.Upper < 2 ^ 53) :
    F64.intFloatRange r = intFloatRange r := by
  have hl : F64.round (r.Lower : ℚ) = r.Lower :=
    round_intCast _ (by rw [abs_le]; constructor <;> omega)
  have hu : F64.round (r.Upper : ℚ) = r.Upper :=
    round_intCast _ (by rw [abs_le]; constructor <;> omega)
  have hu1 : F64.round ((r.Upper : ℚ) + 1) = (r.Upper : ℚ) + 1 := by
    have := round_intCast (r.Upper + 1) (by rw [abs_le]; constructor <;> omega)
    push_cast at this
    exact this
  unfold F64.intFloatRange intFloatRange F64.ofInt F64.add
  rw [hl, hu, hu1]

/-! ## Evaluation of a rounding -/

/-- The rounding of a positive value, from its binade and the two neighbours of its
significand. -/
theorem round_eval (x : ℚ) (e n : ℤ) (he : -1022 ≤ e) (h1 : (2 : ℚ) ^ e ≤ x)
    (h2 : x < (2 : ℚ) ^ (e + 1))
    (h3 : (2 * (n : ℚ) - 1) * (2 : ℚ) ^ (e - 52) < 2 * x)
    (h4 : 2 * x < (2 * (n : ℚ) + 1) * (2 : ℚ) ^ (e - 52)) :
    F64.round x = n * (2 : ℚ) ^ (e - 52) := by
  have hx : 0 ≤ x := le_trans (by positivity) h1
  have hu : (0 : ℚ) < (2 : ℚ) ^ (e - 52) := by positivity
  apply round_eq x e n he (by rwa [abs_of_nonneg hx]) (by rwa [abs_of_nonneg hx])
  apply roundEven_eq
  left
  rw [abs_lt]
  constructor
  · have : (n : ℚ) - 1 / 2 < x / (2 : ℚ) ^ (e - 52) := by
      rw [lt_div_iff₀ hu]
      linarith
    linarith
  · have : x / (2 : ℚ) ^ (e - 52) < (n : ℚ) + 1 / 2 := by
      rw [div_lt_iff₀ hu]
      linarith
    linarith

/-- The rounding of a positive value half-way between two float64 values: the one with
the even significand. -/
theorem round_eval_tie (x : ℚ) (e n : ℤ) (he : -1022 ≤ e) (h1 : (2 : ℚ) ^ e ≤ x)
    (h2 : x < (2 : ℚ) ^ (e + 1)) (hn : n % 2 = 0)
    (h3 : 2 * x = (2 * (n : ℚ) + 1) * (2 : ℚ) ^ (e - 52) ∨
      2 * x = (2 * (n : ℚ) - 1) * (2 : ℚ) ^ (e - 52)) :
    F64.round x = n * (2 : ℚ) ^ (e - 52) := by
  have hx : 0 ≤ x := le_trans (by positivity) h1
  have hu : (0 : ℚ) < (2 : ℚ) ^ (e - 52) := by positivity
  apply round_eq x e n he (by rwa [abs_of_nonneg hx]) (by rwa [abs_of_nonneg hx])
  apply roundEven_eq
  right
  refine ⟨?_, hn⟩
  rcases h3 with h3 | h3
  · have : x / (2 : ℚ) ^ (e - 52) = (n : ℚ) + 1 / 2 := by
      rw [div_eq_iff (ne_of_gt hu)]
      linarith
    rw [this]
    norm_num
  · have : x / (2 : ℚ) ^ (e - 52) = (n : ℚ) - 1 / 2 := by
      rw [div_eq_iff (ne_of_gt hu)]
      linarith
    rw [this]
    norm_num

/-! ## Float64 evaluations -/

/-- The conversion of `2^53 + 1` rounds down to `2^53`. -/
theorem ofInt_two_pow_53_add_one : F64.ofInt (2 ^ 53 + 1) = 2 ^ 53 := by
  have h := round_eval_tie (2 ^ 53 + 1) 53 (2 ^ 52) (by norm_num) (by norm_num) (by norm_num)
    (by norm_num) (Or.inl (by norm_num))
  unfold F64.ofInt
  norm_num at h ⊢
  exact h

/-- The conversion of `2^53 + 3` rounds up to `2^53 + 4`. -/
theorem ofInt_two_pow_53_add_three : F64.ofInt (2 ^ 53 + 3) = 2 ^ 53 + 4 := by
  have h := round_eval_tie (2 ^ 53 + 3) 53 (2 ^ 52 + 2) (by norm_num) (by norm_num) (by norm_num)
    (by norm_num) (Or.inr (by norm_num))
  unfold F64.ofInt
  norm_num at h ⊢
  exact h

/-- The sum `(2^53 + 4) + 1` rounds down to `2^53 + 4`. -/
theorem add_two_pow_53_add_four_one : F64.add (2 ^ 53 + 4) 1 = 2 ^ 53 + 4 := by
  unfold F64.add
  rw [round_eval_tie (2 ^ 53 + 4 + 1) 53 (2 ^ 52 + 2) (by norm_num) (by norm_num) (by norm_num)
    (by norm_num) (Or.inl (by norm_num))]
  norm_num

/-- The sum `2^53 + 1` rounds down to `2^53`. -/
theorem add_two_pow_53_one : F64.add (2 ^ 53) 1 = 2 ^ 53 := by
  unfold F64.add
  rw [round_eval_tie (2 ^ 53 + 1) 53 (2 ^ 52) (by norm_num) (by norm_num) (by norm_num)
    (by norm_num) (Or.inl (by norm_num))]
  norm_num

/-- A small integer literal is a float64. -/
theorem round_natCast (n : ℕ) (h : n ≤ 2 ^ 53) : F64.round (n : ℚ) = n := by
  have := round_intCast (n : ℤ) (by rw [abs_of_nonneg (by positivity)]; exact_mod_cast h)
  simpa using this

/-! ## Where float64 departs from the exact statements -/

/-- The float64 working interval of the int range [0, 2^53] is [0, 2^53). -/
theorem intFloatRange_zero_two_pow_53 :
    (F64.intFloatRange { Lower := 0, Upper := 2 ^ 53 }).Lower = 0 ∧
    (F64.intFloatRange { Lower := 0, Upper := 2 ^ 53 }).Upper = 2 ^ 53 := by
  have h1 : F64.ofInt (2 ^ 53) = 2 ^ 53 := by
    unfold F64.ofInt
    have := round_intCast (2 ^ 53) (by norm_num)
    push_cast at this ⊢
    exact this
  constructor
  · simp only [F64.intFloatRange, F64.ofInt, Int.cast_zero, round_zero]
  · simp only [F64.intFloatRange, h1, add_two_pow_53_one]

/-- C35, against the claim as stated: on the int range [0, 2^53] the working interval
that intFloatRange returns in float64 is [0, 2^53), not [0, 2^53 + 1), because `float64(2^53) + 1` rounds
to `2^53`; no y of the working interval converts to the integer 2^53 of the range, which
owns no sub-interval. -/
theorem int_discretization_fails_at_two_pow_53 :
    ((0 : ℤ) ≤ 2 ^ 53) ∧
    (F64.intFloatRange { Lower := 0, Upper := 2 ^ 53 }).Lower = 0 ∧
    (F64.intFloatRange { Lower := 0, Upper := 2 ^ 53 }).Upper = 2 ^ 53 ∧
    (F64.intFloatRange { Lower := 0, Upper := 2 ^ 53 }).Upper ≠ (((2 ^ 53 : ℤ)) : ℚ) + 1 ∧
    ∀ y : ℚ, (F64.intFloatRange { Lower := 0, Upper := 2 ^ 53 }).Lower ≤ y →
      y < (F64.intFloatRange { Lower := 0, Upper := 2 ^ 53 }).Upper → intConvert y ≠ 2 ^ 53 := by
  obtain ⟨hL, hU⟩ := intFloatRange_zero_two_pow_53
  refine ⟨by norm_num, hL, hU, ?_, ?_⟩
  · rw [hU]
    norm_num
  · intro y _ h2 hc
    rw [hU] at h2
    unfold intConvert at hc
    have := Int.floor_le y
    rw [hc] at this
    push_cast at this
    linarith

/-- The float64 caster of the concrete data has no explosions: any fuel is enough. -/
theorem f64Caster_fuel (d : Distribution ℕ) (w : ℚ) (fuel : Nat) :
    (max 0 (f64Caster d w).cfg.MaxLowerExplosions).toNat ≤ fuel ∧
    (max 0 (f64Caster d w).cfg.MaxUpperExplosions).toNat ≤ fuel := by
  simp [f64Caster]

/-- C2, against the claim as stated: on the int range [2^53 + 1, 2^53 + 3] the working
interval is, in float64, [2^53, 2^53 + 4), and with the uniform distribution, the
weight 1/2 and a stream whose draw is 0, One returns the first roll 2^53, which is
below the lower bound. -/
theorem roll_below_lower_above_two_pow_53 :
    ((2 ^ 53 + 1 : ℤ) ≤ 2 ^ 53 + 3) ∧
    (∀ s, 0 ≤ ((f64Env 0).Float64 s).1 ∧ ((f64Env 0).Float64 s).1 < 1) ∧
    ∃ res c1,
      (f64Caster (F64.Builtin.dist (f64Env 0) Builtin.Uniform) (1 / 2)).One (f64Env 0) 0
        [{ Lower := 2 ^ 53 + 1, Upper := 2 ^ 53 + 3 }] = .ok (res, c1) ∧
      res.First = 2 ^ 53 ∧ ¬ (2 ^ 53 + 1 ≤ res.First) := by
  have hroll : ∀ rng, rollFloat (f64Env 0) (some (F64.uniformDist (f64Env 0)))
      { toRange := F64.intFloatRange { Lower := 2 ^ 53 + 1, Upper := 2 ^ 53 + 3 }, Weight := 1 / 2 }
      rng = .ok (2 ^ 53, rng + 1) := by
    intro rng
    have h4 : F64.sub (2 ^ 53 + 4) (2 ^ 53) = 4 := by
      unfold F64.sub
      have := round_natCast 4 (by norm_num)
      norm_num at this ⊢
      exact this
    have h0 : F64.mul 0 4 = 0 := by
      unfold F64.mul
      rw [zero_mul, round_zero]
    have h5 : F64.add (2 ^ 53) 0 = 2 ^ 53 := by
      unfold F64.add
      have := round_natCast (2 ^ 53) (by norm_num)
      norm_num at this ⊢
      exact this
    simp only [rollFloat, F64.uniformDist, F64.uniform.Rand, F64.intFloatRange, f64Env,
      ofInt_two_pow_53_add_one, ofInt_two_pow_53_add_three, add_two_pow_53_add_four_one,
      h4, h0, h5]
    norm_num
  refine ⟨by norm_num, fun s => by simp [f64Env], ?_⟩
  obtain ⟨res, c1, hone⟩ := One_ok (f64Env 0) 0
    (f64Caster (F64.Builtin.dist (f64Env 0) Builtin.Uniform) (1 / 2))
    [{ Lower := 2 ^ 53 + 1, Upper := 2 ^ 53 + 3 }] (f64Caster_fuel _ _ 0).1 (f64Caster_fuel _ _ 0).2
    (by
      intro rng e
      simp only [f64Caster, defaultRange, F64.Builtin.dist]
      rw [hroll rng]
      simp)
  obtain ⟨v, rng1, hv, hfirst⟩ := One_first _ _ _ _ _ _ hone
  simp only [f64Caster, defaultRange, F64.Builtin.dist] at hv
  rw [hroll] at hv
  injection hv with hv
  injection hv with hv1 hv2
  have hf : res.First = 2 ^ 53 := by
    rw [hfirst, ← hv1]
    simp only [f64Caster, intConvert]
    norm_num
  exact ⟨res, c1, hone, hf, by rw [hf]; norm_num⟩

/-- The float64 next after `2^53` towards 0 is `2^53 - 1`. -/
theorem nextafter_two_pow_53_zero : F64.Nextafter (2 ^ 53) 0 = 2 ^ 53 - 1 := by
  unfold F64.Nextafter
  rw [if_neg (by norm_num), if_neg (by norm_num), pred_two_pow_53]

/-- C18, against the claim as stated: on the int range [0, 2^53] the working interval
is, in float64, [0, 2^53), and with WeightedMax at weight 1 and a stream whose draw is
0, One returns the first roll 2^53 - 1, not the upper bound 2^53. -/
theorem weightedMax_below_upper_at_two_pow_53 :
    ((0 : ℤ) ≤ 2 ^ 53) ∧
    (∀ s, 0 ≤ ((f64Env 0).Float64 s).1 ∧ ((f64Env 0).Float64 s).1 < 1) ∧
    ∃ res c1,
      (f64Caster (F64.Builtin.dist (f64Env 0) Builtin.WeightedMax) 1).One (f64Env 0) 0
        [{ Lower := 0, Upper := 2 ^ 53 }] = .ok (res, c1) ∧
      res.First = 2 ^ 53 - 1 ∧ res.First ≠ 2 ^ 53 := by
  obtain ⟨hL, hU⟩ := intFloatRange_zero_two_pow_53
  have hroll : ∀ rng, rollFloat (f64Env 0) (some (F64.weightedMaxDist (f64Env 0)))
      { toRange := F64.intFloatRange { Lower := 0, Upper := 2 ^ 53 }, Weight := 1 }
      rng = .ok (2 ^ 53 - 1, rng + 1) := by
    intro rng
    simp only [rollFloat, F64.weightedMaxDist, F64.weightedMax.Rand, hU, hL]
    simp only [f64Env, nextafter_two_pow_53_zero]
    norm_num
  refine ⟨by norm_num, fun s => by simp [f64Env], ?_⟩
  obtain ⟨res, c1, hone⟩ := One_ok (f64Env 0) 0
    (f64Caster (F64.Builtin.dist (f64Env 0) Builtin.WeightedMax) 1)
    [{ Lower := 0, Upper := 2 ^ 53 }] (f64Caster_fuel _ _ 0).1 (f64Caster_fuel _ _ 0).2
    (by
      intro rng e
      simp only [f64Caster, defaultRange, F64.Builtin.dist]
      rw [hroll rng]
      simp)
  obtain ⟨v, rng1, hv, hfirst⟩ := One_first _ _ _ _ _ _ hone
  simp only [f64Caster, defaultRange, F64.Builtin.dist] at hv
  rw [hroll] at hv
  injection hv with hv
  injection hv with hv1 hv2
  have hf : res.First = 2 ^ 53 - 1 := by
    rw [hfirst, ← hv1]
    simp only [f64Caster, intConvert]
    norm_num
  exact ⟨res, c1, hone, hf, by rw [hf]; norm_num⟩

/-- C3, against the claim as stated: on the int range [1000, 1001] at the uniform draw
u = (2^52 - 1)/2^53, which is below 1/2, the float64 sum `1000 + u*2` rounds up to
1001, so the first roll of One is 1001, although u is outside the interval [1/2, 1) of
the bucket 1001. -/
theorem uniform_first_roll_outside_interval :
    ((1000 : ℤ) ≤ 1001) ∧
    ((0 : ℚ) ≤ (2 ^ 52 - 1) / 2 ^ 53 ∧ ((2 ^ 52 - 1) / 2 ^ 53 : ℚ) < 1) ∧
    ∃ res c1,
      (f64Caster (F64.uniformDist (f64Env ((2 ^ 52 - 1) / 2 ^ 53))) (1 / 2)).One
        (f64Env ((2 ^ 52 - 1) / 2 ^ 53)) 0 [{ Lower := 1000, Upper := 1001 }] = .ok (res, c1) ∧
      res.First = 1001 ∧
      ¬ ((((1001 : ℤ) : ℚ) - ((1000 : ℤ) : ℚ)) / ((((1001 : ℤ)) : ℚ) - ((1000 : ℤ) : ℚ) + 1)
          ≤ (2 ^ 52 - 1) / 2 ^ 53) := by
  have hL : F64.ofInt 1000 = 1000 := by
    unfold F64.ofInt
    have := round_natCast 1000 (by norm_num)
    norm_num at this ⊢
    exact this
  have hU0 : F64.ofInt 1001 = 1001 := by
    unfold F64.ofInt
    have := round_natCast 1001 (by norm_num)
    norm_num at this ⊢
    exact this
  have hU : F64.add 1001 1 = 1002 := by
    unfold F64.add
    have := round_natCast 1002 (by norm_num)
    norm_num at this ⊢
    exact this
  have h2 : F64.sub 1002 1000 = 2 := by
    unfold F64.sub
    have := round_natCast 2 (by norm_num)
    norm_num at this ⊢
    exact this
  have hm : F64.mul ((2 ^ 52 - 1) / 2 ^ 53) 2 = (2 ^ 52 - 1) / 2 ^ 52 := by
    unfold F64.mul
    have := round_grid (2 ^ 52 - 1) (-52) (by norm_num) (by norm_num)
    norm_num at this ⊢
    exact this
  have ha : F64.add 1000 ((2 ^ 52 - 1) / 2 ^ 52) = 1001 := by
    unfold F64.add
    have := round_eval (1000 + (2 ^ 52 - 1) / 2 ^ 52) 9 8804889115230208 (by norm_num)
      (by norm_num) (by norm_num) (by norm_num) (by norm_num)
    norm_num at this ⊢
    exact this
  have hroll : ∀ rng, rollFloat (f64Env ((2 ^ 52 - 1) / 2 ^ 53))
      (some (F64.uniformDist (f64Env ((2 ^ 52 - 1) / 2 ^ 53))))
      { toRange := F64.intFloatRange { Lower := 1000, Upper := 1001 }, Weight := 1 / 2 }
      rng = .ok (1001, rng + 1) := by
    intro rng
    simp only [rollFloat, F64.uniformDist, F64.uniform.Rand, F64.intFloatRange, f64Env,
      hL, hU0, hU, h2, hm, ha]
    norm_num
  refine ⟨by norm_num, by norm_num, ?_⟩
  obtain ⟨res, c1, hone⟩ := One_ok (f64Env ((2 ^ 52 - 1) / 2 ^ 53)) 0
    (f64Caster (F64.uniformDist (f64Env ((2 ^ 52 - 1) / 2 ^ 53))) (1 / 2))
    [{ Lower := 1000, Upper := 1001 }] (f64Caster_fuel _ _ 0).1 (f64Caster_fuel _ _ 0).2
    (by
      intro rng e
      simp only [f64Caster, defaultRange]
      rw [hroll rng]
      simp)
  obtain ⟨v, rng1, hv, hfirst⟩ := One_first _ _ _ _ _ _ hone
  simp only [f64Caster, defaultRange] at hv
  rw [hroll] at hv
  injection hv with hv
  injection hv with hv1 hv2
  have hf : res.First = 1001 := by
    rw [hfirst, ← hv1]
    simp only [f64Caster, intConvert]
    norm_num
  exact ⟨res, c1, hone, hf, by norm_num⟩

/-! ## Analytic odds in float64 -/

/-- C12, against the claim as stated: on the table {1:1, 2:2} Odds maps, in float64, the
value 1 to `(1/3)*100` rounded twice, 2345624805922133/2^46 (33.33333333333333), which
is neither 100*1/3 nor the float64 nearest to it, 4691249611844267/2^47
(33.333333333333336). -/
theorem weighted_odds_rounded :
    (f64Weighted [(1, 1), (2, 2)]).cfg.tickets
      = [{ value := 1, weight := 1 }, { value := 2, weight := 2 }] ∧
    totalWeight (f64Weighted [(1, 1), (2, 2)]).cfg.tickets = 3 ∧
    (F64.WeightedCaster.Odds (f64Weighted [(1, 1), (2, 2)]) []).Probabilities 1
      = some (2345624805922133 / 2 ^ 46) ∧
    (F64.WeightedCaster.Odds (f64Weighted [(1, 1), (2, 2)]) []).Probabilities 1
      ≠ some (100 * 1 / 3) ∧
    (F64.WeightedCaster.Odds (f64Weighted [(1, 1), (2, 2)]) []).Probabilities 1
      ≠ some (F64.div (F64.mul 100 1) 3) := by
  have htk : (f64Weighted [(1, 1), (2, 2)]).cfg.tickets
      = [{ value := 1, weight := 1 }, { value := 2, weight := 2 }] := by
    with_unfolding_all rfl
  have hs1 : F64.round 1 = 1 := by simpa using round_natCast 1 (by norm_num)
  have hs3 : F64.round 3 = 3 := by simpa using round_natCast 3 (by norm_num)
  have hs100 : F64.round 100 = 100 := by simpa using round_natCast 100 (by norm_num)
  have hd13 : F64.round (1 / 3) = 6004799503160661 / 2 ^ 54 := by
    have := round_eval (1 / 3) (-2) 6004799503160661 (by norm_num) (by norm_num) (by norm_num)
      (by norm_num) (by norm_num)
    norm_num at this ⊢
    exact this
  have hm : F64.round (6004799503160661 / 2 ^ 54 * 100) = 2345624805922133 / 2 ^ 46 := by
    have := round_eval (6004799503160661 / 2 ^ 54 * 100) 5 4691249611844266 (by norm_num)
      (by norm_num) (by norm_num) (by norm_num) (by norm_num)
    norm_num at this ⊢
    exact this
  have h100 : F64.round (100 / 3) = 4691249611844267 / 2 ^ 47 := by
    have := round_eval (100 / 3) 5 4691249611844267 (by norm_num)
      (by norm_num) (by norm_num) (by norm_num) (by norm_num)
    norm_num at this ⊢
    exact this
  have hT : List.foldl (fun acc (t : ticket ℤ) => F64.add acc t.weight) 0
      [{ value := 1, weight := 1 }, { value := 2, weight := 2 }] = 3 := by
    simp only [List.foldl, F64.add]
    norm_num [hs1, hs3]
  have hP : (F64.WeightedCaster.Odds (f64Weighted [(1, 1), (2, 2)]) []).Probabilities 1
      = some (2345624805922133 / 2 ^ 46) := by
    unfold F64.WeightedCaster.Odds
    simp only [htk, hT]
    norm_num [List.foldl, mapSet, constraint.toInt, F64.div, F64.mul]
    norm_num at hd13 hm
    rw [hd13]
    norm_num
    exact hm
  refine ⟨htk, ?_, hP, ?_, ?_⟩
  · rw [htk]
    norm_num [totalWeight]
  · rw [hP]
    norm_num
  · rw [hP]
    norm_num [F64.div, F64.mul, hs100]
    norm_num at h100
    rw [h100]
    norm_num

/-- The tickets of a map with the two keys 1 and 2. -/
theorem f64Weighted_two (w0 w1 : ℚ) :
    (f64Weighted [(1, w0), (2, w1)]).cfg.tickets
      = [{ value := 1, weight := w0 }, { value := 2, weight := w1 }] := by
  with_unfolding_all rfl

/-- The rounding of a value below the normal range, from its nearest multiple of the
smallest positive float64. -/
theorem round_subnormal (x : ℚ) (n : ℤ) (h : |x| < (2 : ℚ) ^ (-1021 : ℤ))
    (hn : |x / (2 : ℚ) ^ (-1074 : ℤ) - n| < 1 / 2) :
    F64.round x = n * (2 : ℚ) ^ (-1074 : ℤ) := by
  unfold F64.round F64.ulp
  rw [expo_subnormal x h, show (-1022 : ℤ) - 52 = -1074 by norm_num, roundEven_eq _ n (Or.inl hn)]

/-- On a table {1:w, 2:0} whose weight w is a float64, at a draw u whose float64 product
`u*w` rounds to w, no cumulative weight exceeds the product and One returns the last
ticket, of value 2. -/
theorem One_last_of_round_up (u w : ℚ) (hw : F64.round w = w) (hrv : F64.round (u * w) = w) :
    (F64.WeightedCaster.One (f64Env u) (f64Weighted [(1, w), (2, 0)]) []).1.First = 2 := by
  unfold F64.WeightedCaster.One F64.WeightedCaster.rollWeighted
  simp only [f64Weighted_two, List.foldl, F64.add, zero_add, add_zero, hw, f64Env, F64.mul, hrv,
    F64.scanTickets, lt_irrefl, if_false]
  rfl

/-- C13, against the claim as stated, the rule and its consequence, in float64.  (1) On
the table {1:5, 2:1} at the uniform draw u = 7505999378950826/2^53: u*W = 5 - 2^-51
lies in [cum(0), cum(1)) = [0, 5), the interval of the ticket of value 1, but in
float64 `u*6` rounds to 5, the test `rv < 5` fails and One returns 2.  (2) On the table
{1:2^-1074, 2:0}, whose total is the smallest positive float64, at the largest draw
u = (2^53 - 1)/2^53: `u*W` rounds to W, no cumulative weight exceeds it, and One
returns the last ticket, the value 2 of weight 0. -/
theorem weighted_selection_off_rule :
    ((f64Weighted [(1, 5), (2, 1)]).cfg.tickets
      = [{ value := 1, weight := 5 }, { value := 2, weight := 1 }] ∧
    ((0 : ℚ) ≤ 7505999378950826 / 2 ^ 53 ∧ (7505999378950826 / 2 ^ 53 : ℚ) < 1) ∧
    cumWeight (f64Weighted [(1, 5), (2, 1)]).cfg.tickets 0
      ≤ 7505999378950826 / 2 ^ 53 * totalWeight (f64Weighted [(1, 5), (2, 1)]).cfg.tickets ∧
    7505999378950826 / 2 ^ 53 * totalWeight (f64Weighted [(1, 5), (2, 1)]).cfg.tickets
      < cumWeight (f64Weighted [(1, 5), (2, 1)]).cfg.tickets 1 ∧
    (F64.WeightedCaster.One (f64Env (7505999378950826 / 2 ^ 53))
      (f64Weighted [(1, 5), (2, 1)]) []).1.First = 2) ∧
    ((f64Weighted [(1, 1 / 2 ^ 1074), (2, 0)]).cfg.tickets
      = [{ value := 1, weight := 1 / 2 ^ 1074 }, { value := 2, weight := 0 }] ∧
    ((0 : ℚ) ≤ (2 ^ 53 - 1) / 2 ^ 53 ∧ ((2 ^ 53 - 1) / 2 ^ 53 : ℚ) < 1) ∧
    0 < totalWeight (f64Weighted [(1, 1 / 2 ^ 1074), (2, 0)]).cfg.tickets ∧
    (F64.WeightedCaster.One (f64Env ((2 ^ 53 - 1) / 2 ^ 53))
      (f64Weighted [(1, 1 / 2 ^ 1074), (2, 0)]) []).1.First = 2) := by
  constructor
  · have htk : (f64Weighted [(1, 5), (2, 1)]).cfg.tickets
        = [{ value := 1, weight := 5 }, { value := 2, weight := 1 }] := by
      with_unfolding_all rfl
    have hs5 : F64.round 5 = 5 := by simpa using round_natCast 5 (by norm_num)
    have hs6 : F64.round 6 = 6 := by simpa using round_natCast 6 (by norm_num)
    have hT : List.foldl (fun acc (t : ticket ℤ) => F64.add acc t.weight) 0
        [{ value := 1, weight := 5 }, { value := 2, weight := 1 }] = 6 := by
      simp only [List.foldl, F64.add]
      norm_num [hs5, hs6]
    have hrv : F64.mul (7505999378950826 / 2 ^ 53) 6 = 5 := by
      unfold F64.mul
      have := round_eval_tie (7505999378950826 / 2 ^ 53 * 6) 2 5629499534213120 (by norm_num)
        (by norm_num) (by norm_num) (by norm_num) (Or.inr (by norm_num))
      norm_num at this ⊢
      exact this
    refine ⟨htk, by norm_num, ?_, ?_, ?_⟩
    · rw [htk]
      norm_num [cumWeight, totalWeight]
    · rw [htk]
      norm_num [cumWeight, totalWeight]
    · unfold F64.WeightedCaster.One F64.WeightedCaster.rollWeighted
      simp only [htk, hT, f64Env, hrv]
      norm_num [F64.scanTickets, F64.add, hs5, hs6]
  · have hsT : F64.round (1 / 2 ^ 1074) = 1 / 2 ^ 1074 := by
      have := round_grid 1 (-1074) (by norm_num) (by norm_num)
      norm_num at this ⊢
      exact this
    have hrv : F64.round ((2 ^ 53 - 1) / 2 ^ 53 * (1 / 2 ^ 1074)) = 1 / 2 ^ 1074 := by
      have := round_subnormal ((2 ^ 53 - 1) / 2 ^ 53 * (1 / 2 ^ 1074)) 1
        (by rw [abs_of_nonneg (by norm_num)]; norm_num)
        (by rw [abs_lt]; constructor <;> norm_num)
      norm_num at this ⊢
      exact this
    refine ⟨f64Weighted_two _ _, by norm_num, ?_, One_last_of_round_up _ _ hsT hrv⟩
    rw [f64Weighted_two]
    simp only [totalWeight, List.foldl, zero_add, add_zero]
    positivity

/-! ## Sampled values lie in the range, in float64 -/

/-- Scale in float64 of a non-negative fraction is at least the lower bound, when that
is a float64. -/
theorem F64_Scale_ge_lower (x lower upper : ℚ) (hx : 0 ≤ x) (hl : F64.round lower = lower)
    (hlu : lower ≤ upper) : lower ≤ F64.Scale x lower upper := by
  unfold F64.Scale F64.add F64.mul F64.sub
  have h1 : 0 ≤ F64.round (upper - lower) := round_nonneg _ (by linarith)
  have h2 : 0 ≤ F64.round (x * F64.round (upper - lower)) := round_nonneg _ (mul_nonneg hx h1)
  have h3 := round_mono lower (lower + F64.round (x * F64.round (upper - lower))) (by linarith)
  rw [hl] at h3
  exact h3

/-- A raw draw of a built-in distribution in float64 is at least the lower bound of the
working interval, when the base draws lie in the unit interval. -/
theorem F64_builtin_rand_ge_lower {σ : Type} (env : Env σ)
    (hU : ∀ s, 0 ≤ (env.Float64 s).1 ∧ (env.Float64 s).1 < 1)
    (hB : ∀ b s v s1, env.BetaRand b s = .ok (v, s1) → 0 ≤ v ∧ v ≤ 1)
    (hT : ∀ t s v s1, env.TruncatedNormalRand t s = .ok (v, s1) → 0 ≤ v ∧ v ≤ 1)
    (d : Builtin) (p : FloatParams) (hl : F64.round p.Lower = p.Lower) (hp : p.Lower ≤ p.Upper)
    (rng : σ) (v : ℚ) (rng1 : σ)
    (h : (F64.Builtin.dist env d).Rand p rng = .ok (v, rng1)) : p.Lower ≤ v := by
  have hbeta : ∀ (params : BetaParams) (s : σ) (v : ℚ) (s1 : σ),
      F64.BetaDist.Rand env params p s = .ok (v, s1) → p.Lower ≤ v := by
    intro params s v s1 hb
    unfold F64.BetaDist.Rand at hb
    split at hb
    · cases hb
    · rename_i x s2 hx
      injection hb with hb
      injection hb with hb1 hb2
      exact hb1 ▸ F64_Scale_ge_lower x _ _ (hB _ _ _ _ hx).1 hl hp
  cases d with
  | Uniform =>
    simp only [F64.Builtin.dist, F64.uniformDist, F64.uniform.Rand] at h
    injection h with h
    injection h with h1 h2
    exact h1 ▸ F64_Scale_ge_lower _ _ _ (hU rng).1 hl hp
  | Normal =>
    simp only [F64.Builtin.dist, F64.normalDist, F64.normal.Rand] at h
    split at h
    · cases h
    · rename_i x s2 hx
      injection h with h
      injection h with h1 h2
      exact h1 ▸ F64_Scale_ge_lower x _ _ (hT _ _ _ _ hx).1 hl hp
  | WeightedLow => exact hbeta _ _ _ _ h
  | WeightedHigh => exact hbeta _ _ _ _ h
  | WeightedMin =>
    simp only [F64.Builtin.dist, F64.weightedMinDist, F64.weightedMin.Rand] at h
    split at h
    · injection h with h
      injection h with h1 h2
      exact le_of_eq h1
    · exact hbeta _ _ _ _ h
  | WeightedMax =>
    simp only [F64.Builtin.dist, F64.weightedMaxDist, F64.weightedMax.Rand] at h
    split at h
    · injection h with h
      injection h with h1 h2
      exact h1 ▸ hp
    · exact hbeta _ _ _ _ h

/-- A raw draw of a built-in distribution in float64 is a float64 or the upper bound of
the working interval, when the lower bound is a float64. -/
theorem F64_builtin_rand_float {σ : Type} (env : Env σ) (d : Builtin) (p : FloatParams)
    (hl : F64.round p.Lower = p.Lower) (rng : σ) (v : ℚ) (rng1 : σ)
    (h : (F64.Builtin.dist env d).Rand p rng = .ok (v, rng1)) :
    F64.round v = v ∨ v = p.Upper := by
  have hbeta : ∀ (params : BetaParams) (s : σ) (v : ℚ) (s1 : σ),
      F64.BetaDist.Rand env params p s = .ok (v, s1) → F64.round v = v := by
    intro params s v s1 hb
    unfold F64.BetaDist.Rand at hb
    split at hb
    · cases hb
    · injection hb with hb
      injection hb with hb1 hb2
      rw [← hb1]
      exact round_idem _
  cases d with
  | Uniform =>
    simp only [F64.Builtin.dist, F64.uniformDist, F64.uniform.Rand] at h
    injection h with h
    injection h with h1 h2
    rw [← h1]
    exact Or.inl (round_idem _)
  | Normal =>
    simp only [F64.Builtin.dist, F64.normalDist, F64.normal.Rand] at h
    split at h
    · cases h
    · injection h with h
      injection h with h1 h2
      rw [← h1]
      exact Or.inl (round_idem _)
  | WeightedLow => exact Or.inl (hbeta _ _ _ _ h)
  | WeightedHigh => exact Or.inl (hbeta _ _ _ _ h)
  | WeightedMin =>
    simp only [F64.Builtin.dist, F64.weightedMinDist, F64.weightedMin.Rand] at h
    split at h
    · injection h with h
      injection h with h1 h2
      exact Or.inl (h1 ▸ hl)
    · exact Or.inl (hbeta _ _ _ _ h)
  | WeightedMax =>
    simp only [F64.Builtin.dist, F64.weightedMaxDist, F64.weightedMax.Rand] at h
    split at h
    · injection h with h
      injection h with h1 h2
      exact Or.inr h1.symm
    · exact Or.inl (hbeta _ _ _ _ h)

/-- The working upper bound of a float range in float64: the bound itself when adding 1
does not change it, else the float64 next above it. -/
theorem floatFloatRange_upper (u : ℚ) (hu : F64.round u = u) :
    F64.Nextafter u (F64.add u 1) = u ∨ F64.Nextafter u (F64.add u 1) = F64.succ u := by
  have hge : u ≤ F64.add u 1 := by
    unfold F64.add
    have := round_mono u (u + 1) (by linarith)
    rwa [hu] at this
  unfold F64.Nextafter
  split_ifs with h1 h2
  · exact Or.inl rfl
  · exact Or.inr rfl
  · exact absurd (lt_of_le_of_ne hge h1) h2

/-- C2, amended to the ranges that float64 holds: every value rolled by One lies in the
range, in float64.  For each built-in distribution, any weight, base draws in the unit
interval (uniform draws in [0,1), Beta and TruncatedNormal draws in [0,1]) and the
conversions, the sampling formulas and `Nextafter` all in float64: every element of the
Rolls of a result of One, First among them, is between lower and upper, (1) for an int
caster on a range with -2^53 <= lower <= upper < 2^53, and (2) for a float caster on a
range whose bounds are float64 values with lower <= upper and magnitude at most 2^1022,
which keeps every intermediate value finite. -/
theorem rolls_within_range {σ : Type} (env : Env σ) (d : Builtin)
    (hN : env.Nextafter = F64.Nextafter)
    (hU : ∀ s, 0 ≤ (env.Float64 s).1 ∧ (env.Float64 s).1 < 1)
    (hB : ∀ b s v s1, env.BetaRand b s = .ok (v, s1) → 0 ≤ v ∧ v ≤ 1)
    (hT : ∀ t s v s1, env.TruncatedNormalRand t s = .ok (v, s1) → 0 ≤ v ∧ v ≤ 1) :
    (∀ (c : DistCaster σ ℤ) (r : IntRange) (fuel : Nat) (res : Result ℤ) (c1 : DistCaster σ ℤ),
      c.cfg.Dist = some (F64.Builtin.dist env d) → c.floatRange = F64.intFloatRange →
      c.convert = intConvert →
      -2 ^ 53 ≤ r.Lower → r.Lower ≤ r.Upper → r.Upper < 2 ^ 53 →
      c.One env fuel [r] = .ok (res, c1) →
      (∀ x ∈ res.Rolls, r.Lower ≤ x ∧ x ≤ r.Upper) ∧ r.Lower ≤ res.First ∧ res.First ≤ r.Upper) ∧
    (∀ (c : DistCaster σ ℚ) (r : FloatRange) (fuel : Nat) (res : Result ℚ) (c1 : DistCaster σ ℚ),
      c.cfg.Dist = some (F64.Builtin.dist env d) → c.floatRange = F64.floatFloatRange →
      c.convert = floatConvert →
      F64.round r.Lower = r.Lower → F64.round r.Upper = r.Upper →
      |r.Lower| ≤ 2 ^ 1022 → |r.Upper| ≤ 2 ^ 1022 →
      r.Lower ≤ r.Upper →
      c.One env fuel [r] = .ok (res, c1) →
      (∀ x ∈ res.Rolls, r.Lower ≤ x ∧ x ≤ r.Upper) ∧ r.Lower ≤ res.First ∧ res.First ≤ r.Upper) := by
  constructor
  · intro c r fuel res c1 hd hfr hcv h1 h2 h3 h
    have hex := intFloatRange_exact r h1 (by omega) (by omega) h3
    have hlu : (r.Lower : ℚ) ≤ (r.Upper : ℚ) + 1 := by
      have : (r.Lower : ℚ) ≤ (r.Upper : ℚ) := by exact_mod_cast h2
      linarith
    have hfl : F64.round (r.Lower : ℚ) = r.Lower :=
      round_intCast _ (by rw [abs_le]; constructor <;> omega)
    obtain ⟨hp1, hp2⟩ := pred_int (r.Upper + 1) (by omega) (by omega)
    push_cast at hp1 hp2
    obtain ⟨l, u, hrolls, -, -, -, -, -, -, hall, -⟩ :=
      One_inv env fuel c [r] res c1 (fun x => r.Lower ≤ x ∧ x ≤ r.Upper) (by
        intro rng v rng1 hroll
        rw [hd, hfr] at hroll
        obtain ⟨raw, hraw, hcase⟩ := rollFloat_ok env _ _ _ _ _ hroll
        have hge := F64_builtin_rand_ge_lower env hU hB hT d _ (by
          simpa [defaultRange, hex, intFloatRange] using hfl) (by
          simpa [defaultRange, hex, intFloatRange] using hlu) _ _ _ hraw
        simp only [defaultRange, hex, intFloatRange, hN] at hge hcase
        rw [hcv]
        unfold intConvert
        rcases hcase with ⟨hlt, hv⟩ | ⟨-, hv⟩
        · subst hv
          exact ⟨Int.le_floor.2 hge, Int.lt_add_one_iff.1 (Int.floor_lt.2 (by push_cast; exact hlt))⟩
        · subst hv
          have hq : (r.Lower : ℚ) ≤ (r.Upper : ℚ) := by exact_mod_cast h2
          have hne : ¬ ((r.Upper : ℚ) + 1 = r.Lower) := by
            intro hc
            linarith
          have hnlt : ¬ ((r.Upper : ℚ) + 1 < r.Lower) := by linarith
          unfold F64.Nextafter
          rw [if_neg hne, if_neg hnlt]
          exact ⟨Int.le_floor.2 (by linarith),
            Int.lt_add_one_iff.1 (Int.floor_lt.2 (by push_cast; exact hp2))⟩) h
    have hfirst := hall res.First (by rw [hrolls]; exact List.mem_cons_self _ _)
    exact ⟨hall, hfirst.1, hfirst.2⟩
  · intro c r fuel res c1 hd hfr hcv hfl hfu _ _ hr h
    have hup := floatFloatRange_upper r.Upper hfu
    obtain ⟨W, hW⟩ : ∃ W, W = F64.Nextafter r.Upper (F64.add r.Upper 1) := ⟨_, rfl⟩
    rw [← hW] at hup
    have hUge : r.Upper ≤ W := by
      rcases hup with h | h
      · rw [h]
      · rw [h]
        exact le_of_lt (lt_succ _)
    have hUfl : F64.round W = W := by
      rcases hup with h | h
      · rw [h, hfu]
      · rw [h, round_succ _ hfu]
    -- a float64 below the working upper bound is at most the upper bound
    have hbelow : ∀ x : ℚ, F64.round x = x → x < W → x ≤ r.Upper := by
      intro x hx hlt
      rcases hup with h | h
      · rw [h] at hlt
        exact le_of_lt hlt
      · rw [h] at hlt
        by_contra hc
        have := succ_le_of_lt r.Upper x hfu hx (lt_of_not_ge hc)
        linarith
    have hNx : F64.Nextafter W r.Lower
        = if W = r.Lower then W else if W < r.Lower then F64.succ W else F64.pred W := rfl
    obtain ⟨l, u, hrolls, -, -, -, -, -, -, hall, -⟩ :=
      One_inv env fuel c [r] res c1 (fun x => r.Lower ≤ x ∧ x ≤ r.Upper) (by
        intro rng v rng1 hroll
        rw [hd, hfr] at hroll
        obtain ⟨raw, hraw, hcase⟩ := rollFloat_ok env _ _ _ _ _ hroll
        have hge := F64_builtin_rand_ge_lower env hU hB hT d _ (by
          simpa [defaultRange, F64.floatFloatRange] using hfl) (by
          simp only [defaultRange, F64.floatFloatRange, ← hW]
          linarith) _ _ _ hraw
        have hflt := F64_builtin_rand_float env d _ (by
          simpa [defaultRange, F64.floatFloatRange] using hfl) _ _ _ hraw
        simp only [defaultRange, F64.floatFloatRange, hN, ← hW] at hge hcase hflt
        rw [hcv]
        unfold floatConvert
        rcases hcase with ⟨hlt, hv⟩ | ⟨-, hv⟩
        · subst hv
          rcases hflt with hf | hf
          · exact ⟨hge, hbelow _ hf hlt⟩
          · exact absurd hf (ne_of_lt hlt)
        · subst hv
          rw [hNx]
          split_ifs with e1 e2
          · constructor
            · linarith
            · rw [e1]
              exact hr
          · linarith
          · have hlt : r.Lower < W := lt_of_le_of_ne (le_trans hr hUge) (Ne.symm e1)
            exact ⟨le_pred_of_lt _ _ hfl hUfl hlt, hbelow _ (round_pred _ hUfl) (pred_lt _)⟩) h
    have hfirst := hall res.First (by rw [hrolls]; exact List.mem_cons_self _ _)
    exact ⟨hall, hfirst.1, hfirst.2⟩

/-- The draws of the float64 stream with the constant draw u lie in [0,1) when u does. -/
theorem f64Env_Float64_unit (u : ℚ) (h0 : 0 ≤ u) (h1 : u < 1) (s : ℕ) :
    0 ≤ ((f64Env u).Float64 s).1 ∧ ((f64Env u).Float64 s).1 < 1 :=
  ⟨h0, h1⟩

/-- rollFloat on the float64 uniform distribution never fails. -/
theorem F64_rollFloat_uniform_ne_error {σ : Type} (env : Env σ) (p : FloatParams) (rng : σ)
    (e : Err) : rollFloat env (some (F64.uniformDist env)) p rng ≠ .error e := by
  simp only [rollFloat, F64.uniformDist, F64.uniform.Rand]
  split <;> simp

/-- C2 at an int caster (uniform, D6, draw 1/4) and at a float caster (uniform on
[0,1], draw 1/4), both in float64: One returns a result whose rolls lie in the range. -/
theorem rolls_within_range_witness :
    (∃ res c1, (f64Caster (F64.Builtin.dist (f64Env (1 / 4)) Builtin.Uniform) (1 / 2)).One
        (f64Env (1 / 4)) 0 [D6] = .ok (res, c1) ∧
      (∀ x ∈ res.Rolls, D6.Lower ≤ x ∧ x ≤ D6.Upper) ∧
      D6.Lower ≤ res.First ∧ res.First ≤ D6.Upper) ∧
    (∃ res c1, (f64FloatCaster (F64.Builtin.dist (f64Env (1 / 4)) Builtin.Uniform) (1 / 2)).One
        (f64Env (1 / 4)) 0 [{ Lower := 0, Upper := 1 }] = .ok (res, c1) ∧
      (∀ x ∈ res.Rolls, 0 ≤ x ∧ x ≤ 1) ∧ 0 ≤ res.First ∧ res.First ≤ 1) := by
  have hU := f64Env_Float64_unit (1 / 4) (by norm_num) (by norm_num)
  have hB : ∀ b s v s1, (f64Env (1 / 4)).BetaRand b s = .ok (v, s1) → 0 ≤ v ∧ v ≤ 1 :=
    demoEnv_BetaRand_unit
  have hT : ∀ t s v s1, (f64Env (1 / 4)).TruncatedNormalRand t s = .ok (v, s1) → 0 ≤ v ∧ v ≤ 1 :=
    demoEnv_TruncatedNormalRand_unit
  constructor
  · obtain ⟨res, c1, hone⟩ := One_ok (f64Env (1 / 4)) 0
      (f64Caster (F64.Builtin.dist (f64Env (1 / 4)) Builtin.Uniform) (1 / 2)) [D6]
      (f64Caster_fuel _ _ 0).1 (f64Caster_fuel _ _ 0).2
      (fun rng e => F64_rollFloat_uniform_ne_error _ _ rng e)
    exact ⟨res, c1, hone,
      (rolls_within_range (f64Env (1 / 4)) Builtin.Uniform rfl hU hB hT).1 _ D6 0 res c1 rfl rfl rfl
        (by norm_num [D6]) (by norm_num [D6]) (by norm_num [D6]) hone⟩
  · obtain ⟨res, c1, hone⟩ := One_ok (f64Env (1 / 4)) 0
      (f64FloatCaster (F64.Builtin.dist (f64Env (1 / 4)) Builtin.Uniform) (1 / 2))
      [{ Lower := 0, Upper := 1 }]
      (by simp [f64FloatCaster]) (by simp [f64FloatCaster])
      (fun rng e => F64_rollFloat_uniform_ne_error _ _ rng e)
    exact ⟨res, c1, hone,
      (rolls_within_range (f64Env (1 / 4)) Builtin.Uniform rfl hU hB hT).2 _
        { Lower := 0, Upper := 1 } 0 res c1 rfl rfl rfl round_zero
        (by simpa using round_natCast 1 (by norm_num)) (by norm_num) (by norm_num) (by norm_num)
        hone⟩

/-! ## WeightedMax at weight 1 and the integer discretization, in float64 -/

/-- C18, amended to the ranges that float64 holds: WeightedMax with weight 1 is a point
mass at the top of the range, in float64.  On an int caster with the WeightedMax
distribution and weight 1, the conversions and `Nextafter` in float64, an int range
with lower <= upper and -2^53 <= upper < 2^53, a stream whose uniform draws are below 1
and fuel for the two maxima: One returns a result with First = upper, and every roll
of it is upper. -/
theorem weightedMax_point_mass {σ : Type} (env : Env σ) (c : DistCaster σ ℤ) (r : IntRange)
    (fuel : Nat) (hN : env.Nextafter = F64.Nextafter)
    (hd : c.cfg.Dist = some (F64.weightedMaxDist env)) (hw : c.cfg.Weight = 1)
    (hfr : c.floatRange = F64.intFloatRange) (hcv : c.convert = intConvert)
    (hU : ∀ s, (env.Float64 s).1 < 1)
    (hr : r.Lower ≤ r.Upper) (h1 : -2 ^ 53 ≤ r.Upper) (h2 : r.Upper < 2 ^ 53)
    (hl : (max 0 c.cfg.MaxLowerExplosions).toNat ≤ fuel)
    (hu : (max 0 c.cfg.MaxUpperExplosions).toNat ≤ fuel) :
    ∃ res c1, c.One env fuel [r] = .ok (res, c1) ∧ res.First = r.Upper ∧
      ∀ x ∈ res.Rolls, x = r.Upper := by
  have hup : (F64.intFloatRange r).Upper = (r.Upper : ℚ) + 1 := by
    have e1 : F64.round (r.Upper : ℚ) = r.Upper :=
      round_intCast _ (by rw [abs_le]; constructor <;> omega)
    have e2 : F64.round ((r.Upper : ℚ) + 1) = (r.Upper : ℚ) + 1 := by
      have := round_intCast (r.Upper + 1) (by rw [abs_le]; constructor <;> omega)
      push_cast at this
      exact this
    simp only [F64.intFloatRange, F64.ofInt, F64.add, e1, e2]
  have hlo : (F64.intFloatRange r).Lower < (r.Upper : ℚ) + 1 := by
    have e1 : F64.round (r.Upper : ℚ) = r.Upper :=
      round_intCast _ (by rw [abs_le]; constructor <;> omega)
    have := round_mono (r.Lower : ℚ) (r.Upper : ℚ) (by exact_mod_cast hr)
    rw [e1] at this
    simp only [F64.intFloatRange, F64.ofInt]
    linarith
  obtain ⟨hp1, hp2⟩ := pred_int (r.Upper + 1) (by omega) (by omega)
  push_cast at hp1 hp2
  have hroll : ∀ rng, rollFloat env c.cfg.Dist
      { toRange := c.floatRange (defaultRange [r]), Weight := c.cfg.Weight } rng
      = .ok (F64.pred ((r.Upper : ℚ) + 1), (env.Float64 rng).2) := by
    intro rng
    rw [hd]
    simp only [rollFloat, F64.weightedMaxDist, F64.weightedMax.Rand, hw, hU rng, if_true,
      ge_iff_le, le_refl, hfr, defaultRange, hN, hup]
    unfold F64.Nextafter
    rw [if_neg (ne_of_gt hlo), if_neg (not_lt.2 (le_of_lt hlo))]
  obtain ⟨res, c1, hone⟩ := One_ok env fuel c [r] hl hu (by
    intro rng e
    rw [hroll rng]
    simp)
  obtain ⟨l, u, hrolls, -, -, -, -, -, -, hall, -⟩ :=
    One_inv env fuel c [r] res c1 (fun x => x = r.Upper) (by
      intro rng v rng1 h
      rw [hroll rng] at h
      injection h with h
      injection h with h1 h2
      rw [hcv, ← h1]
      unfold intConvert
      rw [Int.floor_eq_iff]
      exact ⟨by linarith, hp2⟩) hone
  exact ⟨res, c1, hone, hall res.First (by rw [hrolls]; exact List.mem_cons_self _ _), hall⟩

/-- C18 at the float64 caster with WeightedMax and weight 1 on D6: the first roll is 6. -/
theorem weightedMax_point_mass_witness :
    (f64Caster (F64.weightedMaxDist (f64Env 0)) 1).cfg.Weight = 1 ∧
    D6.Lower ≤ D6.Upper ∧ -2 ^ 53 ≤ D6.Upper ∧ D6.Upper < 2 ^ 53 ∧
    ∃ res c1, (f64Caster (F64.weightedMaxDist (f64Env 0)) 1).One (f64Env 0) 0 [D6]
        = .ok (res, c1) ∧ res.First = D6.Upper ∧ ∀ x ∈ res.Rolls, x = D6.Upper :=
  ⟨rfl, by norm_num [D6], by norm_num [D6], by norm_num [D6],
    weightedMax_point_mass (f64Env 0) (f64Caster (F64.weightedMaxDist (f64Env 0)) 1) D6 0 rfl rfl
      rfl rfl rfl (fun s => (f64Env_Float64_unit 0 (by norm_num) (by norm_num) s).2)
      (by norm_num [D6]) (by norm_num [D6]) (by norm_num [D6])
      (f64Caster_fuel _ _ 0).1 (f64Caster_fuel _ _ 0).2⟩

/-- C35, amended to the ranges that float64 holds: for int bounds in [-2^53, 2^53),
intFloatRange in float64 maps the int range [lower, upper] to the working interval
[lower, upper+1); intConvert is the floor; on every y of the working interval it is an
integer of [lower, upper]; it is v exactly when v ≤ y < v+1, and for an integer v of
the range that interval of width 1 lies in the working interval. -/
theorem int_discretization (r : IntRange) (y : ℚ) (v : ℤ)
    (hl1 : -2 ^ 53 ≤ r.Lower) (hl2 : r.Lower < 2 ^ 53)
    (hu1 : -2 ^ 53 ≤ r.Upper) (hu2 : r.Upper < 2 ^ 53) :
    ((F64.intFloatRange r).Lower = (r.Lower : ℚ) ∧
      (F64.intFloatRange r).Upper = (r.Upper : ℚ) + 1) ∧
    intConvert y = ⌊y⌋ ∧
    ((F64.intFloatRange r).Lower ≤ y → y < (F64.intFloatRange r).Upper →
      r.Lower ≤ intConvert y ∧ intConvert y ≤ r.Upper) ∧
    (intConvert y = v ↔ ((v : ℚ) ≤ y ∧ y < (v : ℚ) + 1)) ∧
    (r.Lower ≤ v → v ≤ r.Upper →
      (F64.intFloatRange r).Lower ≤ (v : ℚ) ∧ (v : ℚ) + 1 ≤ (F64.intFloatRange r).Upper ∧
      ((v : ℚ) + 1) - (v : ℚ) = 1) := by
  rw [intFloatRange_exact r hl1 hl2 hu1 hu2]
  refine ⟨⟨rfl, rfl⟩, rfl, ?_, ?_, ?_⟩
  · intro h1 h2
    simp only [intFloatRange] at h1 h2
    simp only [intConvert]
    constructor
    · exact Int.le_floor.2 h1
    · have : ⌊y⌋ < r.Upper + 1 := Int.floor_lt.2 (by push_cast; exact h2)
      omega
  · simp only [intConvert]
    exact Int.floor_eq_iff
  · intro h1 h2
    simp only [intFloatRange]
    refine ⟨by exact_mod_cast h1, ?_, by ring⟩
    have : (v : ℚ) ≤ (r.Upper : ℚ) := by exact_mod_cast h2
    linarith

/-- Witness of C35 on a six-sided die: the working interval is [1, 7); 7/2 lies in it and
converts to 3. -/
theorem int_discretization_witness :
    (-2 ^ 53 ≤ D6.Lower ∧ D6.Lower < 2 ^ 53 ∧ -2 ^ 53 ≤ D6.Upper ∧ D6.Upper < 2 ^ 53) ∧
    ((F64.intFloatRange D6).Lower = 1 ∧ (F64.intFloatRange D6).Upper = 7) ∧
    (D6.Lower ≤ intConvert (7 / 2) ∧ intConvert (7 / 2) ≤ D6.Upper) ∧
    intConvert (7 / 2) = 3 := by
  have h := int_discretization D6 (7 / 2) 3 (by norm_num [D6]) (by norm_num [D6])
    (by norm_num [D6]) (by norm_num [D6])
  obtain ⟨⟨hL, hU⟩, -, hin, hiff, -⟩ := h
  refine ⟨⟨by norm_num [D6], by norm_num [D6], by norm_num [D6], by norm_num [D6]⟩,
    ⟨by rw [hL]; norm_num [D6], by rw [hU]; norm_num [D6]⟩, ?_, hiff.2 ⟨by norm_num, by norm_num⟩⟩
  exact hin (by rw [hL]; norm_num [D6]) (by rw [hU]; norm_num [D6])

/-! ## The float64 odds of the uniform distribution on D6 -/

/-- The odds of a weighted int caster in exact arithmetic: on a table with distinct
values and non-zero total weight, the value of every ticket is mapped to
100*weight/totalWeight, and no other key is set. -/
theorem weightedOdds_exact_table {σ : Type} (c : WeightedCaster σ ℤ) (r : List (Range ℤ))
    (hp : c.cfg.tickets.Pairwise (fun a b => a.value ≠ b.value))
    (hW : totalWeight c.cfg.tickets ≠ 0) :
    (∀ t ∈ c.cfg.tickets,
      (c.Odds r).Probabilities t.value
        = some (100 * t.weight / totalWeight c.cfg.tickets)) ∧
    (∀ v : ℤ, (∀ t ∈ c.cfg.tickets, t.value ≠ v) → (c.Odds r).Probabilities v = none) := by
  rw [weightedOdds_eq]
  simp only [hW, if_false]
  constructor
  · intro t ht
    have := foldl_mapSet_of_mem (fun t : ticket ℤ => t.weight / totalWeight c.cfg.tickets * 100)
      c.cfg.tickets (fun _ => none) hp t ht
    simp only [constraint.toInt] at this ⊢
    rw [this]
    congr 1
    ring
  · intro v hv
    exact foldl_mapSet_of_not_mem _ v c.cfg.tickets _ hv

/-- The odds of a weighted int caster in float64: on a table with distinct values and
non-zero float64 total, the value of every ticket is mapped to `(weight/total)*100`
with each operation rounded, and no other key is set. -/
theorem F64_weightedOdds_table {σ : Type} (c : WeightedCaster σ ℤ) (r : List (Range ℤ))
    (hp : c.cfg.tickets.Pairwise (fun a b => a.value ≠ b.value))
    (hW : c.cfg.tickets.foldl (fun acc t => F64.add acc t.weight) (0 : ℚ) ≠ 0) :
    (∀ t ∈ c.cfg.tickets,
      (F64.WeightedCaster.Odds c r).Probabilities t.value
        = some (F64.mul (F64.div t.weight
            (c.cfg.tickets.foldl (fun acc t => F64.add acc t.weight) (0 : ℚ))) 100)) ∧
    (∀ v : ℤ, (∀ t ∈ c.cfg.tickets, t.value ≠ v) →
      (F64.WeightedCaster.Odds c r).Probabilities v = none) := by
  have e : F64.WeightedCaster.Odds c r =
      { Probabilities := c.cfg.tickets.foldl
          (fun m t => mapSet m (constraint.toInt t.value)
            (F64.mul (F64.div t.weight
              (c.cfg.tickets.foldl (fun acc t => F64.add acc t.weight) (0 : ℚ))) 100))
          (fun _ => none)
        LowerExplosionChance := 0
        UpperExplosionChance := 0 } := by
    unfold F64.WeightedCaster.Odds
    simp only []
    rw [if_neg hW]
  rw [e]
  constructor
  · intro t ht
    have := foldl_mapSet_of_mem (fun t : ticket ℤ => F64.mul (F64.div t.weight
      (c.cfg.tickets.foldl (fun acc t => F64.add acc t.weight) (0 : ℚ))) 100)
      c.cfg.tickets (fun _ => none) hp t ht
    simp only [constraint.toInt] at this ⊢
    rw [this]
  · intro v hv
    exact foldl_mapSet_of_not_mem _ v c.cfg.tickets _ hv

/-- The tickets of the map 1:10, 2:0, 3:30, in whatever order the map is visited. -/
theorem tickets_of_demo_map (m : Weights ℤ) (hm : m.Perm [(1, 10), (2, 0), (3, 30)]) :
    ticketsFromWeights (some m)
      = [{ value := 1, weight := 10 }, { value := 2, weight := 0 }, { value := 3, weight := 30 }] := by
  have hsame : ticketsFromWeights (some m)
      = ticketsFromWeights (some [((1 : ℤ), (10 : ℚ)), (2, 0), (3, 30)]) :=
    ticketsFromWeights_sameMap _ _ hm (by
      have : (m.map Prod.fst).Perm [1, 2, 3] := hm.map Prod.fst
      simpa [mapKeysDistinct] using this.nodup_iff.2 (by decide))
  rw [hsame]
  with_unfolding_all rfl

/-- The odds of the tickets 1:10, 2:0, 3:30 in exact arithmetic. -/
theorem weightedOdds_demo_exact {σ : Type} (c : WeightedCaster σ ℤ) (r : List (Range ℤ))
    (htk : c.cfg.tickets
      = [{ value := 1, weight := 10 }, { value := 2, weight := 0 }, { value := 3, weight := 30 }])
    (v : ℤ) :
    (c.Odds r).Probabilities v =
      if v = 1 then some 25 else if v = 2 then some 0 else if v = 3 then some 75 else none := by
  have hW : totalWeight c.cfg.tickets = 40 := by
    rw [htk]
    norm_num [totalWeight]
  obtain ⟨h1, h2⟩ := weightedOdds_exact_table c r (by rw [htk]; simp) (by rw [hW]; norm_num)
  rw [hW] at h1
  by_cases hv1 : v = 1
  · subst hv1
    have := h1 { value := 1, weight := 10 } (by rw [htk]; simp)
    simp only at this
    rw [this]
    norm_num
  · by_cases hv2 : v = 2
    · subst hv2
      have := h1 { value := 2, weight := 0 } (by rw [htk]; simp)
      simp only at this
      rw [this]
      norm_num
    · by_cases hv3 : v = 3
      · subst hv3
        have := h1 { value := 3, weight := 30 } (by rw [htk]; simp)
        simp only at this
        rw [this]
        norm_num
      · simp only [hv1, hv2, hv3, if_false]
        apply h2
        intro t ht2
        rw [htk] at ht2
        simp only [List.mem_cons, List.mem_singleton, List.not_mem_nil, or_false] at ht2
        rcases ht2 with h | h | h <;> subst h <;> simp only <;> omega

/-- The odds of the tickets 1:10, 2:0, 3:30 in float64: every rounding is exact. -/
theorem F64_weightedOdds_demo {σ : Type} (c : WeightedCaster σ ℤ) (r : List (Range ℤ))
    (htk : c.cfg.tickets
      = [{ value := 1, weight := 10 }, { value := 2, weight := 0 }, { value := 3, weight := 30 }])
    (v : ℤ) :
    (F64.WeightedCaster.Odds c r).Probabilities v =
      if v = 1 then some 25 else if v = 2 then some 0 else if v = 3 then some 75 else none := by
  have hs10 : F64.round 10 = 10 := by simpa using round_natCast 10 (by norm_num)
  have hs25 : F64.round 25 = 25 := by simpa using round_natCast 25 (by norm_num)
  have hs40 : F64.round 40 = 40 := by simpa using round_natCast 40 (by norm_num)
  have hs75 : F64.round 75 = 75 := by simpa using round_natCast 75 (by norm_num)
  have h14 : F64.round (1 / 4) = 1 / 4 := by
    have := round_grid 1 (-2) (by norm_num) (by norm_num)
    norm_num at this ⊢
    exact this
  have h34 : F64.round (3 / 4) = 3 / 4 := by
    have := round_grid 3 (-2) (by norm_num) (by norm_num)
    norm_num at this ⊢
    exact this
  have hT : List.foldl (fun acc (t : ticket ℤ) => F64.add acc t.weight) 0
      [{ value := 1, weight := 10 }, { value := 2, weight := 0 }, { value := 3, weight := 30 }]
      = 40 := by
    simp only [List.foldl, F64.add]
    norm_num [hs10, hs40]
  have e1 : F64.mul (F64.div 10 40) 100 = 25 := by
    unfold F64.mul F64.div
    norm_num [h14, hs25]
  have e2 : F64.mul (F64.div 0 40) 100 = 0 := by
    unfold F64.mul F64.div
    norm_num [round_zero]
  have e3 : F64.mul (F64.div 30 40) 100 = 75 := by
    unfold F64.mul F64.div
    norm_num [h34, hs75]
  unfold F64.WeightedCaster.Odds
  simp only [htk, hT]
  rw [if_neg (by norm_num)]
  simp only [List.foldl, mapSet, constraint.toInt, e1, e2, e3]
  by_cases hv3 : v = 3
  · subst hv3
    simp
  · by_cases hv2 : v = 2
    · subst hv2
      simp
    · by_cases hv1 : v = 1
      · subst hv1
        simp
      · simp [hv1, hv2, hv3]

/-- C12, amended: the odds of a weighted int caster in exact arithmetic.  On a table with
distinct values, as the keys of a weight map are, and non-zero total weight, Odds maps
the value of every ticket to 100*weight/totalWeight in exact arithmetic and has no key
that is not a value of the table; on the tickets of the map 1:10, 2:0, 3:30, in
whatever order the map is visited, the table is 1:25, 2:0, 3:75, in exact arithmetic
and in float64 alike; and in float64, where the total is the float64 sum, Odds maps the
value of every ticket to `(weight/total)*100` with each operation rounded and again has
no other key. -/
theorem weighted_odds_table {σ : Type} (c : WeightedCaster σ ℤ) (r : List (Range ℤ)) :
    (c.cfg.tickets.Pairwise (fun a b => a.value ≠ b.value) →
      totalWeight c.cfg.tickets ≠ 0 →
      (∀ t ∈ c.cfg.tickets,
        (c.Odds r).Probabilities t.value
          = some (100 * t.weight / totalWeight c.cfg.tickets)) ∧
      (∀ v : ℤ, (∀ t ∈ c.cfg.tickets, t.value ≠ v) → (c.Odds r).Probabilities v = none)) ∧
    (∀ m : Weights ℤ, m.Perm [(1, 10), (2, 0), (3, 30)] →
      c.cfg.tickets = ticketsFromWeights (some m) →
      ∀ v : ℤ, (c.Odds r).Probabilities v =
        if v = 1 then some 25 else if v = 2 then some 0 else if v = 3 then some 75 else none) ∧
    (∀ m : Weights ℤ, m.Perm [(1, 10), (2, 0), (3, 30)] →
      c.cfg.tickets = ticketsFromWeights (some m) →
      ∀ v : ℤ, (F64.WeightedCaster.Odds c r).Probabilities v =
        if v = 1 then some 25 else if v = 2 then some 0 else if v = 3 then some 75 else none) ∧
    (c.cfg.tickets.Pairwise (fun a b => a.value ≠ b.value) →
      c.cfg.tickets.foldl (fun acc t => F64.add acc t.weight) (0 : ℚ) ≠ 0 →
      (∀ t ∈ c.cfg.tickets,
        (F64.WeightedCaster.Odds c r).Probabilities t.value
          = some (F64.mul (F64.div t.weight
              (c.cfg.tickets.foldl (fun acc t => F64.add acc t.weight) (0 : ℚ))) 100)) ∧
      (∀ v : ℤ, (∀ t ∈ c.cfg.tickets, t.value ≠ v) →
        (F64.WeightedCaster.Odds c r).Probabilities v = none)) :=
  ⟨weightedOdds_exact_table c r,
    fun m hm ht v => weightedOdds_demo_exact c r (ht.trans (tickets_of_demo_map m hm)) v,
    fun m hm ht v => F64_weightedOdds_demo c r (ht.trans (tickets_of_demo_map m hm)) v,
    F64_weightedOdds_table c r⟩

/-- C12 at `demoWeighted`, whose tickets are those of the map 1:10, 2:0, 3:30. -/
theorem weighted_odds_table_witness :
    demoWeighted.cfg.tickets.Pairwise (fun a b => a.value ≠ b.value) ∧
    totalWeight demoWeighted.cfg.tickets = 40 ∧
    (demoWeighted.Odds []).Probabilities 1 = some 25 ∧
    (demoWeighted.Odds []).Probabilities 2 = some 0 ∧
    (demoWeighted.Odds []).Probabilities 3 = some 75 ∧
    (demoWeighted.Odds []).Probabilities 4 = none ∧
    (F64.WeightedCaster.Odds demoWeighted []).Probabilities 1 = some 25 ∧
    (F64.WeightedCaster.Odds demoWeighted []).Probabilities 3 = some 75 := by
  have h := (weighted_odds_table demoWeighted []).2.1 [(3, 30), (1, 10), (2, 0)]
    ((List.Perm.swap _ _ _).trans (List.Perm.cons _ (List.Perm.swap _ _ _)))
    (by with_unfolding_all rfl)
  have h64 := (weighted_odds_table demoWeighted []).2.2.1 [(3, 30), (1, 10), (2, 0)]
    ((List.Perm.swap _ _ _).trans (List.Perm.cons _ (List.Perm.swap _ _ _)))
    (by with_unfolding_all rfl)
  refine ⟨by with_unfolding_all decide, by with_unfolding_all rfl, ?_, ?_, ?_, ?_, ?_, ?_⟩
  · rw [h 1]; rfl
  · rw [h 2]; rfl
  · rw [h 3]; rfl
  · rw [h 4]; rfl
  · rw [h64 1]; rfl
  · rw [h64 3]; rfl

/-! ## The weighted selection in exact arithmetic and in float64 -/

/-- A value that the selection loop returns in float64 is the value of a ticket. -/
theorem F64_scanTickets_mem {T : Type} (rv : ℚ) :
    ∀ (ts : List (ticket T)) (c : ℚ) (v : T), F64.scanTickets rv c ts = some v →
      v ∈ ts.map ticket.value := by
  intro ts
  induction ts with
  | nil => intro c v h; simp [F64.scanTickets] at h
  | cons t ts ih =>
    intro c v h
    unfold F64.scanTickets at h
    split at h
    · injection h with h
      rw [← h]
      simp
    · have := ih _ _ h
      simp only [List.map_cons, List.mem_cons]
      exact Or.inr this

/-- The value rollWeighted returns in float64 on a non-empty table is the value of a
ticket. -/
theorem F64_rollWeighted_mem {σ T : Type} [Zero T] (env : Env σ) (c : WeightedCaster σ T)
    (r : List (Range T)) (hne : c.cfg.tickets ≠ []) :
    (F64.WeightedCaster.One env c r).1.First ∈ c.cfg.tickets.map ticket.value := by
  unfold F64.WeightedCaster.One F64.WeightedCaster.rollWeighted
  simp only []
  split
  · rename_i v hv
    exact F64_scanTickets_mem _ _ _ _ hv
  · split
    · rename_i t ht
      exact List.mem_map_of_mem _ (List.mem_of_getLast?_eq_some ht)
    · rename_i hnone
      exact absurd (List.getLast?_eq_none_iff.1 hnone) hne

/-- C13, amended: the weighted selection rule in exact arithmetic.  On a table with
non-negative weights and positive total W, with a uniform draw u in [0,1), and the
sums and the product u*W taken exactly, One returns the value of the first ticket, in
slice order (ascending value order for the tickets of a map), whose cumulative weight
strictly exceeds u*W: there is a ticket i with cum(i-1) <= u*W < cum(i), it is the
first ticket whose cumulative weight exceeds u*W and the only ticket k with
cum(k-1) <= u*W < cum(k), and its value is returned.  So, in exact arithmetic, on a
table with strictly ascending values the returned value is not the value of a ticket
of weight 0; and the returned value is a value of the table, in exact arithmetic and
in float64 alike.  Index i here counts from 0, so cum(i-1) is `cumWeight i`. -/
theorem weighted_selection_rule {σ T : Type} [LinearOrder T] [Zero T] (env : Env σ)
    (c : WeightedCaster σ T) (r : List (Range T))
    (hnn : ∀ t ∈ c.cfg.tickets, 0 ≤ t.weight) (hW : 0 < totalWeight c.cfg.tickets)
    (hu0 : 0 ≤ (env.Float64 c.rng).1) (hu1 : (env.Float64 c.rng).1 < 1) :
    ∃ i, ∃ hi : i < c.cfg.tickets.length,
      (c.One env r).1.First = (c.cfg.tickets.get ⟨i, hi⟩).value ∧
      cumWeight c.cfg.tickets i ≤ (env.Float64 c.rng).1 * totalWeight c.cfg.tickets ∧
      (env.Float64 c.rng).1 * totalWeight c.cfg.tickets < cumWeight c.cfg.tickets (i + 1) ∧
      (∀ j, j < i →
        cumWeight c.cfg.tickets (j + 1) ≤ (env.Float64 c.rng).1 * totalWeight c.cfg.tickets) ∧
      (∀ k, cumWeight c.cfg.tickets k ≤ (env.Float64 c.rng).1 * totalWeight c.cfg.tickets →
        (env.Float64 c.rng).1 * totalWeight c.cfg.tickets < cumWeight c.cfg.tickets (k + 1) →
        k = i) ∧
      (c.One env r).1.First ∈ c.cfg.tickets.map ticket.value ∧
      (c.cfg.tickets.Pairwise (fun a b => a.value < b.value) →
        ∀ t ∈ c.cfg.tickets, t.weight = 0 → (c.One env r).1.First ≠ t.value) ∧
      (F64.WeightedCaster.One env c r).1.First ∈ c.cfg.tickets.map ticket.value := by
  obtain ⟨i, hi, hval, hlt, hfirst⟩ := rollWeighted_selected env c hW hu1
  have hrv0 : 0 ≤ (env.Float64 c.rng).1 * totalWeight c.cfg.tickets :=
    mul_nonneg hu0 (le_of_lt hW)
  have hlow : cumWeight c.cfg.tickets i ≤ (env.Float64 c.rng).1 * totalWeight c.cfg.tickets := by
    cases i with
    | zero => rw [cumWeight_zero]; exact hrv0
    | succ j => exact hfirst j (by omega)
  have huniq : ∀ k,
      cumWeight c.cfg.tickets k ≤ (env.Float64 c.rng).1 * totalWeight c.cfg.tickets →
      (env.Float64 c.rng).1 * totalWeight c.cfg.tickets < cumWeight c.cfg.tickets (k + 1) →
      k = i := by
    intro k hk1 hk2
    rcases Nat.lt_trichotomy k i with h | h | h
    · have := hfirst k h
      linarith
    · exact h
    · have := cumWeight_mono c.cfg.tickets hnn (i + 1) k (by omega)
      linarith
  have hne : c.cfg.tickets ≠ [] := by
    intro hc
    rw [hc] at hW
    simp [totalWeight] at hW
  refine ⟨i, hi, hval, hlow, hlt, hfirst, huniq, ?_, ?_, F64_rollWeighted_mem env c r hne⟩
  · change (c.rollWeighted env).1 ∈ _
    rw [hval]
    exact List.mem_map_of_mem _ (List.get_mem _ _ _)
  · intro hasc t ht hw0 heq
    obtain ⟨k, hkt⟩ := List.mem_iff_get.1 ht
    have hval2 : (c.cfg.tickets.get ⟨i, hi⟩).value = (c.cfg.tickets.get k).value := by
      rw [hkt, ← heq]
      exact hval.symm
    have hki : k = ⟨i, hi⟩ := by
      by_contra hne
      have hne2 : (k : Nat) ≠ i := fun h => hne (Fin.ext h)
      rcases Nat.lt_or_gt_of_ne hne2 with h | h
      · have := List.pairwise_iff_get.1 hasc k ⟨i, hi⟩ h
        rw [hval2] at this
        exact lt_irrefl _ this
      · have := List.pairwise_iff_get.1 hasc ⟨i, hi⟩ k h
        rw [hval2] at this
        exact lt_irrefl _ this
    have hsucc := cumWeight_succ c.cfg.tickets i hi
    have hwi : (c.cfg.tickets.get ⟨i, hi⟩).weight = 0 := by
      rw [← hki, hkt, hw0]
    rw [hwi, add_zero] at hsucc
    linarith

/-- C13 at `demoWeighted` (tickets 1:10, 2:0, 3:30, total 40), whose stream yields the
draw 3/4: u*W = 30 lies in [cum(2), cum(3)) = [10, 40) and the value 3 is returned. -/
theorem weighted_selection_rule_witness :
    (∀ t ∈ demoWeighted.cfg.tickets, 0 ≤ t.weight) ∧
    0 < totalWeight demoWeighted.cfg.tickets ∧
    (demoEnv.Float64 demoWeighted.rng).1 = 3 / 4 ∧
    (demoWeighted.One demoEnv []).1.First = 3 ∧
    cumWeight demoWeighted.cfg.tickets 2 = 10 ∧ cumWeight demoWeighted.cfg.tickets 3 = 40 ∧
    ∃ i, ∃ hi : i < demoWeighted.cfg.tickets.length,
      (demoWeighted.One demoEnv []).1.First = (demoWeighted.cfg.tickets.get ⟨i, hi⟩).value ∧
      cumWeight demoWeighted.cfg.tickets i
        ≤ (demoEnv.Float64 demoWeighted.rng).1 * totalWeight demoWeighted.cfg.tickets ∧
      (demoEnv.Float64 demoWeighted.rng).1 * totalWeight demoWeighted.cfg.tickets
        < cumWeight demoWeighted.cfg.tickets (i + 1) := by
  have hnn : ∀ t ∈ demoWeighted.cfg.tickets, 0 ≤ t.weight := by
    have htk : demoWeighted.cfg.tickets
        = [{ value := 1, weight := 10 }, { value := 2, weight := 0 },
            { value := 3, weight := 30 }] := by
      with_unfolding_all rfl
    rw [htk]
    intro t ht
    simp only [List.mem_cons, List.mem_singleton, List.not_mem_nil, or_false] at ht
    rcases ht with h | h | h <;> subst h <;> norm_num
  have hW : 0 < totalWeight demoWeighted.cfg.tickets := by
    have : totalWeight demoWeighted.cfg.tickets = 40 := by with_unfolding_all rfl
    rw [this]
    norm_num
  obtain ⟨i, hi, h1, h2, h3, -⟩ := weighted_selection_rule demoEnv demoWeighted [] hnn hW
    (demoEnv_Float64_unit _).1 (demoEnv_Float64_unit _).2
  exact ⟨hnn, hW, by with_unfolding_all rfl, by with_unfolding_all rfl,
    by with_unfolding_all rfl, by with_unfolding_all rfl, i, hi, h1, h2, h3⟩

end Dixe
